import Mathlib

/-!
# routerd/go-systemd: the unit-file codec and its generic mapper

A shallow embedding of `internal/parser/token.go`, `internal/encoding/file.go`,
`decode.go`, `encode.go`, `util.go`, `marshal.go` and `unmarshal.go`, followed by
theorems about the embedded functions.

Conventions of the embedding.

* A Go `string` is modelled by the list of its characters (`Str`); the texts handled
  here are valid UTF-8, and every delimiter the code looks for is an ASCII character.
* A Go slice is modelled by the list of its elements.
* A Go pointer into a slice (`&d.file.Sections[i]`, `&d.section.Keys[j]`) is modelled
  by the index it points at; `nil` is `none`.
* `parser.Scanner` is consumed through `Scan()` only; the scanner is modelled by the
  list of scan results it still has to deliver, and delivers `EOF` once exhausted.
-/

namespace Systemd

/-! ## Strings -/

/-- Go `string`, as the list of its characters. -/
abbrev Str := List Char

/-- Go `unicode.IsSpace`: the Latin-1 spaces and the code points with the
White_Space property. -/
def isSpace (c : Char) : Bool :=
  let n := c.toNat
  n == 0x09 || n == 0x0A || n == 0x0B || n == 0x0C || n == 0x0D || n == 0x20
    || n == 0x85 || n == 0xA0 || n == 0x1680 || (0x2000 ≤ n && n ≤ 0x200A)
    || n == 0x2028 || n == 0x2029 || n == 0x202F || n == 0x205F || n == 0x3000

/-- Go `strings.TrimSpace`: drop leading and trailing white space. -/
def TrimSpace (s : Str) : Str :=
  (s.dropWhile isSpace).rdropWhile isSpace

/-- Go `strings.HasPrefix`. -/
def HasPrefix (s pre : Str) : Bool := pre.isPrefixOf s

/-- Go `strings.HasSuffix`. -/
def HasSuffix (s suf : Str) : Bool := suf.isSuffixOf s

/-- Go `strings.ReplaceAll(s, old, new)` for a pattern `old` of one character. -/
def ReplaceAll (s : Str) (old : Char) (new : Str) : Str :=
  s.flatMap (fun c => if c = old then new else [c])

/-- Go `strings.Split(s, sep)` for a separator of one character: the pieces between the
separators, at least one piece. -/
def Split (s : Str) (sep : Char) : List Str :=
  match s with
  | [] => [[]]
  | c :: cs =>
    match Split cs sep with
    | [] => [[]]
    | l :: ls => if c = sep then [] :: l :: ls else (c :: l) :: ls

/-- Go `strings.Join(elems, sep)` for a separator of one character. -/
def Join (elems : List Str) (sep : Char) : Str :=
  match elems with
  | [] => []
  | [s] => s
  | s :: rest => s ++ sep :: Join rest sep

/-- Go slice expression `s[lo:hi]` on a string; `none` is the run-time panic
"slice bounds out of range". -/
def sliceStr (s : Str) (lo hi : Nat) : Option Str :=
  if lo ≤ hi ∧ hi ≤ s.length then some ((s.take hi).drop lo) else none

/-! ## Tokens (`internal/parser/token.go`) -/

/-- The lexical tokens of a systemd configuration file. -/
inductive Token where
  | ILLEGAL
  | EOF
  | COMMENT
  | SECTION
  | STRING
  | NEWLINE
  | ASSIGN
  deriving DecidableEq, Repr

/-- Source position of a token. -/
structure Position where
  Line : Int
  Column : Int
  deriving DecidableEq, Repr

/-- One result of `Scanner.Scan()`: position, token kind and literal. -/
structure Scanned where
  pos : Position
  tok : Token
  lit : Str
  deriving DecidableEq, Repr

/-- What `Scan()` returns once the input is exhausted. -/
def Scanned.eof : Scanned := ⟨⟨0, 0⟩, Token.EOF, []⟩

/-- The method `Scanner.Scan()`: deliver the next scan result and advance; at the end of
the input the result is `EOF`. -/
def Scan : List Scanned → Scanned × List Scanned
  | [] => (Scanned.eof, [])
  | t :: rest => (t, rest)

/-! ## The tree (`internal/encoding/file.go`) -/

/-- A directive `Name=Value` with its comment. -/
structure Key where
  Name : Str
  Value : Str
  Comment : Str
  deriving DecidableEq, Repr

/-- A section: name, comment and keys in order. -/
structure Section where
  Name : Str
  Comment : Str
  Keys : List Key
  deriving DecidableEq, Repr

/-- A configuration file: its sections in order. -/
structure File where
  Sections : List Section
  deriving DecidableEq, Repr

/-- The method `File.SectionsByName`. -/
def File.SectionsByName (f : File) (name : Str) : List Section :=
  f.Sections.filter (fun s => s.Name = name)

/-- The method `Section.KeysByName`. -/
def Section.KeysByName (s : Section) (name : Str) : List Key :=
  s.Keys.filter (fun k => k.Name = name)

/-! ## Encoder (`internal/encoding/encode.go`) -/


/-- The function `writeComment`: the bytes written for a comment. -/
def writeComment (comment : Str) : Str :=
  if comment = [] then []
  else (Split comment '\n').foldl (fun commentBlock line => commentBlock ++ (['#', ' '] ++ line ++ ['\n'])) []

/-- The function `writeKey`. -/
def writeKey (key : Key) : Str :=
  writeComment key.Comment ++ (key.Name ++ ['='] ++ key.Value ++ ['\n'])

/-- The key loop of `writeSection`, from the key with index `i` on. -/
def writeKeysFrom : Nat → List Key → Str
  | _, [] => []
  | i, key :: rest =>
    (if i ≠ 0 ∧ key.Comment ≠ [] then ['\n'] else []) ++ writeKey key ++ writeKeysFrom (i + 1) rest

/-- The function `writeSection`. -/
def writeSection (s : Section) : Str :=
  writeComment s.Comment ++ (['['] ++ s.Name ++ [']', '\n']) ++ writeKeysFrom 0 s.Keys

/-- The section loop of `writeFile`, from the section with index `i` on. -/
def writeSectionsFrom : Nat → List Section → Str
  | _, [] => []
  | i, s :: rest =>
    (if i ≠ 0 then ['\n'] else []) ++ writeSection s ++ writeSectionsFrom (i + 1) rest

/-- The function `writeFile`. -/
def writeFile (file : File) : Str := writeSectionsFrom 0 file.Sections

/-- The function `Encode`: the bytes written to `out`. -/
def Encode (file : File) : Str := writeFile file

/-! ## Decoder (`internal/encoding/decode.go`) -/

/-- The errors `decode` returns, one constructor per `fmt.Errorf` call; `panic` is a
run-time panic of a slice expression. -/
inductive DecodeError where
  | sectionStart (pos : Position) (lit : Str)
  | sectionEnd (pos : Position) (lit : Str)
  | keyOutsideSection (pos : Position) (lit : Str)
  | keyNotFollowedByAssign (pos : Position) (tok : Token) (lit : Str)
  deriving DecidableEq, Repr

/-- How a call can fail: by returning a decode error, by returning an
`InvalidUnmarshalError`, or by a run-time panic. -/
inductive Fault where
  | error (e : DecodeError)
  | invalidTarget
  | panic
  deriving DecidableEq, Repr

/-- Outcome of a call that returns a value or fails. -/
inductive Res (α : Type) where
  | ok (a : α)
  | fail (e : Fault)
  deriving DecidableEq, Repr

/-- The struct `decodeState` without its scanner (passed separately): pending comment,
pointer to the active section, pointer to the active key, and the file under
construction. -/
structure decodeState where
  comment : Str
  sect : Option Nat
  key : Option (Nat × Nat)
  file : File
  deriving DecidableEq, Repr

/-- The method `init`. -/
def decodeState.init : decodeState := ⟨[], none, none, ⟨[]⟩⟩

/-- Write through a key pointer: apply `f` to `file.Sections[i].Keys[j]`. -/
def File.modifyKey (file : File) (p : Nat × Nat) (f : Key → Key) : File :=
  ⟨file.Sections.modify (fun s => { s with Keys := s.Keys.modify f p.2 }) p.1⟩

/-- Read through a key pointer. -/
def File.keyAt (file : File) (p : Nat × Nat) : Option Key :=
  (file.Sections.get? p.1).bind (fun s => s.Keys.get? p.2)

/-- The method `closeKey`. -/
def decodeState.closeKey (d : decodeState) : decodeState :=
  match d.key with
  | none => d
  | some p =>
    { d with
      file := d.file.modifyKey p
        (fun k => { k with Comment := d.comment, Value := ReplaceAll k.Value '\\' [' '] })
      key := none
      comment := [] }

/-- The method `addComment`; the slice `lit[1:]` panics on an empty literal. -/
def decodeState.addComment (d : decodeState) (lit : Str) : Option decodeState :=
  match sliceStr lit 1 lit.length with
  | none => none
  | some rest =>
    some { d with comment := (if d.comment ≠ [] then d.comment ++ ['\n'] else d.comment) ++ TrimSpace rest }

/-- The method `addSection`. -/
def decodeState.addSection (d : decodeState) (pos : Position) (lit : Str) :
    Res decodeState :=
  if !HasPrefix lit ['['] then .fail (.error (.sectionStart pos lit))
  else if !HasSuffix lit [']'] then .fail (.error (.sectionEnd pos lit))
  else
    match sliceStr lit 1 (lit.length - 1) with
    | none => .fail .panic
    | some name =>
      .ok { d with
        file := ⟨d.file.Sections ++ [⟨name, d.comment, []⟩]⟩
        sect := some (d.file.Sections.length + 1 - 1)
        comment := [] }

/-- The method `addString`; it may call `Scan()` once more, so it also returns the
scanner. -/
def decodeState.addString (d : decodeState) (pos : Position) (lit : Str)
    (scanner : List Scanned) : Res (decodeState × List Scanned) :=
  match d.sect with
  | none => .fail (.error (.keyOutsideSection pos lit))
  | some si =>
    match d.key with
    | none =>
      let (next, scanner1) := Scan scanner
      if next.tok ≠ Token.ASSIGN then
        .fail (.error (.keyNotFollowedByAssign next.pos next.tok next.lit))
      else
        let keysLen := ((d.file.Sections.get? si).map (fun s => s.Keys.length)).getD 0
        .ok ({ d with
              file := ⟨d.file.Sections.modify
                (fun s => { s with Keys := s.Keys ++ [⟨TrimSpace lit, [], []⟩] }) si⟩
              key := some (si, keysLen + 1 - 1) }, scanner1)
    | some p =>
      .ok ({ d with file := d.file.modifyKey p (fun k => { k with Value := k.Value ++ TrimSpace lit }) },
           scanner)

/-- Result of one iteration of the loop in `decode`. -/
inductive Step where
  | next (d : decodeState) (scanner : List Scanned)
  | done (file : File)
  | fail (e : Fault)
  deriving DecidableEq, Repr

/-- One iteration of the `for` loop of the method `decode`. -/
def decodeStep (d : decodeState) (scanner : List Scanned) : Step :=
  let (t, scanner1) := Scan scanner
  match t.tok with
  | .COMMENT =>
    match d.addComment t.lit with
    | none => .fail .panic
    | some d1 => .next d1 scanner1
  | .ASSIGN =>
    match d.key with
    | some p => .next { d with file := d.file.modifyKey p (fun k => { k with Value := k.Value ++ ['='] }) } scanner1
    | none => .next d scanner1
  | .EOF => .done (d.closeKey).file
  | .NEWLINE =>
    match d.key with
    | some p =>
      if !HasSuffix (((d.file.keyAt p).map (fun k => k.Value)).getD []) ['\\'] then
        .next d.closeKey scanner1
      else .next d scanner1
    | none => .next d scanner1
  | .STRING =>
    match d.addString t.pos t.lit scanner1 with
    | .fail e => .fail e
    | .ok (d1, scanner2) => .next d1 scanner2
  | .SECTION =>
    match d.addSection t.pos t.lit with
    | .fail e => .fail e
    | .ok d1 => .next d1 scanner1
  | .ILLEGAL => .next d scanner1

/-- The loop of the method `decode`, bounded by `fuel` iterations; `none` when the
bound is reached. -/
def decodeLoop : Nat → decodeState → List Scanned → Option (Res File)
  | 0, _, _ => none
  | fuel + 1, d, scanner =>
    match decodeStep d scanner with
    | .next d1 scanner1 => decodeLoop fuel d1 scanner1
    | .done file => some (.ok file)
    | .fail e => some (.fail e)

/-- The loop of the method `decode` from state `d` on a scanner delivering `scanner`:
every iteration but the last consumes a token, so `length + 1` iterations suffice. -/
def decodeFrom (d : decodeState) (scanner : List Scanned) : Option (Res File) :=
  decodeLoop (scanner.length + 1) d scanner

/-- The method `decode` on a freshly initialised state. -/
def decode (scanner : List Scanned) : Option (Res File) :=
  decodeFrom decodeState.init scanner

/-- State and scanner after `n` iterations of the loop that all continue; `none` when
the loop ends (returns) earlier. -/
def iterate : Nat → decodeState → List Scanned → Option (decodeState × List Scanned)
  | 0, d, scanner => some (d, scanner)
  | n + 1, d, scanner =>
    match decodeStep d scanner with
    | .next d1 scanner1 => iterate n d1 scanner1
    | _ => none

/-- The pointers of a decoder state are set the way `decode` sets them: the section
pointer is nil while the file has no section and points at the last section otherwise;
a key pointer points at the last key of its section. -/
def decodeState.WF (d : decodeState) : Prop :=
  d.sect = (if d.file.Sections.length = 0 then none else some (d.file.Sections.length - 1)) ∧
  ∀ p ∈ d.key, (d.file.Sections.get? p.1).map (fun s => s.Keys.length) = some (p.2 + 1)

instance (d : decodeState) : Decidable d.WF := by
  unfold decodeState.WF
  exact inferInstance

/-- The three situations in which `decode` returns an error, for the state `d` and the
scanner of an iteration: (a) the next token is a `SECTION` whose literal does not both
start with `[` and end with `]`; (b) it is a `STRING` and no section has been opened;
(c) it is a `STRING` read as a key name (section open, no key active) and the token
after it is not `ASSIGN`. -/
def meetsDecodeError (d : decodeState) (scanner : List Scanned) : Prop :=
  ((Scan scanner).1.tok = Token.SECTION ∧
    ¬ (HasPrefix (Scan scanner).1.lit ['['] = true ∧ HasSuffix (Scan scanner).1.lit [']'] = true)) ∨
  ((Scan scanner).1.tok = Token.STRING ∧ d.sect = none) ∨
  ((Scan scanner).1.tok = Token.STRING ∧ d.sect ≠ none ∧ d.key = none ∧
    (Scan (Scan scanner).2).1.tok ≠ Token.ASSIGN)

instance (d : decodeState) (scanner : List Scanned) : Decidable (meetsDecodeError d scanner) := by
  unfold meetsDecodeError
  exact inferInstance

/-! ## Tokenizer (`internal/parser`, modelled from the spec) -/

/-- Modelled from the spec: the tokens of the `=`-separated segments of a directive line
(the scanner source `internal/parser/scanner.go` is missing).  The characters are split
into `STRING` segments at every `=`; every `=` is an `ASSIGN` token; the literal of a
segment keeps its white space; a segment without characters gives no token. -/
def segmentTokens (line : Int) : Int → List Str → List Scanned
  | _, [] => []
  | col, [s] => if s = [] then [] else [⟨⟨line, col⟩, Token.STRING, s⟩]
  | col, s :: rest =>
    (if s = [] then [] else [⟨⟨line, col⟩, Token.STRING, s⟩]) ++
      ⟨⟨line, col + s.length⟩, Token.ASSIGN, ['=']⟩ ::
        segmentTokens line (col + s.length + 1) rest

/-- Modelled from the spec: the tokens of one line (the scanner source
`internal/parser/scanner.go` is missing).  White space at the start of the line is
skipped; a line whose first character then is `#` or `;` is one `COMMENT` token from
the marker to the end of the line; a line beginning with `[` whose trimmed content ends
with `]` is one `SECTION` token, the bracketed text; any other line is split into
`STRING` and `ASSIGN` tokens. -/
def scanLine (line : Int) (text : Str) : List Scanned :=
  let body := text.dropWhile isSpace
  let col : Int := (text.takeWhile isSpace).length + 1
  match body with
  | [] => []
  | c :: _ =>
    if c = '#' ∨ c = ';' then [⟨⟨line, col⟩, Token.COMMENT, body⟩]
    else if c = '[' ∧ HasSuffix (TrimSpace body) [']'] = true then
      [⟨⟨line, col⟩, Token.SECTION, TrimSpace body⟩]
    else segmentTokens line col (Split body '=')

/-- Modelled from the spec: the tokens of the lines of an input, numbered from `line`
(the scanner source `internal/parser/scanner.go` is missing).  Every line break is a
`NEWLINE` token; the end of the input is one `EOF` token. -/
def scanLines : Int → List Str → List Scanned
  | line, [] => [⟨⟨line, 1⟩, Token.EOF, []⟩]
  | line, [text] => scanLine line text ++ [⟨⟨line, text.length + 1⟩, Token.EOF, []⟩]
  | line, text :: rest =>
    scanLine line text ++ ⟨⟨line, text.length + 1⟩, Token.NEWLINE, ['\n']⟩ :: scanLines (line + 1) rest

/-- Modelled from the spec: all scan results of a scanner initialised with `src`
(`Scanner.Init` followed by `Scan` until `EOF`; the scanner source
`internal/parser/scanner.go` is missing). -/
def scanAll (src : Str) : List Scanned := scanLines 1 (Split src '\n')

/-- The function `Decode`: initialise the scanner with `data` and run `decode`. -/
def Decode (data : Str) : Option (Res File) := decode (scanAll data)

/-! ## Canonical trees -/

/-- A comment the encoder writes and the decoder reads back unchanged: every line is
free of surrounding white space, and the first line is not empty. -/
def commentOK (c : Str) : Prop :=
  (∀ l ∈ Split c '\n', TrimSpace l = l) ∧ c.head? ≠ some '\n'

/-- A key name the decoder reads back unchanged: not empty, free of surrounding white
space, without `=` and line break, and not starting like a comment or section line. -/
def keyNameOK (n : Str) : Prop :=
  n ≠ [] ∧ TrimSpace n = n ∧ '=' ∉ n ∧ '\n' ∉ n ∧
    n.head? ≠ some '#' ∧ n.head? ≠ some ';' ∧ n.head? ≠ some '['

/-- A value the decoder reads back unchanged: without line break and backslash, and
without white space at its ends or next to a `=`. -/
def valueOK (v : Str) : Prop :=
  '\n' ∉ v ∧ '\\' ∉ v ∧ ∀ seg ∈ Split v '=', TrimSpace seg = seg

/-- A key made of a canonical name, value and comment. -/
def Key.OK (k : Key) : Prop := keyNameOK k.Name ∧ valueOK k.Value ∧ commentOK k.Comment

/-- A section with a name free of line breaks, a canonical comment and canonical keys. -/
def Section.OK (s : Section) : Prop :=
  '\n' ∉ s.Name ∧ commentOK s.Comment ∧ ∀ k ∈ s.Keys, k.OK

/-- A file of canonical sections. -/
def File.OK (f : File) : Prop := ∀ s ∈ f.Sections, s.OK

instance (c : Str) : Decidable (commentOK c) := by
  unfold commentOK
  exact inferInstance

instance (n : Str) : Decidable (keyNameOK n) := by
  unfold keyNameOK
  exact inferInstance

instance (v : Str) : Decidable (valueOK v) := by
  unfold valueOK
  exact inferInstance

instance (k : Key) : Decidable k.OK := by
  unfold Key.OK
  exact inferInstance

instance (s : Section) : Decidable s.OK := by
  unfold Section.OK
  exact inferInstance

instance (f : File) : Decidable f.OK := by
  unfold File.OK
  exact inferInstance

/-- The decoder state between two directives: the file holds `secs`, the last of them
is the active section, no key is active and `cm` is the pending comment. -/
def decodeState.idle (secs : List Section) (cm : Str) : decodeState :=
  ⟨cm, (if secs.length = 0 then none else some (secs.length - 1)), none, ⟨secs⟩⟩

/-- The decoder state while the key `k` is collected as the last key of the section `s`
behind the sections `secs`. -/
def decodeState.active (secs : List Section) (s : Section) (k : Key) (cm : Str) : decodeState :=
  ⟨cm, some secs.length, some (secs.length, s.Keys.length),
    ⟨secs ++ [{ s with Keys := s.Keys ++ [k] }]⟩⟩

/-- The tokens `decode` can read: those in front of the first `EOF`. -/
def consumedTokens (ts : List Scanned) : List Scanned :=
  ts.takeWhile (fun t => t.tok ≠ Token.EOF)

/-- The tokens in front of the first `SECTION` token. -/
def untilSection (ts : List Scanned) : List Scanned :=
  ts.takeWhile (fun t => t.tok ≠ Token.SECTION)

/-- Split a token list at its `SECTION` tokens: every `SECTION` token with the tokens
between it and the next `SECTION` token (tokens in front of the first one are left
out). -/
def sectionSegments : List Scanned → List (Scanned × List Scanned)
  | [] => []
  | t :: rest =>
    if t.tok = Token.SECTION then (t, untilSection rest) :: sectionSegments rest
    else sectionSegments rest

/-- The names of a file: for every section its name and the names of its keys. -/
def File.skeleton (f : File) : List (Str × List Str) :=
  f.Sections.map (fun s => (s.Name, s.Keys.map (fun k => k.Name)))

/-- Append key names to the last entry of a skeleton. -/
def addKeyNames (sk : List (Str × List Str)) (names : List Str) : List (Str × List Str) :=
  sk.modify (fun e => (e.1, e.2 ++ names)) (sk.length - 1)

/-- Contribution of one token to the value of the active key. -/
def valueFragment (t : Scanned) : Str :=
  match t.tok with
  | .STRING => TrimSpace t.lit
  | .ASSIGN => ['=']
  | _ => []

/-! ## Utilities (`internal/encoding/util.go`) -/

/-- The function `StrToBool`; `none` is the nil pointer. -/
def StrToBool (b : Str) : Option Bool :=
  if b = ['1'] ∨ b = ['y', 'e', 's'] ∨ b = ['t', 'r', 'u', 'e'] ∨ b = ['o', 'n'] then some true
  else if b = ['0'] ∨ b = ['n', 'o'] ∨ b = ['f', 'a', 'l', 's', 'e'] ∨ b = ['o', 'f', 'f'] then
    some false
  else none

/-- The function `BoolToStr`. -/
def BoolToStr (b : Bool) : Str := if b then ['y', 'e', 's'] else ['n', 'o']

/-- The function `filterEmpty`. -/
def filterEmpty (l : List Str) : List Str := l.filter (fun s => s.length ≠ 0)

/-- Go `strings.Contains`. -/
def Contains (s sub : Str) : Bool := decide (sub <:+: s)

/-! ## Records seen through `reflect`

A struct value is modelled by the list of its fields in declaration order, each with
the name and the `systemd` tag of its declaration and its value; the constructor of the
value is the kind of the field's type.  The embedded containers `KeyComments`, `KeyList`
and `SectionList` are fields of their own kind, and the methods they promote exist
exactly when such a field is present.  A field of a type the mapper has no case for (an
integer, a pointer to an integer, a list of non-strings, ...) is `other`, with its value
as a code that is `0` exactly for the zero value of the type, so that two such values
are equal exactly when their codes are.  Pointers and slices at file level point at
structs.

An empty list is the nil slice and the map without entries is the nil map: `Marshal`
reads a slice through `Len` and `range` and the map through `GetKeyComment`, which do not
tell the empty value from the nil one, and `Unmarshal` builds its slices and the map from
nil by `append` and `AddKeyComment`, so what it returns is nil when it is empty.  A Go
record that holds an empty slice or map that is not nil is a value of these types
together with the places of such slices and maps (`GoRecord`); `Unmarshal` never returns
one. -/

/-- The map of `KeyComments`, from key name to comment; the nil map has no entry. -/
abbrev CommentMap := Str → Option Str

/-- Value of a field of a section struct.  The list of `sliceString` and of `keyList` is
the nil slice when it is empty, the map of `keyComments` the nil map when it has no
entry; `other` carries the code of a value of a type without a case in the mapper. -/
inductive KeyValue where
  | string (v : Str)
  | ptrString (v : Option Str)
  | ptrBool (v : Option Bool)
  | sliceString (v : List Str)
  | keyList (v : List Key)
  | keyComments (v : CommentMap)
  | other (v : Nat)

/-- A field of a section struct: `reflect.StructField` name and tag, and the value. -/
structure KeyField where
  Name : Str
  Tag : Str
  Value : KeyValue

/-- A section struct. -/
abbrev SectionRecord := List KeyField

/-- Value of a field of a file struct; a pointer and a slice carry the zero value of
their element type (for `reflect.New`).  The list of `slice` and of `sectionList` is the
nil slice when it is empty; `other` carries the code of a value of a type without a case
in the mapper. -/
inductive SectionsValue where
  | struct (v : SectionRecord)
  | ptr (elem : SectionRecord) (v : Option SectionRecord)
  | slice (elem : SectionRecord) (v : List SectionRecord)
  | sectionList (v : List Section)
  | other (v : Nat)

/-- A field of a file struct. -/
structure SectionsField where
  Name : Str
  Tag : Str
  Value : SectionsValue

/-- A file struct. -/
abbrev FileRecord := List SectionsField

/-- The argument `v interface{}` of `Marshal` and `Unmarshal`. -/
inductive Target where
  | nilInterface
  | nonPointer
  | nilPointer
  | record (rv : FileRecord)

/-- The zero value of the type of a section field. -/
def KeyValue.zero : KeyValue → KeyValue
  | .string _ => .string []
  | .ptrString _ => .ptrString none
  | .ptrBool _ => .ptrBool none
  | .sliceString _ => .sliceString []
  | .keyList _ => .keyList []
  | .keyComments _ => .keyComments (fun _ => none)
  | .other _ => .other 0

/-- The zero value of a section struct type (`reflect.New`). -/
def SectionRecord.zero (rv : SectionRecord) : SectionRecord :=
  rv.map (fun f => { f with Value := f.Value.zero })

/-- The zero value of the type of a file field. -/
def SectionsValue.zero : SectionsValue → SectionsValue
  | .struct v => .struct (SectionRecord.zero v)
  | .ptr elem _ => .ptr elem none
  | .slice elem _ => .slice elem []
  | .sectionList _ => .sectionList []
  | .other _ => .other 0

/-- The zero value of a file struct type: a fresh record. -/
def FileRecord.zero (rv : FileRecord) : FileRecord :=
  rv.map (fun f => { f with Value := f.Value.zero })

/-! ## Field configuration (`internal/encoding/unmarshal.go`) -/

/-- The struct `fieldConfig`. -/
structure fieldConfig where
  Name : Str
  Omitempty : Bool
  WSlist : Bool
  deriving DecidableEq, Repr

/-- The function `configForField`, on the name of a field and the value of its `systemd`
tag. -/
def configForField (Name Tag : Str) : fieldConfig :=
  if Tag ≠ [] then
    if ',' ∉ Tag then ⟨Tag, false, false⟩
    else
      let idx := (Tag.takeWhile (fun c => c ≠ ',')).length
      let name := Tag.take idx
      ⟨if name ≠ [] then Tag.take idx else Name,
        Contains (Tag.drop idx) ['o', 'm', 'i', 't', 'e', 'm', 'p', 't', 'y'],
        Contains (Tag.drop idx) ['w', 's', 'l', 'i', 's', 't']⟩
  else ⟨Name, false, false⟩

/-- The resolved configuration of a section field. -/
def KeyField.config (f : KeyField) : fieldConfig := configForField f.Name f.Tag

/-- The resolved configuration of a file field. -/
def SectionsField.config (f : SectionsField) : fieldConfig := configForField f.Name f.Tag

/-! ## Marshal (`internal/encoding/marshal.go`) -/

/-- The function `keyComment`: the comment registered for a key, through the method
`GetKeyComment` when the struct has it. -/
def keyComment (rv : SectionRecord) (keyName : Str) : Str :=
  match rv.findSome? (fun f => match f.Value with | .keyComments m => some m | _ => none) with
  | some m => (m keyName).getD []
  | none => []

/-- The keys `marshalSection` appends for a list of strings with the repeat policy, from
the element with index `i` on. -/
def repeatKeys (name comment : Str) : Nat → List Str → List Key
  | _, [] => []
  | i, val :: rest =>
    (if val = [] then [] else [⟨name, val, if i = 0 then comment else []⟩]) ++
      repeatKeys name comment (i + 1) rest

/-- One iteration of the field loop of `marshalSection`. -/
def marshalField (rv : SectionRecord) (sect : Section) (f : KeyField) : Section :=
  match f.Value with
  | .string v =>
    if f.Name = ['C', 'o', 'm', 'm', 'e', 'n', 't'] then { sect with Comment := v }
    else if f.Name = ['K', 'e', 'y', 'C', 'o', 'm', 'm', 'e', 'n', 't', 's'] ∨
        f.Name = ['K', 'e', 'y', 'L', 'i', 's', 't'] then sect
    else if v = [] ∧ f.config.Omitempty = true then sect
    else { sect with Keys := sect.Keys ++ [⟨f.config.Name, v, keyComment rv f.config.Name⟩] }
  | .ptrString v =>
    if f.Name = ['K', 'e', 'y', 'C', 'o', 'm', 'm', 'e', 'n', 't', 's'] ∨
        f.Name = ['K', 'e', 'y', 'L', 'i', 's', 't'] then sect
    else if v = none ∧ f.config.Omitempty = true then sect
    else { sect with Keys := sect.Keys ++
      [⟨f.config.Name, v.getD [], keyComment rv f.config.Name⟩] }
  | .ptrBool v =>
    if f.Name = ['K', 'e', 'y', 'C', 'o', 'm', 'm', 'e', 'n', 't', 's'] ∨
        f.Name = ['K', 'e', 'y', 'L', 'i', 's', 't'] then sect
    else if v = none ∧ f.config.Omitempty = true then sect
    else { sect with Keys := sect.Keys ++
      [⟨f.config.Name, (v.map BoolToStr).getD [], keyComment rv f.config.Name⟩] }
  | .sliceString v =>
    if f.Name = ['K', 'e', 'y', 'C', 'o', 'm', 'm', 'e', 'n', 't', 's'] ∨
        f.Name = ['K', 'e', 'y', 'L', 'i', 's', 't'] then sect
    else if f.config.WSlist = true then
      if Join v ' ' = [] then sect
      else { sect with Keys := sect.Keys ++
        [⟨f.config.Name, Join v ' ', keyComment rv f.config.Name⟩] }
    else { sect with
      Keys := (sect.Keys ++ repeatKeys f.config.Name (keyComment rv f.config.Name) 0 v) }
  | _ => sect

/-- The function `marshalSection`: the field loop, then the keys of an embedded
`KeyList`. -/
def marshalSection (sect : Section) (rv : SectionRecord) : Section :=
  let s1 := rv.foldl (marshalField rv) sect
  match rv.findSome? (fun f => match f.Value with | .keyList l => some l | _ => none) with
  | some l => { s1 with Keys := s1.Keys ++ l }
  | none => s1

/-- One iteration of the field loop of `Marshal`: the sections a field gives. -/
def marshalSectionsField (f : SectionsField) : List Section :=
  match f.Value with
  | .ptr _ none => []
  | .ptr _ (some v) => [marshalSection ⟨f.config.Name, [], []⟩ v]
  | .struct v => [marshalSection ⟨f.config.Name, [], []⟩ v]
  | .slice _ vs => vs.map (fun v => marshalSection ⟨f.config.Name, [], []⟩ v)
  | _ => []

/-- The file `Marshal` builds: the sections of the fields in declaration order, then
the sections of an embedded `SectionList`. -/
def marshalFile (rv : FileRecord) : File :=
  ⟨rv.flatMap marshalSectionsField ++
    ((rv.findSome? (fun f => match f.Value with | .sectionList l => some l | _ => none)).getD [])⟩

/-- The function `Marshal`.  On the nil interface `rv.Type()` panics. -/
def Marshal : Target → Res Str
  | .nilInterface => .fail .panic
  | .nonPointer => .fail .invalidTarget
  | .nilPointer => .fail .invalidTarget
  | .record rv => .ok (Encode (marshalFile rv))

/-! ## Unmarshal (`internal/encoding/unmarshal.go`) -/

/-- A call of the method `AddKeyComment`, when the struct has it. -/
def AddKeyComment (rv : SectionRecord) (key comment : Str) : SectionRecord :=
  rv.map (fun f =>
    match f.Value with
    | .keyComments m => { f with Value := .keyComments (Function.update m key (some comment)) }
    | _ => f)

/-- The comment handling at the end of an iteration of `unmarshalKeys`. -/
def recordComment (rv : SectionRecord) (key comment : Str) : SectionRecord :=
  if comment = [] then rv else AddKeyComment rv key comment

/-- A call of the method `AddKey`, when the struct has it. -/
def AddKey (rv : SectionRecord) (k : Key) : SectionRecord :=
  rv.map (fun f =>
    match f.Value with
    | .keyList l => { f with Value := .keyList (l ++ [k]) }
    | _ => f)

/-- One iteration of the key loop for a list of strings in `unmarshalKeys`, on the
values and the comment collected so far. -/
def collectValue (wslist : Bool) (acc : List Str × Str) (key : Key) : List Str × Str :=
  let comment := (if acc.2 ≠ [] then acc.2 ++ ['\n'] else acc.2) ++ key.Comment
  if key.Value.length = 0 then ([], [])
  else if wslist then (acc.1 ++ filterEmpty (Split key.Value ' '), comment)
  else (acc.1 ++ [key.Value], comment)

/-- One iteration of the field loop of `unmarshalKeys`, for the field with index `i`. -/
def unmarshalKey (sect : Section) (rv : SectionRecord) (i : Nat) : SectionRecord :=
  match rv.get? i with
  | none => rv
  | some f =>
    let keys := sect.KeysByName f.config.Name
    match keys.getLast? with
    | none => rv
    | some key =>
      match f.Value with
      | .string _ =>
        recordComment (rv.set i { f with Value := .string key.Value }) f.config.Name key.Comment
      | .ptrBool _ =>
        if key.Value = [] ∧ f.config.Omitempty = true then rv
        else
          match StrToBool key.Value with
          | none => rv
          | some b => rv.set i { f with Value := .ptrBool (some b) }
      | .ptrString _ =>
        if key.Value = [] ∧ f.config.Omitempty = true then rv
        else rv.set i { f with Value := .ptrString (some key.Value) }
      | .sliceString _ =>
        let r := keys.foldl (collectValue f.config.WSlist) ([], [])
        recordComment (rv.set i { f with Value := .sliceString r.1 }) f.config.Name r.2
      | _ => rv

/-- The function `unmarshalKeys`: the field loop, then the keys no field has claimed go
to the method `AddKey`. -/
def unmarshalKeys (sect : Section) (rv : SectionRecord) : SectionRecord :=
  let rv1 := (List.range rv.length).foldl (unmarshalKey sect) rv
  let knownKeys := rv.map (fun f => f.config.Name)
  sect.Keys.foldl
    (fun (r : SectionRecord) (key : Key) => if key.Name ∈ knownKeys then r else AddKey r key) rv1

/-- The assignment `commentField.Set(reflect.ValueOf(section.Comment))`: the field named
`Comment`, when there is one, is set; `none` is the panic of `Set` on a field that is
not a string. -/
def setCommentField (rv : SectionRecord) (comment : Str) : Option SectionRecord :=
  match rv.findIdx? (fun f => f.Name = ['C', 'o', 'm', 'm', 'e', 'n', 't']) with
  | none => some rv
  | some i =>
    match rv.get? i with
    | some ⟨n, t, .string _⟩ => some (rv.set i ⟨n, t, .string comment⟩)
    | _ => none

/-- The struct type `Section` as `unmarshalKeys` sees it when a section is unmarshalled
into an element of the embedded `SectionList`. -/
def sectionAsRecord : SectionRecord :=
  [⟨['N', 'a', 'm', 'e'], [], .string []⟩, ⟨['C', 'o', 'm', 'm', 'e', 'n', 't'], [], .string []⟩,
    ⟨['K', 'e', 'y', 's'], [], .other 0⟩]

/-- The `Section` held by a value of the struct type `Section`. -/
def recordAsSection (rv : SectionRecord) : Section :=
  match rv with
  | [⟨_, _, .string n⟩, ⟨_, _, .string c⟩, _] => ⟨n, c, []⟩
  | _ => ⟨[], [], []⟩

/-- The body of the section loop of `unmarshalSections` up to the assignment: the new
object, unmarshalled from the section, with its comment field set. -/
def newObject (sect : Section) (elem : SectionRecord) : Option SectionRecord :=
  setCommentField (unmarshalKeys sect (SectionRecord.zero elem)) sect.Comment

/-- One iteration of the section loop of `unmarshalSections`, for the field with index `i`;
`.fail .panic` is a panic of `reflect`. -/
def unmarshalSection (i : Nat) (acc : Res FileRecord) (sect : Section) : Res FileRecord :=
  match acc with
  | .fail e => .fail e
  | .ok rv =>
    match rv.get? i with
    | none => .ok rv
    | some f =>
      match f.Value with
      | .struct v =>
        match newObject sect v with
        | none => .fail .panic
        | some o => .ok (rv.set i { f with Value := .struct o })
      | .ptr elem _ =>
        match newObject sect elem with
        | none => .fail .panic
        | some o => .ok (rv.set i { f with Value := .ptr elem (some o) })
      | .slice elem vs =>
        match newObject sect elem with
        | none => .fail .panic
        | some o => .ok (rv.set i { f with Value := .slice elem (vs ++ [o]) })
      | .sectionList l =>
        match newObject sect sectionAsRecord with
        | none => .fail .panic
        | some o => .ok (rv.set i { f with Value := .sectionList (l ++ [recordAsSection o]) })
      | .other _ => .fail .panic

/-- One iteration of the field loop of `unmarshalSections`. -/
def unmarshalSectionsField (file : File) (acc : Res FileRecord) (i : Nat) : Res FileRecord :=
  match acc with
  | .fail e => .fail e
  | .ok rv =>
    match rv.get? i with
    | none => .ok rv
    | some f => (file.SectionsByName f.config.Name).foldl (unmarshalSection i) (.ok rv)

/-- A call of the method `AddSection`, when the struct has it. -/
def AddSection (rv : FileRecord) (s : Section) : FileRecord :=
  rv.map (fun f =>
    match f.Value with
    | .sectionList l => { f with Value := .sectionList (l ++ [s]) }
    | _ => f)

/-- The function `unmarshalSections` on a record: the field loop, then the sections no
field has claimed go to the method `AddSection`. -/
def unmarshalSections (file : File) (rv : FileRecord) : Res FileRecord :=
  match (List.range rv.length).foldl (unmarshalSectionsField file) (.ok rv) with
  | .fail e => .fail e
  | .ok rv1 =>
    let knownSections := rv.map (fun f => f.config.Name)
    .ok (file.Sections.foldl
      (fun (r : FileRecord) (s : Section) =>
        if s.Name ∈ knownSections then r else AddSection r s) rv1)

/-- The function `Unmarshal`: the record `v` points at after the call, or the failure.
`none` only if the decode loop ran out of fuel. -/
def Unmarshal (data : Str) (v : Target) : Option (Res FileRecord) :=
  match Decode data with
  | none => none
  | some (.fail e) => some (.fail e)
  | some (.ok file) =>
    match v with
    | .record rv => some (unmarshalSections file rv)
    | _ => some (.fail .invalidTarget)

/-! ## Canonical records -/

/-- The field is written as keys that `unmarshalKeys` reads back with their comment: a
string whose key is written, a non-empty list with the `wslist` policy, or a list of
one element with the repeat policy. -/
def KeyField.carriesComment (f : KeyField) : Prop :=
  match f.Value with
  | .string v => f.Name ≠ ['C', 'o', 'm', 'm', 'e', 'n', 't'] ∧ ¬ (v = [] ∧ f.config.Omitempty = true)
  | .sliceString l => if f.config.WSlist = true then l ≠ [] else l.length = 1
  | _ => False

/-- The names of the fields that stand for the comment slot and the embedded containers
go with their kinds. -/
def KeyField.kindOK (f : KeyField) : Prop :=
  match f.Value with
  | .string _ =>
    f.Name ≠ ['K', 'e', 'y', 'C', 'o', 'm', 'm', 'e', 'n', 't', 's'] ∧
      f.Name ≠ ['K', 'e', 'y', 'L', 'i', 's', 't']
  | .keyList _ => f.Name = ['K', 'e', 'y', 'L', 'i', 's', 't']
  | .keyComments _ => f.Name = ['K', 'e', 'y', 'C', 'o', 'm', 'm', 'e', 'n', 't', 's']
  | _ =>
    f.Name ≠ ['C', 'o', 'm', 'm', 'e', 'n', 't'] ∧
      f.Name ≠ ['K', 'e', 'y', 'C', 'o', 'm', 'm', 'e', 'n', 't', 's'] ∧
      f.Name ≠ ['K', 'e', 'y', 'L', 'i', 's', 't']

/-- The value of a field is one that `Marshal` writes and `Unmarshal` reads back: inside
the struct `rv`, the comment slot holds a canonical comment; a string holds a canonical
value; a pointer to a string is unset only with `omitempty` and does not point at the empty
string with `omitempty`; the elements of a list are non-empty canonical values, without
blanks under the `wslist` policy; unknown keys are canonical and bear no name of a field;
a comment is registered only for a field that carries it, and is canonical; a field of a
kind the mapper has no case for holds the zero value of its type. -/
def KeyField.valueOK (rv : SectionRecord) (f : KeyField) : Prop :=
  match f.Value with
  | .string v =>
    if f.Name = ['C', 'o', 'm', 'm', 'e', 'n', 't'] then commentOK v
    else keyNameOK f.config.Name ∧ Systemd.valueOK v
  | .ptrString p =>
    keyNameOK f.config.Name ∧ (p = none → f.config.Omitempty = true) ∧
      ∀ v, p = some v → Systemd.valueOK v ∧ ¬ (v = [] ∧ f.config.Omitempty = true)
  | .ptrBool _ => keyNameOK f.config.Name
  | .sliceString l =>
    keyNameOK f.config.Name ∧ (∀ e ∈ l, e ≠ []) ∧
      if f.config.WSlist = true then (∀ e ∈ l, ' ' ∉ e) ∧ Systemd.valueOK (Join l ' ')
      else ∀ e ∈ l, Systemd.valueOK e
  | .keyList l => ∀ k ∈ l, k.OK ∧ k.Name ∉ rv.map (fun g => g.config.Name)
  | .keyComments m =>
    ∀ x c, m x = some c →
      c ≠ [] ∧ commentOK c ∧ ∃ g ∈ rv, g.config.Name = x ∧ g.carriesComment
  | .other v => v = 0

/-- A section struct that `Marshal` writes and `Unmarshal` reads back: distinct field
names, distinct resolved names, and canonical fields. -/
structure SectionRecord.Canonical (rv : SectionRecord) : Prop where
  names : (rv.map (fun f => f.Name)).Nodup
  resolved : (rv.map (fun f => f.config.Name)).Nodup
  kinds : ∀ f ∈ rv, f.kindOK
  values : ∀ f ∈ rv, f.valueOK rv

/-- The value of a file field is one that `Marshal` writes and `Unmarshal` reads
back: canonical section structs of the element type, canonical unknown sections that
bear no name of a field, and the zero value for a field of another kind. -/
def SectionsField.valueOK (rv : FileRecord) (f : SectionsField) : Prop :=
  match f.Value with
  | .struct v => SectionRecord.Canonical v
  | .ptr elem p => ∀ v, p = some v → SectionRecord.Canonical v ∧ SectionRecord.zero v = SectionRecord.zero elem
  | .slice elem vs => ∀ v ∈ vs, SectionRecord.Canonical v ∧ SectionRecord.zero v = SectionRecord.zero elem
  | .sectionList l => ∀ s ∈ l, s.OK ∧ s.Name ∉ rv.map (fun g => g.config.Name)
  | .other v => v = 0

/-- The field is the embedded `SectionList`. -/
def SectionsField.isSectionList (f : SectionsField) : Bool :=
  match f.Value with
  | .sectionList _ => true
  | _ => false

/-- A file struct that `Marshal` writes and `Unmarshal` reads back: distinct resolved
names free of line breaks, at most one embedded `SectionList`, canonical fields. -/
structure FileRecord.Canonical (rv : FileRecord) : Prop where
  resolved : (rv.map (fun f => f.config.Name)).Nodup
  lines : ∀ f ∈ rv, '\n' ∉ f.config.Name
  single : (rv.filter SectionsField.isSectionList).length ≤ 1
  values : ∀ f ∈ rv, f.valueOK rv

/-- The keys one iteration of the field loop of `marshalSection` appends. -/
def fieldKeys (rv : SectionRecord) (f : KeyField) : List Key :=
  (marshalField rv ⟨[], [], []⟩ f).Keys

/-- The section comment after one iteration of the field loop of `marshalSection`. -/
def fieldComment (f : KeyField) (old : Str) : Str :=
  match f.Value with
  | .string v => if f.Name = ['C', 'o', 'm', 'm', 'e', 'n', 't'] then v else old
  | _ => old

/-- A field of the struct under construction in `unmarshalKeys` once its iteration is
over: the field of `rv`, except that the comment slot is still empty, the `KeyList` is
still empty and the `KeyComments` hold the comments recorded so far. -/
def doneField (cm : CommentMap) (f : KeyField) : KeyField :=
  match f.Value with
  | .keyComments _ => { f with Value := .keyComments cm }
  | .keyList _ => { f with Value := .keyList [] }
  | .string v => { f with Value := .string (if f.Name = ['C', 'o', 'm', 'm', 'e', 'n', 't'] then [] else v) }
  | _ => f

/-- A field of the struct under construction in `unmarshalKeys` before its iteration:
zero, except that the `KeyComments` hold the comments recorded so far. -/
def todoField (cm : CommentMap) (f : KeyField) : KeyField :=
  match f.Value with
  | .keyComments _ => { f with Value := .keyComments cm }
  | _ => { f with Value := f.Value.zero }

/-- The struct under construction in `unmarshalKeys` when the iterations for the fields
`done` are over and those for the fields `todo` are to come. -/
def partialRecord (done todo : List KeyField) (cm : CommentMap) : SectionRecord :=
  done.map (doneField cm) ++ todo.map (todoField cm)

/-- A field of the struct `unmarshalKeys` returns: the field of `rv`, except that the
comment slot is still empty. -/
def clearComment (f : KeyField) : KeyField :=
  match f.Value with
  | .string v => { f with Value := .string (if f.Name = ['C', 'o', 'm', 'm', 'e', 'n', 't'] then [] else v) }
  | _ => f

/-- The keys `l` appended to an embedded `KeyList`. -/
def appendKeys (l : List Key) (f : KeyField) : KeyField :=
  match f.Value with
  | .keyList l0 => { f with Value := .keyList (l0 ++ l) }
  | _ => f

/-- A field of the struct under construction in `unmarshalSections` once its iteration
is over: the field of `rv`, except that the `SectionList` is still empty. -/
def doneSections (f : SectionsField) : SectionsField :=
  match f.Value with
  | .sectionList _ => { f with Value := .sectionList [] }
  | _ => f

/-- A field of the struct under construction in `unmarshalSections` before its
iteration: zero. -/
def todoSections (f : SectionsField) : SectionsField :=
  { f with Value := f.Value.zero }

/-- The struct under construction in `unmarshalSections` when the iterations for the
fields `done` are over and those for the fields `todo` are to come. -/
def partialFile (done todo : List SectionsField) : FileRecord :=
  done.map doneSections ++ todo.map todoSections

/-- The sections `l` appended to an embedded `SectionList`. -/
def appendSections (l : List Section) (f : SectionsField) : SectionsField :=
  match f.Value with
  | .sectionList l0 => { f with Value := .sectionList (l0 ++ l) }
  | _ => f

/-- The comments recorded after the iteration for the field `f`. -/
def recordedAfter (rv : SectionRecord) (cm : CommentMap) (f : KeyField) : CommentMap :=
  if keyComment rv f.config.Name = [] then cm
  else
    match f.Value with
    | .string v =>
      if f.Name = ['C', 'o', 'm', 'm', 'e', 'n', 't'] ∨ (v = [] ∧ f.config.Omitempty = true) then cm
      else Function.update cm f.config.Name (some (keyComment rv f.config.Name))
    | .sliceString l =>
      if l = [] then cm else Function.update cm f.config.Name (some (keyComment rv f.config.Name))
    | _ => cm

/-! ## The field loop of `unmarshalKeys`, field by field -/

/-- The field with index `i` after its iteration of the field loop of `unmarshalKeys`, as
a function of the field before: the assignments `field.SetString`, `field.Set`. -/
def fieldAfter (sect : Section) (f : KeyField) : KeyField :=
  match (sect.KeysByName f.config.Name).getLast? with
  | none => f
  | some key =>
    match f.Value with
    | .string _ => { f with Value := .string key.Value }
    | .ptrBool _ =>
      if key.Value = [] ∧ f.config.Omitempty = true then f
      else
        match StrToBool key.Value with
        | none => f
        | some b => { f with Value := .ptrBool (some b) }
    | .ptrString _ =>
      if key.Value = [] ∧ f.config.Omitempty = true then f
      else { f with Value := .ptrString (some key.Value) }
    | .sliceString _ =>
      { f with Value :=
          (.sliceString ((sect.KeysByName f.config.Name).foldl (collectValue f.config.WSlist) ([], [])).1) }
    | _ => f

/-- The local `comment` at the comment handling that ends the iteration for the
field `f`. -/
def commentAfter (sect : Section) (f : KeyField) : Str :=
  match (sect.KeysByName f.config.Name).getLast? with
  | none => []
  | some key =>
    match f.Value with
    | .string _ => key.Comment
    | .sliceString _ =>
      ((sect.KeysByName f.config.Name).foldl (collectValue f.config.WSlist) ([], [])).2
    | _ => []

/-- The effect of a call of `AddKeyComment` on one field of the struct. -/
def noteComment (name comment : Str) (g : KeyField) : KeyField :=
  match g.Value with
  | .keyComments m => { g with Value := .keyComments (Function.update m name (some comment)) }
  | _ => g

/-- The effect on the field `g` of the comment handling that ends the iteration for the
field `h`. -/
def noteField (sect : Section) (h g : KeyField) : KeyField :=
  if commentAfter sect h = [] then g else noteComment h.config.Name (commentAfter sect h) g

/-- The effect on the field `g` of the comment handling of the iterations for the
fields `hs`, in order. -/
def notes (sect : Section) (hs : List KeyField) (g : KeyField) : KeyField :=
  hs.foldl (fun g1 h => noteField sect h g1) g

/-- The field holds the embedded `KeyComments`. -/
def KeyField.isComments (f : KeyField) : Bool :=
  match f.Value with
  | .keyComments _ => true
  | _ => false

/-- The keys of a section that bear no resolved name of a field of the struct. -/
def unknownKeys (sect : Section) (rv : SectionRecord) : List Key :=
  sect.Keys.filter (fun k => k.Name ∉ rv.map (fun f => f.config.Name))

/-- The keys that come after the last key with an empty value: all keys when none has an
empty value. -/
def afterLastEmpty (keys : List Key) : List Key :=
  keys.rtakeWhile (fun k => k.Value ≠ [])

/-- The comments registered after the comment handling of the iterations for the fields
`hs`, in order, starting from the comments `m`. -/
def notedMap (sect : Section) (hs : List KeyField) (m : CommentMap) : CommentMap :=
  hs.foldl (fun m1 h =>
    if commentAfter sect h = [] then m1
    else Function.update m1 h.config.Name (some (commentAfter sect h))) m

/-- The comments a field holds when it is the embedded `KeyComments`. -/
def commentsOf (g : KeyField) : Option CommentMap :=
  match g.Value with
  | .keyComments m => some m
  | _ => none

/-! ## The field loop of `unmarshalSections`, field by field -/

/-- One iteration of the section loop of `unmarshalSections`, on the field alone; `none`
is a panic of `reflect`. -/
def sectionInto (f : SectionsField) (sect : Section) : Option SectionsField :=
  match f.Value with
  | .struct v => (newObject sect v).map (fun o => { f with Value := .struct o })
  | .ptr elem _ => (newObject sect elem).map (fun o => { f with Value := .ptr elem (some o) })
  | .slice elem vs =>
    (newObject sect elem).map (fun o => { f with Value := .slice elem (vs ++ [o]) })
  | .sectionList l =>
    (newObject sect sectionAsRecord).map
      (fun o => { f with Value := .sectionList (l ++ [recordAsSection o]) })
  | .other _ => none

/-- The section loop of `unmarshalSections` on the field alone. -/
def fillField (f : SectionsField) (sects : List Section) : Option SectionsField :=
  sects.foldl (fun acc s => acc.bind (fun g => sectionInto g s)) (some f)

/-- The sections of a file that bear no resolved name of a field of the struct. -/
def unknownSections (file : File) (rv : FileRecord) : List Section :=
  file.Sections.filter (fun s => s.Name ∉ rv.map (fun f => f.config.Name))

/-- The struct type has no field named `Comment`, or one that is a string: the assignment
`commentField.Set(reflect.ValueOf(section.Comment))` does not panic. -/
def commentSlotOK (elem : SectionRecord) : Bool := (setCommentField elem []).isSome

/-- The section loop of `unmarshalSections` does not panic on the field: the struct type
behind a struct, pointer or slice field has a usable comment slot, and a field of another
kind meets no section of its resolved name. -/
def SectionsField.fillable (file : File) (f : SectionsField) : Prop :=
  match f.Value with
  | .struct v => commentSlotOK v = true
  | .ptr elem _ => commentSlotOK elem = true
  | .slice elem _ => commentSlotOK elem = true
  | .sectionList _ => True
  | .other _ => file.SectionsByName f.config.Name = []

/-- The field loop of `unmarshalKeys` has no case that assigns to the field: its kind is
neither string, nor pointer to string or bool, nor slice of strings (the `default`
branch, the branch "wrong key type", or no branch of the `switch` at all).  The embedded
`KeyList` (a slice of `Key`) and `KeyComments` (a struct) are such fields. -/
def KeyField.unhandled (f : KeyField) : Bool :=
  match f.Value with
  | .other _ => true
  | .keyList _ => true
  | .keyComments _ => true
  | _ => false

/-- The field is an optional scalar: a pointer to a string or a pointer to a bool. -/
def KeyField.isOptionalScalar (f : KeyField) : Bool :=
  match f.Value with
  | .ptrString _ => true
  | .ptrBool _ => true
  | _ => false

/-- What a reader of the token stream that follows only the names knows between two
tokens: no key is being collected; a key name has just been read, so the next token is
its `=`; or a key is being collected and its value so far is `v`. -/
inductive NameState where
  | idle
  | named
  | value (v : Str)
  deriving DecidableEq, Repr

/-- Reference definition for the order of sections and keys, after the words of the spec
for the decode state machine, reduced to names: starting from the names `sk` read so
far, a `SECTION` token adds a section of its name without the brackets, with no keys, at
the end; a `STRING` token read while no key is being collected is a key name and adds
its trimmed literal at the end of the keys of the last section, and the token after it is
its `=`; while a key is being collected, `STRING` and `ASSIGN` tokens extend its value
and a `NEWLINE` ends the collection unless the value ends with a backslash; `EOF` ends
the reading.  Nothing is dropped, merged or reordered. -/
def namesInOrder : NameState → List (Str × List Str) → List Scanned → List (Str × List Str)
  | _, sk, [] => sk
  | .named, sk, _ :: rest => namesInOrder (.value []) sk rest
  | .idle, sk, t :: rest =>
    match t.tok with
    | .EOF => sk
    | .SECTION =>
      namesInOrder .idle (sk ++ [((t.lit.take (t.lit.length - 1)).drop 1, [])]) rest
    | .STRING => namesInOrder .named (addKeyNames sk [TrimSpace t.lit]) rest
    | _ => namesInOrder .idle sk rest
  | .value v, sk, t :: rest =>
    match t.tok with
    | .EOF => sk
    | .SECTION =>
      namesInOrder (.value v) (sk ++ [((t.lit.take (t.lit.length - 1)).drop 1, [])]) rest
    | .STRING => namesInOrder (.value (v ++ TrimSpace t.lit)) sk rest
    | .ASSIGN => namesInOrder (.value (v ++ ['='])) sk rest
    | .NEWLINE =>
      if HasSuffix v ['\\'] then namesInOrder (.value v) sk rest
      else namesInOrder .idle sk rest
    | _ => namesInOrder (.value v) sk rest

/-- The state of the reader of names that goes with a decoder state. -/
def decodeState.nameState (d : decodeState) : NameState :=
  match d.key with
  | none => .idle
  | some p => .value (((d.file.keyAt p).map (fun k => k.Value)).getD [])

/-- The sections `S0` are the first sections of the file under construction and out of
reach of the decoder: the file has a section after them, and the active section and the
active key, when there is one, lie after them. -/
def decodeState.past (S0 : List Section) (d : decodeState) : Prop :=
  S0.length < d.file.Sections.length ∧ d.file.Sections.take S0.length = S0 ∧
  (∀ p ∈ d.key, S0.length ≤ p.1) ∧ (∀ s ∈ d.sect, S0.length ≤ s)

/-! ## Records under `reflect.DeepEqual` -/

/-- A place of a file record that holds a slice or a map: with `inner = none`, the field
with index `field` of the file struct (a list of section structs or the embedded
`SectionList`); with `inner = some (e, k)`, the field with index `k` of the section
struct with index `e` of that field (index `0` for a struct and for a pointer). -/
structure Place where
  field : Nat
  inner : Option (Nat × Nat)
  deriving DecidableEq, Repr

/-- A file record the way `reflect.DeepEqual` compares it (`assert.Equal` in
marshal_test.go and unmarshal_test.go).  The model types hold what the slices and maps
contain, the empty list standing for the nil slice and the map without entries for the
nil map; `allocated` lists, in the order of the fields, the places where the Go value
holds a slice or a map that is empty but not nil (`[]string{}`, `KeyList{}`,
`map[string]string{}`), which `DeepEqual` tells from nil. -/
structure GoRecord where
  contents : FileRecord
  allocated : List Place

/-- The function `Marshal` on a Go record.  The mapper reads a slice through `Len`,
`Index`, `range` and `strings.Join` (marshal.go:46, 60, 136, 146, 169) and the comment
map through a lookup (container.go:10), none of which tells an empty slice or map from
nil: the bytes are those of the contents. -/
def GoRecord.Marshal (g : GoRecord) : Res Str :=
  Systemd.Marshal (.record g.contents)

/-- The function `Unmarshal` on `data` and a fresh record `new(T)` of the type of `g`.
Every slice and map of the fresh record is nil, and the mapper allocates one only as it
stores an entry: `values` starts as nil, is reset to nil and grows by `append`
(unmarshal.go:150-172); section structs, unknown sections and unknown keys are stored
by `reflect.Append` and `append` (unmarshal.go:66, container.go:33, 43); `AddKeyComment`
makes the map for its first entry (container.go:14-17).  So no slice or map of the
record returned is empty but not nil. -/
def GoRecord.UnmarshalFresh (data : Str) (g : GoRecord) : Option (Res GoRecord) :=
  match Systemd.Unmarshal data (.record (FileRecord.zero g.contents)) with
  | some (.ok R) => some (.ok ⟨R, []⟩)
  | some (.fail e) => some (.fail e)
  | none => none

/-! ## Theorems: encoder -/

theorem writeSectionsFrom_succ (i : Nat) (l : List Section) :
    writeSectionsFrom (i + 1) l = (l.map (fun t => '\n' :: writeSection t)).flatten := by
  induction l generalizing i with
  | nil => rfl
  | cons s rest ih => simp [writeSectionsFrom, ih]

/-- C9. Encode at file level: a file without sections encodes to the empty output, and
a file with sections `s :: rest` encodes to the rendering of `s` followed, for each
later section, by one line break and that section's rendering. -/
theorem encode_file_layout :
    Encode ⟨[]⟩ = [] ∧
    ∀ (s : Section) (rest : List Section),
      Encode ⟨s :: rest⟩ =
        writeSection s ++ (rest.map (fun t => ['\n'] ++ writeSection t)).flatten := by
  refine ⟨rfl, ?_⟩
  intro s rest
  simp [Encode, writeFile, writeSectionsFrom, writeSectionsFrom_succ]

theorem writeKeysFrom_succ (i : Nat) (l : List Key) :
    writeKeysFrom (i + 1) l =
      (l.map (fun k => (if k.Comment ≠ [] then ['\n'] else []) ++ writeComment k.Comment
        ++ (k.Name ++ ['='] ++ k.Value ++ ['\n']))).flatten := by
  induction l generalizing i with
  | nil => rfl
  | cons k rest ih => simp [writeKeysFrom, writeKey, ih]

/-- C10. Encode of one section: the comment block, the header line, then the keys in
order; the first key is written without a preceding blank line, every later key is
preceded by a blank line exactly when its comment is non-empty, and each key is its
comment block followed by the line `name=value`. -/
theorem encode_section_layout :
    (∀ (name comment : Str),
      writeSection ⟨name, comment, []⟩ = writeComment comment ++ (['['] ++ name ++ [']', '\n'])) ∧
    (∀ (name comment : Str) (k : Key) (rest : List Key),
      writeSection ⟨name, comment, k :: rest⟩ =
        writeComment comment ++ (['['] ++ name ++ [']', '\n'])
          ++ (writeComment k.Comment ++ (k.Name ++ ['='] ++ k.Value ++ ['\n']))
          ++ (rest.map (fun r =>
                (if r.Comment ≠ [] then ['\n'] else [])
                  ++ writeComment r.Comment ++ (r.Name ++ ['='] ++ r.Value ++ ['\n']))).flatten) ∧
    (∀ (name : Str), writeKey ⟨name, [], []⟩ = name ++ ['=', '\n']) := by
  refine ⟨?_, ?_, ?_⟩
  · intro name comment
    simp [writeSection, writeKeysFrom]
  · intro name comment k rest
    simp [writeSection, writeKeysFrom, writeKey, writeKeysFrom_succ]
  · intro name
    simp [writeKey, writeComment]

/-! ## Theorems: the decode loop terminates -/

theorem decodeStep_nil (d : decodeState) : decodeStep d [] = .done d.closeKey.file := rfl

theorem addString_length {d d1 : decodeState} {pos : Position} {lit : Str}
    {sc sc1 : List Scanned} (h : d.addString pos lit sc = .ok (d1, sc1)) :
    sc1.length ≤ sc.length := by
  unfold decodeState.addString at h
  cases hs : d.sect with
  | none => simp [hs] at h
  | some si =>
    cases hk : d.key with
    | none =>
      cases sc with
      | nil => simp [hs, hk, Scan, Scanned.eof] at h
      | cons a rest =>
        simp only [hs, hk, Scan] at h
        split at h
        · simp at h
        · simp at h; simp [← h.2]
    | some p => simp [hs, hk] at h; simp [← h.2]

theorem decodeStep_next_length {d d1 : decodeState} {sc sc1 : List Scanned}
    (h : decodeStep d sc = .next d1 sc1) : sc1.length < sc.length := by
  cases sc with
  | nil => simp [decodeStep_nil] at h
  | cons t rest =>
    simp only [decodeStep, Scan] at h
    cases ht : t.tok <;> simp only [ht] at h
    · simp at h; simp [← h.2]
    · simp at h
    · split at h <;> simp at h; simp [← h.2]
    · split at h <;> simp at h; simp [← h.2]
    · split at h
      · simp at h
      · rename_i d1' sc2 heq
        simp at h
        obtain ⟨-, rfl⟩ := h
        have := addString_length heq
        simp; omega
    · split at h
      · split at h <;> simp at h <;> simp [← h.2]
      · simp at h; simp [← h.2]
    · split at h <;> simp at h <;> simp [← h.2]

theorem decodeLoop_some (fuel : Nat) (d : decodeState) (sc : List Scanned)
    (h : sc.length < fuel) : ∃ r, decodeLoop fuel d sc = some r := by
  induction fuel generalizing d sc with
  | zero => omega
  | succ n ih =>
    simp only [decodeLoop]
    cases hs : decodeStep d sc with
    | next d1 sc1 =>
      have := decodeStep_next_length hs
      exact ih d1 sc1 (by omega)
    | done f => exact ⟨_, rfl⟩
    | fail e => exact ⟨_, rfl⟩

theorem decodeLoop_mono (fuel k : Nat) (d : decodeState) (sc : List Scanned) (r : Res File)
    (h : decodeLoop fuel d sc = some r) : decodeLoop (fuel + k) d sc = some r := by
  induction fuel generalizing d sc with
  | zero => simp [decodeLoop] at h
  | succ n ih =>
    have : n + 1 + k = (n + k) + 1 := by omega
    rw [this]
    simp only [decodeLoop] at h ⊢
    cases hs : decodeStep d sc with
    | next d1 sc1 => rw [hs] at h; exact ih d1 sc1 h
    | done f => rw [hs] at h; exact h
    | fail e => rw [hs] at h; exact h

theorem decodeLoop_eq (fuel : Nat) (d : decodeState) (sc : List Scanned)
    (h : sc.length < fuel) : decodeLoop fuel d sc = decodeLoop (sc.length + 1) d sc := by
  obtain ⟨r, hr⟩ := decodeLoop_some (sc.length + 1) d sc (by omega)
  have := decodeLoop_mono (sc.length + 1) (fuel - (sc.length + 1)) d sc r hr
  rw [hr, ← this]
  congr 1
  omega

theorem decodeFrom_step (d : decodeState) (sc : List Scanned) :
    decodeFrom d sc =
      match decodeStep d sc with
      | .next d1 sc1 => decodeFrom d1 sc1
      | .done file => some (.ok file)
      | .fail e => some (.fail e) := by
  unfold decodeFrom
  simp only [decodeLoop]
  cases hs : decodeStep d sc with
  | next d1 sc1 =>
    exact decodeLoop_eq _ _ _ (decodeStep_next_length hs)
  | done f => rfl
  | fail e => rfl

/-! ## Theorems: single steps of the decoder -/

theorem keyAt_modifyKey (file : File) (p : Nat × Nat) (f : Key → Key) :
    (file.modifyKey p f).keyAt p = (file.keyAt p).map f := by
  simp only [File.keyAt, File.modifyKey]
  simp only [List.get?_eq_getElem?, List.getElem?_modify, if_true]
  cases h : file.Sections[p.1]? with
  | none => simp
  | some s => simp [List.getElem?_modify]

theorem keyAt_append (l : List Section) (s : Section) (p : Nat × Nat) (k : Key)
    (h : File.keyAt ⟨l⟩ p = some k) : File.keyAt ⟨l ++ [s]⟩ p = some k := by
  simp only [File.keyAt, List.get?_eq_getElem?] at h ⊢
  cases hl : l[p.1]? with
  | none => simp [hl] at h
  | some s0 =>
    have hlt : p.1 < l.length := by
      by_contra hc
      rw [List.getElem?_eq_none (by omega)] at hl
      cases hl
    rw [List.getElem?_append_left hlt, hl]
    simpa [hl] using h

theorem addComment_eq {d d1 : decodeState} {lit : Str} (h : d.addComment lit = some d1) :
    lit ≠ [] ∧ d1 = { d with comment :=
      (if d.comment ≠ [] then d.comment ++ ['\n'] else d.comment) ++ TrimSpace (lit.drop 1) } := by
  unfold decodeState.addComment sliceStr at h
  by_cases hl : 1 ≤ lit.length
  · simp only [hl, List.length_take, and_self, le_refl, if_true, min_self] at h
    injection h with h
    rw [List.take_length] at h
    refine ⟨?_, h.symm⟩
    intro hc; simp [hc] at hl
  · simp [hl] at h

theorem addComment_some (d : decodeState) {lit : Str} (h : lit ≠ []) :
    d.addComment lit = some { d with comment :=
      (if d.comment ≠ [] then d.comment ++ ['\n'] else d.comment) ++ TrimSpace (lit.drop 1) } := by
  unfold decodeState.addComment sliceStr
  have : 1 ≤ lit.length := by
    cases lit with
    | nil => exact absurd rfl h
    | cons c cs => simp
  simp [this]

theorem addSection_eq {d d1 : decodeState} {pos : Position} {lit : Str}
    (h : d.addSection pos lit = .ok d1) :
    HasPrefix lit ['['] = true ∧ HasSuffix lit [']'] = true ∧
    d1 = { d with
      file := ⟨d.file.Sections ++ [⟨(lit.take (lit.length - 1)).drop 1, d.comment, []⟩]⟩
      sect := some d.file.Sections.length
      comment := [] } := by
  unfold decodeState.addSection sliceStr at h
  by_cases hp : HasPrefix lit ['['] = true
  · by_cases hsuf : HasSuffix lit [']'] = true
    · simp only [hp, hsuf, Bool.not_true] at h
      by_cases hl : 1 ≤ lit.length - 1 ∧ lit.length - 1 ≤ lit.length
      · rw [if_pos hl] at h
        simp only [Bool.false_eq_true, if_false] at h
        injection h with h
        exact ⟨hp, hsuf, h.symm⟩
      · rw [if_neg hl] at h
        simp at h
    · simp [hp, hsuf] at h
  · simp [hp] at h

theorem bracket_length {lit : Str} (hp : HasPrefix lit ['['] = true)
    (hsuf : HasSuffix lit [']'] = true) : 2 ≤ lit.length := by
  match lit, hp, hsuf with
  | [], hp, _ => simp [HasPrefix] at hp
  | [c], hp, hsuf =>
    simp [HasPrefix, HasSuffix] at hp hsuf
    subst hp
    exact absurd hsuf (by decide)
  | _ :: _ :: _, _, _ => simp

theorem addSection_ok (d : decodeState) (pos : Position) {lit : Str}
    (hp : HasPrefix lit ['['] = true) (hsuf : HasSuffix lit [']'] = true) :
    d.addSection pos lit = .ok { d with
      file := ⟨d.file.Sections ++ [⟨(lit.take (lit.length - 1)).drop 1, d.comment, []⟩]⟩
      sect := some d.file.Sections.length
      comment := [] } := by
  have := bracket_length hp hsuf
  unfold decodeState.addSection sliceStr
  have h2 : 1 ≤ lit.length - 1 ∧ lit.length - 1 ≤ lit.length := by omega
  rw [if_pos h2]
  simp only [hp, hsuf, Bool.not_true, Bool.false_eq_true, if_false]
  rfl


theorem decodeStep_comment {t : Scanned} (ht : t.tok = .COMMENT) (d : decodeState)
    (rest : List Scanned) :
    decodeStep d (t :: rest) =
      match d.addComment t.lit with
      | none => .fail .panic
      | some d1 => .next d1 rest := by
  simp [decodeStep, Scan, ht]

theorem decodeStep_assign {t : Scanned} (ht : t.tok = .ASSIGN) (d : decodeState)
    (rest : List Scanned) :
    decodeStep d (t :: rest) =
      match d.key with
      | some p => .next { d with file := d.file.modifyKey p (fun k => { k with Value := k.Value ++ ['='] }) } rest
      | none => .next d rest := by
  simp [decodeStep, Scan, ht]

theorem decodeStep_eof {t : Scanned} (ht : t.tok = .EOF) (d : decodeState)
    (rest : List Scanned) : decodeStep d (t :: rest) = .done d.closeKey.file := by
  simp [decodeStep, Scan, ht]

theorem decodeStep_newline {t : Scanned} (ht : t.tok = .NEWLINE) (d : decodeState)
    (rest : List Scanned) :
    decodeStep d (t :: rest) =
      match d.key with
      | some p =>
        if !HasSuffix (((d.file.keyAt p).map (fun k => k.Value)).getD []) ['\\'] then
          .next d.closeKey rest
        else .next d rest
      | none => .next d rest := by
  simp [decodeStep, Scan, ht]

theorem decodeStep_string {t : Scanned} (ht : t.tok = .STRING) (d : decodeState)
    (rest : List Scanned) :
    decodeStep d (t :: rest) =
      match d.addString t.pos t.lit rest with
      | .fail e => .fail e
      | .ok (d1, scanner2) => .next d1 scanner2 := by
  simp [decodeStep, Scan, ht]

theorem decodeStep_section {t : Scanned} (ht : t.tok = .SECTION) (d : decodeState)
    (rest : List Scanned) :
    decodeStep d (t :: rest) =
      match d.addSection t.pos t.lit with
      | .fail e => .fail e
      | .ok d1 => .next d1 rest := by
  simp [decodeStep, Scan, ht]

theorem decodeStep_illegal {t : Scanned} (ht : t.tok = .ILLEGAL) (d : decodeState)
    (rest : List Scanned) : decodeStep d (t :: rest) = .next d rest := by
  simp [decodeStep, Scan, ht]

theorem addString_active {d : decodeState} {si : Nat} {p : Nat × Nat} (hs : d.sect = some si)
    (hk : d.key = some p) (pos : Position) (lit : Str) (sc : List Scanned) :
    d.addString pos lit sc =
      .ok ({ d with file := d.file.modifyKey p (fun k => { k with Value := k.Value ++ TrimSpace lit }) }, sc) := by
  simp [decodeState.addString, hs, hk]

theorem addString_nosect {d : decodeState} (hs : d.sect = none) (pos : Position) (lit : Str)
    (sc : List Scanned) :
    d.addString pos lit sc = .fail (.error (.keyOutsideSection pos lit)) := by
  simp [decodeState.addString, hs]

theorem addString_idle {d : decodeState} {si : Nat} (hs : d.sect = some si)
    (hk : d.key = none) (pos : Position) (lit : Str) (sc : List Scanned) :
    d.addString pos lit sc =
      if (Scan sc).1.tok ≠ Token.ASSIGN then
        .fail (.error (.keyNotFollowedByAssign (Scan sc).1.pos (Scan sc).1.tok (Scan sc).1.lit))
      else
        .ok ({ d with
              file := ⟨d.file.Sections.modify
                (fun s => { s with Keys := s.Keys ++ [⟨TrimSpace lit, [], []⟩] }) si⟩
              key := some (si, ((d.file.Sections.get? si).map (fun s => s.Keys.length)).getD 0) },
             (Scan sc).2) := by
  simp only [decodeState.addString, hs, hk]
  split <;> rfl

/-- A step taken while a key is active and after which a key is still active consumes
one token and appends that token's fragment to the value of the active key. -/
theorem decodeStep_active {d d1 : decodeState} {sc sc1 : List Scanned} {p : Nat × Nat} {k : Key}
    (hk : d.key = some p) (hat : d.file.keyAt p = some k) (hs : d.sect ≠ none)
    (h : decodeStep d sc = .next d1 sc1) (h1 : d1.key ≠ none) :
    ∃ t, sc = t :: sc1 ∧ d1.key = some p ∧ d1.sect ≠ none ∧
      d1.file.keyAt p = some { k with Value := k.Value ++ valueFragment t } := by
  cases sc with
  | nil => simp [decodeStep_nil] at h
  | cons t rest =>
    refine ⟨t, ?_⟩
    cases ht : t.tok
    · rw [decodeStep_illegal ht] at h
      simp at h
      obtain ⟨rfl, rfl⟩ := h
      simp [hk, hat, hs, valueFragment, ht]
    · rw [decodeStep_eof ht] at h
      simp at h
    · rw [decodeStep_comment ht] at h
      cases hc : d.addComment t.lit with
      | none => simp [hc] at h
      | some d2 =>
        simp [hc] at h
        obtain ⟨rfl, rfl⟩ := h
        obtain ⟨-, rfl⟩ := addComment_eq hc
        simp [hk, hat, hs, valueFragment, ht]
    · rw [decodeStep_section ht] at h
      cases hc : d.addSection t.pos t.lit with
      | fail e => simp [hc] at h
      | ok d2 =>
        simp [hc] at h
        obtain ⟨rfl, rfl⟩ := h
        obtain ⟨-, -, rfl⟩ := addSection_eq hc
        simp [hk, valueFragment, ht]
        exact keyAt_append _ _ _ _ hat
    · rw [decodeStep_string ht] at h
      obtain ⟨si, hsi⟩ := Option.ne_none_iff_exists'.mp hs
      rw [addString_active hsi hk] at h
      simp at h
      obtain ⟨rfl, rfl⟩ := h
      simp [hk, hs, valueFragment, ht, keyAt_modifyKey, hat]
    · rw [decodeStep_newline ht] at h
      simp only [hk] at h
      split at h
      · simp at h
        obtain ⟨rfl, rfl⟩ := h
        simp [decodeState.closeKey, hk] at h1
      · simp at h
        obtain ⟨rfl, rfl⟩ := h
        simp [hk, hat, hs, valueFragment, ht]
    · rw [decodeStep_assign ht] at h
      simp only [hk] at h
      simp at h
      obtain ⟨rfl, rfl⟩ := h
      simp [hk, hs, valueFragment, ht, keyAt_modifyKey, hat]

/-! ## Theorems: the pointer invariant -/

theorem init_WF : decodeState.init.WF := by decide

theorem modifyKey_lengths (file : File) (p : Nat × Nat) (f : Key → Key) (i : Nat) :
    ((file.modifyKey p f).Sections.get? i).map (fun s => s.Keys.length) =
      (file.Sections.get? i).map (fun s => s.Keys.length) := by
  simp only [File.modifyKey, List.get?_eq_getElem?, List.getElem?_modify]
  cases h : file.Sections[i]? with
  | none => simp
  | some s =>
    by_cases hi : p.1 = i
    · simp [hi]
    · simp [hi]

theorem modifyKey_length (file : File) (p : Nat × Nat) (f : Key → Key) :
    (file.modifyKey p f).Sections.length = file.Sections.length := by
  simp [File.modifyKey]

theorem WF_modifyKey {d : decodeState} (h : d.WF) (p : Nat × Nat) (f : Key → Key) :
    ({ d with file := d.file.modifyKey p f } : decodeState).WF := by
  obtain ⟨h1, h2⟩ := h
  refine ⟨?_, ?_⟩
  · simpa [modifyKey_length] using h1
  · intro q hq
    simp only [modifyKey_lengths]
    exact h2 q hq

theorem WF_closeKey {d : decodeState} (h : d.WF) : d.closeKey.WF := by
  unfold decodeState.closeKey
  cases hk : d.key with
  | none => simpa [hk] using h
  | some p =>
    simp only [hk]
    refine ⟨?_, ?_⟩
    · simpa [modifyKey_length] using h.1
    · intro q hq
      simp at hq

theorem WF_sect_of_nonempty {d : decodeState} (h : d.WF) {si : Nat} (hs : d.sect = some si) :
    si + 1 = d.file.Sections.length := by
  have h1 := h.1
  rw [hs] at h1
  by_cases h0 : d.file.Sections.length = 0
  · simp [h0] at h1
  · simp [h0] at h1
    omega

theorem decodeStep_WF {d d1 : decodeState} {sc sc1 : List Scanned} (hwf : d.WF)
    (h : decodeStep d sc = .next d1 sc1) : d1.WF := by
  cases sc with
  | nil => simp [decodeStep_nil] at h
  | cons t rest =>
    cases ht : t.tok
    · rw [decodeStep_illegal ht] at h
      simp at h
      obtain ⟨rfl, rfl⟩ := h
      exact hwf
    · rw [decodeStep_eof ht] at h
      simp at h
    · rw [decodeStep_comment ht] at h
      cases hc : d.addComment t.lit with
      | none => simp [hc] at h
      | some d2 =>
        simp [hc] at h
        obtain ⟨rfl, rfl⟩ := h
        obtain ⟨-, rfl⟩ := addComment_eq hc
        exact hwf
    · rw [decodeStep_section ht] at h
      cases hc : d.addSection t.pos t.lit with
      | fail e => simp [hc] at h
      | ok d2 =>
        simp [hc] at h
        obtain ⟨rfl, rfl⟩ := h
        obtain ⟨-, -, rfl⟩ := addSection_eq hc
        refine ⟨by simp, ?_⟩
        intro q hq
        have := hwf.2 q hq
        simp only [List.get?_eq_getElem?] at this ⊢
        cases hl : d.file.Sections[q.1]? with
        | none => simp [hl] at this
        | some s0 =>
          have hlt : q.1 < d.file.Sections.length := by
            by_contra hc
            rw [List.getElem?_eq_none (by omega)] at hl
            cases hl
          rw [List.getElem?_append_left hlt, ← this, hl]
    · rw [decodeStep_string ht] at h
      cases hs : d.sect with
      | none => simp [addString_nosect hs] at h
      | some si =>
        cases hk : d.key with
        | some p =>
          rw [addString_active hs hk] at h
          simp at h
          obtain ⟨rfl, rfl⟩ := h
          exact WF_modifyKey hwf _ _
        | none =>
          rw [addString_idle hs hk] at h
          by_cases ha : (Scan rest).1.tok ≠ Token.ASSIGN
          · rw [if_pos ha] at h
            simp at h
          · rw [if_neg ha] at h
            simp at h
            obtain ⟨rfl, rfl⟩ := h
            have hlen := WF_sect_of_nonempty hwf hs
            refine ⟨?_, ?_⟩
            · simpa using hwf.1
            · intro q hq
              simp at hq
              subst hq
              have hlt : si < d.file.Sections.length := by omega
              simp [List.getElem?_modify, List.getElem?_eq_getElem hlt]
    · rw [decodeStep_newline ht] at h
      cases hk : d.key with
      | none =>
        simp [hk] at h
        obtain ⟨rfl, rfl⟩ := h
        exact hwf
      | some p =>
        simp only [hk] at h
        split at h
        · simp at h
          obtain ⟨rfl, rfl⟩ := h
          exact WF_closeKey hwf
        · simp at h
          obtain ⟨rfl, rfl⟩ := h
          exact hwf
    · rw [decodeStep_assign ht] at h
      cases hk : d.key with
      | none =>
        simp [hk] at h
        obtain ⟨rfl, rfl⟩ := h
        exact hwf
      | some p =>
        simp [hk] at h
        obtain ⟨rfl, rfl⟩ := h
        have := WF_modifyKey hwf p (fun k => { k with Value := k.Value ++ ['='] })
        simpa [hk] using this

theorem iterate_WF (n : Nat) : ∀ {d d1 : decodeState} {sc sc1 : List Scanned}, d.WF →
    iterate n d sc = some (d1, sc1) → d1.WF := by
  induction n with
  | zero =>
    intro d d1 sc sc1 hwf h
    simp [iterate] at h
    rw [← h.1]; exact hwf
  | succ n ih =>
    intro d d1 sc sc1 hwf h
    simp only [iterate] at h
    cases hs : decodeStep d sc with
    | next d2 sc2 =>
      rw [hs] at h
      exact ih (decodeStep_WF hwf hs) h
    | done f => simp [hs] at h
    | fail e => simp [hs] at h

/-! ## Theorems: value accumulation -/

/-- Reading a key name: from a state without active key, a step on a `STRING` token that
continues has consumed the name and the `ASSIGN` after it and has opened a key with that
name and an empty value. -/
theorem decodeStep_openKey {d d1 : decodeState} {name : Scanned} {sc sc1 : List Scanned}
    (hwf : d.WF) (hk : d.key = none) (hn : name.tok = .STRING)
    (h : decodeStep d (name :: sc) = .next d1 sc1) :
    ∃ assign p, sc = assign :: sc1 ∧ assign.tok = .ASSIGN ∧ d1.key = some p ∧ d1.sect ≠ none ∧
      d1.comment = d.comment ∧
      d1.file.keyAt p = some ⟨TrimSpace name.lit, [], []⟩ := by
  rw [decodeStep_string hn] at h
  cases hs : d.sect with
  | none => simp [addString_nosect hs] at h
  | some si =>
    rw [addString_idle hs hk] at h
    by_cases ha : (Scan sc).1.tok ≠ Token.ASSIGN
    · rw [if_pos ha] at h
      simp at h
    · rw [if_neg ha] at h
      simp at h
      obtain ⟨rfl, rfl⟩ := h
      cases sc with
      | nil => simp [Scan, Scanned.eof] at ha
      | cons a rest =>
        simp only [Scan, ne_eq, not_not] at ha
        have hlen := WF_sect_of_nonempty hwf hs
        have hlt : si < d.file.Sections.length := by omega
        refine ⟨a, _, rfl, ha, rfl, by simp [hs], rfl, ?_⟩
        simp [File.keyAt, List.getElem?_modify, List.getElem?_eq_getElem hlt]

theorem iterate_succ_of_next {d d1 : decodeState} {sc sc1 : List Scanned}
    (h : decodeStep d sc = .next d1 sc1) (n : Nat) :
    iterate (n + 1) d sc = iterate n d1 sc1 := by
  simp [iterate, h]

theorem iterate_active (n : Nat) : ∀ {d d1 : decodeState} {sc sc1 : List Scanned}
    {p : Nat × Nat} {k : Key}, d.key = some p → d.file.keyAt p = some k → d.sect ≠ none →
    iterate n d sc = some (d1, sc1) →
    (∀ m dm scm, m ≤ n → iterate m d sc = some (dm, scm) → dm.key ≠ none) →
    ∃ toks, sc = toks ++ sc1 ∧ toks.length = n ∧ d1.key = some p ∧
      d1.file.keyAt p = some { k with Value := k.Value ++ (toks.map valueFragment).flatten } := by
  induction n with
  | zero =>
    intro d d1 sc sc1 p k hk hat hs h _
    simp [iterate] at h
    obtain ⟨rfl, rfl⟩ := h
    exact ⟨[], by simp, rfl, hk, by simpa using hat⟩
  | succ n ih =>
    intro d d1 sc sc1 p k hk hat hs h hact
    cases hstep : decodeStep d sc with
    | done f => simp [iterate, hstep] at h
    | fail e => simp [iterate, hstep] at h
    | next d2 sc2 =>
      rw [iterate_succ_of_next hstep] at h
      have h2 : d2.key ≠ none :=
        hact 1 d2 sc2 (by omega) (by simp [iterate, hstep])
      obtain ⟨t, rfl, hk2, hs2, hat2⟩ := decodeStep_active hk hat hs hstep h2
      have hact2 : ∀ m dm scm, m ≤ n → iterate m d2 sc2 = some (dm, scm) → dm.key ≠ none := by
        intro m dm scm hm hit
        exact hact (m + 1) dm scm (by omega) (by rw [iterate_succ_of_next hstep]; exact hit)
      obtain ⟨toks, rfl, hlen, hk1, hat1⟩ := ih hk2 hat2 hs2 h hact2
      refine ⟨t :: toks, by simp, by simp [hlen], hk1, ?_⟩
      simpa [List.append_assoc] using hat1

theorem closeKey_keyAt {d : decodeState} {p : Nat × Nat} {k : Key} (hk : d.key = some p)
    (hat : d.file.keyAt p = some k) :
    d.closeKey.file.keyAt p =
      some { k with Comment := d.comment, Value := ReplaceAll k.Value '\\' [' '] } := by
  simp [decodeState.closeKey, hk, keyAt_modifyKey, hat]

/-- C4. Value accumulation: take any token stream and any point of its decoding at which
no key is active and the next token is a `STRING` (a key name).  If the loop then runs
`n + 1` more iterations with a key active after each of them, the first iteration has
read the name and the `ASSIGN` behind it, the other `n` iterations have read one token
each, and the key now holds the concatenation, in order and without separator, of the
trimmed literal of every `STRING` token and one `=` for every `ASSIGN` token among those
`n` tokens; closing the key at that point stores that text with its backslashes
replaced. -/
theorem key_value_accumulates (ts : List Scanned) (m n : Nat) (d0 d1 : decodeState)
    (name : Scanned) (sc sc1 : List Scanned)
    (hreach : iterate m decodeState.init ts = some (d0, name :: sc))
    (hname : name.tok = Token.STRING) (hidle : d0.key = none)
    (hrun : iterate (n + 1) d0 (name :: sc) = some (d1, sc1))
    (hactive : ∀ j dj scj, 1 ≤ j → j ≤ n + 1 →
      iterate j d0 (name :: sc) = some (dj, scj) → dj.key ≠ none) :
    ∃ assign toks p, sc = assign :: (toks ++ sc1) ∧ assign.tok = Token.ASSIGN ∧
      toks.length = n ∧ d1.key = some p ∧
      d1.file.keyAt p = some ⟨TrimSpace name.lit, (toks.map valueFragment).flatten, []⟩ ∧
      d1.closeKey.file.keyAt p =
        some ⟨TrimSpace name.lit, ReplaceAll (toks.map valueFragment).flatten '\\' [' '],
          d1.comment⟩ := by
  have hwf : d0.WF := iterate_WF m init_WF hreach
  cases hstep : decodeStep d0 (name :: sc) with
  | done f => simp [iterate, hstep] at hrun
  | fail e => simp [iterate, hstep] at hrun
  | next d2 sc2 =>
    rw [iterate_succ_of_next hstep] at hrun
    obtain ⟨assign, p, rfl, hassign, hk2, hs2, -, hat2⟩ := decodeStep_openKey hwf hidle hname hstep
    have hact2 : ∀ j dj scj, j ≤ n → iterate j d2 sc2 = some (dj, scj) → dj.key ≠ none := by
      intro j dj scj hj hit
      exact hactive (j + 1) dj scj (by omega) (by omega)
        (by rw [iterate_succ_of_next hstep]; exact hit)
    obtain ⟨toks, rfl, hlen, hk1, hat1⟩ := iterate_active n hk2 hat2 hs2 hrun hact2
    refine ⟨assign, toks, p, rfl, hassign, hlen, hk1, by simpa using hat1, ?_⟩
    rw [closeKey_keyAt hk1 hat1]
    simp

theorem active_of_all {n : Nat} {d : decodeState} {sc : List Scanned}
    (h : ∀ j, 1 ≤ j → j ≤ n + 1 → (iterate j d sc).all (fun r => r.1.key.isSome) = true) :
    ∀ j dj scj, 1 ≤ j → j ≤ n + 1 → iterate j d sc = some (dj, scj) → dj.key ≠ none := by
  intro j dj scj h1 h2 hit
  have := h j h1 h2
  rw [hit] at this
  simp at this
  intro hc
  simp [hc] at this

/-- Witness for C4: the stream of the directive
`Environment=ETCD_CA_FILE=/path/to/CA.pem` inside `[Service]`. -/
theorem key_value_accumulates_witness :
    decode [⟨⟨1, 1⟩, .SECTION, "[Service]".toList⟩, ⟨⟨1, 10⟩, .NEWLINE, "\n".toList⟩,
        ⟨⟨2, 1⟩, .STRING, "Environment".toList⟩, ⟨⟨2, 12⟩, .ASSIGN, "=".toList⟩,
        ⟨⟨2, 13⟩, .STRING, "ETCD_CA_FILE".toList⟩, ⟨⟨2, 25⟩, .ASSIGN, "=".toList⟩,
        ⟨⟨2, 26⟩, .STRING, "/path/to/CA.pem".toList⟩, ⟨⟨2, 41⟩, .EOF, []⟩]
      = some (.ok ⟨[⟨"Service".toList, [],
          [⟨"Environment".toList, "ETCD_CA_FILE=/path/to/CA.pem".toList, []⟩]⟩]⟩) ∧
    ∃ assign toks p,
      ([⟨⟨2, 12⟩, .ASSIGN, "=".toList⟩,
        ⟨⟨2, 13⟩, .STRING, "ETCD_CA_FILE".toList⟩, ⟨⟨2, 25⟩, .ASSIGN, "=".toList⟩,
        ⟨⟨2, 26⟩, .STRING, "/path/to/CA.pem".toList⟩, ⟨⟨2, 41⟩, .EOF, []⟩] : List Scanned)
        = assign :: (toks ++ [⟨⟨2, 41⟩, .EOF, []⟩]) ∧ assign.tok = Token.ASSIGN ∧
      toks.length = 3 ∧
      (⟨[], some 0, some (0, 0), ⟨[⟨"Service".toList, [],
          [⟨"Environment".toList, "ETCD_CA_FILE=/path/to/CA.pem".toList, []⟩]⟩]⟩⟩ : decodeState).key
        = some p ∧
      File.keyAt ⟨[⟨"Service".toList, [],
          [⟨"Environment".toList, "ETCD_CA_FILE=/path/to/CA.pem".toList, []⟩]⟩]⟩ p
        = some ⟨TrimSpace "Environment".toList, (toks.map valueFragment).flatten, []⟩ ∧
      (decodeState.closeKey ⟨[], some 0, some (0, 0), ⟨[⟨"Service".toList, [],
          [⟨"Environment".toList, "ETCD_CA_FILE=/path/to/CA.pem".toList, []⟩]⟩]⟩⟩).file.keyAt p
        = some ⟨TrimSpace "Environment".toList,
            ReplaceAll (toks.map valueFragment).flatten '\\' [' '], []⟩ :=
  ⟨by decide,
   key_value_accumulates
    [⟨⟨1, 1⟩, .SECTION, "[Service]".toList⟩, ⟨⟨1, 10⟩, .NEWLINE, "\n".toList⟩,
        ⟨⟨2, 1⟩, .STRING, "Environment".toList⟩, ⟨⟨2, 12⟩, .ASSIGN, "=".toList⟩,
        ⟨⟨2, 13⟩, .STRING, "ETCD_CA_FILE".toList⟩, ⟨⟨2, 25⟩, .ASSIGN, "=".toList⟩,
        ⟨⟨2, 26⟩, .STRING, "/path/to/CA.pem".toList⟩, ⟨⟨2, 41⟩, .EOF, []⟩]
    2 3
    ⟨[], some 0, none, ⟨[⟨"Service".toList, [], []⟩]⟩⟩
    ⟨[], some 0, some (0, 0), ⟨[⟨"Service".toList, [],
          [⟨"Environment".toList, "ETCD_CA_FILE=/path/to/CA.pem".toList, []⟩]⟩]⟩⟩
    ⟨⟨2, 1⟩, .STRING, "Environment".toList⟩
    [⟨⟨2, 12⟩, .ASSIGN, "=".toList⟩,
        ⟨⟨2, 13⟩, .STRING, "ETCD_CA_FILE".toList⟩, ⟨⟨2, 25⟩, .ASSIGN, "=".toList⟩,
        ⟨⟨2, 26⟩, .STRING, "/path/to/CA.pem".toList⟩, ⟨⟨2, 41⟩, .EOF, []⟩]
    [⟨⟨2, 41⟩, .EOF, []⟩]
    (by decide) (by decide) (by decide) (by decide) (active_of_all (by decide))⟩

/-! ## Theorems: decode errors -/

theorem decodeStep_next_suffix {d d1 : decodeState} {sc sc1 : List Scanned}
    (h : decodeStep d sc = .next d1 sc1) : ∃ pre, sc = pre ++ sc1 := by
  cases sc with
  | nil => simp [decodeStep_nil] at h
  | cons t rest =>
    cases ht : t.tok
    · rw [decodeStep_illegal ht] at h
      simp at h
      exact ⟨[t], by simp [h.2]⟩
    · rw [decodeStep_eof ht] at h
      simp at h
    · rw [decodeStep_comment ht] at h
      cases hc : d.addComment t.lit with
      | none => simp [hc] at h
      | some d2 =>
        simp [hc] at h
        exact ⟨[t], by simp [h.2]⟩
    · rw [decodeStep_section ht] at h
      cases hc : d.addSection t.pos t.lit with
      | fail e => simp [hc] at h
      | ok d2 =>
        simp [hc] at h
        exact ⟨[t], by simp [h.2]⟩
    · rw [decodeStep_string ht] at h
      cases hs : d.sect with
      | none => simp [addString_nosect hs] at h
      | some si =>
        cases hk : d.key with
        | some p =>
          rw [addString_active hs hk] at h
          simp at h
          exact ⟨[t], by simp [h.2]⟩
        | none =>
          rw [addString_idle hs hk] at h
          by_cases ha : (Scan rest).1.tok ≠ Token.ASSIGN
          · rw [if_pos ha] at h
            simp at h
          · rw [if_neg ha] at h
            simp at h
            cases rest with
            | nil => simp [Scan, Scanned.eof] at ha
            | cons a rest2 =>
              simp only [Scan] at h
              exact ⟨[t, a], by simp [h.2]⟩
    · rw [decodeStep_newline ht] at h
      cases hk : d.key with
      | none =>
        simp [hk] at h
        exact ⟨[t], by simp [h.2]⟩
      | some p =>
        simp only [hk] at h
        split at h <;> simp at h <;> exact ⟨[t], by simp [h.2]⟩
    · rw [decodeStep_assign ht] at h
      cases hk : d.key with
      | none =>
        simp [hk] at h
        exact ⟨[t], by simp [h.2]⟩
      | some p =>
        simp [hk] at h
        exact ⟨[t], by simp [h.2]⟩

/-- Every iteration either fails with one of the three decode errors, exactly in the
situations listed by `meetsDecodeError`, or continues, or returns the file. -/
theorem decodeStep_cases (d : decodeState) (sc : List Scanned)
    (hc : ∀ t ∈ sc, t.tok = Token.COMMENT → t.lit ≠ []) :
    (meetsDecodeError d sc ∧ ∃ e, decodeStep d sc = .fail (.error e)) ∨
    (¬ meetsDecodeError d sc ∧
      ((∃ d1 sc1, decodeStep d sc = .next d1 sc1) ∨ ∃ f, decodeStep d sc = .done f)) := by
  cases sc with
  | nil =>
    right
    refine ⟨by simp [meetsDecodeError, Scan, Scanned.eof], Or.inr ⟨_, decodeStep_nil d⟩⟩
  | cons t rest =>
    cases ht : t.tok
    · right
      exact ⟨by simp [meetsDecodeError, Scan, ht], Or.inl ⟨_, _, decodeStep_illegal ht d rest⟩⟩
    · right
      exact ⟨by simp [meetsDecodeError, Scan, ht], Or.inr ⟨_, decodeStep_eof ht d rest⟩⟩
    · right
      refine ⟨by simp [meetsDecodeError, Scan, ht], Or.inl ?_⟩
      rw [decodeStep_comment ht, addComment_some d (hc t (by simp) ht)]
      exact ⟨_, _, rfl⟩
    · by_cases hb : HasPrefix t.lit ['['] = true ∧ HasSuffix t.lit [']'] = true
      · right
        refine ⟨by simp [meetsDecodeError, Scan, ht, hb], Or.inl ?_⟩
        rw [decodeStep_section ht, addSection_ok d t.pos hb.1 hb.2]
        exact ⟨_, _, rfl⟩
      · left
        refine ⟨by simp only [meetsDecodeError, Scan]; exact Or.inl ⟨ht, hb⟩, ?_⟩
        rw [decodeStep_section ht]
        unfold decodeState.addSection
        by_cases hp : HasPrefix t.lit ['['] = true
        · have hsuf : ¬ HasSuffix t.lit [']'] = true := fun h => hb ⟨hp, h⟩
          simp [hp, hsuf]
        · simp [hp]
    · cases hs : d.sect with
      | none =>
        left
        refine ⟨by simp [meetsDecodeError, Scan, ht, hs], ?_⟩
        rw [decodeStep_string ht, addString_nosect hs]
        exact ⟨_, rfl⟩
      | some si =>
        cases hk : d.key with
        | some p =>
          right
          refine ⟨by simp [meetsDecodeError, Scan, ht, hs, hk], Or.inl ?_⟩
          rw [decodeStep_string ht, addString_active hs hk]
          exact ⟨_, _, rfl⟩
        | none =>
          by_cases ha : (Scan rest).1.tok ≠ Token.ASSIGN
          · left
            refine ⟨by simp only [meetsDecodeError, Scan]; exact Or.inr (Or.inr ⟨ht, by simp [hs], hk, ha⟩), ?_⟩
            rw [decodeStep_string ht, addString_idle hs hk, if_pos ha]
            exact ⟨_, rfl⟩
          · right
            refine ⟨?_, Or.inl ?_⟩
            · have ha2 : (Scan rest).1.tok = Token.ASSIGN := by simpa using ha
              rintro (⟨h1, -⟩ | ⟨-, h2⟩ | ⟨-, -, -, h4⟩)
              · simp only [Scan] at h1
                rw [ht] at h1
                cases h1
              · rw [hs] at h2
                cases h2
              · exact h4 ha2
            · rw [decodeStep_string ht, addString_idle hs hk, if_neg ha]
              exact ⟨_, _, rfl⟩
    · right
      refine ⟨by simp [meetsDecodeError, Scan, ht], Or.inl ?_⟩
      rw [decodeStep_newline ht]
      cases hk : d.key with
      | none => exact ⟨_, _, rfl⟩
      | some p =>
        simp only
        split
        · exact ⟨_, _, rfl⟩
        · exact ⟨_, _, rfl⟩
    · right
      refine ⟨by simp [meetsDecodeError, Scan, ht], Or.inl ?_⟩
      rw [decodeStep_assign ht]
      cases hk : d.key with
      | none => exact ⟨_, _, rfl⟩
      | some p => exact ⟨_, _, rfl⟩

theorem decodeFrom_fails_iff (n : Nat) : ∀ (d : decodeState) (sc : List Scanned),
    sc.length ≤ n → (∀ t ∈ sc, t.tok = Token.COMMENT → t.lit ≠ []) →
    ((∃ e, decodeFrom d sc = some (.fail (.error e))) ↔
      ∃ m d1 sc1, iterate m d sc = some (d1, sc1) ∧ meetsDecodeError d1 sc1) ∧
    ((¬ ∃ m d1 sc1, iterate m d sc = some (d1, sc1) ∧ meetsDecodeError d1 sc1) →
      ∃ f, decodeFrom d sc = some (.ok f)) := by
  induction n with
  | zero =>
    intro d sc hlen _
    have : sc = [] := List.length_eq_zero.mp (by omega)
    subst this
    rw [decodeFrom_step, decodeStep_nil]
    refine ⟨⟨fun ⟨e, he⟩ => by simp at he, ?_⟩, fun _ => ⟨_, rfl⟩⟩
    rintro ⟨m, d1, sc1, hit, hm⟩
    cases m with
    | zero =>
      simp [iterate] at hit
      obtain ⟨rfl, rfl⟩ := hit
      simp [meetsDecodeError, Scan, Scanned.eof] at hm
    | succ m => simp [iterate, decodeStep_nil] at hit
  | succ n ih =>
    intro d sc hlen hc
    rw [decodeFrom_step]
    rcases decodeStep_cases d sc hc with ⟨hm, e, he⟩ | ⟨hm, ⟨d1, sc1, hn⟩ | ⟨f, hf⟩⟩
    · rw [he]
      refine ⟨⟨fun _ => ⟨0, d, sc, rfl, hm⟩, fun _ => ⟨e, rfl⟩⟩, fun hno => ?_⟩
      exact absurd ⟨0, d, sc, rfl, hm⟩ hno
    · rw [hn]
      simp only
      have hlt := decodeStep_next_length hn
      obtain ⟨pre, hpre⟩ := decodeStep_next_suffix hn
      have hc1 : ∀ t ∈ sc1, t.tok = Token.COMMENT → t.lit ≠ [] := by
        intro t ht
        exact hc t (by rw [hpre]; exact List.mem_append_right _ ht)
      have key : (∃ m d2 sc2, iterate m d sc = some (d2, sc2) ∧ meetsDecodeError d2 sc2) ↔
          ∃ m d2 sc2, iterate m d1 sc1 = some (d2, sc2) ∧ meetsDecodeError d2 sc2 := by
        constructor
        · rintro ⟨m, d2, sc2, hit, hm2⟩
          cases m with
          | zero =>
            simp [iterate] at hit
            obtain ⟨rfl, rfl⟩ := hit
            exact absurd hm2 hm
          | succ m =>
            rw [iterate_succ_of_next hn] at hit
            exact ⟨m, d2, sc2, hit, hm2⟩
        · rintro ⟨m, d2, sc2, hit, hm2⟩
          exact ⟨m + 1, d2, sc2, by rw [iterate_succ_of_next hn]; exact hit, hm2⟩
      rw [key]
      exact ih d1 sc1 (by omega) hc1
    · rw [hf]
      have hno : ¬ ∃ m d1 sc1, iterate m d sc = some (d1, sc1) ∧ meetsDecodeError d1 sc1 := by
        rintro ⟨m, d2, sc2, hit, hm2⟩
        cases m with
        | zero =>
          simp [iterate] at hit
          obtain ⟨rfl, rfl⟩ := hit
          exact absurd hm2 hm
        | succ m => simp [iterate, hf] at hit
      refine ⟨⟨fun ⟨e, he⟩ => by simp at he, fun h => absurd h hno⟩, fun _ => ⟨_, rfl⟩⟩

/-- C5. Decode failure is exactly the three decode errors: on a token stream whose
`COMMENT` literals are non-empty (the exhausted scanner delivers `EOF`), `decode`
returns an error if and only if the loop reaches an iteration, before `EOF` is read,
whose state and next tokens are in one of the situations (a), (b), (c) of
`meetsDecodeError`; when no such iteration is reached it returns a file. -/
theorem decode_fails_iff (ts : List Scanned)
    (hc : ∀ t ∈ ts, t.tok = Token.COMMENT → t.lit ≠ []) :
    ((∃ e, decode ts = some (.fail (.error e))) ↔
      ∃ m d sc, iterate m decodeState.init ts = some (d, sc) ∧ meetsDecodeError d sc) ∧
    ((¬ ∃ m d sc, iterate m decodeState.init ts = some (d, sc) ∧ meetsDecodeError d sc) →
      ∃ f, decode ts = some (.ok f)) :=
  decodeFrom_fails_iff ts.length decodeState.init ts (le_refl _) hc

/-! ## Theorems: end of input -/

/-- Witness for C5: a key name followed by a line break instead of `=`. -/
theorem decode_fails_iff_witness :
    (∀ t ∈ ([⟨⟨1, 1⟩, .COMMENT, "# c".toList⟩, ⟨⟨2, 1⟩, .SECTION, "[S]".toList⟩,
        ⟨⟨3, 1⟩, .STRING, "k".toList⟩, ⟨⟨3, 2⟩, .NEWLINE, "\n".toList⟩] : List Scanned),
      t.tok = Token.COMMENT → t.lit ≠ []) ∧
    decode [⟨⟨1, 1⟩, .COMMENT, "# c".toList⟩, ⟨⟨2, 1⟩, .SECTION, "[S]".toList⟩,
        ⟨⟨3, 1⟩, .STRING, "k".toList⟩, ⟨⟨3, 2⟩, .NEWLINE, "\n".toList⟩]
      = some (.fail (.error (.keyNotFollowedByAssign ⟨3, 2⟩ .NEWLINE "\n".toList))) ∧
    (((∃ e, decode [⟨⟨1, 1⟩, .COMMENT, "# c".toList⟩, ⟨⟨2, 1⟩, .SECTION, "[S]".toList⟩,
        ⟨⟨3, 1⟩, .STRING, "k".toList⟩, ⟨⟨3, 2⟩, .NEWLINE, "\n".toList⟩]
          = some (.fail (.error e))) ↔
      ∃ m d sc, iterate m decodeState.init [⟨⟨1, 1⟩, .COMMENT, "# c".toList⟩,
        ⟨⟨2, 1⟩, .SECTION, "[S]".toList⟩, ⟨⟨3, 1⟩, .STRING, "k".toList⟩,
        ⟨⟨3, 2⟩, .NEWLINE, "\n".toList⟩] = some (d, sc) ∧ meetsDecodeError d sc) ∧
    ((¬ ∃ m d sc, iterate m decodeState.init [⟨⟨1, 1⟩, .COMMENT, "# c".toList⟩,
        ⟨⟨2, 1⟩, .SECTION, "[S]".toList⟩, ⟨⟨3, 1⟩, .STRING, "k".toList⟩,
        ⟨⟨3, 2⟩, .NEWLINE, "\n".toList⟩] = some (d, sc) ∧ meetsDecodeError d sc) →
      ∃ f, decode [⟨⟨1, 1⟩, .COMMENT, "# c".toList⟩, ⟨⟨2, 1⟩, .SECTION, "[S]".toList⟩,
        ⟨⟨3, 1⟩, .STRING, "k".toList⟩, ⟨⟨3, 2⟩, .NEWLINE, "\n".toList⟩] = some (.ok f))) :=
  ⟨by decide, by decide, decode_fails_iff _ (by decide)⟩

theorem closeKey_idem (d : decodeState) : d.closeKey.closeKey = d.closeKey := by
  unfold decodeState.closeKey
  cases hk : d.key with
  | none => simp [hk]
  | some p => simp

theorem decodeFrom_next {d d1 : decodeState} {sc sc1 : List Scanned}
    (h : decodeStep d sc = .next d1 sc1) : decodeFrom d sc = decodeFrom d1 sc1 := by
  rw [decodeFrom_step, h]

theorem decodeFrom_done {d : decodeState} {sc : List Scanned} {f : File}
    (h : decodeStep d sc = .done f) : decodeFrom d sc = some (.ok f) := by
  rw [decodeFrom_step, h]

theorem decodeFrom_fail {d : decodeState} {sc : List Scanned} {e : Fault}
    (h : decodeStep d sc = .fail e) : decodeFrom d sc = some (.fail e) := by
  rw [decodeFrom_step, h]

theorem decodeFrom_eof {e : Scanned} (he : e.tok = .EOF) (d : decodeState) (post : List Scanned) :
    decodeFrom d (e :: post) = some (.ok d.closeKey.file) :=
  decodeFrom_done (decodeStep_eof he d post)

theorem decodeStep_newline_cases {nl : Scanned} (hn : nl.tok = .NEWLINE) (d : decodeState)
    (rest : List Scanned) :
    decodeStep d (nl :: rest) = .next d rest ∨ decodeStep d (nl :: rest) = .next d.closeKey rest := by
  rw [decodeStep_newline hn]
  cases hk : d.key with
  | none => exact Or.inl rfl
  | some p =>
    by_cases hsuf : (!HasSuffix (((d.file.keyAt p).map (fun k => k.Value)).getD []) ['\\']) = true
    · right; simp only [hsuf, if_true]
    · left; simp only [hsuf, if_false]; rfl

theorem decodeFrom_newline_eof {nl e : Scanned} (hn : nl.tok = .NEWLINE) (he : e.tok = .EOF)
    (d : decodeState) (post : List Scanned) :
    decodeFrom d (nl :: e :: post) = some (.ok d.closeKey.file) := by
  rcases decodeStep_newline_cases hn d (e :: post) with h | h
  · rw [decodeFrom_next h, decodeFrom_eof he]
  · rw [decodeFrom_next h, decodeFrom_eof he, closeKey_idem]

/-- A step that does not read a key name does not look at the tokens behind the one it
consumes. -/
theorem decodeStep_indep (d : decodeState) (t : Scanned)
    (h : ¬ (t.tok = .STRING ∧ d.sect ≠ none ∧ d.key = none)) :
    (∃ d1, ∀ X, decodeStep d (t :: X) = .next d1 X) ∨
    (∃ f, ∀ X, decodeStep d (t :: X) = .done f) ∨
    (∃ e, ∀ X, decodeStep d (t :: X) = .fail e) := by
  cases ht : t.tok
  · exact Or.inl ⟨d, fun X => decodeStep_illegal ht d X⟩
  · exact Or.inr (Or.inl ⟨_, fun X => decodeStep_eof ht d X⟩)
  · cases hc : d.addComment t.lit with
    | none => exact Or.inr (Or.inr ⟨.panic, fun X => by rw [decodeStep_comment ht, hc]⟩)
    | some d1 => exact Or.inl ⟨d1, fun X => by rw [decodeStep_comment ht, hc]⟩
  · cases hc : d.addSection t.pos t.lit with
    | fail e => exact Or.inr (Or.inr ⟨e, fun X => by rw [decodeStep_section ht, hc]⟩)
    | ok d1 => exact Or.inl ⟨d1, fun X => by rw [decodeStep_section ht, hc]⟩
  · cases hs : d.sect with
    | none =>
      exact Or.inr (Or.inr ⟨_, fun X => by rw [decodeStep_string ht, addString_nosect hs]⟩)
    | some si =>
      cases hk : d.key with
      | none => exact absurd ⟨ht, by simp [hs], hk⟩ h
      | some p =>
        exact Or.inl ⟨_, fun X => by rw [decodeStep_string ht, addString_active hs hk]⟩
  · cases hk : d.key with
    | none => exact Or.inl ⟨d, fun X => by rw [decodeStep_newline ht, hk]⟩
    | some p =>
      by_cases hsuf : (!HasSuffix (((d.file.keyAt p).map (fun k => k.Value)).getD []) ['\\']) = true
      · exact Or.inl ⟨d.closeKey, fun X => by rw [decodeStep_newline ht, hk]; simp only [hsuf, if_true]⟩
      · exact Or.inl ⟨d, fun X => by rw [decodeStep_newline ht, hk]; simp only [hsuf, if_false]; rfl⟩
  · cases hk : d.key with
    | none => exact Or.inl ⟨d, fun X => by rw [decodeStep_assign ht, hk]⟩
    | some p => exact Or.inl ⟨_, fun X => by rw [decodeStep_assign ht, hk]⟩

theorem decodeStep_name_fail {d : decodeState} {t : Scanned} {si : Nat} (ht : t.tok = .STRING)
    (hs : d.sect = some si) (hk : d.key = none) (X : List Scanned)
    (ha : (Scan X).1.tok ≠ Token.ASSIGN) :
    decodeStep d (t :: X) =
      .fail (.error (.keyNotFollowedByAssign (Scan X).1.pos (Scan X).1.tok (Scan X).1.lit)) := by
  rw [decodeStep_string ht, addString_idle hs hk, if_pos ha]

theorem decodeFrom_insert_newline (nl e : Scanned) (hn : nl.tok = .NEWLINE) (he : e.tok = .EOF)
    (post : List Scanned) (n : Nat) : ∀ (pre : List Scanned) (d : decodeState), pre.length ≤ n →
    (∃ f, decodeFrom d (pre ++ e :: post) = some (.ok f) ∧
        decodeFrom d (pre ++ nl :: e :: post) = some (.ok f)) ∨
    (∃ e1 e2, decodeFrom d (pre ++ e :: post) = some (.fail e1) ∧
        decodeFrom d (pre ++ nl :: e :: post) = some (.fail e2)) := by
  induction n using Nat.strong_induction_on with
  | _ n ih =>
    intro pre d hlen
    cases pre with
    | nil =>
      left
      exact ⟨_, decodeFrom_eof he d post, decodeFrom_newline_eof hn he d post⟩
    | cons t pre1 =>
      simp only [List.cons_append]
      simp only [List.length_cons] at hlen
      by_cases hname : t.tok = .STRING ∧ d.sect ≠ none ∧ d.key = none
      · obtain ⟨ht, hs, hk⟩ := hname
        obtain ⟨si, hsi⟩ := Option.ne_none_iff_exists'.mp hs
        cases pre1 with
        | nil =>
          right
          exact ⟨_, _,
            decodeFrom_fail (decodeStep_name_fail ht hsi hk _ (by simp [Scan, he])),
            decodeFrom_fail (decodeStep_name_fail ht hsi hk _ (by simp [Scan, hn]))⟩
        | cons a pre2 =>
          simp only [List.cons_append]
          simp only [List.length_cons] at hlen
          by_cases ha : a.tok ≠ Token.ASSIGN
          · right
            exact ⟨_, _,
              decodeFrom_fail (decodeStep_name_fail ht hsi hk _ (by simpa [Scan] using ha)),
              decodeFrom_fail (decodeStep_name_fail ht hsi hk _ (by simpa [Scan] using ha))⟩
          · have h1 : ∀ X, decodeStep d (t :: a :: X) = .next
                { d with
                  file := ⟨d.file.Sections.modify
                    (fun s => { s with Keys := s.Keys ++ [⟨TrimSpace t.lit, [], []⟩] }) si⟩
                  key := some (si, ((d.file.Sections.get? si).map (fun s => s.Keys.length)).getD 0) }
                X := by
              intro X
              rw [decodeStep_string ht, addString_idle hsi hk, if_neg (by simpa [Scan] using ha)]
              rfl
            rw [decodeFrom_next (h1 _), decodeFrom_next (h1 _)]
            exact ih (n - 2) (by omega) pre2 _ (by omega)
      · rcases decodeStep_indep d t hname with ⟨d1, h1⟩ | ⟨f, h1⟩ | ⟨e1, h1⟩
        · rw [decodeFrom_next (h1 _), decodeFrom_next (h1 _)]
          exact ih (n - 1) (by omega) pre1 d1 (by omega)
        · rw [decodeFrom_done (h1 _), decodeFrom_done (h1 _)]
          exact Or.inl ⟨f, rfl, rfl⟩
        · rw [decodeFrom_fail (h1 _), decodeFrom_fail (h1 _)]
          exact Or.inr ⟨e1, e1, rfl, rfl⟩

/-- C7. `EOF` force-closes the active key as a line break would: decoding a stream and
decoding the same stream with one `NEWLINE` token inserted immediately before its `EOF`
token give the same file, or fail both. -/
theorem eof_closes_like_newline (pre post : List Scanned) (nl e : Scanned)
    (hn : nl.tok = Token.NEWLINE) (he : e.tok = Token.EOF) :
    (∃ f, decode (pre ++ e :: post) = some (.ok f) ∧
        decode (pre ++ nl :: e :: post) = some (.ok f)) ∨
    (∃ e1 e2, decode (pre ++ e :: post) = some (.fail e1) ∧
        decode (pre ++ nl :: e :: post) = some (.fail e2)) :=
  decodeFrom_insert_newline nl e hn he post pre.length pre decodeState.init (le_refl _)

/-- Witness for C7: a last directive ending in a continuation backslash, with a pending
comment, decoded with and without a final line break. -/
theorem eof_closes_like_newline_witness :
    (⟨⟨4, 1⟩, .NEWLINE, "\n".toList⟩ : Scanned).tok = Token.NEWLINE ∧
    (⟨⟨4, 1⟩, .EOF, []⟩ : Scanned).tok = Token.EOF ∧
    decode ([⟨⟨1, 1⟩, .SECTION, "[S]".toList⟩, ⟨⟨1, 4⟩, .NEWLINE, "\n".toList⟩,
        ⟨⟨2, 1⟩, .COMMENT, "# c".toList⟩, ⟨⟨2, 4⟩, .NEWLINE, "\n".toList⟩,
        ⟨⟨3, 1⟩, .STRING, "k".toList⟩, ⟨⟨3, 2⟩, .ASSIGN, "=".toList⟩,
        ⟨⟨3, 3⟩, .STRING, "a\\".toList⟩] ++ ⟨⟨4, 1⟩, .EOF, []⟩ :: [])
      = some (.ok ⟨[⟨"S".toList, [], [⟨"k".toList, "a ".toList, "c".toList⟩]⟩]⟩) ∧
    ((∃ f, decode ([⟨⟨1, 1⟩, .SECTION, "[S]".toList⟩, ⟨⟨1, 4⟩, .NEWLINE, "\n".toList⟩,
        ⟨⟨2, 1⟩, .COMMENT, "# c".toList⟩, ⟨⟨2, 4⟩, .NEWLINE, "\n".toList⟩,
        ⟨⟨3, 1⟩, .STRING, "k".toList⟩, ⟨⟨3, 2⟩, .ASSIGN, "=".toList⟩,
        ⟨⟨3, 3⟩, .STRING, "a\\".toList⟩] ++ ⟨⟨4, 1⟩, .EOF, []⟩ :: []) = some (.ok f) ∧
      decode ([⟨⟨1, 1⟩, .SECTION, "[S]".toList⟩, ⟨⟨1, 4⟩, .NEWLINE, "\n".toList⟩,
        ⟨⟨2, 1⟩, .COMMENT, "# c".toList⟩, ⟨⟨2, 4⟩, .NEWLINE, "\n".toList⟩,
        ⟨⟨3, 1⟩, .STRING, "k".toList⟩, ⟨⟨3, 2⟩, .ASSIGN, "=".toList⟩,
        ⟨⟨3, 3⟩, .STRING, "a\\".toList⟩] ++ ⟨⟨4, 1⟩, .NEWLINE, "\n".toList⟩ ::
          ⟨⟨4, 1⟩, .EOF, []⟩ :: []) = some (.ok f)) ∨
     (∃ e1 e2, decode ([⟨⟨1, 1⟩, .SECTION, "[S]".toList⟩, ⟨⟨1, 4⟩, .NEWLINE, "\n".toList⟩,
        ⟨⟨2, 1⟩, .COMMENT, "# c".toList⟩, ⟨⟨2, 4⟩, .NEWLINE, "\n".toList⟩,
        ⟨⟨3, 1⟩, .STRING, "k".toList⟩, ⟨⟨3, 2⟩, .ASSIGN, "=".toList⟩,
        ⟨⟨3, 3⟩, .STRING, "a\\".toList⟩] ++ ⟨⟨4, 1⟩, .EOF, []⟩ :: []) = some (.fail e1) ∧
      decode ([⟨⟨1, 1⟩, .SECTION, "[S]".toList⟩, ⟨⟨1, 4⟩, .NEWLINE, "\n".toList⟩,
        ⟨⟨2, 1⟩, .COMMENT, "# c".toList⟩, ⟨⟨2, 4⟩, .NEWLINE, "\n".toList⟩,
        ⟨⟨3, 1⟩, .STRING, "k".toList⟩, ⟨⟨3, 2⟩, .ASSIGN, "=".toList⟩,
        ⟨⟨3, 3⟩, .STRING, "a\\".toList⟩] ++ ⟨⟨4, 1⟩, .NEWLINE, "\n".toList⟩ ::
          ⟨⟨4, 1⟩, .EOF, []⟩ :: []) = some (.fail e2))) :=
  ⟨rfl, rfl, by decide,
    eof_closes_like_newline _ [] ⟨⟨4, 1⟩, .NEWLINE, "\n".toList⟩ ⟨⟨4, 1⟩, .EOF, []⟩ rfl rfl⟩

/-! ## Theorems: continuation lines -/

theorem hasSuffix_singleton (s : Str) (c : Char) :
    HasSuffix s [c] = true ↔ ∃ s1, s = s1 ++ [c] := by
  unfold HasSuffix
  rw [List.isSuffixOf_iff_suffix]
  constructor
  · rintro ⟨t, rfl⟩; exact ⟨t, rfl⟩
  · rintro ⟨t, rfl⟩; exact ⟨t, rfl⟩

theorem hasSuffix_append (a b : Str) (c : Char) (hb : b ≠ []) :
    HasSuffix (a ++ b) [c] = HasSuffix b [c] := by
  rw [Bool.eq_iff_iff, hasSuffix_singleton, hasSuffix_singleton]
  constructor
  · rintro ⟨s1, h⟩
    obtain ⟨b1, x, rfl⟩ : ∃ b1 x, b = b1 ++ [x] := ⟨b.dropLast, b.getLast hb, (List.dropLast_append_getLast hb).symm⟩
    rw [← List.append_assoc] at h
    have := List.append_inj' h rfl
    simp at this
    exact ⟨b1, by rw [this.2]⟩
  · rintro ⟨s1, rfl⟩
    exact ⟨a ++ s1, by simp⟩

theorem isSpace_backslash : isSpace '\\' = false := by decide

theorem trimSpace_append_nonspace (s : Str) (c : Char) (hc : isSpace c = false) :
    ∃ s1, TrimSpace (s ++ [c]) = s1 ++ [c] := by
  unfold TrimSpace
  have h1 : ∃ s2, (s ++ [c]).dropWhile isSpace = s2 ++ [c] := by
    induction s with
    | nil => exact ⟨[], by simp [List.dropWhile, hc]⟩
    | cons x xs ih =>
      by_cases hx : isSpace x = true
      · simpa [List.dropWhile, hx] using ih
      · exact ⟨x :: xs, by simp [List.dropWhile, hx]⟩
  obtain ⟨s2, h2⟩ := h1
  rw [h2, List.rdropWhile_concat_neg _ _ _ (by simp [hc])]
  exact ⟨s2, rfl⟩

/-- C8, amended. Continuation is decided on the trimmed, accumulated value: when a
`STRING` token and then a `NEWLINE` token are read while a key is active, the key is
still active after the line break exactly when its accumulated value followed by the
trimmed literal ends in a backslash.  For a literal that is not blank this is exactly
when the trimmed literal ends in a backslash; a literal that ends in a backslash before
trimming always continues. -/
theorem continuation_on_trimmed_value (d : decodeState) (p : Nat × Nat) (k : Key)
    (s nl : Scanned) (rest : List Scanned)
    (hk : d.key = some p) (hat : d.file.keyAt p = some k) (hsect : d.sect ≠ none)
    (hs : s.tok = Token.STRING) (hn : nl.tok = Token.NEWLINE) :
    ∃ d1 d2, decodeStep d (s :: nl :: rest) = .next d1 (nl :: rest) ∧
      decodeStep d1 (nl :: rest) = .next d2 rest ∧
      (d2.key = some p ↔ HasSuffix (k.Value ++ TrimSpace s.lit) ['\\'] = true) ∧
      (d2.key = none ↔ HasSuffix (k.Value ++ TrimSpace s.lit) ['\\'] = false) ∧
      (TrimSpace s.lit ≠ [] → (d2.key = some p ↔ HasSuffix (TrimSpace s.lit) ['\\'] = true)) ∧
      (HasSuffix s.lit ['\\'] = true → d2.key = some p) := by
  obtain ⟨si, hsi⟩ := Option.ne_none_iff_exists'.mp hsect
  have h1 : decodeStep d (s :: nl :: rest) = .next
      { d with file := d.file.modifyKey p (fun k => { k with Value := k.Value ++ TrimSpace s.lit }) }
      (nl :: rest) := by
    rw [decodeStep_string hs, addString_active hsi hk]
  generalize hd1 : ({ d with
    file := (d.file.modifyKey p (fun k => { k with Value := k.Value ++ TrimSpace s.lit })) } :
      decodeState) = d1 at h1
  have hk1 : d1.key = some p := by rw [← hd1]; exact hk
  have hat1 : d1.file.keyAt p = some { k with Value := k.Value ++ TrimSpace s.lit } := by
    rw [← hd1]; simp [keyAt_modifyKey, hat]
  have hlit : HasSuffix s.lit ['\\'] = true → HasSuffix (k.Value ++ TrimSpace s.lit) ['\\'] = true := by
    intro hl
    obtain ⟨s1, hs1⟩ := (hasSuffix_singleton _ _).mp hl
    obtain ⟨s2, hs2⟩ := trimSpace_append_nonspace s1 '\\' isSpace_backslash
    rw [hs1, hs2, hasSuffix_singleton]
    exact ⟨k.Value ++ s2, by simp⟩
  have htrim : TrimSpace s.lit ≠ [] →
      HasSuffix (k.Value ++ TrimSpace s.lit) ['\\'] = HasSuffix (TrimSpace s.lit) ['\\'] :=
    fun hne => hasSuffix_append _ _ _ hne
  by_cases hv : HasSuffix (k.Value ++ TrimSpace s.lit) ['\\'] = true
  · have h2 : decodeStep d1 (nl :: rest) = .next d1 rest := by
      rw [decodeStep_newline hn]
      simp only [hk1, hat1, Option.map_some', Option.getD_some, hv]
      rfl
    refine ⟨d1, d1, h1, h2, ?_, ?_, ?_, ?_⟩
    · simp [hk1, hv]
    · simp [hk1, hv]
    · intro hne; rw [← htrim hne]; simp [hk1, hv]
    · intro _; exact hk1
  · have hv2 : HasSuffix (k.Value ++ TrimSpace s.lit) ['\\'] = false := by simpa using hv
    have h2 : decodeStep d1 (nl :: rest) = .next d1.closeKey rest := by
      rw [decodeStep_newline hn]
      simp only [hk1, hat1, Option.map_some', Option.getD_some, hv2]
      rfl
    have hc : d1.closeKey.key = none := by simp [decodeState.closeKey, hk1]
    refine ⟨d1, d1.closeKey, h1, h2, ?_, ?_, ?_, ?_⟩
    · simp [hc, hv2]
    · simp [hc, hv2]
    · intro hne; rw [← htrim hne]; simp [hc, hv2]
    · intro hl; exact absurd (hlit hl) hv

/-- Witness for C8 (amended): the literal `a\` followed by a blank, read for the key
`k`, continues. -/
theorem continuation_on_trimmed_value_witness :
    (⟨[], some 0, some (0, 0), ⟨[⟨"S".toList, [], [⟨"k".toList, [], []⟩]⟩]⟩⟩ : decodeState).key
      = some (0, 0) ∧
    File.keyAt ⟨[⟨"S".toList, [], [⟨"k".toList, [], []⟩]⟩]⟩ (0, 0) = some ⟨"k".toList, [], []⟩ ∧
    ∃ d1 d2,
      decodeStep ⟨[], some 0, some (0, 0), ⟨[⟨"S".toList, [], [⟨"k".toList, [], []⟩]⟩]⟩⟩
        (⟨⟨2, 3⟩, .STRING, "a\\ ".toList⟩ :: ⟨⟨2, 6⟩, .NEWLINE, "\n".toList⟩ :: [])
          = .next d1 (⟨⟨2, 6⟩, .NEWLINE, "\n".toList⟩ :: []) ∧
      decodeStep d1 (⟨⟨2, 6⟩, .NEWLINE, "\n".toList⟩ :: []) = .next d2 [] ∧
      (d2.key = some (0, 0) ↔
        HasSuffix ((⟨"k".toList, [], []⟩ : Key).Value ++ TrimSpace "a\\ ".toList) ['\\'] = true) ∧
      (d2.key = none ↔
        HasSuffix ((⟨"k".toList, [], []⟩ : Key).Value ++ TrimSpace "a\\ ".toList) ['\\'] = false) ∧
      (TrimSpace "a\\ ".toList ≠ [] →
        (d2.key = some (0, 0) ↔ HasSuffix (TrimSpace "a\\ ".toList) ['\\'] = true)) ∧
      (HasSuffix "a\\ ".toList ['\\'] = true → d2.key = some (0, 0)) :=
  ⟨rfl, by decide,
    continuation_on_trimmed_value
      ⟨[], some 0, some (0, 0), ⟨[⟨"S".toList, [], [⟨"k".toList, [], []⟩]⟩]⟩⟩ (0, 0)
      ⟨"k".toList, [], []⟩ ⟨⟨2, 3⟩, .STRING, "a\\ ".toList⟩ ⟨⟨2, 6⟩, .NEWLINE, "\n".toList⟩ []
      rfl (by decide) (by decide) rfl rfl⟩

/-- C8, counterexample. The literal `a\` followed by a blank does not end in a backslash,
yet the key is still active after the line break, and the next line is appended to its
value; so continuation is not decided on the untrimmed literal. -/
theorem continuation_untrimmed_counterexample :
    HasSuffix "a\\ ".toList ['\\'] = false ∧
    decode [⟨⟨1, 1⟩, .SECTION, "[S]".toList⟩, ⟨⟨1, 4⟩, .NEWLINE, "\n".toList⟩,
        ⟨⟨2, 1⟩, .STRING, "k".toList⟩, ⟨⟨2, 2⟩, .ASSIGN, "=".toList⟩,
        ⟨⟨2, 3⟩, .STRING, "a\\ ".toList⟩, ⟨⟨2, 6⟩, .NEWLINE, "\n".toList⟩,
        ⟨⟨3, 1⟩, .STRING, "b".toList⟩, ⟨⟨3, 2⟩, .NEWLINE, "\n".toList⟩, ⟨⟨4, 1⟩, .EOF, []⟩]
      = some (.ok ⟨[⟨"S".toList, [], [⟨"k".toList, "a b".toList, []⟩]⟩]⟩) ∧
    ¬ (∀ (d d1 d2 : decodeState) (s nl : Scanned) (rest : List Scanned),
        d.WF → d.key ≠ none → s.tok = Token.STRING → nl.tok = Token.NEWLINE →
        decodeStep d (s :: nl :: rest) = .next d1 (nl :: rest) →
        decodeStep d1 (nl :: rest) = .next d2 rest →
        (d2.key ≠ none ↔ HasSuffix s.lit ['\\'] = true)) := by
  refine ⟨by decide, by decide, fun h => ?_⟩
  have h1 := h ⟨[], some 0, some (0, 0), ⟨[⟨"S".toList, [], [⟨"k".toList, [], []⟩]⟩]⟩⟩
    ⟨[], some 0, some (0, 0), ⟨[⟨"S".toList, [], [⟨"k".toList, "a\\".toList, []⟩]⟩]⟩⟩
    ⟨[], some 0, some (0, 0), ⟨[⟨"S".toList, [], [⟨"k".toList, "a\\".toList, []⟩]⟩]⟩⟩
    ⟨⟨2, 3⟩, .STRING, "a\\ ".toList⟩ ⟨⟨2, 6⟩, .NEWLINE, "\n".toList⟩ []
    (by decide) (by decide) rfl rfl (by decide) (by decide)
  exact absurd (h1.mp (by decide)) (by decide)

/-! ## Theorems: order of sections and keys -/

theorem map_modify_comm {α β : Type} (g : α → β) (f : α → α) (f' : β → β)
    (h : ∀ x, g (f x) = f' (g x)) : ∀ (n : Nat) (l : List α),
    (l.modify f n).map g = (l.map g).modify f' n := by
  intro n l
  induction l generalizing n with
  | nil => simp
  | cons a l ih =>
    cases n with
    | zero => simp [h]
    | succ n => simp [ih]

theorem map_modify_inv {α β : Type} (g : α → β) (f : α → α) (h : ∀ x, g (f x) = g x) :
    ∀ (n : Nat) (l : List α), (l.modify f n).map g = l.map g := by
  intro n l
  induction l generalizing n with
  | nil => simp
  | cons a l ih =>
    cases n with
    | zero => simp [h]
    | succ n => simp [ih]

theorem modify_id_of {α : Type} (f : α → α) (h : ∀ x, f x = x) (n : Nat) (l : List α) :
    l.modify f n = l := by
  induction l generalizing n with
  | nil => simp
  | cons a l ih =>
    cases n with
    | zero => simp [h]
    | succ n => simp [ih]

theorem modify_length_concat {α : Type} (f : α → α) (l : List α) (a : α) :
    (l ++ [a]).modify f l.length = l ++ [f a] := by
  induction l with
  | nil => simp
  | cons b l ih => simp [ih]

theorem skeleton_modifyKey (file : File) (p : Nat × Nat) (f : Key → Key)
    (hf : ∀ k, (f k).Name = k.Name) : (file.modifyKey p f).skeleton = file.skeleton := by
  simp only [File.skeleton, File.modifyKey]
  apply map_modify_inv
  intro s
  simp only [Prod.mk.injEq, true_and]
  apply map_modify_inv
  exact hf

theorem skeleton_closeKey (d : decodeState) : d.closeKey.file.skeleton = d.file.skeleton := by
  unfold decodeState.closeKey
  cases hk : d.key with
  | none => rfl
  | some p => exact skeleton_modifyKey _ _ _ (fun _ => rfl)

theorem addKeyNames_nil (sk : List (Str × List Str)) : addKeyNames sk [] = sk := by
  unfold addKeyNames
  exact modify_id_of _ (fun e => by simp) _ _

theorem addKeyNames_concat (sk : List (Str × List Str)) (n : Str) (ks names : List Str) :
    addKeyNames (sk ++ [(n, ks)]) names = sk ++ [(n, ks ++ names)] := by
  unfold addKeyNames
  simp only [List.length_append, List.length_singleton, Nat.add_sub_cancel]
  exact modify_length_concat _ _ _

theorem addKeyNames_add (sk : List (Str × List Str)) (a b : List Str) :
    addKeyNames (addKeyNames sk a) b = addKeyNames sk (a ++ b) := by
  rcases List.eq_nil_or_concat sk with rfl | ⟨sk1, e, rfl⟩
  · rfl
  · obtain ⟨n, ks⟩ := e
    simp only [List.concat_eq_append]
    rw [addKeyNames_concat, addKeyNames_concat, addKeyNames_concat, List.append_assoc]

/-- Effect of one continuing iteration on the names of the file. -/
theorem decodeStep_skeleton {d d1 : decodeState} {t : Scanned} {rest sc1 : List Scanned}
    (hwf : d.WF) (h : decodeStep d (t :: rest) = .next d1 sc1) :
    (t.tok = .SECTION ∧ sc1 = rest ∧
      d1.file.skeleton = d.file.skeleton ++ [((t.lit.take (t.lit.length - 1)).drop 1, [])]) ∨
    (t.tok = .STRING ∧ ∃ a, rest = a :: sc1 ∧ a.tok = .ASSIGN ∧
      d1.file.skeleton = addKeyNames d.file.skeleton [TrimSpace t.lit]) ∨
    (t.tok ≠ .SECTION ∧ t.tok ≠ .EOF ∧ sc1 = rest ∧ d1.file.skeleton = d.file.skeleton) := by
  cases ht : t.tok
  · rw [decodeStep_illegal ht] at h
    simp at h
    obtain ⟨rfl, rfl⟩ := h
    exact Or.inr (Or.inr ⟨by simp, by simp, rfl, rfl⟩)
  · rw [decodeStep_eof ht] at h
    simp at h
  · rw [decodeStep_comment ht] at h
    cases hc : d.addComment t.lit with
    | none => simp [hc] at h
    | some d2 =>
      simp [hc] at h
      obtain ⟨rfl, rfl⟩ := h
      obtain ⟨-, rfl⟩ := addComment_eq hc
      exact Or.inr (Or.inr ⟨by simp, by simp, rfl, rfl⟩)
  · rw [decodeStep_section ht] at h
    cases hc : d.addSection t.pos t.lit with
    | fail e => simp [hc] at h
    | ok d2 =>
      simp [hc] at h
      obtain ⟨rfl, rfl⟩ := h
      obtain ⟨-, -, rfl⟩ := addSection_eq hc
      exact Or.inl ⟨rfl, rfl, by simp [File.skeleton]⟩
  · rw [decodeStep_string ht] at h
    cases hs : d.sect with
    | none => simp [addString_nosect hs] at h
    | some si =>
      cases hk : d.key with
      | some p =>
        rw [addString_active hs hk] at h
        simp at h
        obtain ⟨rfl, rfl⟩ := h
        exact Or.inr (Or.inr ⟨by simp, by simp, rfl, skeleton_modifyKey _ _ _ (fun _ => rfl)⟩)
      | none =>
        rw [addString_idle hs hk] at h
        by_cases ha : (Scan rest).1.tok ≠ Token.ASSIGN
        · rw [if_pos ha] at h
          simp at h
        · rw [if_neg ha] at h
          simp at h
          obtain ⟨rfl, rfl⟩ := h
          cases rest with
          | nil => simp [Scan, Scanned.eof] at ha
          | cons a rest2 =>
            simp only [Scan, ne_eq, not_not] at ha
            refine Or.inr (Or.inl ⟨rfl, a, rfl, ha, ?_⟩)
            have hlen := WF_sect_of_nonempty hwf hs
            simp only [File.skeleton, addKeyNames, List.length_map]
            have : si = d.file.Sections.length - 1 := by omega
            rw [← this]
            rw [map_modify_comm _ _ (fun e => (e.1, e.2 ++ [TrimSpace t.lit]))]
            intro s
            simp
  · rw [decodeStep_newline ht] at h
    cases hk : d.key with
    | none =>
      simp [hk] at h
      obtain ⟨rfl, rfl⟩ := h
      exact Or.inr (Or.inr ⟨by simp, by simp, rfl, rfl⟩)
    | some p =>
      simp only [hk] at h
      split at h
      · simp at h
        obtain ⟨rfl, rfl⟩ := h
        exact Or.inr (Or.inr ⟨by simp, by simp, rfl, skeleton_closeKey d⟩)
      · simp at h
        obtain ⟨rfl, rfl⟩ := h
        exact Or.inr (Or.inr ⟨by simp, by simp, rfl, rfl⟩)
  · rw [decodeStep_assign ht] at h
    cases hk : d.key with
    | none =>
      simp [hk] at h
      obtain ⟨rfl, rfl⟩ := h
      exact Or.inr (Or.inr ⟨by simp, by simp, rfl, rfl⟩)
    | some p =>
      simp [hk] at h
      obtain ⟨rfl, rfl⟩ := h
      exact Or.inr (Or.inr ⟨by simp, by simp, rfl, skeleton_modifyKey _ _ _ (fun _ => rfl)⟩)

theorem consumedTokens_cons {t : Scanned} (h : t.tok ≠ .EOF) (rest : List Scanned) :
    consumedTokens (t :: rest) = t :: consumedTokens rest := by
  simp [consumedTokens, List.takeWhile, h]

theorem consumedTokens_eof {t : Scanned} (h : t.tok = .EOF) (rest : List Scanned) :
    consumedTokens (t :: rest) = [] := by
  simp [consumedTokens, List.takeWhile, h]

theorem decodeStep_done_consumed {d : decodeState} {sc : List Scanned} {f : File}
    (h : decodeStep d sc = .done f) : consumedTokens sc = [] ∧ f = d.closeKey.file := by
  cases sc with
  | nil =>
    rw [decodeStep_nil] at h
    simp at h
    exact ⟨rfl, h.symm⟩
  | cons t rest =>
    cases ht : t.tok
    · rw [decodeStep_illegal ht] at h; simp at h
    · rw [decodeStep_eof ht] at h
      simp at h
      exact ⟨consumedTokens_eof ht rest, h.symm⟩
    · rw [decodeStep_comment ht] at h
      cases hc : d.addComment t.lit <;> simp [hc] at h
    · rw [decodeStep_section ht] at h
      cases hc : d.addSection t.pos t.lit <;> simp [hc] at h
    · rw [decodeStep_string ht] at h
      cases hc : d.addString t.pos t.lit rest <;> simp [hc] at h
    · rcases decodeStep_newline_cases ht d rest with h1 | h1 <;> rw [h1] at h <;> simp at h
    · rw [decodeStep_assign ht] at h
      cases hk : d.key <;> simp [hk] at h

/-- The names in the file `decode` returns from state `d`: the names present in `d`, key
names read for the last section of `d`, and the sections opened afterwards. -/
theorem decodeFrom_skeleton (n : Nat) : ∀ (d : decodeState) (sc : List Scanned) (f : File),
    sc.length ≤ n → d.WF → decodeFrom d sc = some (.ok f) →
    ∃ (names : List Scanned) (news : List (Str × List Str)),
      names.Sublist ((untilSection (consumedTokens sc)).filter (fun t => t.tok = Token.STRING)) ∧
      List.Forall₂ (fun (e : Str × List Str) (seg : Scanned × List Scanned) =>
          e.1 = (seg.1.lit.take (seg.1.lit.length - 1)).drop 1 ∧
          ∃ ns : List Scanned, ns.Sublist (seg.2.filter (fun t => t.tok = Token.STRING)) ∧
            e.2 = ns.map (fun t => TrimSpace t.lit))
        news (sectionSegments (consumedTokens sc)) ∧
      f.skeleton = addKeyNames d.file.skeleton (names.map (fun t => TrimSpace t.lit)) ++ news := by
  induction n using Nat.strong_induction_on with
  | _ n ih =>
    intro d sc f hlen hwf hdec
    cases hstep : decodeStep d sc with
    | fail e => rw [decodeFrom_fail hstep] at hdec; simp at hdec
    | done f1 =>
      rw [decodeFrom_done hstep] at hdec
      simp at hdec
      subst hdec
      obtain ⟨hc, rfl⟩ := decodeStep_done_consumed hstep
      refine ⟨[], [], ?_, ?_, ?_⟩
      · simp
      · rw [hc]; simp [sectionSegments]
      · simp [addKeyNames_nil, skeleton_closeKey]
    | next d1 sc1 =>
      rw [decodeFrom_next hstep] at hdec
      have hwf1 := decodeStep_WF hwf hstep
      have hlt := decodeStep_next_length hstep
      obtain ⟨names1, news1, hsub1, hfor1, hsk1⟩ :=
        ih (n - 1) (by omega) d1 sc1 f (by omega) hwf1 hdec
      cases sc with
      | nil => simp [decodeStep_nil] at hstep
      | cons t rest =>
        rcases decodeStep_skeleton hwf hstep with
          ⟨ht, rfl, hsk⟩ | ⟨ht, a, rfl, ha, hsk⟩ | ⟨ht1, ht2, rfl, hsk⟩
        · -- a section header
          refine ⟨[], ((t.lit.take (t.lit.length - 1)).drop 1,
            names1.map (fun t => TrimSpace t.lit)) :: news1, ?_, ?_, ?_⟩
          · simp
          · rw [consumedTokens_cons (by simp [ht])]
            simp only [sectionSegments, ht, if_true]
            exact List.Forall₂.cons ⟨rfl, names1, hsub1, rfl⟩ hfor1
          · rw [hsk1, hsk, addKeyNames_concat]
            simp [addKeyNames_nil]
        · -- a key name and the ASSIGN behind it
          refine ⟨t :: names1, news1, ?_, ?_, ?_⟩
          · rw [consumedTokens_cons (by simp [ht]), consumedTokens_cons (by simp [ha])]
            simp only [untilSection, List.takeWhile, ht, ha]
            simp only [ne_eq, reduceCtorEq, not_false_eq_true, decide_True, List.filter, ht, ha,
              decide_False]
            exact List.Sublist.cons₂ _ hsub1
          · rw [consumedTokens_cons (by simp [ht]), consumedTokens_cons (by simp [ha])]
            simpa [sectionSegments, ht, ha] using hfor1
          · rw [hsk1, hsk, addKeyNames_add]
            simp
        · -- any other token
          refine ⟨names1, news1, ?_, ?_, ?_⟩
          · rw [consumedTokens_cons ht2]
            simp only [untilSection, List.takeWhile, ht1, ne_eq, not_false_eq_true, decide_True]
            by_cases hs : t.tok = Token.STRING
            · simp only [List.filter, hs, decide_True]
              exact List.Sublist.cons _ hsub1
            · simp only [List.filter, hs, decide_False]
              exact hsub1
          · rw [consumedTokens_cons ht2]
            simpa [sectionSegments, ht1] using hfor1
          · rw [hsk1, hsk]

theorem sectionSegments_fst (l : List Scanned) :
    (sectionSegments l).map (fun seg => seg.1) = l.filter (fun t => t.tok = Token.SECTION) := by
  induction l with
  | nil => rfl
  | cons t rest ih =>
    by_cases ht : t.tok = Token.SECTION
    · simp [sectionSegments, ht, ih]
    · simp [sectionSegments, ht, ih]

/-! ## Theorems: round trip through the encoder and the decoder -/

/-! ### Strings -/

theorem Split_ne_nil (s : Str) (sep : Char) : Split s sep ≠ [] := by
  cases s with
  | nil => simp [Split]
  | cons c cs =>
    simp only [Split]
    split
    · simp
    · split <;> simp

theorem Split_cons_sep (cs : Str) (sep : Char) : Split (sep :: cs) sep = [] :: Split cs sep := by
  simp only [Split]
  cases h : Split cs sep with
  | nil => exact absurd h (Split_ne_nil cs sep)
  | cons l ls => simp

theorem Split_cons_ne {c : Char} {sep : Char} (hc : c ≠ sep) (cs : Str) :
    ∃ l ls, Split cs sep = l :: ls ∧ Split (c :: cs) sep = (c :: l) :: ls := by
  cases h : Split cs sep with
  | nil => exact absurd h (Split_ne_nil cs sep)
  | cons l ls =>
    refine ⟨l, ls, rfl, ?_⟩
    simp [Split, h, hc]

theorem Split_append_sep (a b : Str) (sep : Char) (h : sep ∉ a) :
    Split (a ++ sep :: b) sep = a :: Split b sep := by
  induction a with
  | nil => exact Split_cons_sep b sep
  | cons c cs ih =>
    have hc : c ≠ sep := fun e => h (by simp [e])
    have hcs : sep ∉ cs := fun e => h (by simp [e])
    obtain ⟨l, ls, h1, h2⟩ := Split_cons_ne hc (cs ++ sep :: b)
    rw [List.cons_append, h2]
    rw [ih hcs] at h1
    injection h1 with h3 h4
    rw [← h3, ← h4]

theorem Split_no_sep (a : Str) (sep : Char) (h : sep ∉ a) : Split a sep = [a] := by
  induction a with
  | nil => rfl
  | cons c cs ih =>
    have hc : c ≠ sep := fun e => h (by simp [e])
    have hcs : sep ∉ cs := fun e => h (by simp [e])
    obtain ⟨l, ls, h1, h2⟩ := Split_cons_ne hc cs
    rw [h2]
    rw [ih hcs] at h1
    injection h1 with h3 h4
    rw [← h3, ← h4]

theorem mem_Split_no_sep (s : Str) (sep : Char) : ∀ l ∈ Split s sep, sep ∉ l := by
  induction s with
  | nil => simp [Split]
  | cons c cs ih =>
    by_cases hc : c = sep
    · subst hc
      rw [Split_cons_sep]
      intro l hl
      rcases List.mem_cons.mp hl with rfl | hl
      · simp
      · exact ih l hl
    · obtain ⟨l0, ls, h1, h2⟩ := Split_cons_ne hc cs
      rw [h2]
      rw [h1] at ih
      intro l hl
      rcases List.mem_cons.mp hl with rfl | hl
      · intro hmem
        rcases List.mem_cons.mp hmem with e | hmem
        · exact hc e.symm
        · exact ih l0 (by simp) hmem
      · exact ih l (by simp [hl])

theorem Join_cons (l : Str) (ls : List Str) (sep : Char) (h : ls ≠ []) :
    Join (l :: ls) sep = l ++ sep :: Join ls sep := by
  cases ls with
  | nil => exact absurd rfl h
  | cons a as => rfl

theorem Join_Split (s : Str) (sep : Char) : Join (Split s sep) sep = s := by
  induction s with
  | nil => rfl
  | cons c cs ih =>
    by_cases hc : c = sep
    · subst hc
      rw [Split_cons_sep, Join_cons _ _ _ (Split_ne_nil cs c), ih]
      rfl
    · obtain ⟨l, ls, h1, h2⟩ := Split_cons_ne hc cs
      rw [h2]
      rw [h1] at ih
      cases ls with
      | nil =>
        simp only [Join] at ih ⊢
        rw [ih]
      | cons a as =>
        rw [Join_cons _ _ _ (by simp)] at ih ⊢
        rw [← ih]
        rfl

theorem dropWhile_length_le {α : Type} (p : α → Bool) (l : List α) :
    (l.dropWhile p).length ≤ l.length := by
  induction l with
  | nil => simp
  | cons a l ih =>
    simp only [List.dropWhile]
    split
    · simp; omega
    · simp

theorem rdropWhile_length_le {α : Type} (p : α → Bool) (l : List α) :
    (l.rdropWhile p).length ≤ l.length := by
  unfold List.rdropWhile
  rw [List.length_reverse]
  exact (dropWhile_length_le p l.reverse).trans (by simp)

theorem trimSpace_length_le (s : Str) : (TrimSpace s).length ≤ s.length :=
  (rdropWhile_length_le _ _).trans (dropWhile_length_le _ _)

theorem trimSpace_fixed_head {s t : Str} {c : Char} (h : TrimSpace s = s) (hs : s = c :: t) :
    isSpace c = false := by
  by_contra hc
  have hc : isSpace c = true := by simpa using hc
  have h1 : (TrimSpace s).length ≤ t.length := by
    unfold TrimSpace
    rw [hs]
    simp only [List.dropWhile, hc]
    exact (rdropWhile_length_le _ _).trans (dropWhile_length_le _ _)
  rw [h, hs] at h1
  simp at h1

theorem dropWhile_head_false {c : Char} {t : Str} (h : isSpace c = false) :
    (c :: t).dropWhile isSpace = c :: t := by
  simp [List.dropWhile, h]

theorem takeWhile_head_false {c : Char} {t : Str} (h : isSpace c = false) :
    (c :: t).takeWhile isSpace = [] := by
  simp [List.takeWhile, h]

theorem trimSpace_space_cons (l : Str) : TrimSpace (' ' :: l) = TrimSpace l := by
  unfold TrimSpace
  have : isSpace ' ' = true := by decide
  simp [List.dropWhile, this]

theorem trimSpace_bracketed (name : Str) :
    TrimSpace ('[' :: (name ++ [']'])) = '[' :: (name ++ [']']) := by
  unfold TrimSpace
  have h1 : isSpace '[' = false := by decide
  have h2 : isSpace ']' = false := by decide
  rw [dropWhile_head_false h1]
  have : '[' :: (name ++ [']']) = ('[' :: name) ++ [']'] := by simp
  rw [this, List.rdropWhile_concat_neg _ _ _ (by simp [h2])]

theorem replaceAll_not_mem (v : Str) (old : Char) (new : Str) (h : old ∉ v) :
    ReplaceAll v old new = v := by
  unfold ReplaceAll
  induction v with
  | nil => rfl
  | cons c cs ih =>
    have hc : c ≠ old := fun e => h (by simp [e])
    have hcs : old ∉ cs := fun e => h (by simp [e])
    simp only [List.flatMap_cons, hc, if_false]
    rw [ih hcs]
    rfl

theorem hasSuffix_not_mem (v : Str) (c : Char) (h : c ∉ v) : HasSuffix v [c] = false := by
  by_contra hc
  have hc : HasSuffix v [c] = true := by simpa using hc
  obtain ⟨s1, rfl⟩ := (hasSuffix_singleton v c).mp hc
  exact h (by simp)

/-! ### Tokens of the lines the encoder writes -/

theorem scanLines_line (ln : Int) (l rest : Str) (h : '\n' ∉ l) :
    scanLines ln (Split (l ++ '\n' :: rest) '\n') =
      scanLine ln l ++ ⟨⟨ln, l.length + 1⟩, Token.NEWLINE, ['\n']⟩ ::
        scanLines (ln + 1) (Split rest '\n') := by
  rw [Split_append_sep _ _ _ h]
  cases hr : Split rest '\n' with
  | nil => exact absurd hr (Split_ne_nil _ _)
  | cons a as => simp [scanLines]

theorem scanLines_empty (ln : Int) :
    scanLines ln (Split [] '\n') = [⟨⟨ln, 1⟩, Token.EOF, []⟩] := by
  simp [Split, scanLines, scanLine]

theorem scanLine_nil (ln : Int) : scanLine ln [] = [] := by
  simp [scanLine]

theorem scanLine_comment (ln : Int) (l : Str) :
    scanLine ln ('#' :: ' ' :: l) = [⟨⟨ln, 1⟩, Token.COMMENT, '#' :: ' ' :: l⟩] := by
  have h : isSpace '#' = false := by decide
  simp [scanLine, List.dropWhile, List.takeWhile, h]

theorem scanLine_section (ln : Int) (name : Str) :
    scanLine ln ('[' :: (name ++ [']'])) =
      [⟨⟨ln, 1⟩, Token.SECTION, '[' :: (name ++ [']'])⟩] := by
  have h : isSpace '[' = false := by decide
  have hsuf : HasSuffix ('[' :: (name ++ [']'])) [']'] = true :=
    (hasSuffix_singleton _ _).mpr ⟨'[' :: name, by simp⟩
  simp only [scanLine, dropWhile_head_false h, takeWhile_head_false h, trimSpace_bracketed, hsuf]
  simp

theorem scanLine_directive (ln : Int) (name value : Str) (hn : keyNameOK name) :
    scanLine ln (name ++ '=' :: value) =
      ⟨⟨ln, 1⟩, Token.STRING, name⟩ :: ⟨⟨ln, 1 + name.length⟩, Token.ASSIGN, ['=']⟩ ::
        segmentTokens ln (1 + name.length + 1) (Split value '=') := by
  obtain ⟨hne, htrim, heq, -, h1, h2, h3⟩ := hn
  cases name with
  | nil => exact absurd rfl hne
  | cons c t =>
    have hsp : isSpace c = false := trimSpace_fixed_head htrim rfl
    have hc1 : c ≠ '#' := fun e => h1 (by simp [e])
    have hc2 : c ≠ ';' := fun e => h2 (by simp [e])
    have hc3 : c ≠ '[' := fun e => h3 (by simp [e])
    simp only [scanLine, List.cons_append, dropWhile_head_false hsp, takeWhile_head_false hsp]
    simp only [hc1, hc2, hc3, or_self, false_and, if_false]
    have hs := Split_append_sep (c :: t) value '=' heq
    simp only [List.cons_append] at hs
    rw [hs]
    cases hv : Split value '=' with
    | nil => exact absurd hv (Split_ne_nil _ _)
    | cons a as => simp [segmentTokens]

/-! ### The decoder on the tokens of one line -/

theorem idle_sect_concat (secs : List Section) (s : Section) (cm : Str) :
    decodeState.idle (secs ++ [s]) cm = ⟨cm, some secs.length, none, ⟨secs ++ [s]⟩⟩ := by
  simp [decodeState.idle]

theorem modifyKey_active (secs : List Section) (s : Section) (k : Key) (f : Key → Key) :
    File.modifyKey ⟨secs ++ [{ s with Keys := s.Keys ++ [k] }]⟩ (secs.length, s.Keys.length) f =
      ⟨secs ++ [{ s with Keys := s.Keys ++ [f k] }]⟩ := by
  simp only [File.modifyKey]
  rw [modify_length_concat]
  simp only [modify_length_concat]

theorem keyAt_active (secs : List Section) (s : Section) (k : Key) :
    File.keyAt ⟨secs ++ [{ s with Keys := s.Keys ++ [k] }]⟩ (secs.length, s.Keys.length) = some k := by
  simp [File.keyAt]

theorem step_idle_comment (secs : List Section) (cm : Str) (pos : Position) (l : Str)
    (rest : List Scanned) (hl : TrimSpace l = l) :
    decodeStep (decodeState.idle secs cm) (⟨pos, .COMMENT, '#' :: ' ' :: l⟩ :: rest) =
      .next (decodeState.idle secs ((if cm ≠ [] then cm ++ ['\n'] else cm) ++ l)) rest := by
  rw [decodeStep_comment rfl, addComment_some _ (by simp)]
  simp only [decodeState.idle, List.drop_succ_cons, List.drop_zero, trimSpace_space_cons, hl]

theorem step_idle_newline (secs : List Section) (cm : Str) (pos : Position) (lit : Str)
    (rest : List Scanned) :
    decodeStep (decodeState.idle secs cm) (⟨pos, .NEWLINE, lit⟩ :: rest) =
      .next (decodeState.idle secs cm) rest := by
  rw [decodeStep_newline rfl]
  rfl

theorem step_idle_section (secs : List Section) (cm : Str) (pos : Position) (name : Str)
    (rest : List Scanned) :
    decodeStep (decodeState.idle secs cm) (⟨pos, .SECTION, '[' :: (name ++ [']'])⟩ :: rest) =
      .next (decodeState.idle (secs ++ [⟨name, cm, []⟩]) []) rest := by
  have hp : HasPrefix ('[' :: (name ++ [']'])) ['['] = true := by simp [HasPrefix]
  have hsuf : HasSuffix ('[' :: (name ++ [']'])) [']'] = true :=
    (hasSuffix_singleton _ _).mpr ⟨'[' :: name, by simp⟩
  rw [decodeStep_section rfl, addSection_ok _ _ hp hsuf, idle_sect_concat]
  simp [decodeState.idle]

theorem step_idle_name (secs : List Section) (s : Section) (cm : Str) (pos pos1 : Position)
    (name lit1 : Str) (rest : List Scanned) :
    decodeStep (decodeState.idle (secs ++ [s]) cm)
        (⟨pos, .STRING, name⟩ :: ⟨pos1, .ASSIGN, lit1⟩ :: rest) =
      .next (decodeState.active secs s ⟨TrimSpace name, [], []⟩ cm) rest := by
  rw [idle_sect_concat, decodeStep_string rfl, addString_idle rfl rfl]
  simp only [Scan, ne_eq, not_true_eq_false, if_false]
  simp [decodeState.active, modify_length_concat]

theorem step_active_string (secs : List Section) (s : Section) (k : Key) (cm : Str)
    (pos : Position) (lit : Str) (rest : List Scanned) :
    decodeStep (decodeState.active secs s k cm) (⟨pos, .STRING, lit⟩ :: rest) =
      .next (decodeState.active secs s { k with Value := k.Value ++ TrimSpace lit } cm) rest := by
  rw [decodeStep_string rfl, @addString_active _ secs.length (secs.length, s.Keys.length) rfl rfl]
  simp only [decodeState.active, modifyKey_active]

theorem step_active_assign (secs : List Section) (s : Section) (k : Key) (cm : Str)
    (pos : Position) (lit : Str) (rest : List Scanned) :
    decodeStep (decodeState.active secs s k cm) (⟨pos, .ASSIGN, lit⟩ :: rest) =
      .next (decodeState.active secs s { k with Value := k.Value ++ ['='] } cm) rest := by
  rw [decodeStep_assign rfl]
  simp only [decodeState.active, modifyKey_active]

theorem step_active_newline (secs : List Section) (s : Section) (k : Key) (cm : Str)
    (pos : Position) (lit : Str) (rest : List Scanned) (hv : '\\' ∉ k.Value) :
    decodeStep (decodeState.active secs s k cm) (⟨pos, .NEWLINE, lit⟩ :: rest) =
      .next (decodeState.idle (secs ++ [{ s with Keys := s.Keys ++ [{ k with Comment := cm }] }]) [])
        rest := by
  rw [decodeStep_newline rfl]
  simp only [decodeState.active, keyAt_active, Option.map_some', Option.getD_some,
    hasSuffix_not_mem _ _ hv, Bool.not_false, if_true]
  simp only [decodeState.closeKey, modifyKey_active, replaceAll_not_mem _ _ _ hv, idle_sect_concat]

theorem key_value_nil (k : Key) : ({ k with Value := k.Value ++ [] } : Key) = k := by
  cases k; simp

theorem run_value (secs : List Section) (s : Section) (cm : Str) (ln : Int)
    (rest : List Scanned) : ∀ (segs : List Str) (col : Int) (k : Key),
    decodeFrom (decodeState.active secs s k cm) (segmentTokens ln col segs ++ rest) =
      decodeFrom (decodeState.active secs s
        { k with Value := k.Value ++ Join (segs.map TrimSpace) '=' } cm) rest := by
  intro segs
  induction segs with
  | nil =>
    intro col k
    simp [segmentTokens, Join, key_value_nil]
  | cons a as ih =>
    intro col k
    cases as with
    | nil =>
      by_cases ha : a = []
      · subst ha
        have : TrimSpace [] = [] := rfl
        simp [segmentTokens, Join, this, key_value_nil]
      · simp only [segmentTokens, ha, if_false, List.singleton_append, List.map, Join]
        rw [decodeFrom_next (step_active_string _ _ _ _ _ _ _)]
    | cons b bs =>
      have hj : Join ((a :: b :: bs).map TrimSpace) '=' =
          TrimSpace a ++ '=' :: Join ((b :: bs).map TrimSpace) '=' := rfl
      rw [hj]
      by_cases ha : a = []
      · subst ha
        have : TrimSpace [] = [] := rfl
        simp only [segmentTokens, if_true, List.nil_append, List.cons_append, this]
        rw [decodeFrom_next (step_active_assign _ _ _ _ _ _ _), ih]
        simp [List.append_assoc]
      · simp only [segmentTokens, ha, if_false, List.singleton_append, List.cons_append]
        rw [decodeFrom_next (step_active_string _ _ _ _ _ _ _)]
        simp only [List.nil_append, List.cons_append]
        rw [decodeFrom_next (step_active_assign _ _ _ _ _ _ _), ih]
        simp [List.append_assoc]

theorem map_trimSpace_eq {segs : List Str} (h : ∀ seg ∈ segs, TrimSpace seg = seg) :
    segs.map TrimSpace = segs := by
  induction segs with
  | nil => rfl
  | cons a as ih =>
    simp only [List.map]
    rw [h a (by simp), ih (fun seg hs => h seg (by simp [hs]))]

theorem not_mem_join_split {v : Str} {c : Char} (h : c ∉ v) (sep : Char) :
    c ∉ Join (Split v sep) sep := by
  rw [Join_Split]; exact h

/-- The decoder on the line of a canonical key: the key is appended to the active
section with the pending comment. -/
theorem run_key_line (secs : List Section) (s : Section) (cm : Str) (ln : Int) (pos : Position)
    (lit : Str) (name value : Str) (rest : List Scanned)
    (hn : keyNameOK name) (hv : valueOK value) :
    decodeFrom (decodeState.idle (secs ++ [s]) cm)
        (scanLine ln (name ++ '=' :: value) ++ ⟨pos, .NEWLINE, lit⟩ :: rest) =
      decodeFrom (decodeState.idle
        (secs ++ [{ s with Keys := s.Keys ++ [⟨name, value, cm⟩] }]) []) rest := by
  rw [scanLine_directive ln name value hn]
  simp only [List.cons_append]
  rw [decodeFrom_next (step_idle_name _ _ _ _ _ _ _ _), run_value]
  simp only [List.nil_append]
  rw [map_trimSpace_eq hv.2.2, Join_Split]
  rw [decodeFrom_next (step_active_newline _ _ _ _ _ _ _ hv.2.1)]
  rw [hn.2.1]

/-! ### The decoder on the text the encoder writes -/

theorem text_blank_line (secs : List Section) (cm : Str) (ln : Int) (rest : Str) :
    decodeFrom (decodeState.idle secs cm) (scanLines ln (Split ('\n' :: rest) '\n')) =
      decodeFrom (decodeState.idle secs cm) (scanLines (ln + 1) (Split rest '\n')) := by
  have := scanLines_line ln [] rest (by simp)
  simp only [List.nil_append] at this
  rw [this, scanLine_nil, List.nil_append, decodeFrom_next (step_idle_newline _ _ _ _ _)]

theorem foldl_comment_lines (ls : List Str) (init : Str) :
    ls.foldl (fun commentBlock line => commentBlock ++ (['#', ' '] ++ line ++ ['\n'])) init =
      init ++ ls.flatMap (fun line => '#' :: ' ' :: (line ++ ['\n'])) := by
  induction ls generalizing init with
  | nil => simp
  | cons l ls ih =>
    simp only [List.foldl, List.flatMap_cons]
    rw [ih]
    simp [List.append_assoc]

theorem text_comment_lines (secs : List Section) (rest : Str) : ∀ (ls : List Str) (cm : Str)
    (ln : Int), (∀ l ∈ ls, TrimSpace l = l ∧ '\n' ∉ l) →
    ∃ ln1, decodeFrom (decodeState.idle secs cm)
        (scanLines ln (Split (ls.flatMap (fun line => '#' :: ' ' :: (line ++ ['\n'])) ++ rest) '\n')) =
      decodeFrom (decodeState.idle secs
          (ls.foldl (fun c l => (if c ≠ [] then c ++ ['\n'] else c) ++ l) cm))
        (scanLines ln1 (Split rest '\n')) := by
  intro ls
  induction ls with
  | nil =>
    intro cm ln _
    exact ⟨ln, by simp⟩
  | cons l ls ih =>
    intro cm ln h
    obtain ⟨h1, h2⟩ := h l (by simp)
    obtain ⟨ln1, hln1⟩ := ih ((if cm ≠ [] then cm ++ ['\n'] else cm) ++ l) (ln + 1)
      (fun l' hl' => h l' (by simp [hl']))
    refine ⟨ln1, ?_⟩
    have hline : '\n' ∉ ('#' :: ' ' :: l) := by
      intro hm
      rcases List.mem_cons.mp hm with e | hm
      · exact absurd e (by decide)
      · rcases List.mem_cons.mp hm with e | hm
        · exact absurd e (by decide)
        · exact h2 hm
    have hs := scanLines_line ln ('#' :: ' ' :: l)
      (ls.flatMap (fun line => '#' :: ' ' :: (line ++ ['\n'])) ++ rest) hline
    simp only [List.flatMap_cons, List.cons_append, List.append_assoc, List.singleton_append,
      List.nil_append] at hs ⊢
    rw [hs, scanLine_comment, List.singleton_append,
      decodeFrom_next (step_idle_comment _ _ _ _ _ h1),
      decodeFrom_next (step_idle_newline _ _ _ _ _)]
    exact hln1

theorem foldl_comment_of_ne (ls : List Str) (cm : Str) (h : cm ≠ []) :
    ls.foldl (fun c l => (if c ≠ [] then c ++ ['\n'] else c) ++ l) cm =
      cm ++ ls.flatMap (fun l => '\n' :: l) := by
  induction ls generalizing cm with
  | nil => simp
  | cons l ls ih =>
    simp only [List.foldl, List.flatMap_cons, h, ne_eq, not_false_eq_true, if_true]
    rw [ih _ (by simp [h])]
    simp [List.append_assoc]

theorem Join_eq_flatMap (l : Str) (ls : List Str) (sep : Char) :
    Join (l :: ls) sep = l ++ ls.flatMap (fun x => sep :: x) := by
  induction ls generalizing l with
  | nil => simp [Join]
  | cons a as ih =>
    rw [Join_cons _ _ _ (by simp), ih]
    simp

theorem Split_head_ne_nil {c : Str} (hne : c ≠ []) (hh : c.head? ≠ some '\n') :
    ∃ l ls, Split c '\n' = l :: ls ∧ l ≠ [] := by
  cases c with
  | nil => exact absurd rfl hne
  | cons x xs =>
    have hx : x ≠ '\n' := fun e => hh (by simp [e])
    obtain ⟨l, ls, -, h2⟩ := Split_cons_ne hx xs
    exact ⟨x :: l, ls, h2, by simp⟩

theorem foldl_comment_split {c : Str} (hne : c ≠ []) (hh : c.head? ≠ some '\n') :
    (Split c '\n').foldl (fun c l => (if c ≠ [] then c ++ ['\n'] else c) ++ l) [] = c := by
  obtain ⟨l, ls, hs, hl⟩ := Split_head_ne_nil hne hh
  have hj := Join_Split c '\n'
  rw [hs] at hj ⊢
  simp only [List.foldl, ne_eq, not_true_eq_false, if_false, List.nil_append]
  rw [foldl_comment_of_ne _ _ hl, ← Join_eq_flatMap, hj]

/-- The decoder on the comment block of a canonical comment: the comment becomes the
pending comment. -/
theorem text_comment (secs : List Section) (rest : Str) (c : Str) (hc : commentOK c) (ln : Int) :
    ∃ ln1, decodeFrom (decodeState.idle secs [])
        (scanLines ln (Split (writeComment c ++ rest) '\n')) =
      decodeFrom (decodeState.idle secs c) (scanLines ln1 (Split rest '\n')) := by
  unfold writeComment
  by_cases hne : c = []
  · subst hne
    exact ⟨ln, by simp⟩
  · simp only [hne, if_false]
    rw [foldl_comment_lines, List.nil_append]
    obtain ⟨ln1, h1⟩ := text_comment_lines secs rest (Split c '\n') [] ln
      (fun l hl => ⟨hc.1 l hl, mem_Split_no_sep c '\n' l hl⟩)
    rw [foldl_comment_split hne hc.2] at h1
    exact ⟨ln1, h1⟩

theorem text_key (secs : List Section) (s : Section) (rest : Str) (i : Nat) (k : Key)
    (hk : k.OK) (ln : Int) :
    ∃ ln1, decodeFrom (decodeState.idle (secs ++ [s]) [])
        (scanLines ln (Split ((if i ≠ 0 ∧ k.Comment ≠ [] then ['\n'] else []) ++ writeKey k ++ rest) '\n')) =
      decodeFrom (decodeState.idle (secs ++ [{ s with Keys := s.Keys ++ [k] }]) [])
        (scanLines ln1 (Split rest '\n')) := by
  obtain ⟨hn, hv, hc⟩ := hk
  have hline : '\n' ∉ k.Name ++ '=' :: k.Value := by
    intro hm
    rcases List.mem_append.mp hm with hm | hm
    · exact hn.2.2.2.1 hm
    · rcases List.mem_cons.mp hm with e | hm
      · exact absurd e (by decide)
      · exact hv.1 hm
  have hkey : ∀ ln2, decodeFrom (decodeState.idle (secs ++ [s]) k.Comment)
      (scanLines ln2 (Split ((k.Name ++ ['='] ++ k.Value ++ ['\n']) ++ rest) '\n')) =
      decodeFrom (decodeState.idle (secs ++ [{ s with Keys := s.Keys ++ [k] }]) [])
        (scanLines (ln2 + 1) (Split rest '\n')) := by
    intro ln2
    have hs := scanLines_line ln2 (k.Name ++ '=' :: k.Value) rest hline
    simp only [List.append_assoc, List.singleton_append, List.cons_append, List.nil_append] at hs ⊢
    rw [hs, run_key_line _ _ _ _ _ _ _ _ _ hn hv]
  have hcomment : ∀ ln2, ∃ ln1, decodeFrom (decodeState.idle (secs ++ [s]) [])
      (scanLines ln2 (Split (writeKey k ++ rest) '\n')) =
      decodeFrom (decodeState.idle (secs ++ [{ s with Keys := s.Keys ++ [k] }]) [])
        (scanLines ln1 (Split rest '\n')) := by
    intro ln2
    unfold writeKey
    obtain ⟨ln3, h3⟩ := text_comment (secs ++ [s])
      ((k.Name ++ ['='] ++ k.Value ++ ['\n']) ++ rest) k.Comment hc ln2
    refine ⟨ln3 + 1, ?_⟩
    rw [List.append_assoc, h3, hkey]
  by_cases hb : i ≠ 0 ∧ k.Comment ≠ []
  · simp only [hb, and_self, ne_eq, not_false_eq_true, if_true, List.singleton_append,
      List.cons_append, List.nil_append]
    rw [text_blank_line]
    exact hcomment (ln + 1)
  · rw [if_neg hb, List.nil_append]
    exact hcomment ln

theorem section_keys_nil (s : Section) : ({ s with Keys := s.Keys ++ [] } : Section) = s := by
  cases s; simp

theorem text_keys (secs : List Section) (rest : Str) : ∀ (keys : List Key) (i : Nat)
    (s : Section) (ln : Int), (∀ k ∈ keys, k.OK) →
    ∃ ln1, decodeFrom (decodeState.idle (secs ++ [s]) [])
        (scanLines ln (Split (writeKeysFrom i keys ++ rest) '\n')) =
      decodeFrom (decodeState.idle (secs ++ [{ s with Keys := s.Keys ++ keys }]) [])
        (scanLines ln1 (Split rest '\n')) := by
  intro keys
  induction keys with
  | nil =>
    intro i s ln _
    exact ⟨ln, by simp [writeKeysFrom, section_keys_nil]⟩
  | cons k ks ih =>
    intro i s ln h
    obtain ⟨ln2, h2⟩ := text_key secs s (writeKeysFrom (i + 1) ks ++ rest) i k (h k (by simp)) ln
    obtain ⟨ln3, h3⟩ := ih (i + 1) { s with Keys := s.Keys ++ [k] } ln2
      (fun k' hk' => h k' (by simp [hk']))
    refine ⟨ln3, ?_⟩
    simp only [writeKeysFrom, List.append_assoc] at h2 ⊢
    rw [h2, h3]
    simp [List.append_assoc]

theorem text_section (secs : List Section) (rest : Str) (s : Section) (hs : s.OK) (ln : Int) :
    ∃ ln1, decodeFrom (decodeState.idle secs [])
        (scanLines ln (Split (writeSection s ++ rest) '\n')) =
      decodeFrom (decodeState.idle (secs ++ [s]) []) (scanLines ln1 (Split rest '\n')) := by
  obtain ⟨hn, hc, hk⟩ := hs
  unfold writeSection
  obtain ⟨ln2, h2⟩ := text_comment secs
    ((['['] ++ s.Name ++ [']', '\n']) ++ (writeKeysFrom 0 s.Keys ++ rest)) s.Comment hc ln
  obtain ⟨ln3, h3⟩ := text_keys secs rest s.Keys 0 ⟨s.Name, s.Comment, []⟩ (ln2 + 1) hk
  refine ⟨ln3, ?_⟩
  have hline : '\n' ∉ '[' :: (s.Name ++ [']']) := by
    intro hm
    rcases List.mem_cons.mp hm with e | hm
    · exact absurd e (by decide)
    · rcases List.mem_append.mp hm with hm | hm
      · exact hn hm
      · simp at hm
  have hl := scanLines_line ln2 ('[' :: (s.Name ++ [']'])) (writeKeysFrom 0 s.Keys ++ rest) hline
  simp only [List.append_assoc, List.singleton_append, List.cons_append, List.nil_append] at h2 hl ⊢
  rw [h2, hl, scanLine_section, List.singleton_append,
    decodeFrom_next (step_idle_section _ _ _ _ _),
    decodeFrom_next (step_idle_newline _ _ _ _ _), h3]
  cases s
  simp

theorem text_sections (rest : Str) : ∀ (news : List Section) (i : Nat) (secs : List Section)
    (ln : Int), (∀ s ∈ news, s.OK) →
    ∃ ln1, decodeFrom (decodeState.idle secs [])
        (scanLines ln (Split (writeSectionsFrom i news ++ rest) '\n')) =
      decodeFrom (decodeState.idle (secs ++ news) []) (scanLines ln1 (Split rest '\n')) := by
  intro news
  induction news with
  | nil =>
    intro i secs ln _
    exact ⟨ln, by simp [writeSectionsFrom]⟩
  | cons s ss ih =>
    intro i secs ln h
    have hstart : ∃ ln0, decodeFrom (decodeState.idle secs [])
        (scanLines ln (Split (writeSectionsFrom i (s :: ss) ++ rest) '\n')) =
        decodeFrom (decodeState.idle secs [])
          (scanLines ln0 (Split (writeSection s ++ (writeSectionsFrom (i + 1) ss ++ rest)) '\n')) := by
      by_cases hi : i ≠ 0
      · refine ⟨ln + 1, ?_⟩
        simp only [writeSectionsFrom, hi, ne_eq, not_false_eq_true, if_true, List.append_assoc,
          List.singleton_append, List.cons_append, List.nil_append]
        rw [text_blank_line]
      · refine ⟨ln, ?_⟩
        simp only [writeSectionsFrom, hi, if_false, List.append_assoc, List.nil_append]
    obtain ⟨ln0, h0⟩ := hstart
    obtain ⟨ln2, h2⟩ := text_section secs (writeSectionsFrom (i + 1) ss ++ rest) s (h s (by simp)) ln0
    obtain ⟨ln3, h3⟩ := ih (i + 1) (secs ++ [s]) ln2 (fun s' hs' => h s' (by simp [hs']))
    refine ⟨ln3, ?_⟩
    rw [h0, h2, h3]
    simp [List.append_assoc]

/-- Decoding the bytes `Encode` writes for a canonical tree returns the tree. -/
theorem Decode_Encode_of_OK (f : File) (h : f.OK) : Decode (Encode f) = some (.ok f) := by
  unfold Decode decode scanAll Encode writeFile
  obtain ⟨ln1, h1⟩ := text_sections [] f.Sections 0 [] 1 h
  have hinit : decodeState.init = decodeState.idle [] [] := rfl
  simp only [List.append_nil, List.nil_append] at h1
  rw [hinit, h1, scanLines_empty, decodeFrom_eof rfl]
  simp [decodeState.closeKey, decodeState.idle]

/-- C1, amended. Round trip of canonical trees: when every section name is free of line
breaks, every comment has lines without surrounding white space and a non-empty first
line, every key name is non-empty, trimmed, free of `=` and line breaks and does not
start with `#`, `;` or `[`, and every value is free of line breaks and backslashes and
has no white space at its ends or next to a `=`, decoding the bytes `Encode` writes
succeeds and returns the same tree, sections and keys in the same order. -/
theorem decode_encode_canonical (f : File) (h : f.OK) : Decode (Encode f) = some (.ok f) :=
  Decode_Encode_of_OK f h

/-- Witness for C1 (amended): a canonical file with comments, an embedded `=` and two
sections. -/
theorem decode_encode_canonical_witness :
    (File.mk [⟨"A".toList, "c1\nc2".toList,
        [⟨"k".toList, "v=w".toList, []⟩, ⟨"k2".toList, "v".toList, "kc".toList⟩]⟩,
      ⟨"B".toList, [], []⟩]).OK ∧
    Decode (Encode ⟨[⟨"A".toList, "c1\nc2".toList,
        [⟨"k".toList, "v=w".toList, []⟩, ⟨"k2".toList, "v".toList, "kc".toList⟩]⟩,
      ⟨"B".toList, [], []⟩]⟩) =
      some (.ok ⟨[⟨"A".toList, "c1\nc2".toList,
        [⟨"k".toList, "v=w".toList, []⟩, ⟨"k2".toList, "v".toList, "kc".toList⟩]⟩,
      ⟨"B".toList, [], []⟩]⟩) :=
  ⟨by decide, decode_encode_canonical _ (by decide)⟩

/-- C1, counterexample. A key whose value holds a backslash is written as it is and
read back with a blank in place of the backslash; a value with a leading blank is read
back without it. -/
theorem decode_encode_counterexample :
    Encode ⟨[⟨"A".toList, [], [⟨"k".toList, "a\\b".toList, []⟩]⟩]⟩ = "[A]\nk=a\\b\n".toList ∧
    Decode (Encode ⟨[⟨"A".toList, [], [⟨"k".toList, "a\\b".toList, []⟩]⟩]⟩) =
      some (.ok ⟨[⟨"A".toList, [], [⟨"k".toList, "a b".toList, []⟩]⟩]⟩) ∧
    Decode (Encode ⟨[⟨"A".toList, [], [⟨"k".toList, "a\\b".toList, []⟩]⟩]⟩) ≠
      some (.ok ⟨[⟨"A".toList, [], [⟨"k".toList, "a\\b".toList, []⟩]⟩]⟩) ∧
    Decode (Encode ⟨[⟨"A".toList, [], [⟨"k".toList, " v".toList, []⟩]⟩]⟩) =
      some (.ok ⟨[⟨"A".toList, [], [⟨"k".toList, "v".toList, []⟩]⟩]⟩) := by
  refine ⟨by decide, by decide, by decide, by decide⟩

/-! ## Theorems: the mapper on concrete records -/

/-- C2, counterexample. An unset `*string` field without `omitempty` is marshalled as a
key with an empty value and comes back as a pointer to the empty string; a string holding
a backslash comes back with a blank in its place; a field of a kind the mapper has no
case for (`TransmitQueues uint`, link.go:123) is not written and comes back as the zero
value; an empty slice that is not nil writes no key and comes back as nil. -/
theorem unmarshal_marshal_counterexample :
    Marshal (.record [⟨"S".toList, [], .struct [⟨"Name".toList, [], .ptrString none⟩]⟩]) =
      .ok "[S]\nName=\n".toList ∧
    Unmarshal "[S]\nName=\n".toList
        (.record (FileRecord.zero [⟨"S".toList, [], .struct [⟨"Name".toList, [], .ptrString none⟩]⟩])) =
      some (.ok [⟨"S".toList, [], .struct [⟨"Name".toList, [], .ptrString (some [])⟩]⟩]) ∧
    ([⟨"S".toList, [], .struct [⟨"Name".toList, [], .ptrString (some [])⟩]⟩] : FileRecord) ≠
      [⟨"S".toList, [], .struct [⟨"Name".toList, [], .ptrString none⟩]⟩] ∧
    Marshal (.record [⟨"S".toList, [], .struct [⟨"Name".toList, [], .string "a\\b".toList⟩]⟩]) =
      .ok "[S]\nName=a\\b\n".toList ∧
    Unmarshal "[S]\nName=a\\b\n".toList
        (.record (FileRecord.zero [⟨"S".toList, [], .struct [⟨"Name".toList, [], .string "a\\b".toList⟩]⟩])) =
      some (.ok [⟨"S".toList, [], .struct [⟨"Name".toList, [], .string "a b".toList⟩]⟩]) ∧
    Marshal (.record [⟨"Link".toList, [], .struct [⟨"MTUBytes".toList, [], .string "1500".toList⟩,
        ⟨"TransmitQueues".toList, [], .other 4⟩]⟩]) = .ok "[Link]\nMTUBytes=1500\n".toList ∧
    Unmarshal "[Link]\nMTUBytes=1500\n".toList
        (.record (FileRecord.zero [⟨"Link".toList, [], .struct [⟨"MTUBytes".toList, [], .string "1500".toList⟩,
          ⟨"TransmitQueues".toList, [], .other 4⟩]⟩])) =
      some (.ok [⟨"Link".toList, [], .struct [⟨"MTUBytes".toList, [], .string "1500".toList⟩,
          ⟨"TransmitQueues".toList, [], .other 0⟩]⟩]) ∧
    ([⟨"Link".toList, [], .struct [⟨"MTUBytes".toList, [], .string "1500".toList⟩,
          ⟨"TransmitQueues".toList, [], .other 0⟩]⟩] : FileRecord) ≠
      [⟨"Link".toList, [], .struct [⟨"MTUBytes".toList, [], .string "1500".toList⟩,
          ⟨"TransmitQueues".toList, [], .other 4⟩]⟩] ∧
    GoRecord.Marshal ⟨[⟨"S".toList, [], .struct [⟨"Name".toList, [], .string "x".toList⟩,
        ⟨"DNS".toList, [], .sliceString []⟩]⟩], [⟨0, some (0, 1)⟩]⟩ = .ok "[S]\nName=x\n".toList ∧
    GoRecord.UnmarshalFresh "[S]\nName=x\n".toList
        ⟨[⟨"S".toList, [], .struct [⟨"Name".toList, [], .string "x".toList⟩,
          ⟨"DNS".toList, [], .sliceString []⟩]⟩], [⟨0, some (0, 1)⟩]⟩ =
      some (.ok ⟨[⟨"S".toList, [], .struct [⟨"Name".toList, [], .string "x".toList⟩,
          ⟨"DNS".toList, [], .sliceString []⟩]⟩], []⟩) ∧
    (⟨[⟨"S".toList, [], .struct [⟨"Name".toList, [], .string "x".toList⟩,
          ⟨"DNS".toList, [], .sliceString []⟩]⟩], []⟩ : GoRecord) ≠
      ⟨[⟨"S".toList, [], .struct [⟨"Name".toList, [], .string "x".toList⟩,
          ⟨"DNS".toList, [], .sliceString []⟩]⟩], [⟨0, some (0, 1)⟩]⟩ := by
  refine ⟨by decide, rfl, ?_, by decide, rfl, by decide, rfl, ?_, by decide, rfl, ?_⟩
  · simp
  · simp
  · simp

/-- C3, counterexample. The bytes `Marshal` writes are not reproduced for a record whose
string holds a backslash (it comes back as a blank), for a record with two fields of one
resolved key name and different values (both come back with the last value), and for a
record that registers a comment for an optional field (the comment is written and not read
back). -/
theorem marshal_unmarshal_marshal_counterexample :
    Marshal (.record [⟨"S".toList, [], .struct [⟨"Name".toList, [], .string "a\\b".toList⟩]⟩]) =
      .ok "[S]\nName=a\\b\n".toList ∧
    Unmarshal "[S]\nName=a\\b\n".toList
        (.record (FileRecord.zero [⟨"S".toList, [], .struct [⟨"Name".toList, [], .string "a\\b".toList⟩]⟩])) =
      some (.ok [⟨"S".toList, [], .struct [⟨"Name".toList, [], .string "a b".toList⟩]⟩]) ∧
    Marshal (.record [⟨"S".toList, [], .struct [⟨"Name".toList, [], .string "a b".toList⟩]⟩]) =
      .ok "[S]\nName=a b\n".toList ∧
    ("[S]\nName=a b\n".toList : Str) ≠ "[S]\nName=a\\b\n".toList ∧
    Marshal (.record [⟨"S".toList, [], .struct [⟨"A".toList, "N".toList, .string "x".toList⟩,
        ⟨"B".toList, "N".toList, .string "y".toList⟩]⟩]) = .ok "[S]\nN=x\nN=y\n".toList ∧
    Unmarshal "[S]\nN=x\nN=y\n".toList
        (.record (FileRecord.zero [⟨"S".toList, [], .struct [⟨"A".toList, "N".toList, .string "x".toList⟩,
          ⟨"B".toList, "N".toList, .string "y".toList⟩]⟩])) =
      some (.ok [⟨"S".toList, [], .struct [⟨"A".toList, "N".toList, .string "y".toList⟩,
          ⟨"B".toList, "N".toList, .string "y".toList⟩]⟩]) ∧
    Marshal (.record [⟨"S".toList, [], .struct [⟨"A".toList, "N".toList, .string "y".toList⟩,
        ⟨"B".toList, "N".toList, .string "y".toList⟩]⟩]) = .ok "[S]\nN=y\nN=y\n".toList ∧
    ("[S]\nN=y\nN=y\n".toList : Str) ≠ "[S]\nN=x\nN=y\n".toList ∧
    Marshal (.record [⟨"S".toList, [], .struct
        [⟨"KeyComments".toList, [],
            .keyComments (fun x => if x = "Up".toList then some "c".toList else none)⟩,
          ⟨"Up".toList, [], .ptrBool (some true)⟩]⟩]) = .ok "[S]\n# c\nUp=yes\n".toList ∧
    (∃ R1, Unmarshal "[S]\n# c\nUp=yes\n".toList
        (.record (FileRecord.zero [⟨"S".toList, [], .struct
          [⟨"KeyComments".toList, [],
              .keyComments (fun x => if x = "Up".toList then some "c".toList else none)⟩,
            ⟨"Up".toList, [], .ptrBool (some true)⟩]⟩])) = some (.ok R1) ∧
      Marshal (.record R1) = .ok "[S]\nUp=yes\n".toList) ∧
    ("[S]\nUp=yes\n".toList : Str) ≠ "[S]\n# c\nUp=yes\n".toList := by
  refine ⟨by decide, rfl, by decide, by decide, by decide, rfl, by decide, by decide, rfl,
    ⟨_, rfl, rfl⟩, by decide⟩

/-! ## Theorems: round trip through Marshal and Unmarshal -/

/-! ### The section `marshalSection` builds -/

theorem marshalField_eq (rv : SectionRecord) (s : Section) (f : KeyField) :
    marshalField rv s f =
      { s with Keys := s.Keys ++ fieldKeys rv f, Comment := fieldComment f s.Comment } := by
  cases s with
  | mk n c ks =>
  cases f with
  | mk name tag val =>
  cases val <;> simp only [marshalField, fieldKeys, fieldComment] <;>
    (repeat' split) <;> simp

theorem foldl_marshalField (rv : SectionRecord) : ∀ (l : List KeyField) (s : Section),
    l.foldl (marshalField rv) s =
      { s with Keys := s.Keys ++ l.flatMap (fieldKeys rv),
               Comment := l.foldl (fun c f => fieldComment f c) s.Comment } := by
  intro l
  induction l with
  | nil => intro s; cases s; simp
  | cons f l ih =>
    intro s
    simp only [List.foldl, List.flatMap_cons]
    rw [ih, marshalField_eq]
    simp [List.append_assoc]

/-- The keys of an embedded `KeyList`. -/
theorem marshalSection_eq (s : Section) (rv : SectionRecord) :
    marshalSection s rv =
      { s with
        Keys := s.Keys ++ rv.flatMap (fieldKeys rv) ++
          ((rv.findSome? (fun f => match f.Value with | .keyList l => some l | _ => none)).getD [])
        Comment := rv.foldl (fun c f => fieldComment f c) s.Comment } := by
  unfold marshalSection
  simp only [foldl_marshalField]
  cases rv.findSome? (fun f => match f.Value with | .keyList l => some l | _ => none) with
  | none => simp
  | some l => simp

theorem repeatKeys_name (name comment : Str) : ∀ (l : List Str) (i : Nat),
    ∀ k ∈ repeatKeys name comment i l, k.Name = name := by
  intro l
  induction l with
  | nil => intro i k hk; simp [repeatKeys] at hk
  | cons v rest ih =>
    intro i k hk
    simp only [repeatKeys, List.mem_append] at hk
    rcases hk with hk | hk
    · by_cases hv : v = []
      · simp [hv] at hk
      · simp [hv] at hk
        rw [hk]
    · exact ih _ k hk

theorem fieldKeys_name (rv : SectionRecord) (f : KeyField) :
    ∀ k ∈ fieldKeys rv f, k.Name = f.config.Name := by
  intro k hk
  cases f with
  | mk name tag val =>
  cases val <;> simp only [fieldKeys, marshalField] at hk
  · -- string
    split at hk
    · simp at hk
    · split at hk
      · simp at hk
      · split at hk
        · simp at hk
        · simp at hk; rw [hk]
  · split at hk
    · simp at hk
    · split at hk
      · simp at hk
      · simp at hk; rw [hk]
  · split at hk
    · simp at hk
    · split at hk
      · simp at hk
      · simp at hk; rw [hk]
  · split at hk
    · simp at hk
    · split at hk
      · split at hk
        · simp at hk
        · simp at hk; rw [hk]
      · simp at hk
        exact repeatKeys_name _ _ _ _ k hk
  · simp at hk
  · simp at hk
  · simp at hk

theorem filter_fieldKeys_self (rv : SectionRecord) (f : KeyField) :
    (fieldKeys rv f).filter (fun k => k.Name = f.config.Name) = fieldKeys rv f := by
  rw [List.filter_eq_self]
  intro k hk
  simp [fieldKeys_name rv f k hk]

theorem filter_fieldKeys_ne (rv : SectionRecord) (l : List KeyField) (name : Str)
    (h : ∀ g ∈ l, g.config.Name ≠ name) :
    (l.flatMap (fieldKeys rv)).filter (fun k => k.Name = name) = [] := by
  rw [List.filter_eq_nil_iff]
  intro k hk
  obtain ⟨g, hg, hkg⟩ := List.mem_flatMap.mp hk
  rw [fieldKeys_name rv g k hkg]
  simpa using h g hg

/-! ### One iteration of `unmarshalKeys` on the section `marshalSection` built -/

theorem todoField_config (cm : CommentMap) (f : KeyField) :
    (todoField cm f).config = f.config := by
  cases f with
  | mk name tag val => cases val <;> rfl

theorem doneField_config (cm : CommentMap) (f : KeyField) :
    (doneField cm f).config = f.config := by
  cases f with
  | mk name tag val =>
    cases val <;> rfl

theorem partialRecord_get (done todo : List KeyField) (f : KeyField) (cm : CommentMap) :
    (partialRecord done (f :: todo) cm).get? done.length = some (todoField cm f) := by
  simp only [partialRecord, List.get?_eq_getElem?]
  rw [List.getElem?_append_right (by simp)]
  simp

theorem partialRecord_set (done todo : List KeyField) (f x : KeyField) (cm : CommentMap) :
    (partialRecord done (f :: todo) cm).set done.length x =
      done.map (doneField cm) ++ x :: todo.map (todoField cm) := by
  have h : done.length = (done.map (doneField cm)).length := by simp
  simp only [partialRecord, List.map_cons]
  rw [h, List.set_append_right _ _ (le_refl _)]
  simp

theorem partialRecord_step (done todo : List KeyField) (f : KeyField) (cm : CommentMap)
    (h : todoField cm f = doneField cm f) :
    partialRecord done (f :: todo) cm = partialRecord (done ++ [f]) todo cm := by
  simp [partialRecord, h]

theorem partialRecord_set_done (done todo : List KeyField) (f : KeyField) (cm : CommentMap) :
    (partialRecord done (f :: todo) cm).set done.length (doneField cm f) =
      partialRecord (done ++ [f]) todo cm := by
  rw [partialRecord_set]
  simp [partialRecord]

theorem AddKeyComment_doneField (cm : CommentMap) (key comment : Str) (l : List KeyField) :
    AddKeyComment (l.map (doneField cm)) key comment =
      l.map (doneField (Function.update cm key (some comment))) := by
  unfold AddKeyComment
  rw [List.map_map]
  apply List.map_congr_left
  intro f _
  cases f with
  | mk name tag val => cases val <;> rfl

theorem AddKeyComment_todoField (cm : CommentMap) (key comment : Str) (l : List KeyField) :
    AddKeyComment (l.map (todoField cm)) key comment =
      l.map (todoField (Function.update cm key (some comment))) := by
  unfold AddKeyComment
  rw [List.map_map]
  apply List.map_congr_left
  intro f _
  cases f with
  | mk name tag val => cases val <;> rfl

theorem AddKeyComment_append (a b : SectionRecord) (key comment : Str) :
    AddKeyComment (a ++ b) key comment = AddKeyComment a key comment ++ AddKeyComment b key comment := by
  simp [AddKeyComment]

theorem AddKeyComment_partialRecord (done todo : List KeyField) (cm : CommentMap)
    (key comment : Str) :
    AddKeyComment (partialRecord done todo cm) key comment =
      partialRecord done todo (Function.update cm key (some comment)) := by
  simp only [partialRecord, AddKeyComment_append, AddKeyComment_doneField, AddKeyComment_todoField]

theorem unmarshalKey_unfold (sect : Section) (rv : SectionRecord) (done todo : List KeyField)
    (f : KeyField) (cm : CommentMap)
    (hkeys : sect.KeysByName f.config.Name = fieldKeys rv f) :
    unmarshalKey sect (partialRecord done (f :: todo) cm) done.length =
      match (fieldKeys rv f).getLast? with
      | none => partialRecord done (f :: todo) cm
      | some key =>
        match (todoField cm f).Value with
        | .string _ =>
          recordComment ((partialRecord done (f :: todo) cm).set done.length
            { todoField cm f with Value := .string key.Value }) f.config.Name key.Comment
        | .ptrBool _ =>
          if key.Value = [] ∧ f.config.Omitempty = true then partialRecord done (f :: todo) cm
          else
            match StrToBool key.Value with
            | none => partialRecord done (f :: todo) cm
            | some b => (partialRecord done (f :: todo) cm).set done.length
                { todoField cm f with Value := .ptrBool (some b) }
        | .ptrString _ =>
          if key.Value = [] ∧ f.config.Omitempty = true then partialRecord done (f :: todo) cm
          else (partialRecord done (f :: todo) cm).set done.length
            { todoField cm f with Value := .ptrString (some key.Value) }
        | .sliceString _ =>
          recordComment ((partialRecord done (f :: todo) cm).set done.length
            { todoField cm f with
              Value := .sliceString ((fieldKeys rv f).foldl (collectValue f.config.WSlist) ([], [])).1 })
            f.config.Name ((fieldKeys rv f).foldl (collectValue f.config.WSlist) ([], [])).2
        | _ => partialRecord done (f :: todo) cm := by
  unfold unmarshalKey
  rw [partialRecord_get]
  simp only [todoField_config, hkeys]

theorem unmarshalKey_no_keys (sect : Section) (rv : SectionRecord) (done todo : List KeyField)
    (f : KeyField) (cm : CommentMap)
    (hkeys : sect.KeysByName f.config.Name = fieldKeys rv f) (hno : fieldKeys rv f = [])
    (hsame : todoField cm f = doneField cm f) :
    unmarshalKey sect (partialRecord done (f :: todo) cm) done.length =
      partialRecord (done ++ [f]) todo cm := by
  rw [unmarshalKey_unfold sect rv done todo f cm hkeys, hno]
  simp only [List.getLast?_nil]
  exact partialRecord_step done todo f cm hsame

theorem recordComment_partialRecord (done todo : List KeyField) (cm : CommentMap)
    (key comment : Str) :
    recordComment (partialRecord done todo cm) key comment =
      partialRecord done todo
        (if comment = [] then cm else Function.update cm key (some comment)) := by
  unfold recordComment
  by_cases h : comment = []
  · simp [h]
  · simp only [h, if_false]
    exact AddKeyComment_partialRecord _ _ _ _ _

theorem StrToBool_BoolToStr (b : Bool) : StrToBool (BoolToStr b) = some b := by
  cases b <;> decide

theorem BoolToStr_ne_nil (b : Bool) : BoolToStr b ≠ [] := by
  cases b <;> decide

theorem filterEmpty_of_ne {l : List Str} (h : ∀ e ∈ l, e ≠ []) : filterEmpty l = l := by
  unfold filterEmpty
  rw [List.filter_eq_self]
  intro e he
  have := h e he
  simp
  exact this

theorem Join_eq_nil_iff {l : List Str} (h : ∀ e ∈ l, e ≠ []) (sep : Char) :
    Join l sep = [] ↔ l = [] := by
  constructor
  · intro hj
    cases l with
    | nil => rfl
    | cons a as =>
      exfalso
      have ha := h a (by simp)
      cases as with
      | nil => exact ha (by simpa [Join] using hj)
      | cons b bs =>
        rw [Join_cons _ _ _ (by simp)] at hj
        simp at hj
  · rintro rfl; rfl

theorem Split_Join {l : List Str} (sep : Char) (h : ∀ e ∈ l, sep ∉ e) (hne : l ≠ []) :
    Split (Join l sep) sep = l := by
  induction l with
  | nil => exact absurd rfl hne
  | cons a as ih =>
    cases as with
    | nil =>
      simp only [Join]
      exact Split_no_sep a sep (h a (by simp))
    | cons b bs =>
      rw [Join_cons _ _ _ (by simp), Split_append_sep _ _ _ (h a (by simp)),
        ih (fun e he => h e (by simp [he])) (by simp)]

theorem config_mk (name tag : Str) (val : KeyValue) :
    (KeyField.mk name tag val).config = configForField name tag := rfl

theorem partialRecord_set_eq (done todo : List KeyField) (f x : KeyField) (cm : CommentMap)
    (hx : x = doneField cm f) :
    (partialRecord done (f :: todo) cm).set done.length x =
      partialRecord (done ++ [f]) todo cm := by
  rw [hx, partialRecord_set_done]

theorem unmarshalKey_step_string (sect : Section) (rv : SectionRecord) (done todo : List KeyField)
    (name tag v : Str) (cm : CommentMap)
    (hkeys : sect.KeysByName (KeyField.mk name tag (.string v)).config.Name =
      fieldKeys rv ⟨name, tag, .string v⟩)
    (hkind : (KeyField.mk name tag (.string v)).kindOK) :
    unmarshalKey sect (partialRecord done (⟨name, tag, .string v⟩ :: todo) cm) done.length =
      partialRecord (done ++ [⟨name, tag, .string v⟩]) todo
        (recordedAfter rv cm ⟨name, tag, .string v⟩) := by
  obtain ⟨hk1, hk2⟩ := hkind
  simp only at hk1 hk2
  by_cases hc : name = ['C', 'o', 'm', 'm', 'e', 'n', 't']
  · have hno : fieldKeys rv ⟨name, tag, .string v⟩ = [] := by
      simp [fieldKeys, marshalField, hc]
    have hrec : recordedAfter rv cm ⟨name, tag, .string v⟩ = cm := by
      simp [recordedAfter, hc]
    rw [hrec]
    exact unmarshalKey_no_keys sect rv done todo _ cm hkeys hno
      (by simp [todoField, doneField, KeyValue.zero, hc])
  · by_cases hv : v = [] ∧ (configForField name tag).Omitempty = true
    · have hno : fieldKeys rv ⟨name, tag, .string v⟩ = [] := by
        simp only [fieldKeys, marshalField, config_mk, hc, hk1, hk2, or_self, if_false, hv,
          and_self, if_true]
      have hrec : recordedAfter rv cm ⟨name, tag, .string v⟩ = cm := by
        simp only [recordedAfter, config_mk, hv, and_self, or_true, if_true, ite_self]
      rw [hrec]
      exact unmarshalKey_no_keys sect rv done todo _ cm hkeys hno
        (by simp [todoField, doneField, KeyValue.zero, hc, hv.1])
    · have hk : fieldKeys rv ⟨name, tag, .string v⟩ =
          [⟨(configForField name tag).Name, v, keyComment rv (configForField name tag).Name⟩] := by
        simp only [fieldKeys, marshalField, config_mk, hc, hk1, hk2, or_self, if_false, hv]
        rfl
      rw [unmarshalKey_unfold sect rv done todo _ cm hkeys, hk]
      simp only [List.getLast?_singleton, todoField, KeyValue.zero, config_mk]
      rw [partialRecord_set_eq _ _ _ _ _ (by simp [doneField, hc]), recordComment_partialRecord]
      congr 1
      simp only [recordedAfter, config_mk, hc, hv, or_self, if_false]

theorem unmarshalKey_step_ptrString (sect : Section) (rv : SectionRecord) (done todo : List KeyField)
    (name tag : Str) (p : Option Str) (cm : CommentMap)
    (hkeys : sect.KeysByName (KeyField.mk name tag (.ptrString p)).config.Name =
      fieldKeys rv ⟨name, tag, .ptrString p⟩)
    (hkind : (KeyField.mk name tag (.ptrString p)).kindOK)
    (hval : (KeyField.mk name tag (.ptrString p)).valueOK rv) :
    unmarshalKey sect (partialRecord done (⟨name, tag, .ptrString p⟩ :: todo) cm) done.length =
      partialRecord (done ++ [⟨name, tag, .ptrString p⟩]) todo
        (recordedAfter rv cm ⟨name, tag, .ptrString p⟩) := by
  obtain ⟨-, hk1, hk2⟩ := hkind
  obtain ⟨-, hnone, hsome⟩ := hval
  simp only [config_mk] at hk1 hk2 hnone hsome
  have hrec : recordedAfter rv cm ⟨name, tag, .ptrString p⟩ = cm := by
    simp [recordedAfter]
  rw [hrec]
  cases p with
  | none =>
    have hno : fieldKeys rv ⟨name, tag, .ptrString none⟩ = [] := by
      simp only [fieldKeys, marshalField, config_mk, hk1, hk2, or_self, if_false, hnone rfl,
        and_self, if_true]
    exact unmarshalKey_no_keys sect rv done todo _ cm hkeys hno
      (by simp [todoField, doneField, KeyValue.zero])
  | some v =>
    obtain ⟨-, hv⟩ := hsome v rfl
    have hk : fieldKeys rv ⟨name, tag, .ptrString (some v)⟩ =
        [⟨(configForField name tag).Name, v, keyComment rv (configForField name tag).Name⟩] := by
      simp [fieldKeys, marshalField, config_mk, hk1, hk2]
    rw [unmarshalKey_unfold sect rv done todo _ cm hkeys, hk]
    simp only [List.getLast?_singleton, todoField, KeyValue.zero, config_mk]
    rw [if_neg hv]
    exact partialRecord_set_eq _ _ _ _ _ rfl

theorem unmarshalKey_step_ptrBool (sect : Section) (rv : SectionRecord) (done todo : List KeyField)
    (name tag : Str) (p : Option Bool) (cm : CommentMap)
    (hkeys : sect.KeysByName (KeyField.mk name tag (.ptrBool p)).config.Name =
      fieldKeys rv ⟨name, tag, .ptrBool p⟩)
    (hkind : (KeyField.mk name tag (.ptrBool p)).kindOK) :
    unmarshalKey sect (partialRecord done (⟨name, tag, .ptrBool p⟩ :: todo) cm) done.length =
      partialRecord (done ++ [⟨name, tag, .ptrBool p⟩]) todo
        (recordedAfter rv cm ⟨name, tag, .ptrBool p⟩) := by
  obtain ⟨-, hk1, hk2⟩ := hkind
  simp only at hk1 hk2
  have hrec : recordedAfter rv cm ⟨name, tag, .ptrBool p⟩ = cm := by
    simp [recordedAfter]
  rw [hrec]
  have hsame : todoField cm ⟨name, tag, .ptrBool none⟩ = doneField cm ⟨name, tag, .ptrBool none⟩ := rfl
  cases p with
  | none =>
    by_cases ho : (configForField name tag).Omitempty = true
    · have hno : fieldKeys rv ⟨name, tag, .ptrBool none⟩ = [] := by
        simp only [fieldKeys, marshalField, config_mk, hk1, hk2, or_self, if_false, ho, and_self,
          if_true]
      exact unmarshalKey_no_keys sect rv done todo _ cm hkeys hno hsame
    · have hk : fieldKeys rv ⟨name, tag, .ptrBool none⟩ =
          [⟨(configForField name tag).Name, [], keyComment rv (configForField name tag).Name⟩] := by
        simp [fieldKeys, marshalField, config_mk, hk1, hk2, ho]
      rw [unmarshalKey_unfold sect rv done todo _ cm hkeys, hk]
      simp only [List.getLast?_singleton, todoField, KeyValue.zero, config_mk]
      rw [if_neg (by simp [ho])]
      have : StrToBool [] = none := by decide
      simp only [this]
      exact partialRecord_step done todo _ cm hsame
  | some b =>
    have hk : fieldKeys rv ⟨name, tag, .ptrBool (some b)⟩ =
        [⟨(configForField name tag).Name, BoolToStr b,
          keyComment rv (configForField name tag).Name⟩] := by
      simp [fieldKeys, marshalField, config_mk, hk1, hk2]
    rw [unmarshalKey_unfold sect rv done todo _ cm hkeys, hk]
    simp only [List.getLast?_singleton, todoField, KeyValue.zero, config_mk]
    rw [if_neg (by simp [BoolToStr_ne_nil])]
    simp only [StrToBool_BoolToStr]
    exact partialRecord_set_eq _ _ _ _ _ rfl

theorem collect_repeat_plain (name : Str) : ∀ (l : List Str) (i : Nat) (a : List Str),
    (∀ e ∈ l, e ≠ []) →
    (repeatKeys name [] i l).foldl (collectValue false) (a, []) = (a ++ l, []) := by
  intro l
  induction l with
  | nil => intro i a _; simp [repeatKeys]
  | cons e rest ih =>
    intro i a h
    have he : e ≠ [] := h e (by simp)
    have hlen : ¬ e.length = 0 := by
      intro hc; exact he (List.length_eq_zero.mp hc)
    simp only [repeatKeys, he, if_false, ite_self, List.singleton_append, List.foldl_cons]
    have : collectValue false (a, []) ⟨name, e, []⟩ = (a ++ [e], []) := by
      simp [collectValue, hlen]
    rw [this, ih (i + 1) (a ++ [e]) (fun x hx => h x (by simp [hx]))]
    simp

theorem collect_repeat (name kc : Str) (l : List Str) (hne : ∀ e ∈ l, e ≠ []) (hl : l ≠ [])
    (h : kc ≠ [] → l.length = 1) :
    (repeatKeys name kc 0 l).foldl (collectValue false) ([], []) = (l, kc) := by
  by_cases hkc : kc = []
  · subst hkc
    simpa using collect_repeat_plain name l 0 [] hne
  · have h1 := h hkc
    match l, h1, hne with
    | [e], _, hne =>
      have he : e ≠ [] := hne e (by simp)
      have hlen : ¬ e.length = 0 := by
        intro hc; exact he (List.length_eq_zero.mp hc)
      simp [repeatKeys, he, collectValue, hlen]

theorem repeatKeys_ne_nil (name kc : Str) (l : List Str) (i : Nat) (hne : ∀ e ∈ l, e ≠ [])
    (hl : l ≠ []) : repeatKeys name kc i l ≠ [] := by
  cases l with
  | nil => exact absurd rfl hl
  | cons e rest =>
    have he : e ≠ [] := hne e (by simp)
    simp [repeatKeys, he]

theorem unmarshalKey_step_slice (sect : Section) (rv : SectionRecord) (done todo : List KeyField)
    (name tag : Str) (l : List Str) (cm : CommentMap)
    (hkeys : sect.KeysByName (KeyField.mk name tag (.sliceString l)).config.Name =
      fieldKeys rv ⟨name, tag, .sliceString l⟩)
    (hkind : (KeyField.mk name tag (.sliceString l)).kindOK)
    (hval : (KeyField.mk name tag (.sliceString l)).valueOK rv)
    (hcarry : keyComment rv (KeyField.mk name tag (.sliceString l)).config.Name ≠ [] →
      (KeyField.mk name tag (.sliceString l)).carriesComment) :
    unmarshalKey sect (partialRecord done (⟨name, tag, .sliceString l⟩ :: todo) cm) done.length =
      partialRecord (done ++ [⟨name, tag, .sliceString l⟩]) todo
        (recordedAfter rv cm ⟨name, tag, .sliceString l⟩) := by
  obtain ⟨-, hk1, hk2⟩ := hkind
  obtain ⟨-, hne, hpol⟩ := hval
  simp only [config_mk] at hk1 hk2 hne hpol hcarry
  by_cases hl : l = []
  · subst hl
    have hno : fieldKeys rv ⟨name, tag, .sliceString []⟩ = [] := by
      by_cases hw : (configForField name tag).WSlist = true
      · simp [fieldKeys, marshalField, config_mk, hk1, hk2, hw, Join]
      · simp [fieldKeys, marshalField, config_mk, hk1, hk2, hw, repeatKeys]
    have hrec : recordedAfter rv cm ⟨name, tag, .sliceString []⟩ = cm := by
      simp [recordedAfter]
    rw [hrec]
    exact unmarshalKey_no_keys sect rv done todo _ cm hkeys hno rfl
  · have hrec : recordedAfter rv cm ⟨name, tag, .sliceString l⟩ =
        if keyComment rv (configForField name tag).Name = [] then cm
        else Function.update cm (configForField name tag).Name
          (some (keyComment rv (configForField name tag).Name)) := by
      simp only [recordedAfter, config_mk, hl, if_false]
    rw [hrec, unmarshalKey_unfold sect rv done todo _ cm hkeys]
    have hfold : (fieldKeys rv ⟨name, tag, .sliceString l⟩).getLast? ≠ none ∧
        (fieldKeys rv ⟨name, tag, .sliceString l⟩).foldl
          (collectValue (configForField name tag).WSlist) ([], []) =
          (l, keyComment rv (configForField name tag).Name) := by
      by_cases hw : (configForField name tag).WSlist = true
      · simp only [hw, if_true] at hpol
        have hj : Join l ' ' ≠ [] := fun hc => hl ((Join_eq_nil_iff hne ' ').mp hc)
        have hjl : ¬ (Join l ' ').length = 0 := fun hc => hj (List.length_eq_zero.mp hc)
        have hk : fieldKeys rv ⟨name, tag, .sliceString l⟩ =
            [⟨(configForField name tag).Name, Join l ' ',
              keyComment rv (configForField name tag).Name⟩] := by
          simp only [fieldKeys, marshalField, config_mk, hk1, hk2, or_self, if_false, hw, if_true, hj]
          rfl
        rw [hk, hw]
        refine ⟨by simp, ?_⟩
        simp only [List.foldl_cons, List.foldl_nil, collectValue, hjl, if_false, if_true,
          Split_Join ' ' hpol.1 hl, filterEmpty_of_ne hne]
        simp
      · have hk : fieldKeys rv ⟨name, tag, .sliceString l⟩ =
            repeatKeys (configForField name tag).Name
              (keyComment rv (configForField name tag).Name) 0 l := by
          simp only [fieldKeys, marshalField, config_mk, hk1, hk2, or_self, if_false, hw]
          simp
        have hw2 : (configForField name tag).WSlist = false := by simpa using hw
        rw [hk, hw2]
        refine ⟨?_, collect_repeat _ _ l hne hl ?_⟩
        · intro hc
          exact repeatKeys_ne_nil _ _ l 0 hne hl (List.getLast?_eq_none_iff.mp hc)
        · intro hkc
          have := hcarry hkc
          simpa [KeyField.carriesComment, config_mk, hw] using this
    obtain ⟨hlast, hf⟩ := hfold
    cases hg : (fieldKeys rv ⟨name, tag, .sliceString l⟩).getLast? with
    | none => exact absurd hg hlast
    | some key =>
      simp only [todoField, KeyValue.zero, config_mk, hf]
      have hset := partialRecord_set_eq done todo ⟨name, tag, .sliceString l⟩
        ⟨name, tag, .sliceString l⟩ cm rfl
      rw [hset, recordComment_partialRecord]

theorem unmarshalKey_step_container (sect : Section) (rv : SectionRecord)
    (done todo : List KeyField) (f : KeyField) (cm : CommentMap)
    (hkeys : sect.KeysByName f.config.Name = fieldKeys rv f)
    (hval : (∃ l, f.Value = .keyList l) ∨ (∃ m, f.Value = .keyComments m) ∨ f.Value = .other 0) :
    unmarshalKey sect (partialRecord done (f :: todo) cm) done.length =
      partialRecord (done ++ [f]) todo (recordedAfter rv cm f) := by
  obtain ⟨name, tag, val⟩ := f
  have hno : fieldKeys rv ⟨name, tag, val⟩ = [] := by
    rcases hval with ⟨l, h⟩ | ⟨m, h⟩ | h <;> simp only at h <;> subst h <;>
      simp [fieldKeys, marshalField]
  have hrec : recordedAfter rv cm ⟨name, tag, val⟩ = cm := by
    rcases hval with ⟨l, h⟩ | ⟨m, h⟩ | h <;> simp only at h <;> subst h <;>
      simp [recordedAfter]
  rw [hrec]
  refine unmarshalKey_no_keys sect rv done todo _ cm hkeys hno ?_
  rcases hval with ⟨l, h⟩ | ⟨m, h⟩ | h <;> simp only at h <;> subst h <;> rfl

/-- One iteration of `unmarshalKeys` on the section `marshalSection` built from a
canonical struct gives the field back and records its comment. -/
theorem unmarshalKey_step (sect : Section) (rv : SectionRecord) (done todo : List KeyField)
    (f : KeyField) (cm : CommentMap)
    (hkeys : sect.KeysByName f.config.Name = fieldKeys rv f)
    (hkind : f.kindOK) (hval : f.valueOK rv)
    (hcarry : keyComment rv f.config.Name ≠ [] → f.carriesComment) :
    unmarshalKey sect (partialRecord done (f :: todo) cm) done.length =
      partialRecord (done ++ [f]) todo (recordedAfter rv cm f) := by
  obtain ⟨name, tag, val⟩ := f
  cases val with
  | string v => exact unmarshalKey_step_string sect rv done todo name tag v cm hkeys hkind
  | ptrString p => exact unmarshalKey_step_ptrString sect rv done todo name tag p cm hkeys hkind hval
  | ptrBool p => exact unmarshalKey_step_ptrBool sect rv done todo name tag p cm hkeys hkind
  | sliceString l =>
    exact unmarshalKey_step_slice sect rv done todo name tag l cm hkeys hkind hval hcarry
  | keyList l =>
    exact unmarshalKey_step_container sect rv done todo _ cm hkeys (Or.inl ⟨l, rfl⟩)
  | keyComments m =>
    exact unmarshalKey_step_container sect rv done todo _ cm hkeys (Or.inr (Or.inl ⟨m, rfl⟩))
  | other v =>
    have hv : v = 0 := hval
    subst hv
    exact unmarshalKey_step_container sect rv done todo _ cm hkeys (Or.inr (Or.inr rfl))

/-! ### The field loop of `unmarshalKeys` -/

theorem unmarshalKeys_loop (sect : Section) (rv : SectionRecord) :
    ∀ (todo done : List KeyField) (cm : CommentMap),
    (∀ f ∈ todo, sect.KeysByName f.config.Name = fieldKeys rv f ∧ f.kindOK ∧ f.valueOK rv ∧
      (keyComment rv f.config.Name ≠ [] → f.carriesComment)) →
    (List.range' done.length todo.length).foldl (unmarshalKey sect) (partialRecord done todo cm) =
      partialRecord (done ++ todo) [] (todo.foldl (recordedAfter rv) cm) := by
  intro todo
  induction todo with
  | nil => intro done cm _; simp
  | cons f todo ih =>
    intro done cm h
    obtain ⟨h1, h2, h3, h4⟩ := h f (by simp)
    simp only [List.length_cons, List.range'_succ, List.foldl_cons]
    rw [unmarshalKey_step sect rv done todo f cm h1 h2 h3 h4]
    have := ih (done ++ [f]) (recordedAfter rv cm f) (fun g hg => h g (by simp [hg]))
    simp only [List.length_append, List.length_singleton, List.append_assoc,
      List.singleton_append] at this
    exact this

theorem zero_eq_partialRecord (rv : SectionRecord) :
    SectionRecord.zero rv = partialRecord [] rv (fun _ => none) := by
  simp only [SectionRecord.zero, partialRecord, List.map_nil, List.nil_append]
  apply List.map_congr_left
  intro f _
  obtain ⟨name, tag, val⟩ := f
  cases val <;> rfl

theorem mem_eq_of_nodup_map {α β : Type} (g : α → β) {l : List α} (h : (l.map g).Nodup)
    {a b : α} (ha : a ∈ l) (hb : b ∈ l) (hab : g a = g b) : a = b :=
  List.inj_on_of_nodup_map h ha hb hab

theorem filter_flatMap_fieldKeys (rv : SectionRecord) : ∀ (l : List KeyField) (f : KeyField),
    (l.map (fun g => g.config.Name)).Nodup → f ∈ l →
    (l.flatMap (fieldKeys rv)).filter (fun k => k.Name = f.config.Name) = fieldKeys rv f := by
  intro l
  induction l with
  | nil => intro f _ hf; simp at hf
  | cons g l ih =>
    intro f hnd hf
    simp only [List.map_cons, List.nodup_cons] at hnd
    simp only [List.flatMap_cons, List.filter_append]
    rcases List.mem_cons.mp hf with rfl | hf
    · rw [filter_fieldKeys_self, filter_fieldKeys_ne rv l _ ?_]
      · simp
      · intro g' hg' hc
        exact hnd.1 (List.mem_map.mpr ⟨g', hg', hc⟩)
    · have hne : g.config.Name ≠ f.config.Name := by
        intro hc
        exact hnd.1 (List.mem_map.mpr ⟨f, hf, hc.symm⟩)
      have h1 : (fieldKeys rv g).filter (fun k => k.Name = f.config.Name) = [] := by
        rw [List.filter_eq_nil_iff]
        intro k hk
        rw [fieldKeys_name rv g k hk]
        simpa using hne
      rw [h1, ih f hnd.2 hf]
      simp

theorem findSome_keyList_mem {rv : SectionRecord} {l : List Key}
    (h : rv.findSome? (fun f => match f.Value with | .keyList l => some l | _ => none) = some l) :
    ∃ f ∈ rv, f.Value = .keyList l := by
  obtain ⟨f, hf, hfl⟩ := List.exists_of_findSome?_eq_some h
  refine ⟨f, hf, ?_⟩
  obtain ⟨name, tag, val⟩ := f
  cases val <;> simp at hfl
  simp [hfl]

theorem findSome_keyComments_mem {rv : SectionRecord} {m : CommentMap}
    (h : rv.findSome? (fun f => match f.Value with | .keyComments m => some m | _ => none) = some m) :
    ∃ f ∈ rv, f.Value = .keyComments m := by
  obtain ⟨f, hf, hfl⟩ := List.exists_of_findSome?_eq_some h
  refine ⟨f, hf, ?_⟩
  obtain ⟨name, tag, val⟩ := f
  cases val <;> simp at hfl
  simp [hfl]

/-- The unknown keys `marshalSection` appends bear no resolved name. -/
theorem keyList_names {rv : SectionRecord} (hc : rv.Canonical) :
    ∀ k ∈ (rv.findSome? (fun f => match f.Value with | .keyList l => some l | _ => none)).getD [],
      k.OK ∧ k.Name ∉ rv.map (fun g => g.config.Name) := by
  intro k hk
  cases h : rv.findSome? (fun f => match f.Value with | .keyList l => some l | _ => none) with
  | none => simp [h] at hk
  | some l =>
    simp only [h, Option.getD_some] at hk
    obtain ⟨f, hf, hfl⟩ := findSome_keyList_mem h
    have := hc.values f hf
    simp only [KeyField.valueOK, hfl] at this
    exact this k hk

theorem marshalSection_keysByName {rv : SectionRecord} (hc : rv.Canonical) (s : Section)
    (hs : s.Keys = []) {f : KeyField} (hf : f ∈ rv) :
    (marshalSection s rv).KeysByName f.config.Name = fieldKeys rv f := by
  rw [marshalSection_eq]
  simp only [Section.KeysByName, hs, List.nil_append, List.filter_append]
  rw [filter_flatMap_fieldKeys rv rv f hc.resolved hf]
  have : ((rv.findSome? (fun f => match f.Value with | .keyList l => some l | _ => none)).getD []).filter
      (fun k => k.Name = f.config.Name) = [] := by
    rw [List.filter_eq_nil_iff]
    intro k hk
    have h2 := (keyList_names hc k hk).2
    simp only [decide_eq_true_eq]
    intro hkn
    exact h2 (List.mem_map.mpr ⟨f, hf, hkn.symm⟩)
  rw [this]
  simp

/-! ### The comments `unmarshalKeys` records -/

theorem same_field_of_name {rv : SectionRecord} (hc : rv.Canonical) {f g : KeyField}
    (hf : f ∈ rv) (hg : g ∈ rv) (h : f.Name = g.Name) : f = g :=
  mem_eq_of_nodup_map (fun f => f.Name) hc.names hf hg h

theorem same_field_of_resolved {rv : SectionRecord} (hc : rv.Canonical) {f g : KeyField}
    (hf : f ∈ rv) (hg : g ∈ rv) (h : f.config.Name = g.config.Name) : f = g :=
  mem_eq_of_nodup_map (fun f => f.config.Name) hc.resolved hf hg h

theorem findSome_keyComments_eq {rv : SectionRecord} (hc : rv.Canonical) {f : KeyField}
    (hf : f ∈ rv) {m : CommentMap} (hm : f.Value = .keyComments m) :
    rv.findSome? (fun f => match f.Value with | .keyComments m => some m | _ => none) = some m := by
  cases h : rv.findSome? (fun f => match f.Value with | .keyComments m => some m | _ => none) with
  | none =>
    rw [List.findSome?_eq_none_iff] at h
    have := h f hf
    simp [hm] at this
  | some m0 =>
    obtain ⟨g, hg, hgm⟩ := findSome_keyComments_mem h
    have h1 := hc.kinds f hf
    have h2 := hc.kinds g hg
    simp only [KeyField.kindOK, hm] at h1
    simp only [KeyField.kindOK, hgm] at h2
    have := same_field_of_name hc hf hg (h1.trans h2.symm)
    subst this
    rw [hm] at hgm
    injection hgm with hgm
    rw [hgm]

theorem findSome_keyList_eq {rv : SectionRecord} (hc : rv.Canonical) {f : KeyField}
    (hf : f ∈ rv) {l : List Key} (hl : f.Value = .keyList l) :
    rv.findSome? (fun f => match f.Value with | .keyList l => some l | _ => none) = some l := by
  cases h : rv.findSome? (fun f => match f.Value with | .keyList l => some l | _ => none) with
  | none =>
    rw [List.findSome?_eq_none_iff] at h
    have := h f hf
    simp [hl] at this
  | some l0 =>
    obtain ⟨g, hg, hgl⟩ := findSome_keyList_mem h
    have h1 := hc.kinds f hf
    have h2 := hc.kinds g hg
    simp only [KeyField.kindOK, hl] at h1
    simp only [KeyField.kindOK, hgl] at h2
    have := same_field_of_name hc hf hg (h1.trans h2.symm)
    subst this
    rw [hl] at hgl
    injection hgl with hgl
    rw [hgl]

/-- In a canonical struct a comment is registered only under the resolved name of a field
that carries it. -/
theorem keyComment_carries {rv : SectionRecord} (hc : rv.Canonical) {f : KeyField}
    (hf : f ∈ rv) (h : keyComment rv f.config.Name ≠ []) : f.carriesComment := by
  unfold keyComment at h
  cases hm : rv.findSome? (fun f => match f.Value with | .keyComments m => some m | _ => none) with
  | none => simp [hm] at h
  | some m =>
    simp only [hm] at h
    obtain ⟨g0, hg0, hg0m⟩ := findSome_keyComments_mem hm
    cases hx : m f.config.Name with
    | none => simp [hx] at h
    | some c =>
      have hv := hc.values g0 hg0
      simp only [KeyField.valueOK, hg0m] at hv
      obtain ⟨-, -, g, hg, hgn, hgc⟩ := hv _ c hx
      have := same_field_of_resolved hc hg hf hgn
      subst this
      exact hgc

theorem keyComment_ok {rv : SectionRecord} (hc : rv.Canonical) (x : Str) :
    commentOK (keyComment rv x) := by
  unfold keyComment
  cases hm : rv.findSome? (fun f => match f.Value with | .keyComments m => some m | _ => none) with
  | none => simp only; decide
  | some m =>
    simp only
    obtain ⟨g0, hg0, hg0m⟩ := findSome_keyComments_mem hm
    cases hx : m x with
    | none => simp only [Option.getD_none]; decide
    | some c =>
      have hv := hc.values g0 hg0
      simp only [KeyField.valueOK, hg0m] at hv
      simpa using (hv _ c hx).2.1

theorem recordedAfter_other (rv : SectionRecord) (cm : CommentMap) (f : KeyField) (x : Str)
    (hx : keyComment rv x = []) : recordedAfter rv cm f x = cm x := by
  unfold recordedAfter
  by_cases hk : keyComment rv f.config.Name = []
  · simp [hk]
  · have hne : x ≠ f.config.Name := by
      intro e; rw [e] at hx; exact hk hx
    simp only [hk, if_false]
    obtain ⟨name, tag, val⟩ := f
    cases val <;> simp only
    · split
      · rfl
      · exact Function.update_noteq hne _ _
    · split
      · rfl
      · exact Function.update_noteq hne _ _

theorem recordedAfter_keep (rv : SectionRecord) (cm : CommentMap) (f : KeyField) (x : Str)
    (hx : cm x = some (keyComment rv x)) :
    recordedAfter rv cm f x = some (keyComment rv x) := by
  unfold recordedAfter
  by_cases hk : keyComment rv f.config.Name = []
  · simp [hk, hx]
  · simp only [hk, if_false]
    have hupd : Function.update cm f.config.Name (some (keyComment rv f.config.Name)) x =
        some (keyComment rv x) := by
      by_cases hne : x = f.config.Name
      · subst hne; simp
      · rw [Function.update_noteq hne]; exact hx
    obtain ⟨name, tag, val⟩ := f
    cases val <;> simp only <;> first | exact hx | (split <;> first | exact hx | exact hupd)

theorem recordedAfter_carrier (rv : SectionRecord) (cm : CommentMap) (f : KeyField)
    (hk : keyComment rv f.config.Name ≠ []) (hf : f.carriesComment) :
    recordedAfter rv cm f f.config.Name = some (keyComment rv f.config.Name) := by
  unfold recordedAfter
  simp only [hk, if_false]
  obtain ⟨name, tag, val⟩ := f
  cases val <;> simp only [KeyField.carriesComment] at hf
  · obtain ⟨h1, h2⟩ := hf
    simp only [config_mk] at h2 ⊢
    simp [h1, h2]
  · have hl : ¬ (‹List Str› = []) := by
      intro hc
      subst hc
      split at hf
      · exact hf rfl
      · simp at hf
    simp [hl]

theorem foldl_recorded_none (rv : SectionRecord) (x : Str) (hx : keyComment rv x = []) :
    ∀ (l : List KeyField) (cm : CommentMap), cm x = none →
      (l.foldl (recordedAfter rv) cm) x = none := by
  intro l
  induction l with
  | nil => intro cm h; exact h
  | cons f l ih =>
    intro cm h
    simp only [List.foldl_cons]
    exact ih _ (by rw [recordedAfter_other rv cm f x hx]; exact h)

theorem foldl_recorded_keep (rv : SectionRecord) (x : Str) :
    ∀ (l : List KeyField) (cm : CommentMap), cm x = some (keyComment rv x) →
      (l.foldl (recordedAfter rv) cm) x = some (keyComment rv x) := by
  intro l
  induction l with
  | nil => intro cm h; exact h
  | cons f l ih =>
    intro cm h
    simp only [List.foldl_cons]
    exact ih _ (recordedAfter_keep rv cm f x h)

theorem foldl_recorded_some (rv : SectionRecord) (x : Str) (hx : keyComment rv x ≠ []) :
    ∀ (l : List KeyField) (cm : CommentMap),
      (∃ g ∈ l, g.config.Name = x ∧ g.carriesComment) →
      (l.foldl (recordedAfter rv) cm) x = some (keyComment rv x) := by
  intro l
  induction l with
  | nil => intro cm ⟨g, hg, _⟩; simp at hg
  | cons f l ih =>
    intro cm ⟨g, hg, hgn, hgc⟩
    simp only [List.foldl_cons]
    rcases List.mem_cons.mp hg with rfl | hg
    · subst hgn
      exact foldl_recorded_keep rv _ l _ (recordedAfter_carrier rv cm g hx hgc)
    · exact ih _ ⟨g, hg, hgn, hgc⟩

/-- The comments recorded by the field loop are the comments of the struct. -/
theorem recorded_eq {rv : SectionRecord} (hc : rv.Canonical) {f : KeyField} (hf : f ∈ rv)
    {m : CommentMap} (hm : f.Value = .keyComments m) :
    rv.foldl (recordedAfter rv) (fun _ => none) = m := by
  funext x
  have hfind := findSome_keyComments_eq hc hf hm
  have hkc : keyComment rv x = (m x).getD [] := by simp [keyComment, hfind]
  cases hx : m x with
  | none =>
    exact foldl_recorded_none rv x (by simp [hkc, hx]) rv _ rfl
  | some c =>
    have hv := hc.values f hf
    simp only [KeyField.valueOK, hm] at hv
    obtain ⟨hne, -, g, hg, hgn, hgc⟩ := hv x c hx
    have hkc2 : keyComment rv x = c := by simp [hkc, hx]
    rw [← hkc2]
    exact foldl_recorded_some rv x (by rw [hkc2]; exact hne) rv _ ⟨g, hg, hgn, hgc⟩

/-! ### The unknown keys and the comment slot -/

theorem foldl_known (known : List Str) : ∀ (a : List Key) (r : SectionRecord),
    (∀ k ∈ a, k.Name ∈ known) →
    a.foldl (fun (r : SectionRecord) (key : Key) =>
      if key.Name ∈ known then r else AddKey r key) r = r := by
  intro a
  induction a with
  | nil => intro r _; rfl
  | cons k a ih =>
    intro r h
    simp only [List.foldl_cons, h k (by simp), if_true]
    exact ih r (fun k' hk' => h k' (by simp [hk']))

theorem appendKeys_nil (f : KeyField) : appendKeys [] f = f := by
  obtain ⟨name, tag, val⟩ := f
  cases val <;> simp [appendKeys]

theorem appendKeys_appendKeys (a b : List Key) (f : KeyField) :
    appendKeys b (appendKeys a f) = appendKeys (a ++ b) f := by
  obtain ⟨name, tag, val⟩ := f
  cases val <;> simp [appendKeys]

theorem foldl_unknown (known : List Str) : ∀ (l : List Key) (r : SectionRecord),
    (∀ k ∈ l, k.Name ∉ known) →
    l.foldl (fun (r : SectionRecord) (key : Key) =>
      if key.Name ∈ known then r else AddKey r key) r = r.map (appendKeys l) := by
  intro l
  induction l with
  | nil =>
    intro r _
    simp only [List.foldl_nil]
    rw [List.map_congr_left (fun f _ => appendKeys_nil f)]
    simp
  | cons k l ih =>
    intro r h
    simp only [List.foldl_cons, h k (by simp), if_false]
    rw [ih _ (fun k' hk' => h k' (by simp [hk']))]
    have : AddKey r k = r.map (appendKeys [k]) := by
      unfold AddKey
      apply List.map_congr_left
      intro f _
      obtain ⟨name, tag, val⟩ := f
      cases val <;> rfl
    rw [this, List.map_map]
    apply List.map_congr_left
    intro f _
    simp [appendKeys_appendKeys]

theorem zero_config (rv : SectionRecord) :
    (SectionRecord.zero rv).map (fun f => f.config.Name) = rv.map (fun f => f.config.Name) := by
  simp only [SectionRecord.zero, List.map_map]
  apply List.map_congr_left
  intro f _
  rfl

theorem zero_length (rv : SectionRecord) : (SectionRecord.zero rv).length = rv.length := by
  simp [SectionRecord.zero]

theorem fieldKeys_known (rv : SectionRecord) :
    ∀ k ∈ rv.flatMap (fieldKeys rv), k.Name ∈ rv.map (fun f => f.config.Name) := by
  intro k hk
  obtain ⟨g, hg, hkg⟩ := List.mem_flatMap.mp hk
  rw [fieldKeys_name rv g k hkg]
  exact List.mem_map.mpr ⟨g, hg, rfl⟩

/-- The struct `unmarshalKeys` returns on the section `marshalSection` built from a
canonical struct: the struct itself with its comment slot still empty. -/
theorem unmarshalKeys_marshalSection {rv : SectionRecord} (hc : rv.Canonical) (name : Str) :
    unmarshalKeys (marshalSection ⟨name, [], []⟩ rv) (SectionRecord.zero rv) =
      rv.map clearComment := by
  have hloop := unmarshalKeys_loop (marshalSection ⟨name, [], []⟩ rv) rv rv [] (fun _ => none)
    (fun f hf => ⟨marshalSection_keysByName hc _ rfl hf, hc.kinds f hf, hc.values f hf,
      keyComment_carries hc hf⟩)
  simp only [List.length_nil, List.nil_append] at hloop
  have h1 : (List.range (SectionRecord.zero rv).length).foldl
      (unmarshalKey (marshalSection ⟨name, [], []⟩ rv)) (SectionRecord.zero rv) =
      partialRecord rv [] (rv.foldl (recordedAfter rv) (fun _ => none)) := by
    rw [zero_length, List.range_eq_range', zero_eq_partialRecord]
    exact hloop
  have hkeys : (marshalSection ⟨name, [], []⟩ rv).Keys = rv.flatMap (fieldKeys rv) ++
      ((rv.findSome? (fun f => match f.Value with | .keyList l => some l | _ => none)).getD []) := by
    rw [marshalSection_eq]
    simp
  simp only [unmarshalKeys]
  rw [h1, zero_config, hkeys, List.foldl_append]
  rw [foldl_known _ _ _ (fieldKeys_known rv),
    foldl_unknown _ _ _ (fun k hk => (keyList_names hc k hk).2)]
  simp only [partialRecord, List.map_nil, List.append_nil, List.map_map]
  apply List.map_congr_left
  intro f hf
  obtain ⟨fname, tag, val⟩ := f
  cases val with
  | string v => rfl
  | ptrString p => rfl
  | ptrBool p => rfl
  | sliceString l => rfl
  | other v => rfl
  | keyList l =>
    rw [findSome_keyList_eq hc hf rfl]
    simp [Function.comp, doneField, appendKeys, clearComment]
  | keyComments m =>
    rw [recorded_eq hc hf rfl]
    simp [Function.comp, doneField, appendKeys, clearComment]

theorem clearComment_name (f : KeyField) : (clearComment f).Name = f.Name := by
  obtain ⟨name, tag, val⟩ := f
  cases val <;> rfl

theorem clearComment_of_ne {f : KeyField} (h : f.Name ≠ ['C', 'o', 'm', 'm', 'e', 'n', 't']) :
    clearComment f = f := by
  obtain ⟨name, tag, val⟩ := f
  cases val <;> simp only [clearComment]
  simp only at h
  simp [h]

theorem map_clearComment_of_ne {l : List KeyField}
    (h : ∀ g ∈ l, g.Name ≠ ['C', 'o', 'm', 'm', 'e', 'n', 't']) : l.map clearComment = l := by
  induction l with
  | nil => rfl
  | cons g l ih =>
    simp only [List.map_cons]
    rw [clearComment_of_ne (h g (by simp)), ih (fun g' hg' => h g' (by simp [hg']))]

theorem foldl_fieldComment_of_ne {l : List KeyField}
    (h : ∀ g ∈ l, g.Name ≠ ['C', 'o', 'm', 'm', 'e', 'n', 't']) (c : Str) :
    l.foldl (fun c f => fieldComment f c) c = c := by
  induction l with
  | nil => rfl
  | cons g l ih =>
    simp only [List.foldl_cons]
    have : fieldComment g c = c := by
      have hg := h g (by simp)
      obtain ⟨name, tag, val⟩ := g
      cases val <;> simp only [fieldComment]
      simp only at hg
      simp [hg]
    rw [this]
    exact ih (fun g' hg' => h g' (by simp [hg']))

/-- The comment slot of a canonical struct is filled with the comment `marshalSection`
gave the section. -/
theorem setCommentField_clear {rv : SectionRecord} (hc : rv.Canonical) :
    setCommentField (rv.map clearComment) (rv.foldl (fun c f => fieldComment f c) []) = some rv := by
  by_cases hex : ∃ f ∈ rv, f.Name = ['C', 'o', 'm', 'm', 'e', 'n', 't']
  · obtain ⟨f, hf, hfn⟩ := hex
    obtain ⟨pre, post, rfl⟩ := List.append_of_mem hf
    have hnd := hc.names
    simp only [List.map_append, List.map_cons] at hnd
    have hpre : ∀ g ∈ pre, g.Name ≠ ['C', 'o', 'm', 'm', 'e', 'n', 't'] := by
      intro g hg hgn
      have := (List.nodup_append.mp hnd).2.2
      exact this (List.mem_map.mpr ⟨g, hg, rfl⟩) (by simp [hgn, hfn])
    have hpost : ∀ g ∈ post, g.Name ≠ ['C', 'o', 'm', 'm', 'e', 'n', 't'] := by
      intro g hg hgn
      have := (List.nodup_cons.mp (List.nodup_append.mp hnd).2.1).1
      exact this (List.mem_map.mpr ⟨g, hg, by rw [hgn, hfn]⟩)
    have hk := hc.kinds f (by simp)
    obtain ⟨name, tag, val⟩ := f
    simp only at hfn
    subst hfn
    cases val with
    | string v =>
      have hidx : ((pre ++ ⟨['C', 'o', 'm', 'm', 'e', 'n', 't'], tag, .string v⟩ :: post).map
          clearComment).findIdx? (fun f => f.Name = ['C', 'o', 'm', 'm', 'e', 'n', 't']) =
          some pre.length := by
        simp only [List.map_append, List.map_cons, List.findIdx?_append]
        have h1 : (pre.map clearComment).findIdx?
            (fun f => decide (f.Name = ['C', 'o', 'm', 'm', 'e', 'n', 't'])) = none := by
          rw [List.findIdx?_eq_none_iff]
          intro x hx
          obtain ⟨g, hg, rfl⟩ := List.mem_map.mp hx
          simpa [clearComment_name] using hpre g hg
        rw [h1]
        simp [List.findIdx?_cons, clearComment]
      unfold setCommentField
      rw [hidx]
      simp only [List.map_append, List.map_cons, List.get?_eq_getElem?]
      rw [List.getElem?_append_right (by simp)]
      simp only [List.length_map, Nat.sub_self, List.getElem?_cons_zero, clearComment, if_true]
      rw [List.foldl_append, List.foldl_cons, foldl_fieldComment_of_ne hpre,
        foldl_fieldComment_of_ne hpost]
      have hlen : pre.length = (pre.map clearComment).length := by simp
      rw [hlen, List.set_append_right _ _ (le_refl _)]
      simp only [Nat.sub_self, List.set_cons_zero, fieldComment, if_true]
      rw [map_clearComment_of_ne hpre, map_clearComment_of_ne hpost]
    | ptrString p => exact absurd rfl hk.1
    | ptrBool p => exact absurd rfl hk.1
    | sliceString l => exact absurd rfl hk.1
    | other v => exact absurd rfl hk.1
    | keyList l => simp [KeyField.kindOK] at hk
    | keyComments m => simp [KeyField.kindOK] at hk
  · have hall : ∀ g ∈ rv, g.Name ≠ ['C', 'o', 'm', 'm', 'e', 'n', 't'] := by
      intro g hg hgn
      exact hex ⟨g, hg, hgn⟩
    have hidx : (rv.map clearComment).findIdx?
        (fun f => f.Name = ['C', 'o', 'm', 'm', 'e', 'n', 't']) = none := by
      rw [List.findIdx?_eq_none_iff]
      intro x hx
      obtain ⟨g, hg, rfl⟩ := List.mem_map.mp hx
      simpa [clearComment_name] using hall g hg
    unfold setCommentField
    rw [hidx, map_clearComment_of_ne hall]

/-- Section round trip: the new object `unmarshalSections` builds from the section that
`marshalSection` built from a canonical struct is that struct. -/
theorem newObject_marshalSection {rv : SectionRecord} (hc : rv.Canonical) (name : Str)
    (elem : SectionRecord) (he : SectionRecord.zero rv = SectionRecord.zero elem) :
    newObject (marshalSection ⟨name, [], []⟩ rv) elem = some rv := by
  unfold newObject
  rw [← he, unmarshalKeys_marshalSection hc name]
  have : (marshalSection ⟨name, [], []⟩ rv).Comment = rv.foldl (fun c f => fieldComment f c) [] := by
    rw [marshalSection_eq]
  rw [this]
  exact setCommentField_clear hc

/-! ### The section `marshalSection` builds is canonical -/

theorem commentOK_nil : commentOK [] := by decide

theorem valueOK_nil : valueOK [] := by decide

theorem valueOK_BoolToStr (b : Bool) : valueOK (BoolToStr b) := by
  cases b <;> decide

theorem foldl_fieldComment_ok {rv : SectionRecord} : ∀ (l : List KeyField) (c : Str),
    (∀ f ∈ l, f.valueOK rv) → commentOK c →
    commentOK (l.foldl (fun c f => fieldComment f c) c) := by
  intro l
  induction l with
  | nil => intro c _ hc; exact hc
  | cons f l ih =>
    intro c h hc
    simp only [List.foldl_cons]
    apply ih _ (fun g hg => h g (by simp [hg]))
    have hf := h f (by simp)
    obtain ⟨name, tag, val⟩ := f
    cases val <;> simp only [fieldComment] <;> try exact hc
    by_cases hn : name = ['C', 'o', 'm', 'm', 'e', 'n', 't']
    · simp only [hn, if_true]
      simpa [KeyField.valueOK, hn] using hf
    · simp only [hn, if_false]
      exact hc

theorem repeatKeys_ok (name kc : Str) (hn : keyNameOK name) (hkc : commentOK kc) :
    ∀ (l : List Str) (i : Nat), (∀ e ∈ l, valueOK e) →
    ∀ k ∈ repeatKeys name kc i l, k.OK := by
  intro l
  induction l with
  | nil => intro i _ k hk; simp [repeatKeys] at hk
  | cons e rest ih =>
    intro i h k hk
    simp only [repeatKeys, List.mem_append] at hk
    rcases hk with hk | hk
    · by_cases he : e = []
      · simp [he] at hk
      · simp only [he, if_false, List.mem_singleton] at hk
        subst hk
        refine ⟨hn, h e (by simp), ?_⟩
        simp only
        split
        · exact hkc
        · exact commentOK_nil
    · exact ih (i + 1) (fun x hx => h x (by simp [hx])) k hk

theorem fieldKeys_ok {rv : SectionRecord} (hc : rv.Canonical) {f : KeyField} (hf : f ∈ rv) :
    ∀ k ∈ fieldKeys rv f, k.OK := by
  intro k hk
  have hv := hc.values f hf
  have hkc := keyComment_ok hc f.config.Name
  obtain ⟨name, tag, val⟩ := f
  cases val <;> simp only [fieldKeys, marshalField, KeyField.valueOK] at hk hv
  · -- string
    split at hk
    · simp at hk
    · rename_i hn
      simp only [hn, if_false] at hv
      split at hk
      · simp at hk
      · split at hk
        · simp at hk
        · simp at hk
          subst hk
          exact ⟨hv.1, hv.2, hkc⟩
  · split at hk
    · simp at hk
    · split at hk
      · simp at hk
      · simp at hk
        subst hk
        refine ⟨hv.1, ?_, hkc⟩
        rename_i p _ _
        cases p with
        | none => exact valueOK_nil
        | some v => exact (hv.2.2 v rfl).1
  · split at hk
    · simp at hk
    · split at hk
      · simp at hk
      · simp at hk
        subst hk
        refine ⟨hv, ?_, hkc⟩
        rename_i p _ _
        cases p with
        | none => exact valueOK_nil
        | some b => exact valueOK_BoolToStr b
  · split at hk
    · simp at hk
    · split at hk
      · rename_i hw
        simp only [hw, if_true] at hv
        split at hk
        · simp at hk
        · simp at hk
          subst hk
          exact ⟨hv.1, hv.2.2.2, hkc⟩
      · rename_i hw
        simp only [hw, if_false] at hv
        simp at hk
        exact repeatKeys_ok _ _ hv.1 hkc _ 0 hv.2.2 k hk
  · simp at hk
  · simp at hk
  · simp at hk

theorem marshalSection_ok {rv : SectionRecord} (hc : rv.Canonical) {name : Str}
    (hn : '\n' ∉ name) : (marshalSection ⟨name, [], []⟩ rv).OK := by
  rw [marshalSection_eq]
  refine ⟨hn, foldl_fieldComment_ok rv [] hc.values commentOK_nil, ?_⟩
  intro k hk
  simp only [List.nil_append, List.mem_append] at hk
  rcases hk with hk | hk
  · obtain ⟨g, hg, hkg⟩ := List.mem_flatMap.mp hk
    exact fieldKeys_ok hc hg k hkg
  · exact (keyList_names hc k hk).1

theorem marshalSection_name (s : Section) (rv : SectionRecord) :
    (marshalSection s rv).Name = s.Name := by
  rw [marshalSection_eq]

/-! ### The field loop of `unmarshalSections` -/

theorem zero_zero (rv : SectionRecord) :
    SectionRecord.zero (SectionRecord.zero rv) = SectionRecord.zero rv := by
  simp only [SectionRecord.zero, List.map_map]
  apply List.map_congr_left
  intro f _
  obtain ⟨name, tag, val⟩ := f
  cases val <;> rfl

theorem partialFile_get (done todo : List SectionsField) (f : SectionsField) :
    (partialFile done (f :: todo)).get? done.length = some (todoSections f) := by
  simp only [partialFile, List.get?_eq_getElem?]
  rw [List.getElem?_append_right (by simp)]
  simp

theorem partialFile_set (done todo : List SectionsField) (f x : SectionsField) :
    (partialFile done (f :: todo)).set done.length x =
      done.map doneSections ++ x :: todo.map todoSections := by
  have h : done.length = (done.map doneSections).length := by simp
  simp only [partialFile, List.map_cons]
  rw [h, List.set_append_right _ _ (le_refl _)]
  simp

theorem partialFile_step (done todo : List SectionsField) (f : SectionsField)
    (h : todoSections f = doneSections f) :
    partialFile done (f :: todo) = partialFile (done ++ [f]) todo := by
  simp [partialFile, h]

theorem get_prefix_cons (pre : List SectionsField) (x : SectionsField) (post : List SectionsField) :
    (pre ++ x :: post).get? pre.length = some x := by
  simp only [List.get?_eq_getElem?]
  rw [List.getElem?_append_right (le_refl _)]
  simp

theorem set_prefix_cons (pre : List SectionsField) (x y : SectionsField)
    (post : List SectionsField) :
    (pre ++ x :: post).set pre.length y = pre ++ y :: post := by
  rw [List.set_append_right _ _ (le_refl _)]
  simp

/-- The section loop for a slice field: every section appends the struct it was built
from. -/
theorem unmarshalSection_slice (name tag fname : Str) (elem : SectionRecord)
    (pre post : List SectionsField) : ∀ (vs acc : List SectionRecord),
    (∀ v ∈ vs, SectionRecord.Canonical v ∧ SectionRecord.zero v = SectionRecord.zero elem) →
    (vs.map (fun v => marshalSection ⟨fname, [], []⟩ v)).foldl (unmarshalSection pre.length)
        (.ok (pre ++ ⟨name, tag, .slice elem acc⟩ :: post)) =
      .ok (pre ++ ⟨name, tag, .slice elem (acc ++ vs)⟩ :: post) := by
  intro vs
  induction vs with
  | nil => intro acc _; simp
  | cons v vs ih =>
    intro acc h
    obtain ⟨hc, hz⟩ := h v (by simp)
    simp only [List.map_cons, List.foldl_cons]
    have hstep : unmarshalSection pre.length (.ok (pre ++ ⟨name, tag, .slice elem acc⟩ :: post))
        (marshalSection ⟨fname, [], []⟩ v) =
        .ok (pre ++ ⟨name, tag, .slice elem (acc ++ [v])⟩ :: post) := by
      simp only [unmarshalSection, get_prefix_cons, newObject_marshalSection hc fname elem hz,
        set_prefix_cons]
    rw [hstep, ih (acc ++ [v]) (fun v' hv' => h v' (by simp [hv']))]
    simp

theorem unmarshalSectionsField_step (file : File) (rv : FileRecord)
    (done todo : List SectionsField) (f : SectionsField)
    (hsec : file.SectionsByName f.config.Name = marshalSectionsField f)
    (hval : f.valueOK rv) :
    unmarshalSectionsField file (.ok (partialFile done (f :: todo))) done.length =
      .ok (partialFile (done ++ [f]) todo) := by
  unfold unmarshalSectionsField
  simp only [partialFile_get]
  have hcfg : (todoSections f).config = f.config := rfl
  rw [hcfg, hsec]
  obtain ⟨name, tag, val⟩ := f
  cases val with
  | struct v =>
    simp only [SectionsField.valueOK] at hval
    simp only [marshalSectionsField, List.foldl_cons, List.foldl_nil, unmarshalSection,
      partialFile_get, todoSections, SectionsValue.zero,
      newObject_marshalSection hval _ (SectionRecord.zero v) (zero_zero v).symm, partialFile_set]
    simp [partialFile, doneSections]
  | ptr elem p =>
    cases p with
    | none =>
      simp only [marshalSectionsField, List.foldl_nil]
      rw [partialFile_step done todo ⟨name, tag, .ptr elem none⟩ rfl]
    | some v =>
      simp only [SectionsField.valueOK] at hval
      obtain ⟨hc, hz⟩ := hval v rfl
      simp only [marshalSectionsField, List.foldl_cons, List.foldl_nil, unmarshalSection,
        partialFile_get, todoSections, SectionsValue.zero,
        newObject_marshalSection hc _ elem hz, partialFile_set]
      simp [partialFile, doneSections]
  | slice elem vs =>
    simp only [SectionsField.valueOK] at hval
    simp only [marshalSectionsField]
    have h := unmarshalSection_slice name tag (SectionsField.mk name tag (.slice elem vs)).config.Name
      elem (done.map doneSections) (todo.map todoSections) vs [] hval
    simp only [List.length_map, List.nil_append] at h
    have hp : partialFile done (⟨name, tag, .slice elem vs⟩ :: todo) =
        done.map doneSections ++ ⟨name, tag, .slice elem []⟩ :: todo.map todoSections := by
      simp [partialFile, todoSections, SectionsValue.zero]
    rw [hp, h]
    simp [partialFile, doneSections]
  | sectionList l =>
    simp only [marshalSectionsField, List.foldl_nil]
    rw [partialFile_step done todo ⟨name, tag, .sectionList l⟩ rfl]
  | other v =>
    have hv : v = 0 := hval
    subst hv
    simp only [marshalSectionsField, List.foldl_nil]
    rw [partialFile_step done todo ⟨name, tag, .other 0⟩ rfl]

theorem unmarshalSections_loop (file : File) (rv : FileRecord) :
    ∀ (todo done : List SectionsField),
    (∀ f ∈ todo, file.SectionsByName f.config.Name = marshalSectionsField f ∧ f.valueOK rv) →
    (List.range' done.length todo.length).foldl (unmarshalSectionsField file)
        (.ok (partialFile done todo)) =
      .ok (partialFile (done ++ todo) []) := by
  intro todo
  induction todo with
  | nil => intro done _; simp
  | cons f todo ih =>
    intro done h
    obtain ⟨h1, h2⟩ := h f (by simp)
    simp only [List.length_cons, List.range'_succ, List.foldl_cons]
    rw [unmarshalSectionsField_step file rv done todo f h1 h2]
    have := ih (done ++ [f]) (fun g hg => h g (by simp [hg]))
    simp only [List.length_append, List.length_singleton, List.append_assoc,
      List.singleton_append] at this
    exact this

/-! ### The sections of the file `Marshal` builds -/

theorem marshalSectionsField_name (f : SectionsField) :
    ∀ s ∈ marshalSectionsField f, s.Name = f.config.Name := by
  intro s hs
  obtain ⟨name, tag, val⟩ := f
  cases val with
  | struct v =>
    simp only [marshalSectionsField, List.mem_singleton] at hs
    rw [hs, marshalSection_name]
  | ptr elem p =>
    cases p with
    | none => simp [marshalSectionsField] at hs
    | some v =>
      simp only [marshalSectionsField, List.mem_singleton] at hs
      rw [hs, marshalSection_name]
  | slice elem vs =>
    simp only [marshalSectionsField, List.mem_map] at hs
    obtain ⟨v, _, rfl⟩ := hs
    rw [marshalSection_name]
  | sectionList l => simp [marshalSectionsField] at hs
  | other v => simp [marshalSectionsField] at hs

theorem filter_flatMap_sections : ∀ (l : List SectionsField) (f : SectionsField),
    (l.map (fun g => g.config.Name)).Nodup → f ∈ l →
    (l.flatMap marshalSectionsField).filter (fun s => s.Name = f.config.Name) =
      marshalSectionsField f := by
  intro l
  induction l with
  | nil => intro f _ hf; simp at hf
  | cons g l ih =>
    intro f hnd hf
    simp only [List.map_cons, List.nodup_cons] at hnd
    simp only [List.flatMap_cons, List.filter_append]
    rcases List.mem_cons.mp hf with rfl | hf
    · have h1 : (marshalSectionsField f).filter (fun s => s.Name = f.config.Name) =
          marshalSectionsField f := by
        rw [List.filter_eq_self]
        intro s hs
        simp [marshalSectionsField_name f s hs]
      have h2 : (l.flatMap marshalSectionsField).filter (fun s => s.Name = f.config.Name) = [] := by
        rw [List.filter_eq_nil_iff]
        intro s hs
        obtain ⟨g', hg', hsg⟩ := List.mem_flatMap.mp hs
        rw [marshalSectionsField_name g' s hsg]
        simp only [decide_eq_true_eq]
        intro hc
        exact hnd.1 (List.mem_map.mpr ⟨g', hg', hc⟩)
      rw [h1, h2]
      simp
    · have hne : g.config.Name ≠ f.config.Name := by
        intro hc
        exact hnd.1 (List.mem_map.mpr ⟨f, hf, hc.symm⟩)
      have h1 : (marshalSectionsField g).filter (fun s => s.Name = f.config.Name) = [] := by
        rw [List.filter_eq_nil_iff]
        intro s hs
        rw [marshalSectionsField_name g s hs]
        simpa using hne
      rw [h1, ih f hnd.2 hf]
      simp

theorem findSome_sectionList_mem {rv : FileRecord} {l : List Section}
    (h : rv.findSome? (fun f => match f.Value with | .sectionList l => some l | _ => none) = some l) :
    ∃ f ∈ rv, f.Value = .sectionList l := by
  obtain ⟨f, hf, hfl⟩ := List.exists_of_findSome?_eq_some h
  refine ⟨f, hf, ?_⟩
  obtain ⟨name, tag, val⟩ := f
  cases val <;> simp at hfl
  simp [hfl]

/-- The unknown sections `Marshal` appends are canonical and bear no resolved name. -/
theorem sectionList_names {rv : FileRecord} (hc : rv.Canonical) :
    ∀ s ∈ (rv.findSome? (fun f => match f.Value with | .sectionList l => some l | _ => none)).getD [],
      s.OK ∧ s.Name ∉ rv.map (fun g => g.config.Name) := by
  intro s hs
  cases h : rv.findSome? (fun f => match f.Value with | .sectionList l => some l | _ => none) with
  | none => simp [h] at hs
  | some l =>
    simp only [h, Option.getD_some] at hs
    obtain ⟨f, hf, hfl⟩ := findSome_sectionList_mem h
    have := hc.values f hf
    simp only [SectionsField.valueOK, hfl] at this
    exact this s hs

theorem marshalFile_sectionsByName {rv : FileRecord} (hc : rv.Canonical) {f : SectionsField}
    (hf : f ∈ rv) : (marshalFile rv).SectionsByName f.config.Name = marshalSectionsField f := by
  simp only [File.SectionsByName, marshalFile, List.filter_append]
  rw [filter_flatMap_sections rv f hc.resolved hf]
  have : ((rv.findSome? (fun f => match f.Value with | .sectionList l => some l | _ => none)).getD []).filter
      (fun s => s.Name = f.config.Name) = [] := by
    rw [List.filter_eq_nil_iff]
    intro s hs
    have h2 := (sectionList_names hc s hs).2
    simp only [decide_eq_true_eq]
    intro hsn
    exact h2 (List.mem_map.mpr ⟨f, hf, hsn.symm⟩)
  rw [this]
  simp

theorem findSome_sectionList_eq {rv : FileRecord} (hc : rv.Canonical) {f : SectionsField}
    (hf : f ∈ rv) {l : List Section} (hl : f.Value = .sectionList l) :
    rv.findSome? (fun f => match f.Value with | .sectionList l => some l | _ => none) = some l := by
  cases h : rv.findSome? (fun f => match f.Value with | .sectionList l => some l | _ => none) with
  | none =>
    rw [List.findSome?_eq_none_iff] at h
    have := h f hf
    simp [hl] at this
  | some l0 =>
    obtain ⟨g, hg, hgl⟩ := findSome_sectionList_mem h
    have hf2 : f ∈ rv.filter SectionsField.isSectionList :=
      List.mem_filter.mpr ⟨hf, by simp [SectionsField.isSectionList, hl]⟩
    have hg2 : g ∈ rv.filter SectionsField.isSectionList :=
      List.mem_filter.mpr ⟨hg, by simp [SectionsField.isSectionList, hgl]⟩
    have hlen := hc.single
    have hfg : f = g := by
      generalize rv.filter SectionsField.isSectionList = fl at hf2 hg2 hlen
      match fl, hf2, hg2, hlen with
      | [], hf2, _, _ => simp at hf2
      | [x], hf2, hg2, _ =>
        simp only [List.mem_singleton] at hf2 hg2
        rw [hf2, hg2]
      | _ :: _ :: _, _, _, hlen => simp at hlen
    subst hfg
    rw [hl] at hgl
    injection hgl with hgl
    rw [hgl]

/-! ### The unknown sections -/

theorem foldl_knownSections (known : List Str) : ∀ (a : List Section) (r : FileRecord),
    (∀ s ∈ a, s.Name ∈ known) →
    a.foldl (fun (r : FileRecord) (s : Section) =>
      if s.Name ∈ known then r else AddSection r s) r = r := by
  intro a
  induction a with
  | nil => intro r _; rfl
  | cons s a ih =>
    intro r h
    simp only [List.foldl_cons, h s (by simp), if_true]
    exact ih r (fun s' hs' => h s' (by simp [hs']))

theorem appendSections_nil (f : SectionsField) : appendSections [] f = f := by
  obtain ⟨name, tag, val⟩ := f
  cases val <;> simp [appendSections]

theorem appendSections_appendSections (a b : List Section) (f : SectionsField) :
    appendSections b (appendSections a f) = appendSections (a ++ b) f := by
  obtain ⟨name, tag, val⟩ := f
  cases val <;> simp [appendSections]

theorem foldl_unknownSections (known : List Str) : ∀ (l : List Section) (r : FileRecord),
    (∀ s ∈ l, s.Name ∉ known) →
    l.foldl (fun (r : FileRecord) (s : Section) =>
      if s.Name ∈ known then r else AddSection r s) r = r.map (appendSections l) := by
  intro l
  induction l with
  | nil =>
    intro r _
    simp only [List.foldl_nil]
    rw [List.map_congr_left (fun f _ => appendSections_nil f)]
    simp
  | cons s l ih =>
    intro r h
    simp only [List.foldl_cons, h s (by simp), if_false]
    rw [ih _ (fun s' hs' => h s' (by simp [hs']))]
    have : AddSection r s = r.map (appendSections [s]) := by
      unfold AddSection
      apply List.map_congr_left
      intro f _
      obtain ⟨name, tag, val⟩ := f
      cases val <;> rfl
    rw [this, List.map_map]
    apply List.map_congr_left
    intro f _
    simp [appendSections_appendSections]

/-! ### Round trip of a canonical file struct -/

theorem marshalSectionsField_ok {rv : FileRecord} (hc : rv.Canonical) {f : SectionsField}
    (hf : f ∈ rv) : ∀ s ∈ marshalSectionsField f, s.OK := by
  intro s hs
  have hn := hc.lines f hf
  have hv := hc.values f hf
  obtain ⟨name, tag, val⟩ := f
  cases val with
  | struct v =>
    simp only [SectionsField.valueOK] at hv
    simp only [marshalSectionsField, List.mem_singleton] at hs
    rw [hs]
    exact marshalSection_ok hv hn
  | ptr elem p =>
    cases p with
    | none => simp [marshalSectionsField] at hs
    | some v =>
      simp only [SectionsField.valueOK] at hv
      simp only [marshalSectionsField, List.mem_singleton] at hs
      rw [hs]
      exact marshalSection_ok (hv v rfl).1 hn
  | slice elem vs =>
    simp only [SectionsField.valueOK] at hv
    simp only [marshalSectionsField, List.mem_map] at hs
    obtain ⟨v, hvs, rfl⟩ := hs
    exact marshalSection_ok (hv v hvs).1 hn
  | sectionList l => simp [marshalSectionsField] at hs
  | other v => simp [marshalSectionsField] at hs

/-- The file `Marshal` builds from a canonical struct is a canonical tree. -/
theorem marshalFile_ok {rv : FileRecord} (hc : rv.Canonical) : (marshalFile rv).OK := by
  intro s hs
  simp only [marshalFile, List.mem_append] at hs
  rcases hs with hs | hs
  · obtain ⟨f, hf, hsf⟩ := List.mem_flatMap.mp hs
    exact marshalSectionsField_ok hc hf s hsf
  · exact (sectionList_names hc s hs).1

theorem fileZero_eq_partialFile (rv : FileRecord) : FileRecord.zero rv = partialFile [] rv := by
  simp only [FileRecord.zero, partialFile, List.map_nil, List.nil_append]
  rfl

theorem fileZero_config (rv : FileRecord) :
    (FileRecord.zero rv).map (fun f => f.config.Name) = rv.map (fun f => f.config.Name) := by
  simp only [FileRecord.zero, List.map_map]
  apply List.map_congr_left
  intro f _
  rfl

theorem fileZero_length (rv : FileRecord) : (FileRecord.zero rv).length = rv.length := by
  simp [FileRecord.zero]

theorem sections_known (rv : FileRecord) :
    ∀ s ∈ rv.flatMap marshalSectionsField, s.Name ∈ rv.map (fun f => f.config.Name) := by
  intro s hs
  obtain ⟨g, hg, hsg⟩ := List.mem_flatMap.mp hs
  rw [marshalSectionsField_name g s hsg]
  exact List.mem_map.mpr ⟨g, hg, rfl⟩

/-- The struct `unmarshalSections` fills from the file `Marshal` built out of a canonical
struct, starting from a fresh struct of the same type: the struct itself. -/
theorem unmarshalSections_marshalFile {rv : FileRecord} (hc : rv.Canonical) :
    unmarshalSections (marshalFile rv) (FileRecord.zero rv) = .ok rv := by
  have hloop := unmarshalSections_loop (marshalFile rv) rv rv []
    (fun f hf => ⟨marshalFile_sectionsByName hc hf, hc.values f hf⟩)
  simp only [List.length_nil, List.nil_append] at hloop
  have h1 : (List.range (FileRecord.zero rv).length).foldl
      (unmarshalSectionsField (marshalFile rv)) (.ok (FileRecord.zero rv)) =
      .ok (partialFile rv []) := by
    rw [fileZero_length, List.range_eq_range', fileZero_eq_partialFile]
    exact hloop
  simp only [unmarshalSections]
  rw [h1]
  simp only [fileZero_config]
  have hsecs : (marshalFile rv).Sections = rv.flatMap marshalSectionsField ++
      ((rv.findSome? (fun f => match f.Value with | .sectionList l => some l | _ => none)).getD []) :=
    rfl
  rw [hsecs, List.foldl_append, foldl_knownSections _ _ _ (sections_known rv),
    foldl_unknownSections _ _ _ (fun s hs => (sectionList_names hc s hs).2)]
  simp only [partialFile, List.map_nil, List.append_nil, List.map_map]
  congr 1
  conv_rhs => rw [← List.map_id rv]
  apply List.map_congr_left
  intro f hf
  obtain ⟨fname, tag, val⟩ := f
  cases val with
  | struct v => rfl
  | ptr elem p => rfl
  | slice elem vs => rfl
  | other v => rfl
  | sectionList l =>
    rw [findSome_sectionList_eq hc hf rfl]
    simp [Function.comp, doneSections, appendSections]

/-- The bytes `Marshal` writes for a canonical struct unmarshal, into a fresh struct of
the same type, to the struct. -/
theorem Unmarshal_Marshal_of_canonical {rv : FileRecord} (hc : rv.Canonical) :
    Unmarshal (Encode (marshalFile rv)) (.record (FileRecord.zero rv)) = some (.ok rv) := by
  simp only [Unmarshal, Decode_Encode_of_OK _ (marshalFile_ok hc), unmarshalSections_marshalFile hc]

/-! ## Theorems: the mapper on canonical records -/

/-- C2, amended. Structural round trip of canonical records: when the resolved section
names of the record are distinct and free of line breaks, it embeds at most one
`SectionList`, every section struct in it is canonical (distinct field names and
resolved key names, the names `Comment`, `KeyComments` and `KeyList` borne by the comment
string and the containers only, values free of line breaks, backslashes and surrounding
white space, optional strings unset only with `omitempty`, list elements non-empty,
comments registered only for keys that carry them, fields of a kind the mapper has no
case for at their zero value), and no slice or map of the record is empty without being
nil, `Marshal` succeeds and `Unmarshal` of its bytes into a fresh record of the same type
succeeds and yields the record, also under `reflect.DeepEqual`. -/
theorem unmarshal_marshal_canonical (R : FileRecord) (h : R.Canonical) :
    ∃ bytes, Marshal (.record R) = .ok bytes ∧
      Unmarshal bytes (.record (FileRecord.zero R)) = some (.ok R) ∧
      GoRecord.Marshal ⟨R, []⟩ = .ok bytes ∧
      GoRecord.UnmarshalFresh bytes ⟨R, []⟩ = some (.ok ⟨R, []⟩) := by
  refine ⟨Encode (marshalFile R), rfl, Unmarshal_Marshal_of_canonical h, rfl, ?_⟩
  simp only [GoRecord.UnmarshalFresh, Unmarshal_Marshal_of_canonical h]

/-- Witness for C2 (amended): a record with a section struct holding a comment, a string,
an optional boolean, a list of strings and a `uint` field at zero, and a list of section
structs. -/
theorem unmarshal_marshal_canonical_witness :
    FileRecord.Canonical
      [⟨"Match".toList, [], .struct [⟨"Comment".toList, [], .string "about".toList⟩,
          ⟨"Name".toList, [], .string "eth0".toList⟩,
          ⟨"Up".toList, "up,omitempty".toList, .ptrBool (some true)⟩,
          ⟨"DNS".toList, [], .sliceString ["a".toList, "b".toList]⟩,
          ⟨"TransmitQueues".toList, [], .other 0⟩]⟩,
        ⟨"Peers".toList, "Peer".toList, .slice [⟨"Key".toList, [], .string []⟩]
          [[⟨"Key".toList, [], .string "k1".toList⟩], [⟨"Key".toList, [], .string "k2".toList⟩]]⟩] ∧
    ∃ bytes, Marshal (.record
      [⟨"Match".toList, [], .struct [⟨"Comment".toList, [], .string "about".toList⟩,
          ⟨"Name".toList, [], .string "eth0".toList⟩,
          ⟨"Up".toList, "up,omitempty".toList, .ptrBool (some true)⟩,
          ⟨"DNS".toList, [], .sliceString ["a".toList, "b".toList]⟩,
          ⟨"TransmitQueues".toList, [], .other 0⟩]⟩,
        ⟨"Peers".toList, "Peer".toList, .slice [⟨"Key".toList, [], .string []⟩]
          [[⟨"Key".toList, [], .string "k1".toList⟩], [⟨"Key".toList, [], .string "k2".toList⟩]]⟩]) =
        .ok bytes ∧
      Unmarshal bytes (.record (FileRecord.zero
      [⟨"Match".toList, [], .struct [⟨"Comment".toList, [], .string "about".toList⟩,
          ⟨"Name".toList, [], .string "eth0".toList⟩,
          ⟨"Up".toList, "up,omitempty".toList, .ptrBool (some true)⟩,
          ⟨"DNS".toList, [], .sliceString ["a".toList, "b".toList]⟩,
          ⟨"TransmitQueues".toList, [], .other 0⟩]⟩,
        ⟨"Peers".toList, "Peer".toList, .slice [⟨"Key".toList, [], .string []⟩]
          [[⟨"Key".toList, [], .string "k1".toList⟩], [⟨"Key".toList, [], .string "k2".toList⟩]]⟩])) =
        some (.ok
      [⟨"Match".toList, [], .struct [⟨"Comment".toList, [], .string "about".toList⟩,
          ⟨"Name".toList, [], .string "eth0".toList⟩,
          ⟨"Up".toList, "up,omitempty".toList, .ptrBool (some true)⟩,
          ⟨"DNS".toList, [], .sliceString ["a".toList, "b".toList]⟩,
          ⟨"TransmitQueues".toList, [], .other 0⟩]⟩,
        ⟨"Peers".toList, "Peer".toList, .slice [⟨"Key".toList, [], .string []⟩]
          [[⟨"Key".toList, [], .string "k1".toList⟩], [⟨"Key".toList, [], .string "k2".toList⟩]]⟩]) ∧
      GoRecord.Marshal ⟨
      [⟨"Match".toList, [], .struct [⟨"Comment".toList, [], .string "about".toList⟩,
          ⟨"Name".toList, [], .string "eth0".toList⟩,
          ⟨"Up".toList, "up,omitempty".toList, .ptrBool (some true)⟩,
          ⟨"DNS".toList, [], .sliceString ["a".toList, "b".toList]⟩,
          ⟨"TransmitQueues".toList, [], .other 0⟩]⟩,
        ⟨"Peers".toList, "Peer".toList, .slice [⟨"Key".toList, [], .string []⟩]
          [[⟨"Key".toList, [], .string "k1".toList⟩], [⟨"Key".toList, [], .string "k2".toList⟩]]⟩], []⟩ = .ok bytes ∧
      GoRecord.UnmarshalFresh bytes ⟨
      [⟨"Match".toList, [], .struct [⟨"Comment".toList, [], .string "about".toList⟩,
          ⟨"Name".toList, [], .string "eth0".toList⟩,
          ⟨"Up".toList, "up,omitempty".toList, .ptrBool (some true)⟩,
          ⟨"DNS".toList, [], .sliceString ["a".toList, "b".toList]⟩,
          ⟨"TransmitQueues".toList, [], .other 0⟩]⟩,
        ⟨"Peers".toList, "Peer".toList, .slice [⟨"Key".toList, [], .string []⟩]
          [[⟨"Key".toList, [], .string "k1".toList⟩], [⟨"Key".toList, [], .string "k2".toList⟩]]⟩], []⟩ =
        some (.ok ⟨
      [⟨"Match".toList, [], .struct [⟨"Comment".toList, [], .string "about".toList⟩,
          ⟨"Name".toList, [], .string "eth0".toList⟩,
          ⟨"Up".toList, "up,omitempty".toList, .ptrBool (some true)⟩,
          ⟨"DNS".toList, [], .sliceString ["a".toList, "b".toList]⟩,
          ⟨"TransmitQueues".toList, [], .other 0⟩]⟩,
        ⟨"Peers".toList, "Peer".toList, .slice [⟨"Key".toList, [], .string []⟩]
          [[⟨"Key".toList, [], .string "k1".toList⟩], [⟨"Key".toList, [], .string "k2".toList⟩]]⟩], []⟩) := by
  have hc : FileRecord.Canonical
      [⟨"Match".toList, [], .struct [⟨"Comment".toList, [], .string "about".toList⟩,
          ⟨"Name".toList, [], .string "eth0".toList⟩,
          ⟨"Up".toList, "up,omitempty".toList, .ptrBool (some true)⟩,
          ⟨"DNS".toList, [], .sliceString ["a".toList, "b".toList]⟩,
          ⟨"TransmitQueues".toList, [], .other 0⟩]⟩,
        ⟨"Peers".toList, "Peer".toList, .slice [⟨"Key".toList, [], .string []⟩]
          [[⟨"Key".toList, [], .string "k1".toList⟩], [⟨"Key".toList, [], .string "k2".toList⟩]]⟩] := by
    refine ⟨by decide, by decide, by decide, ?_⟩
    simp only [List.forall_mem_cons, List.not_mem_nil, false_implies, implies_true, and_true,
      SectionsField.valueOK]
    refine ⟨⟨by decide, by decide, ?_, ?_⟩, ⟨⟨by decide, by decide, ?_, ?_⟩, rfl⟩,
      ⟨⟨by decide, by decide, ?_, ?_⟩, rfl⟩⟩ <;>
    simp only [List.forall_mem_cons, List.not_mem_nil, false_implies, implies_true, and_true,
      KeyField.kindOK, KeyField.valueOK] <;> decide
  exact ⟨hc, unmarshal_marshal_canonical _ hc⟩

/-- C3, amended. Lossless conversion of canonical text: for a record `R` whose bytes are
the bytes `Marshal` writes for a canonical record `R0` of the type of `R` (a canonical
record itself, or one that differs from it in what `Marshal` does not write, such as an
unset optional string without `omitempty`, the empty elements of a list or a field of a
kind the mapper has no case for), unmarshalling the bytes `Marshal` writes for `R` into a
fresh record of the same type succeeds, and marshalling the record obtained reproduces
the bytes. -/
theorem marshal_unmarshal_marshal_canonical (R R0 : FileRecord) (h : R0.Canonical)
    (htype : FileRecord.zero R0 = FileRecord.zero R)
    (hbytes : Marshal (.record R0) = Marshal (.record R)) :
    ∃ bytes R1, Marshal (.record R) = .ok bytes ∧
      Unmarshal bytes (.record (FileRecord.zero R)) = some (.ok R1) ∧
      Marshal (.record R1) = .ok bytes := by
  refine ⟨Encode (marshalFile R), R0, rfl, ?_, ?_⟩
  · have hb : Encode (marshalFile R0) = Encode (marshalFile R) := by
      simpa [Marshal] using hbytes
    rw [← hb, ← htype]
    exact Unmarshal_Marshal_of_canonical h
  · rw [hbytes]
    rfl

/-- Witness for C3 (amended): a record that is not canonical, with an unset optional
string without `omitempty`, a repeat list with an empty element and a `uint` field set
to 4, whose bytes are those of a canonical record. -/
theorem marshal_unmarshal_marshal_canonical_witness :
    FileRecord.Canonical
      [⟨"S".toList, [], .struct [⟨"Name".toList, [], .ptrString (some [])⟩,
        ⟨"DNS".toList, [], .sliceString ["a".toList, "b".toList]⟩,
        ⟨"TransmitQueues".toList, [], .other 0⟩]⟩] ∧
    FileRecord.zero [⟨"S".toList, [], .struct [⟨"Name".toList, [], .ptrString (some [])⟩,
        ⟨"DNS".toList, [], .sliceString ["a".toList, "b".toList]⟩,
        ⟨"TransmitQueues".toList, [], .other 0⟩]⟩] =
      FileRecord.zero [⟨"S".toList, [], .struct [⟨"Name".toList, [], .ptrString none⟩,
        ⟨"DNS".toList, [], .sliceString ["a".toList, [], "b".toList]⟩,
        ⟨"TransmitQueues".toList, [], .other 4⟩]⟩] ∧
    Marshal (.record [⟨"S".toList, [], .struct [⟨"Name".toList, [], .ptrString none⟩,
        ⟨"DNS".toList, [], .sliceString ["a".toList, [], "b".toList]⟩,
        ⟨"TransmitQueues".toList, [], .other 4⟩]⟩]) = .ok "[S]\nName=\nDNS=a\nDNS=b\n".toList ∧
    ∃ bytes R1, Marshal (.record [⟨"S".toList, [], .struct [⟨"Name".toList, [], .ptrString none⟩,
        ⟨"DNS".toList, [], .sliceString ["a".toList, [], "b".toList]⟩,
        ⟨"TransmitQueues".toList, [], .other 4⟩]⟩]) = .ok bytes ∧
      Unmarshal bytes (.record (FileRecord.zero
        [⟨"S".toList, [], .struct [⟨"Name".toList, [], .ptrString none⟩,
          ⟨"DNS".toList, [], .sliceString ["a".toList, [], "b".toList]⟩,
          ⟨"TransmitQueues".toList, [], .other 4⟩]⟩])) = some (.ok R1) ∧
      Marshal (.record R1) = .ok bytes := by
  have hc : FileRecord.Canonical
      [⟨"S".toList, [], .struct [⟨"Name".toList, [], .ptrString (some [])⟩,
        ⟨"DNS".toList, [], .sliceString ["a".toList, "b".toList]⟩,
        ⟨"TransmitQueues".toList, [], .other 0⟩]⟩] := by
    refine ⟨by decide, by decide, by decide, ?_⟩
    simp only [List.forall_mem_cons, List.not_mem_nil, false_implies, implies_true, and_true,
      SectionsField.valueOK]
    refine ⟨by decide, by decide, ?_, ?_⟩ <;>
    simp only [List.forall_mem_cons, List.not_mem_nil, false_implies, implies_true, and_true,
      KeyField.kindOK, KeyField.valueOK] <;> decide
  exact ⟨hc, rfl, by decide, marshal_unmarshal_marshal_canonical _ _ hc rfl rfl⟩

/-! ## Theorems: the comment block of the encoder -/

theorem Split_comment_lines : ∀ (ls : List Str), (∀ l ∈ ls, '\n' ∉ l) →
    Split (ls.flatMap (fun line => '#' :: ' ' :: (line ++ ['\n']))) '\n' =
      ls.map (fun line => '#' :: ' ' :: line) ++ [[]] := by
  intro ls
  induction ls with
  | nil => intro _; rfl
  | cons l ls ih =>
    intro h
    have hl : '\n' ∉ ('#' :: ' ' :: l) := by
      have := h l (by simp)
      simp only [List.mem_cons, not_or]
      exact ⟨by decide, by decide, this⟩
    have : (l :: ls).flatMap (fun line => '#' :: ' ' :: (line ++ ['\n'])) =
        ('#' :: ' ' :: l) ++ '\n' :: ls.flatMap (fun line => '#' :: ' ' :: (line ++ ['\n'])) := by
      simp
    rw [this, Split_append_sep _ _ _ hl, ih (fun l' hl' => h l' (by simp [hl']))]
    simp

/-- C11. The bytes `writeComment` emits: nothing for the empty comment; for a non-empty
comment that splits at line breaks into the lines `l1..lk`, the `k` lines `# li` each
closed by a line break, in order; so the lines of the emitted block are exactly the lines
of the comment, each behind the prefix `# `. -/
theorem encode_comment_lines (c : Str) :
    writeComment c =
      (if c = [] then []
        else (Split c '\n').flatMap (fun line => '#' :: ' ' :: (line ++ ['\n']))) ∧
    Split (writeComment c) '\n' =
      (if c = [] then [] else (Split c '\n').map (fun line => '#' :: ' ' :: line)) ++ [[]] := by
  by_cases hc : c = []
  · subst hc
    exact ⟨rfl, rfl⟩
  · have h1 : writeComment c =
        (Split c '\n').flatMap (fun line => '#' :: ' ' :: (line ++ ['\n'])) := by
      simp only [writeComment, hc, if_false]
      rw [foldl_comment_lines]
      simp
    rw [h1]
    simp only [hc, if_false]
    exact ⟨trivial, Split_comment_lines _ (mem_Split_no_sep c '\n')⟩

/-! ## Theorems: `unmarshalKeys` field by field -/

theorem set_eq_self {α : Type} : ∀ (l : List α) (i : Nat) (a : α), l.get? i = some a →
    l.set i a = l := by
  intro l
  induction l with
  | nil => intro i a h; simp at h
  | cons x xs ih =>
    intro i a h
    cases i with
    | zero =>
      simp only [List.get?_cons_zero, Option.some.injEq] at h
      simp [h]
    | succ n =>
      simp only [List.get?_cons_succ] at h
      simp [ih n a h]

theorem AddKeyComment_eq_map (rv : SectionRecord) (k c : Str) :
    AddKeyComment rv k c = rv.map (noteComment k c) := rfl

theorem recordComment_eq_map (rv : SectionRecord) (k c : Str) :
    recordComment rv k c = rv.map (fun g => if c = [] then g else noteComment k c g) := by
  unfold recordComment
  by_cases hc : c = []
  · simp [hc]
  · simp only [hc, if_false]
    rfl

theorem map_noteField_of_nil (sect : Section) (h : KeyField) (r : SectionRecord)
    (hc : commentAfter sect h = []) : r.map (noteField sect h) = r := by
  have : noteField sect h = id := by
    funext g
    simp [noteField, hc]
  rw [this, List.map_id]

/-- One iteration of the field loop of `unmarshalKeys`: the field is assigned, then the
comment is registered. -/
theorem unmarshalKey_eq (sect : Section) (r : SectionRecord) (i : Nat) (g : KeyField)
    (hg : r.get? i = some g) :
    unmarshalKey sect r i = (r.set i (fieldAfter sect g)).map (noteField sect g) := by
  unfold unmarshalKey
  simp only [hg]
  cases hk : (sect.KeysByName g.config.Name).getLast? with
  | none =>
    have h1 : fieldAfter sect g = g := by simp [fieldAfter, hk]
    have h2 : commentAfter sect g = [] := by simp [commentAfter, hk]
    rw [h1, set_eq_self r i g hg, map_noteField_of_nil sect g r h2]
  | some key =>
    obtain ⟨name, tag, val⟩ := g
    cases val with
    | string v =>
      simp only [recordComment_eq_map]
      have h1 : fieldAfter sect ⟨name, tag, .string v⟩ = ⟨name, tag, .string key.Value⟩ := by
        simp [fieldAfter, hk]
      have h2 : commentAfter sect ⟨name, tag, .string v⟩ = key.Comment := by
        simp [commentAfter, hk]
      rw [h1]
      apply List.map_congr_left
      intro x _
      simp only [noteField, h2]
    | sliceString l =>
      simp only [recordComment_eq_map]
      have h1 : fieldAfter sect ⟨name, tag, .sliceString l⟩ = ⟨name, tag, .sliceString
          ((sect.KeysByName (KeyField.mk name tag (.sliceString l)).config.Name).foldl
            (collectValue (KeyField.mk name tag (.sliceString l)).config.WSlist) ([], [])).1⟩ := by
        simp [fieldAfter, hk]
      have h2 : commentAfter sect ⟨name, tag, .sliceString l⟩ =
          ((sect.KeysByName (KeyField.mk name tag (.sliceString l)).config.Name).foldl
            (collectValue (KeyField.mk name tag (.sliceString l)).config.WSlist) ([], [])).2 := by
        simp [commentAfter, hk]
      rw [h1]
      apply List.map_congr_left
      intro x _
      simp only [noteField, h2]
    | ptrBool p =>
      have h2 : commentAfter sect ⟨name, tag, .ptrBool p⟩ = [] := by simp [commentAfter, hk]
      rw [map_noteField_of_nil sect _ _ h2]
      by_cases he : key.Value = [] ∧ (KeyField.mk name tag (.ptrBool p)).config.Omitempty = true
      · have h1 : fieldAfter sect ⟨name, tag, .ptrBool p⟩ = ⟨name, tag, .ptrBool p⟩ := by
          simp only [fieldAfter, hk, he, and_self, if_true]
        rw [h1, set_eq_self r i _ hg]
        simp only [he, and_self, if_true]
      · cases hb : StrToBool key.Value with
        | none =>
          have h1 : fieldAfter sect ⟨name, tag, .ptrBool p⟩ = ⟨name, tag, .ptrBool p⟩ := by
            simp only [fieldAfter, hk, he, if_false, hb]
          rw [h1, set_eq_self r i _ hg]
          simp only [he, if_false, hb]
        | some b =>
          have h1 : fieldAfter sect ⟨name, tag, .ptrBool p⟩ = ⟨name, tag, .ptrBool (some b)⟩ := by
            simp only [fieldAfter, hk, he, if_false, hb]
          rw [h1]
          simp only [he, if_false, hb]
    | ptrString p =>
      have h2 : commentAfter sect ⟨name, tag, .ptrString p⟩ = [] := by simp [commentAfter, hk]
      rw [map_noteField_of_nil sect _ _ h2]
      by_cases he : key.Value = [] ∧ (KeyField.mk name tag (.ptrString p)).config.Omitempty = true
      · have h1 : fieldAfter sect ⟨name, tag, .ptrString p⟩ = ⟨name, tag, .ptrString p⟩ := by
          simp only [fieldAfter, hk, he, and_self, if_true]
        rw [h1, set_eq_self r i _ hg]
        simp only [he, and_self, if_true]
      · have h1 : fieldAfter sect ⟨name, tag, .ptrString p⟩ =
            ⟨name, tag, .ptrString (some key.Value)⟩ := by
          simp only [fieldAfter, hk, he, if_false]
        rw [h1]
        simp only [he, if_false]
    | keyList l =>
      have h1 : fieldAfter sect ⟨name, tag, .keyList l⟩ = ⟨name, tag, .keyList l⟩ := by
        simp [fieldAfter, hk]
      have h2 : commentAfter sect ⟨name, tag, .keyList l⟩ = [] := by simp [commentAfter, hk]
      rw [h1, set_eq_self r i _ hg, map_noteField_of_nil sect _ _ h2]
    | keyComments m =>
      have h1 : fieldAfter sect ⟨name, tag, .keyComments m⟩ = ⟨name, tag, .keyComments m⟩ := by
        simp [fieldAfter, hk]
      have h2 : commentAfter sect ⟨name, tag, .keyComments m⟩ = [] := by simp [commentAfter, hk]
      rw [h1, set_eq_self r i _ hg, map_noteField_of_nil sect _ _ h2]
    | other v =>
      have h1 : fieldAfter sect ⟨name, tag, .other v⟩ = ⟨name, tag, .other v⟩ := by
        simp [fieldAfter, hk]
      have h2 : commentAfter sect ⟨name, tag, .other v⟩ = [] := by simp [commentAfter, hk]
      rw [h1, set_eq_self r i _ hg, map_noteField_of_nil sect _ _ h2]

theorem noteComment_of_not {g : KeyField} (h : g.isComments = false) (n c : Str) :
    noteComment n c g = g := by
  obtain ⟨name, tag, val⟩ := g
  cases val <;> first | rfl | simp [KeyField.isComments] at h

theorem noteField_of_not (sect : Section) (x : KeyField) {g : KeyField}
    (h : g.isComments = false) : noteField sect x g = g := by
  unfold noteField
  split
  · rfl
  · exact noteComment_of_not h _ _

theorem notes_of_not (sect : Section) : ∀ (hs : List KeyField) {g : KeyField},
    g.isComments = false → notes sect hs g = g := by
  intro hs
  induction hs with
  | nil => intro g _; rfl
  | cons x xs ih =>
    intro g h
    simp only [notes, List.foldl_cons]
    rw [noteField_of_not sect x h]
    exact ih h

theorem fieldAfter_of_comments (sect : Section) {g : KeyField} (h : g.isComments = true) :
    fieldAfter sect g = g := by
  obtain ⟨name, tag, val⟩ := g
  cases val <;> simp [KeyField.isComments] at h
  unfold fieldAfter
  split <;> rfl

theorem commentAfter_of_comments (sect : Section) {g : KeyField} (h : g.isComments = true) :
    commentAfter sect g = [] := by
  obtain ⟨name, tag, val⟩ := g
  cases val <;> simp [KeyField.isComments] at h
  unfold commentAfter
  split <;> rfl

theorem fieldAfter_isComments (sect : Section) (g : KeyField) :
    (fieldAfter sect g).isComments = g.isComments := by
  obtain ⟨name, tag, val⟩ := g
  cases val <;> simp only [fieldAfter] <;> (repeat' split) <;> rfl

theorem noteField_isComments (sect : Section) (x g : KeyField) :
    (noteField sect x g).isComments = g.isComments := by
  obtain ⟨name, tag, val⟩ := g
  cases val <;> simp only [noteField, noteComment] <;> split <;> rfl

theorem noteField_config (sect : Section) (x g : KeyField) :
    (noteField sect x g).config = g.config := by
  obtain ⟨name, tag, val⟩ := g
  cases val <;> simp only [noteField, noteComment] <;> split <;> rfl

theorem notes_isComments (sect : Section) : ∀ (hs : List KeyField) (g : KeyField),
    (notes sect hs g).isComments = g.isComments := by
  intro hs
  induction hs with
  | nil => intro g; rfl
  | cons x xs ih =>
    intro g
    simp only [notes, List.foldl_cons]
    exact (ih _).trans (noteField_isComments sect x g)

theorem notes_config (sect : Section) : ∀ (hs : List KeyField) (g : KeyField),
    (notes sect hs g).config = g.config := by
  intro hs
  induction hs with
  | nil => intro g; rfl
  | cons x xs ih =>
    intro g
    simp only [notes, List.foldl_cons]
    exact (ih _).trans (noteField_config sect x g)

theorem notes_concat (sect : Section) (hs : List KeyField) (x g : KeyField) :
    notes sect (hs ++ [x]) g = noteField sect x (notes sect hs g) := by
  simp [notes, List.foldl_append]

theorem fieldAfter_notes (sect : Section) (hs : List KeyField) (g : KeyField) :
    fieldAfter sect (notes sect hs g) = notes sect hs (fieldAfter sect g) := by
  cases h : g.isComments with
  | true =>
    rw [fieldAfter_of_comments sect h,
      fieldAfter_of_comments sect ((notes_isComments sect hs g).trans h)]
  | false =>
    rw [notes_of_not sect hs h, notes_of_not sect hs ((fieldAfter_isComments sect g).trans h)]

theorem commentAfter_notes (sect : Section) (hs : List KeyField) (g : KeyField) :
    commentAfter sect (notes sect hs g) = commentAfter sect g := by
  cases h : g.isComments with
  | true =>
    rw [commentAfter_of_comments sect h,
      commentAfter_of_comments sect ((notes_isComments sect hs g).trans h)]
  | false => rw [notes_of_not sect hs h]

theorem noteField_notes (sect : Section) (hs : List KeyField) (g : KeyField) :
    noteField sect (notes sect hs g) = noteField sect g := by
  funext x
  simp only [noteField, commentAfter_notes, notes_config]

theorem set_at_length {α : Type} (pre : List α) (x y : α) (post : List α) (n : Nat)
    (hn : n = pre.length) : (pre ++ x :: post).set n y = pre ++ y :: post := by
  subst hn
  rw [List.set_append_right _ _ (le_refl _)]
  simp

/-- The struct under construction in `unmarshalKeys` when the iterations for the fields
`done` are over and those for the fields `todo` are to come. -/
theorem unmarshalKey_loop_step (sect : Section) (done todo : List KeyField) (f : KeyField) :
    unmarshalKey sect
        (done.map (fun g => notes sect done (fieldAfter sect g)) ++
          (f :: todo).map (notes sect done)) done.length =
      (done ++ [f]).map (fun g => notes sect (done ++ [f]) (fieldAfter sect g)) ++
        todo.map (notes sect (done ++ [f])) := by
  have hg : (done.map (fun g => notes sect done (fieldAfter sect g)) ++
      (f :: todo).map (notes sect done)).get? done.length = some (notes sect done f) := by
    simp only [List.get?_eq_getElem?]
    rw [List.getElem?_append_right (by simp)]
    simp
  rw [unmarshalKey_eq sect _ _ _ hg, noteField_notes, fieldAfter_notes]
  have hset : (done.map (fun g => notes sect done (fieldAfter sect g)) ++
      (f :: todo).map (notes sect done)).set done.length (notes sect done (fieldAfter sect f)) =
      done.map (fun g => notes sect done (fieldAfter sect g)) ++
        notes sect done (fieldAfter sect f) :: todo.map (notes sect done) := by
    rw [List.map_cons]
    exact set_at_length _ _ _ _ _ (by simp)
  rw [hset]
  simp only [List.map_append, List.map_cons, List.map_map, List.map_nil, List.append_assoc,
    List.singleton_append, notes_concat]
  congr 1
  congr 1
  apply List.map_congr_left
  intro x _
  simp only [Function.comp, notes_concat]

theorem unmarshalKey_loop (sect : Section) : ∀ (todo done : List KeyField),
    (List.range' done.length todo.length).foldl (unmarshalKey sect)
        (done.map (fun g => notes sect done (fieldAfter sect g)) ++ todo.map (notes sect done)) =
      (done ++ todo).map (fun g => notes sect (done ++ todo) (fieldAfter sect g)) := by
  intro todo
  induction todo with
  | nil => intro done; simp
  | cons f todo ih =>
    intro done
    simp only [List.length_cons, List.range'_succ, List.foldl_cons]
    rw [unmarshalKey_loop_step]
    have := ih (done ++ [f])
    simp only [List.length_append, List.length_singleton, List.append_assoc,
      List.singleton_append] at this
    exact this

theorem AddKey_eq_map (r : SectionRecord) (k : Key) : AddKey r k = r.map (appendKeys [k]) := by
  unfold AddKey
  apply List.map_congr_left
  intro f _
  obtain ⟨name, tag, val⟩ := f
  cases val <;> rfl

/-- The key loop that ends `unmarshalKeys`: the keys that bear no known name are appended,
in order, to the embedded `KeyList`. -/
theorem foldl_addKey (known : List Str) : ∀ (l : List Key) (r : SectionRecord),
    l.foldl (fun (r : SectionRecord) (key : Key) =>
      if key.Name ∈ known then r else AddKey r key) r =
      r.map (appendKeys (l.filter (fun k => k.Name ∉ known))) := by
  intro l
  induction l with
  | nil =>
    intro r
    simp only [List.foldl_nil, List.filter_nil]
    rw [List.map_congr_left (fun f _ => appendKeys_nil f)]
    simp
  | cons k l ih =>
    intro r
    simp only [List.foldl_cons]
    by_cases hk : k.Name ∈ known
    · simp only [hk, if_true, ih]
      simp [List.filter_cons, hk]
    · simp only [hk, if_false]
      rw [ih, AddKey_eq_map, List.map_map]
      apply List.map_congr_left
      intro f _
      simp [List.filter_cons, hk, appendKeys_appendKeys]

/-- The struct `unmarshalKeys` returns, field by field: every field is assigned from the
keys of its resolved name, the embedded `KeyComments` take the comments of all iterations
and the embedded `KeyList` the keys of unknown name. -/
theorem unmarshalKeys_eq (sect : Section) (rv : SectionRecord) :
    unmarshalKeys sect rv =
      rv.map (fun g => appendKeys (unknownKeys sect rv) (notes sect rv (fieldAfter sect g))) := by
  have hnotes : rv.map (notes sect []) = rv := by
    have : notes sect [] = id := by
      funext g
      rfl
    rw [this, List.map_id]
  have hloop := unmarshalKey_loop sect rv []
  simp only [List.length_nil, List.nil_append, List.map_nil, hnotes] at hloop
  simp only [unmarshalKeys, List.range_eq_range']
  rw [hloop, foldl_addKey, List.map_map]
  rfl

theorem appendKeys_config (l : List Key) (g : KeyField) : (appendKeys l g).config = g.config := by
  obtain ⟨name, tag, val⟩ := g
  cases val <;> rfl

theorem appendKeys_name (l : List Key) (g : KeyField) : (appendKeys l g).Name = g.Name := by
  obtain ⟨name, tag, val⟩ := g
  cases val <;> rfl

theorem noteField_name (sect : Section) (x g : KeyField) :
    (noteField sect x g).Name = g.Name := by
  obtain ⟨name, tag, val⟩ := g
  cases val <;> simp only [noteField, noteComment] <;> split <;> rfl

theorem notes_name (sect : Section) : ∀ (hs : List KeyField) (g : KeyField),
    (notes sect hs g).Name = g.Name := by
  intro hs
  induction hs with
  | nil => intro g; rfl
  | cons x xs ih =>
    intro g
    simp only [notes, List.foldl_cons]
    exact (ih _).trans (noteField_name sect x g)

theorem fieldAfter_name (sect : Section) (g : KeyField) : (fieldAfter sect g).Name = g.Name := by
  obtain ⟨name, tag, val⟩ := g
  cases val <;> simp only [fieldAfter] <;> (repeat' split) <;> rfl

theorem fieldAfter_config (sect : Section) (g : KeyField) :
    (fieldAfter sect g).config = g.config := by
  obtain ⟨name, tag, val⟩ := g
  cases val <;> simp only [fieldAfter] <;> (repeat' split) <;> rfl

/-- The field with index `i` of the struct `unmarshalKeys` returns. -/
theorem unmarshalKeys_get (sect : Section) (rv : SectionRecord) (i : Nat) (f : KeyField)
    (hf : rv.get? i = some f) :
    (unmarshalKeys sect rv).get? i =
      some (appendKeys (unknownKeys sect rv) (notes sect rv (fieldAfter sect f))) := by
  rw [unmarshalKeys_eq]
  simp only [List.get?_eq_getElem?, List.getElem?_map] at hf ⊢
  rw [hf]
  rfl

/-! ## Theorems: lists of strings on `unmarshalKeys` -/

theorem afterLastEmpty_concat (l : List Key) (k : Key) :
    afterLastEmpty (l ++ [k]) = if k.Value = [] then [] else afterLastEmpty l ++ [k] := by
  unfold afterLastEmpty
  rw [List.rtakeWhile_concat]
  by_cases hk : k.Value = [] <;> simp [hk]

/-- The values collected by the key loop for a list of strings: the tokens of the keys
that come after the last key with an empty value. -/
theorem collectValue_fst (w : Bool) (keys : List Key) :
    (keys.foldl (collectValue w) ([], [])).1 =
      (afterLastEmpty keys).flatMap
        (fun k => if w then filterEmpty (Split k.Value ' ') else [k.Value]) := by
  induction keys using List.reverseRecOn with
  | nil => rfl
  | append_singleton l k ih =>
    rw [List.foldl_append, afterLastEmpty_concat]
    simp only [List.foldl_cons, List.foldl_nil]
    by_cases hk : k.Value = []
    · simp [collectValue, hk]
    · have hlen : ¬ k.Value.length = 0 := by
        simpa [List.length_eq_zero] using hk
      simp only [collectValue, hlen, if_false, hk]
      cases w <;> simp [ih]

theorem getLast_some_of_ne_nil {α : Type} {l : List α} (h : l ≠ []) : ∃ a, l.getLast? = some a := by
  cases hl : l.getLast? with
  | none => exact absurd (List.getLast?_eq_none_iff.mp hl) h
  | some a => exact ⟨a, rfl⟩

theorem appendKeys_of_not {g : KeyField} (l : List Key)
    (h : ∀ l0, g.Value ≠ .keyList l0) : appendKeys l g = g := by
  obtain ⟨name, tag, val⟩ := g
  cases val <;> first | rfl | exact absurd rfl (h _)

/-- The field with index `i` of the struct `unmarshalKeys` returns, when it is a list of
strings with at least one key of its resolved name. -/
theorem unmarshalKeys_get_slice (sect : Section) (rv : SectionRecord) (i : Nat)
    (name tag : Str) (l0 : List Str)
    (hf : rv.get? i = some ⟨name, tag, .sliceString l0⟩)
    (hk : sect.KeysByName (configForField name tag).Name ≠ []) :
    (unmarshalKeys sect rv).get? i = some ⟨name, tag, .sliceString
      ((afterLastEmpty (sect.KeysByName (configForField name tag).Name)).flatMap
        (fun k => if (configForField name tag).WSlist then filterEmpty (Split k.Value ' ')
          else [k.Value]))⟩ := by
  rw [unmarshalKeys_get sect rv i _ hf]
  obtain ⟨key, hkey⟩ := getLast_some_of_ne_nil hk
  have h1 : fieldAfter sect ⟨name, tag, .sliceString l0⟩ = ⟨name, tag, .sliceString
      ((sect.KeysByName (configForField name tag).Name).foldl
        (collectValue (configForField name tag).WSlist) ([], [])).1⟩ := by
    simp only [fieldAfter, KeyField.config, hkey]
  rw [h1, notes_of_not sect rv (g := ⟨name, tag, .sliceString _⟩) rfl,
    appendKeys_of_not _ (by intro l0 h; cases h), collectValue_fst]

/-- C12. An empty assignment resets a list of strings with the repeat policy: when the
section has at least one key of the resolved name of the field, the field of the struct
`unmarshalKeys` returns holds the whole values, in order, of the keys of that name that
come after the last one with an empty value (of all of them when none is empty), whatever
the field held before and whatever other keys stand in between. -/
theorem repeat_list_reset (sect : Section) (rv : SectionRecord) (i : Nat) (name tag : Str)
    (l0 : List Str) (hf : rv.get? i = some ⟨name, tag, .sliceString l0⟩)
    (hw : (configForField name tag).WSlist = false)
    (hk : sect.KeysByName (configForField name tag).Name ≠ []) :
    (unmarshalKeys sect rv).get? i = some ⟨name, tag, .sliceString
      ((afterLastEmpty (sect.KeysByName (configForField name tag).Name)).map
        (fun k => k.Value))⟩ := by
  rw [unmarshalKeys_get_slice sect rv i name tag l0 hf hk, hw]
  simp only [Bool.false_eq_true, if_false]
  congr 3
  induction afterLastEmpty (sect.KeysByName (configForField name tag).Name) with
  | nil => rfl
  | cons k ks ih => simp [ih]

/-- Witness for C12: the section `Network` of `TestUnmarshal`. -/
theorem repeat_list_reset_witness :
    ([⟨"Addresses".toList, "Address".toList, .sliceString []⟩,
        ⟨"Gateways".toList, "Gateway".toList, .sliceString []⟩] : SectionRecord).get? 0 =
      some ⟨"Addresses".toList, "Address".toList, .sliceString []⟩ ∧
    (configForField "Addresses".toList "Address".toList).WSlist = false ∧
    afterLastEmpty ((Section.mk "Network".toList []
        [⟨"Address".toList, "10.10.10.1/24".toList, []⟩,
          ⟨"Address".toList, [], "reset".toList⟩,
          ⟨"Address".toList, "10.10.10.2/24".toList, []⟩,
          ⟨"Gateway".toList, "10.10.10.1".toList, []⟩,
          ⟨"Address".toList, "10.10.10.3/24".toList, []⟩]).KeysByName
        (configForField "Addresses".toList "Address".toList).Name) =
      [⟨"Address".toList, "10.10.10.2/24".toList, []⟩,
        ⟨"Address".toList, "10.10.10.3/24".toList, []⟩] ∧
    (unmarshalKeys ⟨"Network".toList, [],
        [⟨"Address".toList, "10.10.10.1/24".toList, []⟩,
          ⟨"Address".toList, [], "reset".toList⟩,
          ⟨"Address".toList, "10.10.10.2/24".toList, []⟩,
          ⟨"Gateway".toList, "10.10.10.1".toList, []⟩,
          ⟨"Address".toList, "10.10.10.3/24".toList, []⟩]⟩
        [⟨"Addresses".toList, "Address".toList, .sliceString []⟩,
          ⟨"Gateways".toList, "Gateway".toList, .sliceString []⟩]).get? 0 =
      some ⟨"Addresses".toList, "Address".toList, .sliceString
        ((afterLastEmpty ((Section.mk "Network".toList []
        [⟨"Address".toList, "10.10.10.1/24".toList, []⟩,
          ⟨"Address".toList, [], "reset".toList⟩,
          ⟨"Address".toList, "10.10.10.2/24".toList, []⟩,
          ⟨"Gateway".toList, "10.10.10.1".toList, []⟩,
          ⟨"Address".toList, "10.10.10.3/24".toList, []⟩]).KeysByName
        (configForField "Addresses".toList "Address".toList).Name)).map (fun k => k.Value))⟩ :=
  ⟨rfl, by decide, by decide,
    repeat_list_reset _ _ 0 _ _ [] rfl (by decide) (by decide)⟩

theorem filterEmpty_tokens (v : Str) : ∀ e ∈ filterEmpty (Split v ' '), e ≠ [] ∧ ' ' ∉ e := by
  intro e he
  simp only [filterEmpty, List.mem_filter] at he
  refine ⟨?_, mem_Split_no_sep v ' ' e he.1⟩
  intro h
  have := he.2
  simp [h] at this

/-- What `unmarshalKeys` computes for a list of strings with the `wslist` policy: when
the section has at least one key of the resolved name of the field, the field of the
struct it returns holds, in order, the pieces `strings.Split(value, " ")` gives for each
key of that name that comes after the last one with an empty value, the empty pieces
dropped; so no element is empty and no element holds a blank. -/
theorem wslist_tokens (sect : Section) (rv : SectionRecord) (i : Nat) (name tag : Str)
    (l0 : List Str) (hf : rv.get? i = some ⟨name, tag, .sliceString l0⟩)
    (hw : (configForField name tag).WSlist = true)
    (hk : sect.KeysByName (configForField name tag).Name ≠ []) :
    (unmarshalKeys sect rv).get? i = some ⟨name, tag, .sliceString
      ((afterLastEmpty (sect.KeysByName (configForField name tag).Name)).flatMap
        (fun k => filterEmpty (Split k.Value ' ')))⟩ ∧
    ∀ e ∈ (afterLastEmpty (sect.KeysByName (configForField name tag).Name)).flatMap
        (fun k => filterEmpty (Split k.Value ' ')), e ≠ [] ∧ ' ' ∉ e := by
  constructor
  · rw [unmarshalKeys_get_slice sect rv i name tag l0 hf hk, hw]
    simp only [if_true]
  · intro e he
    obtain ⟨k, _, hke⟩ := List.mem_flatMap.mp he
    exact filterEmpty_tokens k.Value e hke

/-- The keys `MACAddress` of `TestUnmarshal`, the last with runs of blanks. -/
theorem wslist_tokens_witness :
    ([⟨"Name".toList, [], .string []⟩,
        ⟨"MACAddresses".toList, "MACAddress,wslist".toList, .sliceString []⟩] :
      SectionRecord).get? 1 =
      some ⟨"MACAddresses".toList, "MACAddress,wslist".toList, .sliceString []⟩ ∧
    (configForField "MACAddresses".toList "MACAddress,wslist".toList).WSlist = true ∧
    (afterLastEmpty ((Section.mk "Match".toList []
        [⟨"MACAddress".toList, "01:23 00-11".toList, []⟩,
          ⟨"Name".toList, "eth*".toList, []⟩,
          ⟨"MACAddress".toList, [], []⟩,
          ⟨"MACAddress".toList, "01:23   00-11 AABB".toList, []⟩]).KeysByName
        (configForField "MACAddresses".toList "MACAddress,wslist".toList).Name)).flatMap
        (fun k => filterEmpty (Split k.Value ' ')) =
      ["01:23".toList, "00-11".toList, "AABB".toList] ∧
    ((unmarshalKeys ⟨"Match".toList, [],
        [⟨"MACAddress".toList, "01:23 00-11".toList, []⟩,
          ⟨"Name".toList, "eth*".toList, []⟩,
          ⟨"MACAddress".toList, [], []⟩,
          ⟨"MACAddress".toList, "01:23   00-11 AABB".toList, []⟩]⟩
        [⟨"Name".toList, [], .string []⟩,
          ⟨"MACAddresses".toList, "MACAddress,wslist".toList, .sliceString []⟩]).get? 1 =
      some ⟨"MACAddresses".toList, "MACAddress,wslist".toList, .sliceString
        ((afterLastEmpty ((Section.mk "Match".toList []
        [⟨"MACAddress".toList, "01:23 00-11".toList, []⟩,
          ⟨"Name".toList, "eth*".toList, []⟩,
          ⟨"MACAddress".toList, [], []⟩,
          ⟨"MACAddress".toList, "01:23   00-11 AABB".toList, []⟩]).KeysByName
        (configForField "MACAddresses".toList "MACAddress,wslist".toList).Name)).flatMap
        (fun k => filterEmpty (Split k.Value ' ')))⟩ ∧
    ∀ e ∈ (afterLastEmpty ((Section.mk "Match".toList []
        [⟨"MACAddress".toList, "01:23 00-11".toList, []⟩,
          ⟨"Name".toList, "eth*".toList, []⟩,
          ⟨"MACAddress".toList, [], []⟩,
          ⟨"MACAddress".toList, "01:23   00-11 AABB".toList, []⟩]).KeysByName
        (configForField "MACAddresses".toList "MACAddress,wslist".toList).Name)).flatMap
        (fun k => filterEmpty (Split k.Value ' ')), e ≠ [] ∧ ' ' ∉ e) :=
  ⟨rfl, by decide, by decide, wslist_tokens _ _ 1 _ _ [] rfl (by decide) (by decide)⟩

/-- C13, at the failing input. For a field with the `wslist` policy, documented as a
white space list, the value `a<TAB>b c` is split at the blank only: the list
`unmarshalKeys` returns has the element `a<TAB>b`, which holds a white space character,
where splitting on white space gives the three elements `a`, `b`, `c`. -/
theorem wslist_tab_not_split :
    (unmarshalKeys ⟨"Match".toList, [], [⟨"MACAddress".toList, "a\tb c".toList, []⟩]⟩
        [⟨"MACAddresses".toList, "MACAddress,wslist".toList, .sliceString []⟩]).get? 0 =
      some ⟨"MACAddresses".toList, "MACAddress,wslist".toList,
        .sliceString ["a\tb".toList, "c".toList]⟩ ∧
    '\t' ∈ "a\tb".toList ∧ isSpace '\t' = true :=
  ⟨rfl, by decide, by decide⟩

/-! ## Theorems: optional booleans and strings on `unmarshalKeys` -/

theorem StrToBool_true {v : Str}
    (h : v ∈ [['1'], ['y', 'e', 's'], ['t', 'r', 'u', 'e'], ['o', 'n']]) :
    v ≠ [] ∧ StrToBool v = some true := by
  simp only [List.mem_cons, List.mem_singleton, List.not_mem_nil, or_false] at h
  rcases h with rfl | rfl | rfl | rfl <;> exact ⟨by decide, by decide⟩

theorem StrToBool_false {v : Str}
    (h : v ∈ [['0'], ['n', 'o'], ['f', 'a', 'l', 's', 'e'], ['o', 'f', 'f']]) :
    v ≠ [] ∧ StrToBool v = some false := by
  simp only [List.mem_cons, List.mem_singleton, List.not_mem_nil, or_false] at h
  rcases h with rfl | rfl | rfl | rfl <;> exact ⟨by decide, by decide⟩

theorem StrToBool_none {v : Str}
    (h1 : v ∉ [['1'], ['y', 'e', 's'], ['t', 'r', 'u', 'e'], ['o', 'n']])
    (h2 : v ∉ [['0'], ['n', 'o'], ['f', 'a', 'l', 's', 'e'], ['o', 'f', 'f']]) :
    StrToBool v = none := by
  simp only [List.mem_cons, List.mem_singleton, List.not_mem_nil, or_false] at h1 h2
  simp only [StrToBool, h1, h2, if_false]

/-- The field with index `i` of the struct `unmarshalKeys` returns, when it is an optional
boolean: decided by the last key of its resolved name. -/
theorem unmarshalKeys_get_ptrBool (sect : Section) (rv : SectionRecord) (i : Nat)
    (name tag : Str) (p : Option Bool) (key : Key)
    (hf : rv.get? i = some ⟨name, tag, .ptrBool p⟩)
    (hk : (sect.KeysByName (configForField name tag).Name).getLast? = some key) :
    (unmarshalKeys sect rv).get? i = some ⟨name, tag, .ptrBool
      (if key.Value = [] ∧ (configForField name tag).Omitempty = true then p
        else (StrToBool key.Value).orElse (fun _ => p))⟩ := by
  rw [unmarshalKeys_get sect rv i _ hf]
  have h1 : fieldAfter sect ⟨name, tag, .ptrBool p⟩ = ⟨name, tag, .ptrBool
      (if key.Value = [] ∧ (configForField name tag).Omitempty = true then p
        else (StrToBool key.Value).orElse (fun _ => p))⟩ := by
    simp only [fieldAfter, KeyField.config, hk]
    split
    · rfl
    · cases StrToBool key.Value <;> rfl
  rw [h1, notes_of_not sect rv (g := ⟨name, tag, .ptrBool _⟩) rfl,
    appendKeys_of_not _ (by intro l0 h; cases h)]

/-- C17. An optional boolean on `unmarshalKeys`: only the last key of the resolved name of
the field decides. The field is set to true when the value of that key is one of `1`,
`yes`, `true`, `on`, to false when it is one of `0`, `no`, `false`, `off`, and for every
other value, the empty one included, it is left as it was (unset in a fresh struct);
`unmarshalKeys` returns the struct in every case. -/
theorem optional_bool_last_key (sect : Section) (rv : SectionRecord) (i : Nat)
    (name tag : Str) (p : Option Bool) (key : Key)
    (hf : rv.get? i = some ⟨name, tag, .ptrBool p⟩)
    (hk : (sect.KeysByName (configForField name tag).Name).getLast? = some key) :
    (key.Value ∈ [['1'], ['y', 'e', 's'], ['t', 'r', 'u', 'e'], ['o', 'n']] →
      (unmarshalKeys sect rv).get? i = some ⟨name, tag, .ptrBool (some true)⟩) ∧
    (key.Value ∈ [['0'], ['n', 'o'], ['f', 'a', 'l', 's', 'e'], ['o', 'f', 'f']] →
      (unmarshalKeys sect rv).get? i = some ⟨name, tag, .ptrBool (some false)⟩) ∧
    (key.Value ∉ [['1'], ['y', 'e', 's'], ['t', 'r', 'u', 'e'], ['o', 'n']] →
      key.Value ∉ [['0'], ['n', 'o'], ['f', 'a', 'l', 's', 'e'], ['o', 'f', 'f']] →
      (unmarshalKeys sect rv).get? i = some ⟨name, tag, .ptrBool p⟩) := by
  rw [unmarshalKeys_get_ptrBool sect rv i name tag p key hf hk]
  refine ⟨?_, ?_, ?_⟩
  · intro h
    obtain ⟨hne, hb⟩ := StrToBool_true h
    simp [hne, hb]
  · intro h
    obtain ⟨hne, hb⟩ := StrToBool_false h
    simp [hne, hb]
  · intro h1 h2
    simp [StrToBool_none h1 h2]

/-- Witness for C17: the key `Enable` given twice, into a fresh struct shaped like the
`routeSection` of `TestUnmarshal`; the last key, `Enable=yes`, decides. -/
theorem optional_bool_last_key_witness :
    ([⟨"Enable".toList, ",omitempty".toList, .ptrBool none⟩,
        ⟨"Disable".toList, [], .ptrBool none⟩] : SectionRecord).get? 0 =
      some ⟨"Enable".toList, ",omitempty".toList, .ptrBool none⟩ ∧
    ((Section.mk "Route".toList []
        [⟨"Enable".toList, "no".toList, []⟩, ⟨"Disable".toList, "off".toList, []⟩,
          ⟨"Enable".toList, "yes".toList, []⟩]).KeysByName
        (configForField "Enable".toList ",omitempty".toList).Name).getLast? =
      some ⟨"Enable".toList, "yes".toList, []⟩ ∧
    (unmarshalKeys ⟨"Route".toList, [],
        [⟨"Enable".toList, "no".toList, []⟩, ⟨"Disable".toList, "off".toList, []⟩,
          ⟨"Enable".toList, "yes".toList, []⟩]⟩
        [⟨"Enable".toList, ",omitempty".toList, .ptrBool none⟩,
          ⟨"Disable".toList, [], .ptrBool none⟩]).get? 0 =
      some ⟨"Enable".toList, ",omitempty".toList, .ptrBool (some true)⟩ :=
  ⟨rfl, by decide,
    (optional_bool_last_key ⟨"Route".toList, [],
        [⟨"Enable".toList, "no".toList, []⟩, ⟨"Disable".toList, "off".toList, []⟩,
          ⟨"Enable".toList, "yes".toList, []⟩]⟩
      [⟨"Enable".toList, ",omitempty".toList, .ptrBool none⟩,
        ⟨"Disable".toList, [], .ptrBool none⟩] 0 "Enable".toList ",omitempty".toList none
      ⟨"Enable".toList, "yes".toList, []⟩ rfl (by decide)).1 (by decide)⟩

/-! ## Theorems: the comments `unmarshalKeys` registers -/

theorem keyComment_eq (rv : SectionRecord) (n : Str) :
    keyComment rv n =
      match rv.findSome? commentsOf with
      | some m => (m n).getD []
      | none => [] := rfl

theorem findSome_map_option {α β γ : Type} (s : α → Option β) (φ : β → γ) :
    ∀ (l : List α), l.findSome? (fun a => (s a).map φ) = (l.findSome? s).map φ := by
  intro l
  induction l with
  | nil => rfl
  | cons a l ih =>
    simp only [List.findSome?_cons]
    cases s a with
    | none => simpa using ih
    | some b => simp

theorem commentsOf_appendKeys (l : List Key) (g : KeyField) :
    commentsOf (appendKeys l g) = commentsOf g := by
  obtain ⟨name, tag, val⟩ := g
  cases val <;> rfl

theorem commentsOf_fieldAfter (sect : Section) (g : KeyField) :
    commentsOf (fieldAfter sect g) = commentsOf g := by
  obtain ⟨name, tag, val⟩ := g
  cases val <;> simp only [fieldAfter] <;> (repeat' split) <;> rfl

theorem commentsOf_noteField (sect : Section) (h g : KeyField) :
    commentsOf (noteField sect h g) = (commentsOf g).map (notedMap sect [h]) := by
  unfold noteField notedMap
  simp only [List.foldl_cons, List.foldl_nil]
  by_cases hc : commentAfter sect h = []
  · simp only [hc, if_true]
    cases commentsOf g <;> rfl
  · simp only [hc, if_false]
    obtain ⟨name, tag, val⟩ := g
    cases val <;> rfl

theorem notedMap_concat (sect : Section) (hs : List KeyField) (h : KeyField) (m : CommentMap) :
    notedMap sect (hs ++ [h]) m = notedMap sect [h] (notedMap sect hs m) := by
  simp [notedMap, List.foldl_append]

theorem commentsOf_notes (sect : Section) (hs : List KeyField) (g : KeyField) :
    commentsOf (notes sect hs g) = (commentsOf g).map (notedMap sect hs) := by
  induction hs using List.reverseRecOn with
  | nil =>
    cases h : commentsOf g <;> simp [notes, notedMap, h]
  | append_singleton hs h ih =>
    rw [notes_concat, commentsOf_noteField, ih]
    cases commentsOf g with
    | none => rfl
    | some m => simp [notedMap_concat]

/-- The comment `GetKeyComment` reports on the struct under construction when the comment
handling of the fields `hs` is over. -/
theorem keyComment_state (sect : Section) (hs done todo : List KeyField) (n : Str) :
    keyComment ((done.map (fieldAfter sect) ++ todo).map (notes sect hs)) n =
      match (done ++ todo).findSome? commentsOf with
      | some m => (notedMap sect hs m n).getD []
      | none => [] := by
  have h1 : ((done.map (fieldAfter sect) ++ todo).map (notes sect hs)).findSome? commentsOf =
      ((done ++ todo).findSome? commentsOf).map (notedMap sect hs) := by
    rw [List.findSome?_map]
    have : (commentsOf ∘ notes sect hs) = fun g => (commentsOf g).map (notedMap sect hs) := by
      funext g
      exact commentsOf_notes sect hs g
    rw [this, findSome_map_option, List.findSome?_append, List.findSome?_append,
      List.findSome?_map]
    have h2 : (commentsOf ∘ fieldAfter sect) = commentsOf := by
      funext g
      exact commentsOf_fieldAfter sect g
    rw [h2]
  rw [keyComment_eq, h1]
  cases (done ++ todo).findSome? commentsOf <;> rfl

theorem keyComment_map_appendKeys (l : List Key) (r : SectionRecord) (n : Str) :
    keyComment (r.map (appendKeys l)) n = keyComment r n := by
  rw [keyComment_eq, keyComment_eq, List.findSome?_map]
  have : (commentsOf ∘ appendKeys l) = commentsOf := by
    funext g
    exact commentsOf_appendKeys l g
  rw [this]

/-- The comment `GetKeyComment` reports on the struct `unmarshalKeys` returns. -/
theorem keyComment_unmarshalKeys (sect : Section) (rv : SectionRecord) (n : Str) :
    keyComment (unmarshalKeys sect rv) n =
      match rv.findSome? commentsOf with
      | some m => (notedMap sect rv m n).getD []
      | none => [] := by
  have h1 : rv.map (fun g => appendKeys (unknownKeys sect rv) (notes sect rv (fieldAfter sect g))) =
      ((rv.map (fieldAfter sect) ++ []).map (notes sect rv)).map
        (appendKeys (unknownKeys sect rv)) := by
    simp [List.map_map]
  rw [unmarshalKeys_eq, h1, keyComment_map_appendKeys, keyComment_state, List.append_nil]

theorem unmarshalKey_loop_prefix (sect : Section) : ∀ (mid done todo : List KeyField),
    (List.range' done.length mid.length).foldl (unmarshalKey sect)
        (done.map (fun g => notes sect done (fieldAfter sect g)) ++
          (mid ++ todo).map (notes sect done)) =
      (done ++ mid).map (fun g => notes sect (done ++ mid) (fieldAfter sect g)) ++
        todo.map (notes sect (done ++ mid)) := by
  intro mid
  induction mid with
  | nil => intro done todo; simp
  | cons f mid ih =>
    intro done todo
    simp only [List.length_cons, List.range'_succ, List.foldl_cons, List.cons_append]
    rw [unmarshalKey_loop_step]
    have := ih (done ++ [f]) todo
    simp only [List.length_append, List.length_singleton, List.append_assoc,
      List.singleton_append] at this
    exact this

/-- The struct under construction in `unmarshalKeys` after the iterations for the first
`k` fields. -/
theorem unmarshalKey_loop_take (sect : Section) (rv : SectionRecord) (k : Nat)
    (hk : k ≤ rv.length) :
    (List.range k).foldl (unmarshalKey sect) rv =
      ((rv.take k).map (fieldAfter sect) ++ rv.drop k).map (notes sect (rv.take k)) := by
  have h := unmarshalKey_loop_prefix sect (rv.take k) [] (rv.drop k)
  have hnotes : rv.map (notes sect []) = rv := by
    have : notes sect [] = id := by
      funext g
      rfl
    rw [this, List.map_id]
  simp only [List.length_nil, List.nil_append, List.map_nil, List.take_append_drop, hnotes,
    List.length_take, Nat.min_eq_left hk] at h
  rw [List.range_eq_range', h, List.map_append, List.map_map]
  rfl

theorem notedMap_keep (sect : Section) (n : Str) : ∀ (post : List KeyField) (m : CommentMap),
    (∀ h ∈ post, h.config.Name ≠ n) → notedMap sect post m n = m n := by
  intro post
  induction post with
  | nil => intro m _; rfl
  | cons h post ih =>
    intro m hpost
    have hne : n ≠ h.config.Name := fun e => hpost h (by simp) e.symm
    have hrec : notedMap sect (h :: post) m =
        notedMap sect post (notedMap sect [h] m) := by
      simp [notedMap]
    rw [hrec, ih _ (fun h' hh' => hpost h' (by simp [hh']))]
    unfold notedMap
    simp only [List.foldl_cons, List.foldl_nil]
    split
    · rfl
    · exact Function.update_noteq hne _ _

/-- The comment registered under the resolved name of a field whose iteration ends with a
non-empty comment, when no field after it bears the same resolved name. -/
theorem notedMap_last (sect : Section) (pre post : List KeyField) (f : KeyField)
    (m : CommentMap) (hc : commentAfter sect f ≠ [])
    (hpost : ∀ h ∈ post, h.config.Name ≠ f.config.Name) :
    notedMap sect (pre ++ f :: post) m f.config.Name = some (commentAfter sect f) := by
  have hrec : notedMap sect (pre ++ f :: post) m =
      notedMap sect post (notedMap sect [f] (notedMap sect pre m)) := by
    simp [notedMap, List.foldl_append]
  rw [hrec, notedMap_keep sect _ post _ hpost]
  unfold notedMap
  simp only [List.foldl_cons, List.foldl_nil, hc, if_false]
  exact Function.update_same _ _ _

theorem take_succ_of_get {α : Type} : ∀ (l : List α) (i : Nat) (a : α), l.get? i = some a →
    l.take (i + 1) = l.take i ++ [a] ∧ l = l.take i ++ a :: l.drop (i + 1) ∧ i < l.length := by
  intro l
  induction l with
  | nil => intro i a h; simp at h
  | cons x xs ih =>
    intro i a h
    cases i with
    | zero =>
      simp only [List.get?_cons_zero, Option.some.injEq] at h
      simp [h]
    | succ n =>
      simp only [List.get?_cons_succ] at h
      obtain ⟨h1, h2, h3⟩ := ih n a h
      refine ⟨?_, ?_, by simpa using h3⟩
      · simp [h1]
      · simp only [List.take_succ_cons, List.drop_succ_cons, List.cons_append]
        rw [← h2]

theorem findSome_commentsOf_of_mem {rv : SectionRecord} (h : ∃ g ∈ rv, g.isComments = true) :
    ∃ m, rv.findSome? commentsOf = some m := by
  obtain ⟨g, hg, hc⟩ := h
  cases hf : rv.findSome? commentsOf with
  | some m => exact ⟨m, rfl⟩
  | none =>
    rw [List.findSome?_eq_none_iff] at hf
    have := hf g hg
    obtain ⟨name, tag, val⟩ := g
    cases val <;> simp [KeyField.isComments] at hc
    simp [commentsOf] at this

/-- The field with index `i` of the struct `unmarshalKeys` returns, when it is a string with
a key of its resolved name. -/
theorem unmarshalKeys_get_string (sect : Section) (rv : SectionRecord) (i : Nat)
    (name tag v0 : Str) (key : Key) (hf : rv.get? i = some ⟨name, tag, .string v0⟩)
    (hk : (sect.KeysByName (configForField name tag).Name).getLast? = some key) :
    (unmarshalKeys sect rv).get? i = some ⟨name, tag, .string key.Value⟩ := by
  rw [unmarshalKeys_get sect rv i _ hf]
  have h1 : fieldAfter sect ⟨name, tag, .string v0⟩ = ⟨name, tag, .string key.Value⟩ := by
    simp only [fieldAfter, KeyField.config, hk]
  rw [h1, notes_of_not sect rv (g := ⟨name, tag, .string _⟩) rfl,
    appendKeys_of_not _ (by intro l0 h; cases h)]

/-! ## Theorems: the comment slot of a nested struct -/

theorem findIdx_map_from {α : Type} (p : α → Bool) (F : α → α) (hF : ∀ a, p (F a) = p a) :
    ∀ (l : List α) (s : Nat), List.findIdx? p (l.map F) s = List.findIdx? p l s := by
  intro l
  induction l with
  | nil => intro s; rfl
  | cons a l ih =>
    intro s
    simp only [List.map_cons, List.findIdx?_cons, hF, ih]

theorem findIdx_map_of {α : Type} (p : α → Bool) (F : α → α) (hF : ∀ a, p (F a) = p a)
    (l : List α) : (l.map F).findIdx? p = l.findIdx? p :=
  findIdx_map_from p F hF l 0

theorem fieldAfter_string (sect : Section) (n t v : Str) :
    ∃ x, fieldAfter sect ⟨n, t, .string v⟩ = ⟨n, t, .string x⟩ := by
  unfold fieldAfter
  split
  · exact ⟨v, rfl⟩
  · exact ⟨_, rfl⟩

theorem unmarshalKeys_name (sect : Section) (rv : SectionRecord) :
    ∀ g, (appendKeys (unknownKeys sect rv) (notes sect rv (fieldAfter sect g))).Name = g.Name := by
  intro g
  rw [appendKeys_name, notes_name, fieldAfter_name]

theorem zero_get (rv : SectionRecord) (i : Nat) (f : KeyField) (hf : rv.get? i = some f) :
    (SectionRecord.zero rv).get? i = some { f with Value := f.Value.zero } := by
  simp only [SectionRecord.zero, List.get?_eq_getElem?, List.getElem?_map] at hf ⊢
  rw [hf]
  rfl

/-- C18. The section comment lands in the comment slot: when the struct type has a field
named `Comment` that is a string, the new object built from a section (a fresh struct
filled by `unmarshalKeys`, then `commentField.Set`) holds the comment of the section in
that field, whatever keys the section has, a key named `Comment` included. -/
theorem section_comment_slot (sect : Section) (elem : SectionRecord) (i : Nat) (tag v0 : Str)
    (hi : elem.findIdx? (fun f => f.Name = ['C', 'o', 'm', 'm', 'e', 'n', 't']) = some i)
    (hf : elem.get? i = some ⟨['C', 'o', 'm', 'm', 'e', 'n', 't'], tag, .string v0⟩) :
    ∃ o, newObject sect elem = some o ∧
      o.get? i = some ⟨['C', 'o', 'm', 'm', 'e', 'n', 't'], tag, .string sect.Comment⟩ := by
  have hz := zero_get elem i _ hf
  have hget := unmarshalKeys_get sect (SectionRecord.zero elem) i _ hz
  obtain ⟨x, hx⟩ := fieldAfter_string sect ['C', 'o', 'm', 'm', 'e', 'n', 't'] tag []
  have hval : (KeyValue.string v0).zero = .string [] := rfl
  simp only [hval] at hget
  rw [hx, notes_of_not sect _ (g := ⟨_, tag, .string x⟩) rfl,
    appendKeys_of_not _ (by intro l0 h; cases h)] at hget
  have hidx : (unmarshalKeys sect (SectionRecord.zero elem)).findIdx?
      (fun f => f.Name = ['C', 'o', 'm', 'm', 'e', 'n', 't']) = some i := by
    rw [unmarshalKeys_eq, findIdx_map_of _ _ (fun g => by rw [unmarshalKeys_name])]
    exact (findIdx_map_of (fun f : KeyField => decide (f.Name = ['C', 'o', 'm', 'm', 'e', 'n', 't']))
      (fun f : KeyField => { f with Value := f.Value.zero }) (fun g => rfl) elem).trans hi
  refine ⟨(unmarshalKeys sect (SectionRecord.zero elem)).set i
    ⟨['C', 'o', 'm', 'm', 'e', 'n', 't'], tag, .string sect.Comment⟩, ?_, ?_⟩
  · simp only [newObject, setCommentField, hidx, hget]
  · have hlt : i < (unmarshalKeys sect (SectionRecord.zero elem)).length := by
      by_contra hge
      have := List.get?_eq_none.mpr (Nat.le_of_not_lt hge)
      rw [this] at hget
      cases hget
    simp [List.get?_eq_getElem?, List.getElem?_set, hlt]

/-- Witness for C18: the section `Match` of `TestUnmarshal` with a key named `Comment`
added, into a struct with a comment slot. -/
theorem section_comment_slot_witness :
    ∃ o, newObject ⟨"Match".toList, "this is a config file!".toList,
        [⟨"Comment".toList, "from a key".toList, []⟩, ⟨"Name".toList, "eth*".toList, []⟩]⟩
        [⟨"Comment".toList, [], .string []⟩, ⟨"Name".toList, [], .string []⟩] = some o ∧
      o.get? 0 = some ⟨"Comment".toList, [], .string "this is a config file!".toList⟩ :=
  section_comment_slot ⟨"Match".toList, "this is a config file!".toList,
        [⟨"Comment".toList, "from a key".toList, []⟩, ⟨"Name".toList, "eth*".toList, []⟩]⟩
    [⟨"Comment".toList, [], .string []⟩, ⟨"Name".toList, [], .string []⟩] 0 [] []
    (by decide) rfl

/-! ## Theorems: `unmarshalSections` field by field -/

theorem unmarshalSection_eq (r : FileRecord) (i : Nat) (g : SectionsField) (sect : Section)
    (hg : r.get? i = some g) :
    unmarshalSection i (.ok r) sect =
      match sectionInto g sect with
      | none => .fail .panic
      | some g1 => .ok (r.set i g1) := by
  obtain ⟨name, tag, val⟩ := g
  cases val <;> simp only [unmarshalSection, hg, sectionInto]
  · cases newObject sect _ <;> rfl
  · cases newObject sect _ <;> rfl
  · cases newObject sect _ <;> rfl
  · cases newObject sect sectionAsRecord <;> rfl

theorem foldl_unmarshalSection_fail (i : Nat) (e : Fault) : ∀ (sects : List Section),
    sects.foldl (unmarshalSection i) (.fail e) = .fail e := by
  intro sects
  induction sects with
  | nil => rfl
  | cons s sects ih => simpa [unmarshalSection] using ih

theorem fillField_none : ∀ (sects : List Section),
    sects.foldl (fun acc s => acc.bind (fun g => sectionInto g s)) none = none := by
  intro sects
  induction sects with
  | nil => rfl
  | cons s sects ih => simpa using ih

theorem fillField_cons (g : SectionsField) (s : Section) (sects : List Section) :
    fillField g (s :: sects) = (sectionInto g s).bind (fun g1 => fillField g1 sects) := by
  simp only [fillField, List.foldl_cons, Option.some_bind]
  cases sectionInto g s with
  | none => simpa using fillField_none sects
  | some g1 => rfl

theorem get_set_self {α : Type} (l : List α) (i : Nat) (a b : α) (h : l.get? i = some a) :
    (l.set i b).get? i = some b := by
  have hlt : i < l.length := by
    by_contra hge
    rw [List.get?_eq_none.mpr (Nat.le_of_not_lt hge)] at h
    cases h
  simp [List.get?_eq_getElem?, List.getElem?_set, hlt]

/-- The section loop of `unmarshalSections` for the field with index `i`. -/
theorem foldl_unmarshalSection (i : Nat) : ∀ (sects : List Section) (r : FileRecord)
    (g : SectionsField), r.get? i = some g →
    sects.foldl (unmarshalSection i) (.ok r) =
      match fillField g sects with
      | none => .fail .panic
      | some g1 => .ok (r.set i g1) := by
  intro sects
  induction sects with
  | nil =>
    intro r g hg
    simp only [List.foldl_nil, fillField]
    rw [set_eq_self r i g hg]
  | cons s sects ih =>
    intro r g hg
    simp only [List.foldl_cons]
    rw [unmarshalSection_eq r i g s hg, fillField_cons]
    cases hs : sectionInto g s with
    | none =>
      simp only [Option.none_bind]
      rw [foldl_unmarshalSection_fail]
    | some g1 =>
      simp only [Option.some_bind]
      rw [ih (r.set i g1) g1 (get_set_self r i g g1 hg)]
      simp only [List.set_set]

theorem unmarshalSectionsField_eq (file : File) (r : FileRecord) (i : Nat) (g : SectionsField)
    (hg : r.get? i = some g) :
    unmarshalSectionsField file (.ok r) i =
      match fillField g (file.SectionsByName g.config.Name) with
      | none => .fail .panic
      | some g1 => .ok (r.set i g1) := by
  simp only [unmarshalSectionsField, hg]
  exact foldl_unmarshalSection i _ r g hg

theorem unmarshalSectionsField_loop (file : File) : ∀ (todo done : List SectionsField),
    (∀ f ∈ todo, (fillField f (file.SectionsByName f.config.Name)).isSome = true) →
    (List.range' done.length todo.length).foldl (unmarshalSectionsField file)
        (.ok (done.map (fun f => (fillField f (file.SectionsByName f.config.Name)).getD f) ++
          todo)) =
      .ok ((done ++ todo).map
        (fun f => (fillField f (file.SectionsByName f.config.Name)).getD f)) := by
  intro todo
  induction todo with
  | nil => intro done _; simp
  | cons f todo ih =>
    intro done h
    simp only [List.length_cons, List.range'_succ, List.foldl_cons]
    have hg : (done.map (fun f => (fillField f (file.SectionsByName f.config.Name)).getD f) ++
        f :: todo).get? done.length = some f := by
      simp only [List.get?_eq_getElem?]
      rw [List.getElem?_append_right (by simp)]
      simp
    rw [unmarshalSectionsField_eq file _ _ f hg]
    obtain ⟨g1, hg1⟩ := Option.isSome_iff_exists.mp (h f (by simp))
    simp only [hg1]
    rw [set_at_length _ _ _ _ _ (by simp)]
    have := ih (done ++ [f]) (fun g hg => h g (by simp [hg]))
    simp only [List.length_append, List.length_singleton, List.append_assoc,
      List.singleton_append, List.map_append, List.map_cons, List.map_nil, hg1,
      Option.getD_some] at this
    simp only [List.map_append, List.map_cons, hg1, Option.getD_some]
    exact this

theorem AddSection_eq_map (r : FileRecord) (s : Section) :
    AddSection r s = r.map (appendSections [s]) := by
  unfold AddSection
  apply List.map_congr_left
  intro f _
  obtain ⟨name, tag, val⟩ := f
  cases val <;> rfl

/-- The section loop that ends `unmarshalSections`: the sections that bear no known name
are appended, in order, to the embedded `SectionList`. -/
theorem foldl_addSection (known : List Str) : ∀ (l : List Section) (r : FileRecord),
    l.foldl (fun (r : FileRecord) (s : Section) =>
      if s.Name ∈ known then r else AddSection r s) r =
      r.map (appendSections (l.filter (fun s => s.Name ∉ known))) := by
  intro l
  induction l with
  | nil =>
    intro r
    simp only [List.foldl_nil, List.filter_nil]
    rw [List.map_congr_left (fun f _ => appendSections_nil f)]
    simp
  | cons s l ih =>
    intro r
    simp only [List.foldl_cons]
    by_cases hs : s.Name ∈ known
    · simp only [hs, if_true, ih]
      simp [List.filter_cons, hs]
    · simp only [hs, if_false]
      rw [ih, AddSection_eq_map, List.map_map]
      apply List.map_congr_left
      intro f _
      simp [List.filter_cons, hs, appendSections_appendSections]

/-- The struct `unmarshalSections` fills, field by field, when no section loop panics:
every field is filled from the sections of its resolved name and the embedded
`SectionList` takes the sections of unknown name. -/
theorem unmarshalSections_eq (file : File) (rv : FileRecord)
    (h : ∀ f ∈ rv, (fillField f (file.SectionsByName f.config.Name)).isSome = true) :
    unmarshalSections file rv =
      .ok (rv.map (fun f => appendSections (unknownSections file rv)
        ((fillField f (file.SectionsByName f.config.Name)).getD f))) := by
  have hloop := unmarshalSectionsField_loop file rv [] h
  simp only [List.length_nil, List.nil_append, List.map_nil] at hloop
  simp only [unmarshalSections, List.range_eq_range']
  rw [hloop]
  simp only
  rw [foldl_addSection, List.map_map]
  rfl

/-- The field with index `i` of the struct `unmarshalSections` fills. -/
theorem unmarshalSections_get (file : File) (rv : FileRecord)
    (h : ∀ f ∈ rv, (fillField f (file.SectionsByName f.config.Name)).isSome = true)
    (i : Nat) (f g : SectionsField) (hf : rv.get? i = some f)
    (hg : fillField f (file.SectionsByName f.config.Name) = some g) :
    ∃ rv1, unmarshalSections file rv = .ok rv1 ∧
      rv1.get? i = some (appendSections (unknownSections file rv) g) := by
  refine ⟨_, unmarshalSections_eq file rv h, ?_⟩
  simp only [List.get?_eq_getElem?, List.getElem?_map] at hf ⊢
  rw [hf]
  simp [hg]

/-! ## Theorems: the new object of the section loop -/

theorem zero_eq_of_fields (F : KeyField → KeyField) (r : SectionRecord)
    (hF : ∀ g, (⟨(F g).Name, (F g).Tag, (F g).Value.zero⟩ : KeyField) =
      ⟨g.Name, g.Tag, g.Value.zero⟩) :
    SectionRecord.zero (r.map F) = SectionRecord.zero r := by
  simp only [SectionRecord.zero, List.map_map]
  apply List.map_congr_left
  intro g _
  exact hF g

theorem zeroField_appendKeys (l : List Key) (g : KeyField) :
    (⟨(appendKeys l g).Name, (appendKeys l g).Tag, (appendKeys l g).Value.zero⟩ : KeyField) =
      ⟨g.Name, g.Tag, g.Value.zero⟩ := by
  obtain ⟨name, tag, val⟩ := g
  cases val <;> rfl

theorem zeroField_noteField (sect : Section) (h g : KeyField) :
    (⟨(noteField sect h g).Name, (noteField sect h g).Tag, (noteField sect h g).Value.zero⟩ :
      KeyField) = ⟨g.Name, g.Tag, g.Value.zero⟩ := by
  obtain ⟨name, tag, val⟩ := g
  cases val <;> simp only [noteField, noteComment] <;> split <;> rfl

theorem zeroField_notes (sect : Section) : ∀ (hs : List KeyField) (g : KeyField),
    (⟨(notes sect hs g).Name, (notes sect hs g).Tag, (notes sect hs g).Value.zero⟩ : KeyField) =
      ⟨g.Name, g.Tag, g.Value.zero⟩ := by
  intro hs
  induction hs with
  | nil => intro g; rfl
  | cons x xs ih =>
    intro g
    simp only [notes, List.foldl_cons]
    exact (ih _).trans (zeroField_noteField sect x g)

theorem zeroField_fieldAfter (sect : Section) (g : KeyField) :
    (⟨(fieldAfter sect g).Name, (fieldAfter sect g).Tag, (fieldAfter sect g).Value.zero⟩ :
      KeyField) = ⟨g.Name, g.Tag, g.Value.zero⟩ := by
  obtain ⟨name, tag, val⟩ := g
  cases val <;> simp only [fieldAfter] <;> (repeat' split) <;> rfl

/-- The struct `unmarshalKeys` returns has the type of the struct it was given. -/
theorem zero_unmarshalKeys (sect : Section) (r : SectionRecord) :
    SectionRecord.zero (unmarshalKeys sect r) = SectionRecord.zero r := by
  rw [unmarshalKeys_eq]
  apply zero_eq_of_fields
  intro g
  exact (zeroField_appendKeys _ _).trans ((zeroField_notes sect r _).trans
    (zeroField_fieldAfter sect g))

theorem zero_set_string (r : SectionRecord) (i : Nat) (n t v c : Str)
    (h : r.get? i = some ⟨n, t, .string v⟩) :
    SectionRecord.zero (r.set i ⟨n, t, .string c⟩) = SectionRecord.zero r := by
  have h1 : SectionRecord.zero (r.set i ⟨n, t, .string c⟩) =
      (SectionRecord.zero r).set i ⟨n, t, .string []⟩ := by
    simp only [SectionRecord.zero, List.map_set]
    rfl
  rw [h1]
  exact set_eq_self _ i _ (zero_get r i _ h)

theorem setCommentField_zero (r : SectionRecord) (c : Str) (o : SectionRecord)
    (h : setCommentField r c = some o) : SectionRecord.zero o = SectionRecord.zero r := by
  unfold setCommentField at h
  split at h
  · injection h with h
    rw [h]
  · split at h
    · rename_i n t v hget
      injection h with h
      rw [← h]
      exact zero_set_string r _ n t v c hget
    · cases h

/-- Whether `commentField.Set` panics depends on the struct type alone. -/
theorem setCommentField_isSome (r : SectionRecord) (c : Str) :
    (setCommentField r c).isSome = commentSlotOK (SectionRecord.zero r) := by
  have hidx : (SectionRecord.zero r).findIdx?
      (fun f => f.Name = ['C', 'o', 'm', 'm', 'e', 'n', 't']) =
      r.findIdx? (fun f => f.Name = ['C', 'o', 'm', 'm', 'e', 'n', 't']) :=
    findIdx_map_of (fun f : KeyField => decide (f.Name = ['C', 'o', 'm', 'm', 'e', 'n', 't']))
      (fun f : KeyField => { f with Value := f.Value.zero }) (fun g => rfl) r
  unfold commentSlotOK setCommentField
  rw [hidx]
  cases hi : r.findIdx? (fun f => f.Name = ['C', 'o', 'm', 'm', 'e', 'n', 't']) with
  | none => rfl
  | some i =>
    simp only
    cases hg : r.get? i with
    | none =>
      have : (SectionRecord.zero r).get? i = none := by
        simp only [SectionRecord.zero, List.get?_eq_getElem?, List.getElem?_map] at hg ⊢
        rw [hg]
        rfl
      rw [this]
    | some g =>
      rw [zero_get r i g hg]
      obtain ⟨name, tag, val⟩ := g
      cases val <;> rfl

theorem commentSlotOK_zero (r : SectionRecord) :
    commentSlotOK (SectionRecord.zero r) = commentSlotOK r := by
  unfold commentSlotOK
  rw [setCommentField_isSome (SectionRecord.zero r) [], zero_zero]
  exact (setCommentField_isSome r []).symm

/-- The new object of the section loop exists exactly when the struct type has a usable
comment slot, and it has the struct type it was built for. -/
theorem newObject_some (sect : Section) (elem : SectionRecord) (h : commentSlotOK elem = true) :
    ∃ o, newObject sect elem = some o ∧ SectionRecord.zero o = SectionRecord.zero elem := by
  have h1 : (newObject sect elem).isSome = true := by
    unfold newObject
    rw [setCommentField_isSome, zero_unmarshalKeys, zero_zero, commentSlotOK_zero]
    exact h
  obtain ⟨o, ho⟩ := Option.isSome_iff_exists.mp h1
  refine ⟨o, ho, ?_⟩
  unfold newObject at ho
  rw [setCommentField_zero _ _ _ ho, zero_unmarshalKeys, zero_zero]

theorem newObject_congr (sect : Section) {v w : SectionRecord}
    (h : SectionRecord.zero v = SectionRecord.zero w) : newObject sect v = newObject sect w := by
  unfold newObject
  rw [h]

theorem commentSlotOK_congr {v w : SectionRecord}
    (h : SectionRecord.zero v = SectionRecord.zero w) : commentSlotOK v = commentSlotOK w := by
  rw [← commentSlotOK_zero v, ← commentSlotOK_zero w, h]

/-! ## Theorems: the section loop, kind by kind -/

theorem fillField_nil (f : SectionsField) : fillField f [] = some f := rfl

/-- The section loop for a struct field: the new object built from the last section
stays. -/
theorem fillField_struct (n t : Str) : ∀ (sects : List Section) (v : SectionRecord) (s : Section),
    commentSlotOK v = true → sects.getLast? = some s →
    ∃ o, newObject s v = some o ∧ fillField ⟨n, t, .struct v⟩ sects = some ⟨n, t, .struct o⟩ := by
  intro sects
  induction sects with
  | nil => intro v s _ hs; simp at hs
  | cons s0 sects ih =>
    intro v s hv hs
    obtain ⟨o0, ho0, hz0⟩ := newObject_some s0 v hv
    have hstep : sectionInto ⟨n, t, .struct v⟩ s0 = some ⟨n, t, .struct o0⟩ := by
      simp [sectionInto, ho0]
    rw [fillField_cons, hstep, Option.some_bind]
    cases sects with
    | nil =>
      simp only [List.getLast?_singleton, Option.some.injEq] at hs
      subst hs
      exact ⟨o0, ho0, rfl⟩
    | cons s1 rest =>
      have hs1 : (s1 :: rest).getLast? = some s := by
        rw [List.getLast?_cons_cons] at hs
        exact hs
      obtain ⟨o, ho, hfill⟩ := ih o0 s ((commentSlotOK_congr hz0).trans hv) hs1
      exact ⟨o, (newObject_congr s hz0).symm.trans ho, hfill⟩

/-- The section loop for a pointer field: the new object built from the last section
stays. -/
theorem fillField_ptr (n t : Str) (elem : SectionRecord) (helem : commentSlotOK elem = true) :
    ∀ (sects : List Section) (p : Option SectionRecord) (s : Section),
    sects.getLast? = some s →
    ∃ o, newObject s elem = some o ∧
      fillField ⟨n, t, .ptr elem p⟩ sects = some ⟨n, t, .ptr elem (some o)⟩ := by
  intro sects
  induction sects with
  | nil => intro p s hs; simp at hs
  | cons s0 sects ih =>
    intro p s hs
    obtain ⟨o0, ho0, _⟩ := newObject_some s0 elem helem
    have hstep : sectionInto ⟨n, t, .ptr elem p⟩ s0 = some ⟨n, t, .ptr elem (some o0)⟩ := by
      simp [sectionInto, ho0]
    rw [fillField_cons, hstep, Option.some_bind]
    cases sects with
    | nil =>
      simp only [List.getLast?_singleton, Option.some.injEq] at hs
      subst hs
      exact ⟨o0, ho0, rfl⟩
    | cons s1 rest =>
      have hs1 : (s1 :: rest).getLast? = some s := by
        rw [List.getLast?_cons_cons] at hs
        exact hs
      exact ih (some o0) s hs1

/-- The section loop for a slice field: every section appends its new object. -/
theorem fillField_slice (n t : Str) (elem : SectionRecord) (helem : commentSlotOK elem = true) :
    ∀ (sects : List Section) (vs : List SectionRecord),
    ∃ os, List.Forall₂ (fun s o => newObject s elem = some o) sects os ∧
      fillField ⟨n, t, .slice elem vs⟩ sects = some ⟨n, t, .slice elem (vs ++ os)⟩ := by
  intro sects
  induction sects with
  | nil => intro vs; exact ⟨[], List.Forall₂.nil, by simp [fillField_nil]⟩
  | cons s0 sects ih =>
    intro vs
    obtain ⟨o0, ho0, _⟩ := newObject_some s0 elem helem
    have hstep : sectionInto ⟨n, t, .slice elem vs⟩ s0 = some ⟨n, t, .slice elem (vs ++ [o0])⟩ := by
      simp [sectionInto, ho0]
    obtain ⟨os, hos, hfill⟩ := ih (vs ++ [o0])
    refine ⟨o0 :: os, List.Forall₂.cons ho0 hos, ?_⟩
    rw [fillField_cons, hstep, Option.some_bind, hfill]
    simp

/-- The section loop for the embedded `SectionList`: every section of its resolved name
appends a `Section` built from a fresh one. -/
theorem fillField_sectionList (n t : Str) : ∀ (sects : List Section) (l : List Section),
    ∃ extra, extra.length = sects.length ∧
      fillField ⟨n, t, .sectionList l⟩ sects = some ⟨n, t, .sectionList (l ++ extra)⟩ := by
  intro sects
  induction sects with
  | nil => intro l; exact ⟨[], rfl, by simp [fillField_nil]⟩
  | cons s0 sects ih =>
    intro l
    obtain ⟨o0, ho0, _⟩ := newObject_some s0 sectionAsRecord (by decide)
    have hstep : sectionInto ⟨n, t, .sectionList l⟩ s0 =
        some ⟨n, t, .sectionList (l ++ [recordAsSection o0])⟩ := by
      simp [sectionInto, ho0]
    obtain ⟨extra, hlen, hfill⟩ := ih (l ++ [recordAsSection o0])
    refine ⟨recordAsSection o0 :: extra, by simp [hlen], ?_⟩
    rw [fillField_cons, hstep, Option.some_bind, hfill]
    simp

/-- The section loop does not panic on a field that can be filled. -/
theorem fillable_isSome (file : File) (f : SectionsField) (h : f.fillable file) :
    (fillField f (file.SectionsByName f.config.Name)).isSome = true := by
  obtain ⟨n, t, val⟩ := f
  cases val with
  | struct v =>
    simp only [SectionsField.fillable] at h
    cases hs : (file.SectionsByName (SectionsField.mk n t (.struct v)).config.Name).getLast? with
    | none =>
      rw [List.getLast?_eq_none_iff.mp hs]
      rfl
    | some s =>
      obtain ⟨o, _, hfill⟩ := fillField_struct n t _ v s h hs
      rw [hfill]
      rfl
  | ptr elem p =>
    simp only [SectionsField.fillable] at h
    cases hs : (file.SectionsByName (SectionsField.mk n t (.ptr elem p)).config.Name).getLast? with
    | none =>
      rw [List.getLast?_eq_none_iff.mp hs]
      rfl
    | some s =>
      obtain ⟨o, _, hfill⟩ := fillField_ptr n t elem h _ p s hs
      rw [hfill]
      rfl
  | slice elem vs =>
    simp only [SectionsField.fillable] at h
    obtain ⟨os, _, hfill⟩ := fillField_slice n t elem h
      (file.SectionsByName (SectionsField.mk n t (.slice elem vs)).config.Name) vs
    rw [hfill]
    rfl
  | sectionList l =>
    obtain ⟨extra, _, hfill⟩ := fillField_sectionList n t
      (file.SectionsByName (SectionsField.mk n t (.sectionList l)).config.Name) l
    rw [hfill]
    rfl
  | other v =>
    simp only [SectionsField.fillable] at h
    rw [h]
    rfl

/-! ## Theorems: nested structs on `unmarshalSections` -/

theorem appendSections_of_not {g : SectionsField} (l : List Section)
    (h : ∀ l0, g.Value ≠ .sectionList l0) : appendSections l g = g := by
  obtain ⟨name, tag, val⟩ := g
  cases val <;> first | rfl | exact absurd rfl (h _)

theorem fillable_all (file : File) (rv : FileRecord) (hok : ∀ f ∈ rv, f.fillable file) :
    ∀ f ∈ rv, (fillField f (file.SectionsByName f.config.Name)).isSome = true :=
  fun f hf => fillable_isSome file f (hok f hf)

/-- C14, amended. A nested struct takes the last matching section: when the file has
sections of the resolved name of a struct field or of a pointer field, and no section loop
panics, `unmarshalSections` succeeds and the field holds the new object built from the
last of those sections, a fresh struct filled from that section alone; the sections of
the same name before it leave nothing. -/
theorem nested_record_last_section (file : File) (rv : FileRecord)
    (hok : ∀ f ∈ rv, f.fillable file) (i : Nat) (n t : Str) (s : Section)
    (hs : (file.SectionsByName (configForField n t).Name).getLast? = some s) :
    (∀ v, rv.get? i = some ⟨n, t, .struct v⟩ →
      ∃ rv1 o, unmarshalSections file rv = .ok rv1 ∧ newObject s v = some o ∧
        rv1.get? i = some ⟨n, t, .struct o⟩) ∧
    (∀ elem p, rv.get? i = some ⟨n, t, .ptr elem p⟩ →
      ∃ rv1 o, unmarshalSections file rv = .ok rv1 ∧ newObject s elem = some o ∧
        rv1.get? i = some ⟨n, t, .ptr elem (some o)⟩) := by
  constructor
  · intro v hf
    have hv : commentSlotOK v = true := by
      have := hok _ (List.get?_mem hf)
      simpa [SectionsField.fillable] using this
    obtain ⟨o, ho, hfill⟩ := fillField_struct n t _ v s hv hs
    obtain ⟨rv1, h1, h2⟩ := unmarshalSections_get file rv (fillable_all file rv hok) i _ _ hf hfill
    rw [appendSections_of_not _ (by intro l0 h; cases h)] at h2
    exact ⟨rv1, o, h1, ho, h2⟩
  · intro elem p hf
    have hv : commentSlotOK elem = true := by
      have := hok _ (List.get?_mem hf)
      simpa [SectionsField.fillable] using this
    obtain ⟨o, ho, hfill⟩ := fillField_ptr n t elem hv _ p s hs
    obtain ⟨rv1, h1, h2⟩ := unmarshalSections_get file rv (fillable_all file rv hok) i _ _ hf hfill
    rw [appendSections_of_not _ (by intro l0 h; cases h)] at h2
    exact ⟨rv1, o, h1, ho, h2⟩

/-- Witness for C14 (amended): two sections `Network` into a struct field. -/
theorem nested_record_last_section_witness :
    (∀ f ∈ ([⟨"Network".toList, [], .struct [⟨"Address".toList, [], .string []⟩]⟩] : FileRecord),
      f.fillable ⟨[⟨"Network".toList, [], [⟨"Address".toList, "1".toList, []⟩]⟩,
        ⟨"Network".toList, [], [⟨"Address".toList, "2".toList, []⟩]⟩]⟩) ∧
    ((File.mk [⟨"Network".toList, [], [⟨"Address".toList, "1".toList, []⟩]⟩,
        ⟨"Network".toList, [], [⟨"Address".toList, "2".toList, []⟩]⟩]).SectionsByName
        (configForField "Network".toList []).Name).getLast? =
      some ⟨"Network".toList, [], [⟨"Address".toList, "2".toList, []⟩]⟩ ∧
    ∃ rv1 o, unmarshalSections ⟨[⟨"Network".toList, [], [⟨"Address".toList, "1".toList, []⟩]⟩,
        ⟨"Network".toList, [], [⟨"Address".toList, "2".toList, []⟩]⟩]⟩
        [⟨"Network".toList, [], .struct [⟨"Address".toList, [], .string []⟩]⟩] = .ok rv1 ∧
      newObject ⟨"Network".toList, [], [⟨"Address".toList, "2".toList, []⟩]⟩
        [⟨"Address".toList, [], .string []⟩] = some o ∧
      rv1.get? 0 = some ⟨"Network".toList, [], .struct o⟩ := by
  have hok : ∀ f ∈ ([⟨"Network".toList, [], .struct [⟨"Address".toList, [], .string []⟩]⟩] :
      FileRecord),
      f.fillable ⟨[⟨"Network".toList, [], [⟨"Address".toList, "1".toList, []⟩]⟩,
        ⟨"Network".toList, [], [⟨"Address".toList, "2".toList, []⟩]⟩]⟩ := by
    intro f hf
    simp only [List.mem_singleton] at hf
    subst hf
    simp only [SectionsField.fillable]
    decide
  exact ⟨hok, by decide, (nested_record_last_section _ _ hok 0 "Network".toList []
    ⟨"Network".toList, [], [⟨"Address".toList, "2".toList, []⟩]⟩ (by decide)).1
    [⟨"Address".toList, [], .string []⟩] rfl⟩

/-- C14, counterexample. Of two sections of the name of a struct field the second one
stays: the field holds `Address=2`, while the struct unmarshalled from the first section
holds `Address=1`. -/
theorem nested_record_first_section_counterexample :
    unmarshalSections ⟨[⟨"Network".toList, [], [⟨"Address".toList, "1".toList, []⟩]⟩,
        ⟨"Network".toList, [], [⟨"Address".toList, "2".toList, []⟩]⟩]⟩
        [⟨"Network".toList, [], .struct [⟨"Address".toList, [], .string []⟩]⟩] =
      .ok [⟨"Network".toList, [], .struct [⟨"Address".toList, [], .string "2".toList⟩]⟩] ∧
    newObject ⟨"Network".toList, [], [⟨"Address".toList, "1".toList, []⟩]⟩
        [⟨"Address".toList, [], .string []⟩] =
      some [⟨"Address".toList, [], .string "1".toList⟩] ∧
    ([⟨"Network".toList, [], .struct [⟨"Address".toList, [], .string "2".toList⟩]⟩] :
        FileRecord) ≠
      [⟨"Network".toList, [], .struct [⟨"Address".toList, [], .string "1".toList⟩]⟩] := by
  refine ⟨rfl, rfl, ?_⟩
  simp

/-- C15, amended. A list of nested structs on `unmarshalSections`: when no section loop
panics (every struct type of the record has a string field `Comment` or none, and no field
of another kind bears the name of a section),
`unmarshalSections` succeeds and the slice field gains exactly one element for every
section of the resolved name of the field, each a new object built from a fresh struct and
that section, appended in the order of the sections in the file; the number of elements
appended is the number of those sections. -/
theorem record_list_sections (file : File) (rv : FileRecord)
    (hok : ∀ f ∈ rv, f.fillable file) (i : Nat) (n t : Str) (elem : SectionRecord)
    (vs : List SectionRecord) (hf : rv.get? i = some ⟨n, t, .slice elem vs⟩) :
    ∃ rv1 os, unmarshalSections file rv = .ok rv1 ∧
      rv1.get? i = some ⟨n, t, .slice elem (vs ++ os)⟩ ∧
      List.Forall₂ (fun s o => newObject s elem = some o)
        (file.SectionsByName (configForField n t).Name) os ∧
      os.length = (file.SectionsByName (configForField n t).Name).length := by
  have hv : commentSlotOK elem = true := by
    have := hok _ (List.get?_mem hf)
    simpa [SectionsField.fillable] using this
  obtain ⟨os, hos, hfill⟩ := fillField_slice n t elem hv
    (file.SectionsByName (configForField n t).Name) vs
  obtain ⟨rv1, h1, h2⟩ := unmarshalSections_get file rv (fillable_all file rv hok) i _ _ hf hfill
  rw [appendSections_of_not _ (by intro l0 h; cases h)] at h2
  exact ⟨rv1, os, h1, h2, hos, hos.length_eq.symm⟩

/-- Witness for C15 (amended): two sections `Route` around a section `Network`, into the field
`Routes` of a struct shaped like the `testFile` of `TestUnmarshal`. -/
theorem record_list_sections_witness :
    (∀ f ∈ ([⟨"Network".toList, [], .struct [⟨"Address".toList, [], .string []⟩]⟩,
        ⟨"Routes".toList, "Route".toList, .slice [⟨"Gateway".toList, [], .string []⟩] []⟩] :
        FileRecord),
      f.fillable ⟨[⟨"Route".toList, [], [⟨"Gateway".toList, "1".toList, []⟩]⟩,
        ⟨"Network".toList, [], [⟨"Address".toList, "2".toList, []⟩]⟩,
        ⟨"Route".toList, [], [⟨"Gateway".toList, "3".toList, []⟩]⟩]⟩) ∧
    ∃ rv1 os, unmarshalSections ⟨[⟨"Route".toList, [], [⟨"Gateway".toList, "1".toList, []⟩]⟩,
        ⟨"Network".toList, [], [⟨"Address".toList, "2".toList, []⟩]⟩,
        ⟨"Route".toList, [], [⟨"Gateway".toList, "3".toList, []⟩]⟩]⟩
        [⟨"Network".toList, [], .struct [⟨"Address".toList, [], .string []⟩]⟩,
          ⟨"Routes".toList, "Route".toList, .slice [⟨"Gateway".toList, [], .string []⟩] []⟩] =
        .ok rv1 ∧
      rv1.get? 1 = some ⟨"Routes".toList, "Route".toList,
        .slice [⟨"Gateway".toList, [], .string []⟩] ([] ++ os)⟩ ∧
      List.Forall₂ (fun s o => newObject s [⟨"Gateway".toList, [], .string []⟩] = some o)
        ((File.mk [⟨"Route".toList, [], [⟨"Gateway".toList, "1".toList, []⟩]⟩,
          ⟨"Network".toList, [], [⟨"Address".toList, "2".toList, []⟩]⟩,
          ⟨"Route".toList, [], [⟨"Gateway".toList, "3".toList, []⟩]⟩]).SectionsByName
          (configForField "Routes".toList "Route".toList).Name) os ∧
      os.length = ((File.mk [⟨"Route".toList, [], [⟨"Gateway".toList, "1".toList, []⟩]⟩,
          ⟨"Network".toList, [], [⟨"Address".toList, "2".toList, []⟩]⟩,
          ⟨"Route".toList, [], [⟨"Gateway".toList, "3".toList, []⟩]⟩]).SectionsByName
          (configForField "Routes".toList "Route".toList).Name).length := by
  have hok : ∀ f ∈ ([⟨"Network".toList, [], .struct [⟨"Address".toList, [], .string []⟩]⟩,
        ⟨"Routes".toList, "Route".toList, .slice [⟨"Gateway".toList, [], .string []⟩] []⟩] :
        FileRecord),
      f.fillable ⟨[⟨"Route".toList, [], [⟨"Gateway".toList, "1".toList, []⟩]⟩,
        ⟨"Network".toList, [], [⟨"Address".toList, "2".toList, []⟩]⟩,
        ⟨"Route".toList, [], [⟨"Gateway".toList, "3".toList, []⟩]⟩]⟩ := by
    intro f hf
    simp only [List.mem_cons, List.mem_singleton, List.not_mem_nil, or_false] at hf
    rcases hf with rfl | rfl <;> simp only [SectionsField.fillable] <;> decide
  exact ⟨hok, record_list_sections _ _ hok 1 "Routes".toList "Route".toList
    [⟨"Gateway".toList, [], .string []⟩] [] rfl⟩

/-- C15, counterexample. A slice field whose element type declares the field `Comment` as
a `*string`: for the one section of its name the assignment of the section comment
panics, so `unmarshalSections` returns no record and the list gains no element, although
one section matches. -/
theorem record_list_sections_counterexample :
    (File.mk [⟨"Route".toList, [], [⟨"Gateway".toList, "1".toList, []⟩]⟩]).SectionsByName
        (configForField "Routes".toList "Route".toList).Name =
      [⟨"Route".toList, [], [⟨"Gateway".toList, "1".toList, []⟩]⟩] ∧
    newObject ⟨"Route".toList, [], [⟨"Gateway".toList, "1".toList, []⟩]⟩
        [⟨"Comment".toList, [], .ptrString none⟩, ⟨"Gateway".toList, [], .string []⟩] = none ∧
    unmarshalSections ⟨[⟨"Route".toList, [], [⟨"Gateway".toList, "1".toList, []⟩]⟩]⟩
        [⟨"Routes".toList, "Route".toList,
          .slice [⟨"Comment".toList, [], .ptrString none⟩, ⟨"Gateway".toList, [], .string []⟩]
            []⟩] = .fail .panic := by
  refine ⟨by decide, rfl, rfl⟩

/-! ## Theorems: unknown sections and keys -/

/-- C19, at the failing input. A section that bears the resolved name of the embedded
`SectionList` is not kept in it: the field loop of `unmarshalSections` treats the
container as a list of structs and appends a `Section` that takes its name from the key
`Name` and has no keys, and the loop over the unknown sections skips the section. -/
theorem sectionList_named_section :
    unmarshalSections ⟨[⟨"SectionList".toList, [], [⟨"Name".toList, "x".toList, []⟩]⟩]⟩
        [⟨"SectionList".toList, [], .sectionList []⟩] =
      .ok [⟨"SectionList".toList, [], .sectionList [⟨"x".toList, [], []⟩]⟩] ∧
    unknownSections ⟨[⟨"SectionList".toList, [], [⟨"Name".toList, "x".toList, []⟩]⟩]⟩
        [⟨"SectionList".toList, [], .sectionList []⟩] = [] :=
  ⟨rfl, by decide⟩

/-- The embedded `KeyList` of the struct `unmarshalKeys` returns gains exactly the keys of
the section whose name is no resolved name of a field, in order. -/
theorem unknown_keys_appended (sect : Section) (rv : SectionRecord) (i : Nat) (n t : Str)
    (l0 : List Key) (hf : rv.get? i = some ⟨n, t, .keyList l0⟩) :
    (unmarshalKeys sect rv).get? i = some ⟨n, t, .keyList (l0 ++ unknownKeys sect rv)⟩ := by
  rw [unmarshalKeys_get sect rv i _ hf]
  have h1 : fieldAfter sect ⟨n, t, .keyList l0⟩ = ⟨n, t, .keyList l0⟩ := by
    unfold fieldAfter
    split <;> rfl
  rw [h1, notes_of_not sect rv (g := ⟨n, t, .keyList l0⟩) rfl]
  rfl

/-- The embedded `SectionList` of the struct `unmarshalSections` fills gains exactly the
sections of the file whose name is no resolved name of a field, in order, when no section
bears the resolved name of the `SectionList` itself. -/
theorem unknown_sections_appended (file : File) (rv : FileRecord)
    (hok : ∀ f ∈ rv, f.fillable file) (i : Nat) (n t : Str) (l0 : List Section)
    (hf : rv.get? i = some ⟨n, t, .sectionList l0⟩)
    (hnone : file.SectionsByName (configForField n t).Name = []) :
    ∃ rv1, unmarshalSections file rv = .ok rv1 ∧
      rv1.get? i = some ⟨n, t, .sectionList (l0 ++ unknownSections file rv)⟩ := by
  have hfill : fillField ⟨n, t, .sectionList l0⟩
      (file.SectionsByName (SectionsField.mk n t (.sectionList l0)).config.Name) =
      some ⟨n, t, .sectionList l0⟩ := by
    have : (SectionsField.mk n t (.sectionList l0)).config.Name = (configForField n t).Name := rfl
    rw [this, hnone]
    rfl
  obtain ⟨rv1, h1, h2⟩ := unmarshalSections_get file rv (fillable_all file rv hok) i _ _ hf hfill
  exact ⟨rv1, h1, h2⟩

/-! ## Theorems: the order of the sections `Marshal` builds -/

theorem marshalSectionsField_names (f : SectionsField) :
    (marshalSectionsField f).map (fun s => s.Name) =
      List.replicate (marshalSectionsField f).length f.config.Name := by
  rw [List.eq_replicate_iff]
  refine ⟨by simp, ?_⟩
  intro b hb
  obtain ⟨s, hs, rfl⟩ := List.mem_map.mp hb
  exact marshalSectionsField_name f s hs

theorem flatMap_sections_names : ∀ (rv : FileRecord),
    (rv.flatMap marshalSectionsField).map (fun s => s.Name) =
      rv.flatMap (fun f => List.replicate (marshalSectionsField f).length f.config.Name) := by
  intro rv
  induction rv with
  | nil => rfl
  | cons f rv ih =>
    simp only [List.flatMap_cons, List.map_append, ih, marshalSectionsField_names]

/-- C20. The order of the sections `Marshal` builds: the sections of the fields follow in
the order of declaration, ahead of the sections of an embedded `SectionList`; every
section of a field bears the resolved name of the field, so the names of the sections are
the resolved names of the fields, each as often as the field has sections; a struct field
gives exactly one
section, a pointer field none when unset and one when set, and a slice field of `n`
structs gives `n` sections in a row, the sections of its elements in the order of the
slice. -/
theorem marshal_section_order (rv : FileRecord) :
    (marshalFile rv).Sections = rv.flatMap marshalSectionsField ++
      ((rv.findSome? (fun f => match f.Value with | .sectionList l => some l | _ => none)).getD []) ∧
    (rv.flatMap marshalSectionsField).map (fun s => s.Name) =
      rv.flatMap (fun f => List.replicate (marshalSectionsField f).length f.config.Name) ∧
    ∀ f ∈ rv,
      (∀ s ∈ marshalSectionsField f, s.Name = f.config.Name) ∧
      (∀ v, f.Value = .struct v →
        marshalSectionsField f = [marshalSection ⟨f.config.Name, [], []⟩ v]) ∧
      (∀ elem, f.Value = .ptr elem none → marshalSectionsField f = []) ∧
      (∀ elem v, f.Value = .ptr elem (some v) →
        marshalSectionsField f = [marshalSection ⟨f.config.Name, [], []⟩ v]) ∧
      (∀ elem vs, f.Value = .slice elem vs →
        marshalSectionsField f = vs.map (fun v => marshalSection ⟨f.config.Name, [], []⟩ v) ∧
        (marshalSectionsField f).length = vs.length) := by
  refine ⟨rfl, flatMap_sections_names rv, ?_⟩
  intro f _
  refine ⟨marshalSectionsField_name f, ?_, ?_, ?_, ?_⟩
  · intro v hv
    simp only [marshalSectionsField, hv]
  · intro elem hv
    simp only [marshalSectionsField, hv]
  · intro elem v hv
    simp only [marshalSectionsField, hv]
  · intro elem vs hv
    simp only [marshalSectionsField, hv, List.length_map, and_self]

/-! ## Theorems: the boolean literals -/

/-- C27. The boolean literal vocabulary: `StrToBool` returns true exactly on `1`, `yes`,
`true`, `on`, false exactly on `0`, `no`, `false`, `off`, and nil exactly on every other
string; `BoolToStr` returns `yes` for true and `no` for false. -/
theorem bool_literal_vocabulary (s : Str) :
    (StrToBool s = some true ↔
      s ∈ [['1'], ['y', 'e', 's'], ['t', 'r', 'u', 'e'], ['o', 'n']]) ∧
    (StrToBool s = some false ↔
      s ∈ [['0'], ['n', 'o'], ['f', 'a', 'l', 's', 'e'], ['o', 'f', 'f']]) ∧
    (StrToBool s = none ↔
      s ∉ [['1'], ['y', 'e', 's'], ['t', 'r', 'u', 'e'], ['o', 'n'],
        ['0'], ['n', 'o'], ['f', 'a', 'l', 's', 'e'], ['o', 'f', 'f']]) ∧
    BoolToStr true = ['y', 'e', 's'] ∧ BoolToStr false = ['n', 'o'] ∧
    ∀ b, BoolToStr b = ['y', 'e', 's'] ∨ BoolToStr b = ['n', 'o'] := by
  refine ⟨?_, ?_, ?_, rfl, rfl, ?_⟩
  · constructor
    · intro h
      by_contra hn
      by_cases hf : s ∈ [['0'], ['n', 'o'], ['f', 'a', 'l', 's', 'e'], ['o', 'f', 'f']]
      · rw [(StrToBool_false hf).2] at h
        cases h
      · rw [StrToBool_none hn hf] at h
        cases h
    · intro h
      exact (StrToBool_true h).2
  · constructor
    · intro h
      by_contra hn
      by_cases ht : s ∈ [['1'], ['y', 'e', 's'], ['t', 'r', 'u', 'e'], ['o', 'n']]
      · rw [(StrToBool_true ht).2] at h
        cases h
      · rw [StrToBool_none ht hn] at h
        cases h
    · intro h
      exact (StrToBool_false h).2
  · constructor
    · intro h hm
      simp only [List.mem_cons, List.mem_singleton, List.not_mem_nil, or_false] at hm
      have ht : s ∈ [['1'], ['y', 'e', 's'], ['t', 'r', 'u', 'e'], ['o', 'n']] ∨
          s ∈ [['0'], ['n', 'o'], ['f', 'a', 'l', 's', 'e'], ['o', 'f', 'f']] := by
        simp only [List.mem_cons, List.mem_singleton, List.not_mem_nil, or_false]
        tauto
      rcases ht with ht | ht
      · rw [(StrToBool_true ht).2] at h
        cases h
      · rw [(StrToBool_false ht).2] at h
        cases h
    · intro h
      apply StrToBool_none
      · intro hm
        apply h
        simp only [List.mem_cons, List.mem_singleton, List.not_mem_nil, or_false] at hm ⊢
        tauto
      · intro hm
        apply h
        simp only [List.mem_cons, List.mem_singleton, List.not_mem_nil, or_false] at hm ⊢
        tauto
  · intro b
    cases b
    · exact Or.inr rfl
    · exact Or.inl rfl

/-! ## Theorems: the field annotation -/

theorem takeWhile_eq_self_of_not_mem (tag : Str) (h : ',' ∉ tag) :
    tag.takeWhile (fun c => c ≠ ',') = tag ∧ tag.dropWhile (fun c => c ≠ ',') = [] := by
  induction tag with
  | nil => exact ⟨rfl, rfl⟩
  | cons c cs ih =>
    have hc : c ≠ ',' := fun e => h (by simp [e])
    have hcs : ',' ∉ cs := fun e => h (by simp [e])
    obtain ⟨h1, h2⟩ := ih hcs
    constructor
    · rw [List.takeWhile_cons]
      simp only [ne_eq, hc, not_false_eq_true, decide_True, if_true]
      exact congrArg _ h1
    · rw [List.dropWhile_cons]
      simp only [ne_eq, hc, not_false_eq_true, decide_True, if_true]
      exact h2

theorem take_length_takeWhile (p : Char → Bool) (tag : Str) :
    tag.take (tag.takeWhile p).length = tag.takeWhile p ∧
      tag.drop (tag.takeWhile p).length = tag.dropWhile p := by
  induction tag with
  | nil => exact ⟨rfl, rfl⟩
  | cons c cs ih =>
    by_cases hc : p c = true
    · simp [List.takeWhile_cons, List.dropWhile_cons, hc, ih.1, ih.2]
    · simp [List.takeWhile_cons, List.dropWhile_cons, hc]

/-- C29. The defaults of an absent annotation: with an empty tag `configForField` resolves
the name to the name of the field, without `omitempty` and without `wslist`; a tag that
holds no comma is the resolved name as it stands, with neither modifier. -/
theorem absent_annotation_defaults (name tag : Str) (h : ',' ∉ tag) :
    configForField name [] = ⟨name, false, false⟩ ∧
    configForField name tag = ⟨if tag = [] then name else tag, false, false⟩ := by
  refine ⟨rfl, ?_⟩
  by_cases ht : tag = []
  · subst ht
    rfl
  · simp only [configForField, ne_eq, ht, not_false_eq_true, if_true, h, if_false]

/-- Witness for C29: the tag `Address` of the `networkSection` of `TestUnmarshal`. -/
theorem absent_annotation_defaults_witness :
    ',' ∉ "Address".toList ∧
    configForField "Addresses".toList [] = ⟨"Addresses".toList, false, false⟩ ∧
    configForField "Addresses".toList "Address".toList =
      ⟨if "Address".toList = [] then "Addresses".toList else "Address".toList, false, false⟩ :=
  ⟨by decide, absent_annotation_defaults "Addresses".toList "Address".toList (by decide)⟩

/-- C28, amended. The parsing of a non-empty annotation: the resolved name is the text
before the first comma, or the name of the field when that text is empty; the field has
`omitempty` if and only if the text from the first comma on contains `omitempty` somewhere,
and `wslist` if and only if that text contains `wslist` somewhere, also inside a longer
word. -/
theorem annotation_parsing (name tag : Str) (h : tag ≠ []) :
    (configForField name tag).Name =
      (if tag.takeWhile (fun c => c ≠ ',') = [] then name
        else tag.takeWhile (fun c => c ≠ ',')) ∧
    ((configForField name tag).Omitempty = true ↔
      ['o', 'm', 'i', 't', 'e', 'm', 'p', 't', 'y'] <:+: tag.dropWhile (fun c => c ≠ ',')) ∧
    ((configForField name tag).WSlist = true ↔
      ['w', 's', 'l', 'i', 's', 't'] <:+: tag.dropWhile (fun c => c ≠ ',')) := by
  by_cases hc : ',' ∈ tag
  · obtain ⟨h1, h2⟩ := take_length_takeWhile (fun c => c ≠ ',') tag
    simp only [configForField, ne_eq, h, not_false_eq_true, if_true, hc, not_true_eq_false,
      if_false, h1, h2, Contains, decide_eq_true_eq, ite_not, true_and, and_self]
  · obtain ⟨h1, h2⟩ := takeWhile_eq_self_of_not_mem tag hc
    simp only [configForField, ne_eq, h, not_false_eq_true, if_true, hc, h1, h2, if_false,
      Bool.false_eq_true, List.infix_nil, true_and]
    constructor <;> simp

/-- Witness for C28 (amended): the tag `MACAddress,wslist` of the `matchSection` of
`TestUnmarshal`. -/
theorem annotation_parsing_witness :
    "MACAddress,wslist".toList ≠ [] ∧
    (configForField "MACAddresses".toList "MACAddress,wslist".toList).Name =
      (if "MACAddress,wslist".toList.takeWhile (fun c => c ≠ ',') = [] then "MACAddresses".toList
        else "MACAddress,wslist".toList.takeWhile (fun c => c ≠ ',')) ∧
    ((configForField "MACAddresses".toList "MACAddress,wslist".toList).Omitempty = true ↔
      ['o', 'm', 'i', 't', 'e', 'm', 'p', 't', 'y'] <:+:
        "MACAddress,wslist".toList.dropWhile (fun c => c ≠ ',')) ∧
    ((configForField "MACAddresses".toList "MACAddress,wslist".toList).WSlist = true ↔
      ['w', 's', 'l', 'i', 's', 't'] <:+:
        "MACAddress,wslist".toList.dropWhile (fun c => c ≠ ',')) :=
  ⟨by decide, annotation_parsing "MACAddresses".toList "MACAddress,wslist".toList (by decide)⟩

/-- C28, counterexample. A longer word that merely contains `omitempty` or `wslist` sets
the modifier: the tag `x,notomitempty` gives `omitempty` and the tag `x,wslists` gives
`wslist`, though neither word is one of the keywords between the commas. -/
theorem annotation_substring_counterexample :
    (configForField "F".toList "x,notomitempty".toList).Omitempty = true ∧
    "omitempty".toList ∉ Split "x,notomitempty".toList ',' ∧
    (configForField "F".toList "x,wslists".toList).WSlist = true ∧
    "wslist".toList ∉ Split "x,wslists".toList ',' := by
  refine ⟨by decide, by decide, by decide, by decide⟩

/-! ## Theorems: unknown sections and keys on `Marshal` -/

theorem findSome_sectionList_first (pre post : FileRecord) (n t : Str) (l : List Section)
    (hpre : ∀ g ∈ pre, g.isSectionList = false) :
    (pre ++ ⟨n, t, .sectionList l⟩ :: post).findSome?
      (fun f => match f.Value with | .sectionList l => some l | _ => none) = some l := by
  induction pre with
  | nil => rfl
  | cons g pre ih =>
    have hg := hpre g (by simp)
    have hrest := ih (fun g' hg' => hpre g' (by simp [hg']))
    obtain ⟨gn, gt, gv⟩ := g
    cases gv <;> first | exact hrest | simp [SectionsField.isSectionList] at hg

/-- C21. Unknown sections go last on `Marshal`: for a struct that embeds the `SectionList`,
wherever it stands among the fields, the file `Marshal` builds holds the sections of the
other fields in the order of declaration, followed by the sections of the `SectionList`,
unchanged and in stored order; the bytes are the encoding of that file. -/
theorem unknown_sections_last (pre post : FileRecord) (n t : Str) (l : List Section)
    (hpre : ∀ g ∈ pre, g.isSectionList = false) :
    (marshalFile (pre ++ ⟨n, t, .sectionList l⟩ :: post)).Sections =
      (pre ++ post).flatMap marshalSectionsField ++ l ∧
    Marshal (.record (pre ++ ⟨n, t, .sectionList l⟩ :: post)) =
      .ok (Encode ⟨(pre ++ post).flatMap marshalSectionsField ++ l⟩) := by
  have h : (marshalFile (pre ++ ⟨n, t, .sectionList l⟩ :: post)).Sections =
      (pre ++ post).flatMap marshalSectionsField ++ l := by
    simp only [marshalFile, findSome_sectionList_first pre post n t l hpre, Option.getD_some,
      List.flatMap_append, List.flatMap_cons]
    have : marshalSectionsField ⟨n, t, .sectionList l⟩ = [] := rfl
    rw [this, List.nil_append]
  refine ⟨h, ?_⟩
  simp only [Marshal]
  rw [← h]

/-- Witness for C21: the embedded `SectionList` declared between two fields; the section
`Whatever` comes after the sections of both. -/
theorem unknown_sections_last_witness :
    (∀ g ∈ ([⟨"Network".toList, [], .struct [⟨"Addresses".toList, "Address".toList,
        .sliceString ["10.10.10.2/24".toList]⟩]⟩] : FileRecord), g.isSectionList = false) ∧
    (marshalFile (([⟨"Network".toList, [], .struct [⟨"Addresses".toList, "Address".toList,
          .sliceString ["10.10.10.2/24".toList]⟩]⟩] : FileRecord) ++
        ⟨"SectionList".toList, [], .sectionList [⟨"Whatever".toList, [], []⟩]⟩ ::
        [⟨"Routes".toList, "Route".toList, .slice [⟨"Gateway".toList, [], .string []⟩]
          [[⟨"Gateway".toList, [], .string "10.10.10.1".toList⟩]]⟩])).Sections =
      [⟨"Network".toList, [], [⟨"Address".toList, "10.10.10.2/24".toList, []⟩]⟩,
        ⟨"Route".toList, [], [⟨"Gateway".toList, "10.10.10.1".toList, []⟩]⟩,
        ⟨"Whatever".toList, [], []⟩] ∧
    Marshal (.record (([⟨"Network".toList, [], .struct [⟨"Addresses".toList, "Address".toList,
          .sliceString ["10.10.10.2/24".toList]⟩]⟩] : FileRecord) ++
        ⟨"SectionList".toList, [], .sectionList [⟨"Whatever".toList, [], []⟩]⟩ ::
        [⟨"Routes".toList, "Route".toList, .slice [⟨"Gateway".toList, [], .string []⟩]
          [[⟨"Gateway".toList, [], .string "10.10.10.1".toList⟩]]⟩])) =
      .ok "[Network]\nAddress=10.10.10.2/24\n\n[Route]\nGateway=10.10.10.1\n\n[Whatever]\n".toList := by
  have hpre : ∀ g ∈ ([⟨"Network".toList, [], .struct [⟨"Addresses".toList, "Address".toList,
      .sliceString ["10.10.10.2/24".toList]⟩]⟩] : FileRecord), g.isSectionList = false := by
    intro g hg
    simp only [List.mem_singleton] at hg
    subst hg
    rfl
  have h := unknown_sections_last
    [⟨"Network".toList, [], .struct [⟨"Addresses".toList, "Address".toList,
      .sliceString ["10.10.10.2/24".toList]⟩]⟩]
    [⟨"Routes".toList, "Route".toList, .slice [⟨"Gateway".toList, [], .string []⟩]
      [[⟨"Gateway".toList, [], .string "10.10.10.1".toList⟩]]⟩]
    "SectionList".toList [] [⟨"Whatever".toList, [], []⟩] hpre
  refine ⟨hpre, ?_, ?_⟩
  · rw [h.1]
    decide
  · rw [h.2]
    decide

theorem findSome_keyList_first (pre post : SectionRecord) (n t : Str) (l : List Key)
    (hpre : ∀ g ∈ pre, ∀ l0, g.Value ≠ .keyList l0) :
    (pre ++ ⟨n, t, .keyList l⟩ :: post).findSome?
      (fun f => match f.Value with | .keyList l => some l | _ => none) = some l := by
  induction pre with
  | nil => rfl
  | cons g pre ih =>
    have hg := hpre g (by simp)
    have hrest := ih (fun g' hg' => hpre g' (by simp [hg']))
    obtain ⟨gn, gt, gv⟩ := g
    cases gv <;> first | exact hrest | exact absurd rfl (hg _)

/-- C22. Unknown keys go last within a section on `Marshal`: for a struct that embeds the
`KeyList`, wherever it stands among the fields, the section `marshalSection` fills holds
the keys it held before, then the keys of the other fields in the order of declaration,
then the keys of the `KeyList`, unchanged and in stored order. -/
theorem unknown_keys_last (sect : Section) (pre post : SectionRecord) (n t : Str)
    (l : List Key) (hpre : ∀ g ∈ pre, ∀ l0, g.Value ≠ .keyList l0) :
    (marshalSection sect (pre ++ ⟨n, t, .keyList l⟩ :: post)).Keys =
      sect.Keys ++
        (pre ++ post).flatMap (fun f => (marshalField (pre ++ ⟨n, t, .keyList l⟩ :: post)
          ⟨[], [], []⟩ f).Keys) ++ l := by
  rw [marshalSection_eq]
  simp only [findSome_keyList_first pre post n t l hpre, Option.getD_some,
    List.flatMap_append, List.flatMap_cons]
  have : fieldKeys (pre ++ ⟨n, t, .keyList l⟩ :: post) ⟨n, t, .keyList l⟩ = [] := rfl
  rw [this, List.nil_append]
  rfl

/-- Witness for C22: the second `routeSection` of `TestMarshal`; the key `UndefinedKey`
comes after the keys of the fields. -/
theorem unknown_keys_last_witness :
    (∀ g ∈ ([] : SectionRecord), ∀ l0, g.Value ≠ .keyList l0) ∧
    (marshalSection ⟨"Route".toList, [], []⟩ (([] : SectionRecord) ++
        ⟨"KeyList".toList, [], .keyList [⟨"UndefinedKey".toList, "something".toList, []⟩]⟩ ::
        [⟨"Gateway".toList, [], .string "10.10.10.1/24".toList⟩,
          ⟨"Destination".toList, ",omitempty".toList, .string []⟩,
          ⟨"Source".toList, ",omitempty".toList, .ptrString (some "something".toList)⟩,
          ⟨"Enable".toList, ",omitempty".toList, .ptrBool none⟩,
          ⟨"Disable".toList, [], .ptrBool none⟩])).Keys =
      [⟨"Gateway".toList, "10.10.10.1/24".toList, []⟩,
        ⟨"Source".toList, "something".toList, []⟩,
        ⟨"Disable".toList, [], []⟩,
        ⟨"UndefinedKey".toList, "something".toList, []⟩] := by
  have h := unknown_keys_last ⟨"Route".toList, [], []⟩ []
    [⟨"Gateway".toList, [], .string "10.10.10.1/24".toList⟩,
      ⟨"Destination".toList, ",omitempty".toList, .string []⟩,
      ⟨"Source".toList, ",omitempty".toList, .ptrString (some "something".toList)⟩,
      ⟨"Enable".toList, ",omitempty".toList, .ptrBool none⟩,
      ⟨"Disable".toList, [], .ptrBool none⟩]
    "KeyList".toList [] [⟨"UndefinedKey".toList, "something".toList, []⟩] (by simp)
  refine ⟨by simp, ?_⟩
  rw [h]
  decide

/-! ## Theorems: the keys `marshalSection` writes for a field -/

/-- C23, amended. An optional boolean on `Marshal`: for a `*bool` field with the resolved
name `N` whose field name is neither `KeyComments` nor `KeyList`, the iteration of the field loop of
`marshalSection` appends the key `N=yes` when the field is set to true and `N=no` when it
is set to false, appends nothing when the field is unset with `omitempty`, and appends the
key `N` with an empty value when it is unset without `omitempty`; that key is written as
the line `N=`. -/
theorem optional_bool_marshal (rv : SectionRecord) (sect : Section) (name tag : Str)
    (hn : name ≠ ['K', 'e', 'y', 'C', 'o', 'm', 'm', 'e', 'n', 't', 's'] ∧
      name ≠ ['K', 'e', 'y', 'L', 'i', 's', 't']) :
    marshalField rv sect ⟨name, tag, .ptrBool (some true)⟩ =
      { sect with Keys := sect.Keys ++ [⟨(configForField name tag).Name, ['y', 'e', 's'],
        keyComment rv (configForField name tag).Name⟩] } ∧
    marshalField rv sect ⟨name, tag, .ptrBool (some false)⟩ =
      { sect with Keys := sect.Keys ++ [⟨(configForField name tag).Name, ['n', 'o'],
        keyComment rv (configForField name tag).Name⟩] } ∧
    marshalField rv sect ⟨name, tag, .ptrBool none⟩ =
      (if (configForField name tag).Omitempty = true then sect
        else { sect with Keys := sect.Keys ++ [⟨(configForField name tag).Name, [],
          keyComment rv (configForField name tag).Name⟩] }) ∧
    writeKey ⟨(configForField name tag).Name, [], []⟩ =
      (configForField name tag).Name ++ ['=', '\n'] := by
  obtain ⟨h1, h2⟩ := hn
  refine ⟨?_, ?_, ?_, ?_⟩
  · simp [marshalField, h1, h2, KeyField.config, BoolToStr]
  · simp [marshalField, h1, h2, KeyField.config, BoolToStr]
  · by_cases ho : (configForField name tag).Omitempty = true
    · simp [marshalField, h1, h2, KeyField.config, ho]
    · simp [marshalField, h1, h2, KeyField.config, ho]
  · simp [writeKey, writeComment]

/-- Witness for C23 (amended): the fields `Enable` and `Disable` of the first
`routeSection` of `TestMarshal`. -/
theorem optional_bool_marshal_witness :
    ("Enable".toList ≠ ['K', 'e', 'y', 'C', 'o', 'm', 'm', 'e', 'n', 't', 's'] ∧
      "Enable".toList ≠ ['K', 'e', 'y', 'L', 'i', 's', 't']) ∧
    marshalField [] ⟨"Route".toList, [], []⟩
        ⟨"Enable".toList, ",omitempty".toList, .ptrBool (some true)⟩ =
      ⟨"Route".toList, [], [⟨"Enable".toList, "yes".toList, []⟩]⟩ ∧
    marshalField [] ⟨"Route".toList, [], []⟩
        ⟨"Enable".toList, ",omitempty".toList, .ptrBool none⟩ = ⟨"Route".toList, [], []⟩ ∧
    marshalField [] ⟨"Route".toList, [], []⟩ ⟨"Disable".toList, [], .ptrBool none⟩ =
      ⟨"Route".toList, [], [⟨"Disable".toList, [], []⟩]⟩ := by
  have h1 := optional_bool_marshal [] ⟨"Route".toList, [], []⟩ "Enable".toList
    ",omitempty".toList (by decide)
  have h2 := optional_bool_marshal [] ⟨"Route".toList, [], []⟩ "Disable".toList [] (by decide)
  refine ⟨by decide, ?_, ?_, ?_⟩
  · rw [h1.1]
    decide
  · rw [h1.2.2.1]
    decide
  · rw [h2.2.2.1]
    decide

/-- C23, counterexample. A `*bool` field that is declared under the name `KeyComments`,
with the resolved name `Enable`, and is set to true yields no key: `marshalSection` skips
every field of that name, whatever its kind. -/
theorem optional_bool_marshal_counterexample :
    (configForField "KeyComments".toList "Enable".toList).Name = "Enable".toList ∧
    marshalField [] ⟨"Route".toList, [], []⟩
        ⟨"KeyComments".toList, "Enable".toList, .ptrBool (some true)⟩ =
      ⟨"Route".toList, [], []⟩ ∧
    marshalSection ⟨"Route".toList, [], []⟩
        [⟨"KeyComments".toList, "Enable".toList, .ptrBool (some true)⟩] =
      ⟨"Route".toList, [], []⟩ ∧
    marshalSection ⟨"Route".toList, [], []⟩
        [⟨"KeyList".toList, "Enable".toList, .ptrBool (some false)⟩] =
      ⟨"Route".toList, [], []⟩ := by
  refine ⟨by decide, by decide, by decide, by decide⟩

theorem Join_eq_nil (l : List Str) : Join l ' ' = [] ↔ l = [] ∨ l = [[]] := by
  constructor
  · intro h
    match l, h with
    | [], _ => exact Or.inl rfl
    | [s], h =>
      simp only [Join] at h
      exact Or.inr (by rw [h])
    | s :: t :: rest, h =>
      rw [Join_cons _ _ _ (by simp)] at h
      simp at h
  · intro h
    rcases h with rfl | rfl <;> rfl

/-- C24, amended. A list of strings with the `wslist` policy on `Marshal`: for a field that
does not bear the name of a container, the iteration of the field loop of `marshalSection`
appends exactly one key, whose value is the elements joined with single blanks, when that
joined text is not empty, and appends nothing when it is empty, which is the case for the
empty list and for the list that holds one empty string. -/
theorem wslist_marshal (rv : SectionRecord) (sect : Section) (name tag : Str) (l : List Str)
    (hn : name ≠ ['K', 'e', 'y', 'C', 'o', 'm', 'm', 'e', 'n', 't', 's'] ∧
      name ≠ ['K', 'e', 'y', 'L', 'i', 's', 't'])
    (hw : (configForField name tag).WSlist = true) :
    marshalField rv sect ⟨name, tag, .sliceString l⟩ =
      (if Join l ' ' = [] then sect
        else { sect with Keys := sect.Keys ++ [⟨(configForField name tag).Name, Join l ' ',
          keyComment rv (configForField name tag).Name⟩] }) ∧
    (Join l ' ' = [] ↔ l = [] ∨ l = [[]]) := by
  obtain ⟨h1, h2⟩ := hn
  refine ⟨?_, Join_eq_nil l⟩
  simp only [marshalField, h1, h2, or_self, if_false, KeyField.config, hw, if_true]

/-- Witness for C24 (amended): the field `MACAddresses` of `TestMarshal`. -/
theorem wslist_marshal_witness :
    ("MACAddresses".toList ≠ ['K', 'e', 'y', 'C', 'o', 'm', 'm', 'e', 'n', 't', 's'] ∧
      "MACAddresses".toList ≠ ['K', 'e', 'y', 'L', 'i', 's', 't']) ∧
    (configForField "MACAddresses".toList "MACAddress,wslist".toList).WSlist = true ∧
    marshalField [] ⟨"Match".toList, [], []⟩ ⟨"MACAddresses".toList, "MACAddress,wslist".toList,
        .sliceString ["01:23".toList, "00-11".toList, "AABB".toList]⟩ =
      ⟨"Match".toList, [], [⟨"MACAddress".toList, "01:23 00-11 AABB".toList, []⟩]⟩ := by
  have h := wslist_marshal [] ⟨"Match".toList, [], []⟩ "MACAddresses".toList
    "MACAddress,wslist".toList ["01:23".toList, "00-11".toList, "AABB".toList]
    (by decide) (by decide)
  refine ⟨by decide, by decide, ?_⟩
  rw [h.1]
  decide

/-- C24, counterexample. A list that is not empty, holding one empty string, gives no
key. -/
theorem wslist_marshal_counterexample :
    ([[]] : List Str) ≠ [] ∧
    marshalField [] ⟨"Match".toList, [], []⟩ ⟨"MACAddresses".toList, "MACAddress,wslist".toList,
        .sliceString [[]]⟩ = ⟨"Match".toList, [], []⟩ := by
  refine ⟨by decide, by decide⟩

theorem repeatKeys_pairs (name kc : Str) : ∀ (l : List Str) (i : Nat),
    (repeatKeys name kc i l).map (fun k => (k.Name, k.Value)) =
      (l.filter (fun e => e ≠ [])).map (fun e => (name, e)) := by
  intro l
  induction l with
  | nil => intro i; rfl
  | cons e rest ih =>
    intro i
    by_cases he : e = []
    · simp [repeatKeys, he, ih]
    · simp [repeatKeys, he, ih, List.filter_cons]

/-- C25, amended. A list of strings with the repeat policy on `Marshal`: for a field that
does not bear the name of a container, the iteration of the field loop of `marshalSection`
appends exactly one key for every element that is not the empty string, in the order of the
list, each with the resolved name of the field and the element as its value; the number of
keys is the number of non-empty elements, and the empty list gives none. -/
theorem repeat_marshal (rv : SectionRecord) (sect : Section) (name tag : Str) (l : List Str)
    (hn : name ≠ ['K', 'e', 'y', 'C', 'o', 'm', 'm', 'e', 'n', 't', 's'] ∧
      name ≠ ['K', 'e', 'y', 'L', 'i', 's', 't'])
    (hw : (configForField name tag).WSlist = false) :
    ∃ keys, marshalField rv sect ⟨name, tag, .sliceString l⟩ =
        { sect with Keys := sect.Keys ++ keys } ∧
      keys.map (fun k => (k.Name, k.Value)) =
        (l.filter (fun e => e ≠ [])).map (fun e => ((configForField name tag).Name, e)) ∧
      keys.length = (l.filter (fun e => e ≠ [])).length ∧
      (l = [] → keys = []) := by
  obtain ⟨h1, h2⟩ := hn
  refine ⟨repeatKeys (configForField name tag).Name
    (keyComment rv (configForField name tag).Name) 0 l, ?_, repeatKeys_pairs _ _ l 0, ?_, ?_⟩
  · simp only [marshalField, h1, h2, or_self, if_false, KeyField.config, hw,
      Bool.false_eq_true]
  · have := congrArg List.length (repeatKeys_pairs (configForField name tag).Name
      (keyComment rv (configForField name tag).Name) l 0)
    simpa using this
  · intro hl
    subst hl
    rfl

/-- Witness for C25 (amended): the field `Addresses` of `TestMarshal`. -/
theorem repeat_marshal_witness :
    ("Addresses".toList ≠ ['K', 'e', 'y', 'C', 'o', 'm', 'm', 'e', 'n', 't', 's'] ∧
      "Addresses".toList ≠ ['K', 'e', 'y', 'L', 'i', 's', 't']) ∧
    (configForField "Addresses".toList "Address".toList).WSlist = false ∧
    ∃ keys, marshalField [] ⟨"Network".toList, [], []⟩ ⟨"Addresses".toList, "Address".toList,
        .sliceString ["10.10.10.2/24".toList, "10.10.10.3/24".toList]⟩ =
        { (⟨"Network".toList, [], []⟩ : Section) with
          Keys := (Section.mk "Network".toList [] []).Keys ++ keys } ∧
      keys.map (fun k => (k.Name, k.Value)) =
        (["10.10.10.2/24".toList, "10.10.10.3/24".toList].filter (fun e => e ≠ [])).map
          (fun e => ((configForField "Addresses".toList "Address".toList).Name, e)) ∧
      keys.length =
        (["10.10.10.2/24".toList, "10.10.10.3/24".toList].filter (fun e => e ≠ [])).length ∧
      (["10.10.10.2/24".toList, "10.10.10.3/24".toList] = [] → keys = []) :=
  ⟨by decide, by decide, repeat_marshal [] ⟨"Network".toList, [], []⟩ "Addresses".toList
    "Address".toList ["10.10.10.2/24".toList, "10.10.10.3/24".toList] (by decide) (by decide)⟩

/-- C25, counterexample. A list of three elements of which one is the empty string gives
two keys. -/
theorem repeat_marshal_counterexample :
    marshalField [] ⟨"Network".toList, [], []⟩ ⟨"Addresses".toList, "Address".toList,
        .sliceString ["a".toList, [], "b".toList]⟩ =
      ⟨"Network".toList, [], [⟨"Address".toList, "a".toList, []⟩,
        ⟨"Address".toList, "b".toList, []⟩]⟩ ∧
    (["a".toList, [], "b".toList] : List Str).length = 3 ∧
    ([⟨"Address".toList, "a".toList, []⟩, ⟨"Address".toList, "b".toList, []⟩] :
      List Key).length = 2 := by
  refine ⟨by decide, by decide, by decide⟩

/-! ## Theorems: the comment of a repeated key on `Marshal` -/

/-- The keys written for the elements behind the first one carry no comment. -/
theorem repeatKeys_later_comment (name kc : Str) : ∀ (l : List Str) (i : Nat), 0 < i →
    ∀ k ∈ repeatKeys name kc i l, k.Comment = [] := by
  intro l
  induction l with
  | nil => intro i _ k hk; simp [repeatKeys] at hk
  | cons e rest ih =>
    intro i hi k hk
    simp only [repeatKeys, List.mem_append] at hk
    rcases hk with hk | hk
    · by_cases he : e = []
      · simp [he] at hk
      · have hne : i ≠ 0 := Nat.pos_iff_ne_zero.mp hi
        simp only [he, if_false, hne, List.mem_singleton] at hk
        rw [hk]
    · exact ih (i + 1) (Nat.succ_pos i) k hk

/-- When the first element of the list is not the empty string, the first key written
carries the comment of the field and the later ones carry none. -/
theorem repeatKeys_first_comment (name kc e : Str) (rest : List Str) (he : e ≠ []) :
    ∃ later, repeatKeys name kc 0 (e :: rest) = ⟨name, e, kc⟩ :: later ∧
      ∀ k ∈ later, k.Comment = [] := by
  refine ⟨repeatKeys name kc 1 rest, ?_, repeatKeys_later_comment name kc rest 1 Nat.one_pos⟩
  simp [repeatKeys, he]

/-- C26, at the failing input. A list with the repeat policy whose first element is the
empty string: the key written for the second element is the first key of the field, and it
carries no comment, though `GetKeyComment` reports the comment `c` for the field. -/
theorem repeat_first_key_comment_lost :
    marshalField
        [⟨"KeyComments".toList, [],
            .keyComments (fun x => if x = "Address".toList then some "c".toList else none)⟩,
          ⟨"Addresses".toList, "Address".toList, .sliceString [[], "a".toList]⟩]
        ⟨"Network".toList, [], []⟩
        ⟨"Addresses".toList, "Address".toList, .sliceString [[], "a".toList]⟩ =
      ⟨"Network".toList, [], [⟨"Address".toList, "a".toList, []⟩]⟩ ∧
    keyComment
        [⟨"KeyComments".toList, [],
            .keyComments (fun x => if x = "Address".toList then some "c".toList else none)⟩,
          ⟨"Addresses".toList, "Address".toList, .sliceString [[], "a".toList]⟩]
        "Address".toList = "c".toList := by
  refine ⟨by decide, by decide⟩

/-! ## Theorems: the target of `Marshal` and `Unmarshal` -/

/-- On a target that is a pointer to a struct neither `Marshal` nor `unmarshalSections`
reports an invalid target; on a value that is no pointer and on a nil pointer `Marshal`
reports it, and `Unmarshal` reports it on every input that decodes. -/
theorem invalid_target_pointers (data : Str) (file : File) (hd : Decode data = some (.ok file))
    (rv : FileRecord) :
    Marshal .nonPointer = .fail .invalidTarget ∧ Marshal .nilPointer = .fail .invalidTarget ∧
    Marshal (.record rv) ≠ .fail .invalidTarget ∧
    Unmarshal data .nonPointer = some (.fail .invalidTarget) ∧
    Unmarshal data .nilPointer = some (.fail .invalidTarget) ∧
    Unmarshal data .nilInterface = some (.fail .invalidTarget) := by
  refine ⟨rfl, rfl, ?_, ?_, ?_, ?_⟩
  · simp [Marshal]
  · simp [Unmarshal, hd]
  · simp [Unmarshal, hd]
  · simp [Unmarshal, hd]

/-- C30, at the failing input. `Marshal` on the nil interface does not return the
invalid-target error: building the error calls `rv.Type()` on the zero `reflect.Value`,
which panics; `Unmarshal` on the same target returns the error. -/
theorem marshal_nil_interface :
    Marshal .nilInterface = .fail .panic ∧
    Marshal .nilInterface ≠ .fail .invalidTarget ∧
    Unmarshal [] .nilInterface = some (.fail .invalidTarget) := by
  refine ⟨rfl, by decide, rfl⟩

/-! ## Theorems: the transitions of the decoder, token by token -/

theorem keyAt_modifyKey_ne (file : File) (p q : Nat × Nat) (f : Key → Key) (h : q ≠ p) :
    (file.modifyKey p f).keyAt q = file.keyAt q := by
  simp only [File.keyAt, File.modifyKey, List.get?_eq_getElem?, List.getElem?_modify]
  cases hs : file.Sections[q.1]? with
  | none => rfl
  | some s =>
    by_cases h1 : p.1 = q.1
    · have h2 : p.2 ≠ q.2 := fun hc => h (Prod.ext h1.symm hc.symm)
      simp [h1, List.getElem?_modify, h2]
    · simp [h1]

theorem modifyKey_sections (file : File) (p : Nat × Nat) (f : Key → Key)
    (hf : ∀ k, (f k).Name = k.Name) :
    (file.modifyKey p f).Sections.map (fun s => (s.Name, s.Comment, s.Keys.map (fun k => k.Name))) =
      file.Sections.map (fun s => (s.Name, s.Comment, s.Keys.map (fun k => k.Name))) := by
  simp only [File.modifyKey]
  apply map_modify_inv
  intro s
  simp only [Prod.mk.injEq, true_and]
  exact map_modify_inv (fun k => k.Name) f hf p.2 s.Keys

theorem replaceAll_eq_map (v : Str) (old new : Char) :
    ReplaceAll v old [new] = v.map (fun c => if c = old then new else c) := by
  induction v with
  | nil => rfl
  | cons c cs ih =>
    have hc : ReplaceAll (c :: cs) old [new] =
        (if c = old then [new] else [c]) ++ ReplaceAll cs old [new] := by
      simp [ReplaceAll, List.flatMap_cons]
    rw [hc, ih, List.map_cons]
    by_cases h : c = old
    · simp [h]
    · simp [h]

theorem WF_keyAt {d : decodeState} (h : d.WF) {p : Nat × Nat} (hk : d.key = some p) :
    ∃ k, d.file.keyAt p = some k := by
  have h2 := h.2 p (by simp [hk])
  simp only [File.keyAt, List.get?_eq_getElem?] at h2 ⊢
  cases hs : d.file.Sections[p.1]? with
  | none => simp [hs] at h2
  | some s =>
    simp only [hs, Option.map_some', Option.some.injEq] at h2
    simp only [Option.some_bind]
    have : p.2 < s.Keys.length := by omega
    exact ⟨s.Keys[p.2], by simp [List.getElem?_eq_getElem this]⟩

/-- C32. The transition on a `NEWLINE` token.  With no key active the step leaves the
whole state unchanged; with an active key whose accumulated value does not end with a
backslash the step closes the key (the state after it is `closeKey` of the state before,
which has no active key); with an active key whose accumulated value ends with a
backslash the step leaves the whole state unchanged.  In every state the decoder
reaches an active key pointer points at a key, so the three cases are all cases. -/
theorem newline_transition (d : decodeState) (nl : Scanned) (rest : List Scanned)
    (hn : nl.tok = Token.NEWLINE) :
    (d.key = none → decodeStep d (nl :: rest) = .next d rest) ∧
    (∀ p k, d.key = some p → d.file.keyAt p = some k →
      (HasSuffix k.Value ['\\'] = false →
        decodeStep d (nl :: rest) = .next d.closeKey rest ∧ d.closeKey.key = none) ∧
      (HasSuffix k.Value ['\\'] = true → decodeStep d (nl :: rest) = .next d rest)) ∧
    (d.WF → ∀ p, d.key = some p → ∃ k, d.file.keyAt p = some k) := by
  refine ⟨?_, ?_, ?_⟩
  · intro hk
    rw [decodeStep_newline hn, hk]
  · intro p k hk hat
    refine ⟨?_, ?_⟩
    · intro hs
      rw [decodeStep_newline hn, hk]
      simp only [hat, Option.map_some', Option.getD_some, hs, Bool.not_false, if_true]
      refine ⟨trivial, ?_⟩
      simp [decodeState.closeKey, hk]
    · intro hs
      rw [decodeStep_newline hn, hk]
      simp [hat, hs]
  · intro hwf p hk
    exact WF_keyAt hwf hk

theorem newline_transition_witness :
    (⟨⟨3, 9⟩, .NEWLINE, "\n".toList⟩ : Scanned).tok = Token.NEWLINE ∧
    decodeStep ⟨"c".toList, some 0, some (0, 0), ⟨[⟨"S".toList, [], [⟨"k".toList, "a \\".toList, []⟩]⟩]⟩⟩
        [⟨⟨3, 9⟩, .NEWLINE, "\n".toList⟩]
      = .next ⟨"c".toList, some 0, some (0, 0), ⟨[⟨"S".toList, [], [⟨"k".toList, "a \\".toList, []⟩]⟩]⟩⟩ [] ∧
    decodeStep ⟨"c".toList, some 0, some (0, 0), ⟨[⟨"S".toList, [], [⟨"k".toList, "a".toList, []⟩]⟩]⟩⟩
        [⟨⟨3, 9⟩, .NEWLINE, "\n".toList⟩]
      = .next ⟨[], some 0, none, ⟨[⟨"S".toList, [], [⟨"k".toList, "a".toList, "c".toList⟩]⟩]⟩⟩ [] := by
  have h1 := (newline_transition
    ⟨"c".toList, some 0, some (0, 0), ⟨[⟨"S".toList, [], [⟨"k".toList, "a \\".toList, []⟩]⟩]⟩⟩
    ⟨⟨3, 9⟩, .NEWLINE, "\n".toList⟩ [] rfl).2.1 (0, 0) ⟨"k".toList, "a \\".toList, []⟩ rfl rfl
  have h2 := (newline_transition
    ⟨"c".toList, some 0, some (0, 0), ⟨[⟨"S".toList, [], [⟨"k".toList, "a".toList, []⟩]⟩]⟩⟩
    ⟨⟨3, 9⟩, .NEWLINE, "\n".toList⟩ [] rfl).2.1 (0, 0) ⟨"k".toList, "a".toList, []⟩ rfl rfl
  exact ⟨rfl, h1.2 (by decide), (h2.1 (by decide)).1⟩

/-- C33. The method `closeKey`.  With no key active it changes nothing.  With an active
key it sets that key's comment to the pending comment and replaces every backslash of
its accumulated value by one space (character by character, so the length is kept),
keeps its name, keeps every other key, the number of sections and every section's name,
comment and key names, keeps the active section, and leaves no active key and an empty
pending comment. -/
theorem close_key_effect (d : decodeState) :
    (d.key = none → d.closeKey = d) ∧
    (∀ p k, d.key = some p → d.file.keyAt p = some k →
      d.closeKey.file.keyAt p =
        some ⟨k.Name, k.Value.map (fun c => if c = '\\' then ' ' else c), d.comment⟩ ∧
      (∀ q, q ≠ p → d.closeKey.file.keyAt q = d.file.keyAt q) ∧
      d.closeKey.file.Sections.map (fun s => (s.Name, s.Comment, s.Keys.map (fun k => k.Name))) =
        d.file.Sections.map (fun s => (s.Name, s.Comment, s.Keys.map (fun k => k.Name))) ∧
      d.closeKey.sect = d.sect ∧ d.closeKey.key = none ∧ d.closeKey.comment = []) := by
  refine ⟨?_, ?_⟩
  · intro hk
    simp [decodeState.closeKey, hk]
  · intro p k hk hat
    refine ⟨?_, ?_, ?_, ?_, ?_, ?_⟩
    · rw [closeKey_keyAt hk hat, replaceAll_eq_map]
    · intro q hq
      simp only [decodeState.closeKey, hk]
      exact keyAt_modifyKey_ne _ _ _ _ hq
    · simp only [decodeState.closeKey, hk]
      exact modifyKey_sections _ _ _ (fun _ => rfl)
    · simp [decodeState.closeKey, hk]
    · simp [decodeState.closeKey, hk]
    · simp [decodeState.closeKey, hk]

theorem close_key_effect_witness :
    (⟨"start desc\nin the middle".toList, some 0, some (0, 0),
        ⟨[⟨"Network".toList, "network comment".toList,
          [⟨"Description".toList, "test1 \\test2 \\test3".toList, []⟩]⟩]⟩⟩ : decodeState).closeKey
      = ⟨[], some 0, none, ⟨[⟨"Network".toList, "network comment".toList,
          [⟨"Description".toList, "test1  test2  test3".toList,
            "start desc\nin the middle".toList⟩]⟩]⟩⟩ ∧
    (decodeState.closeKey ⟨"start desc\nin the middle".toList, some 0, some (0, 0),
        ⟨[⟨"Network".toList, "network comment".toList,
          [⟨"Description".toList, "test1 \\test2 \\test3".toList, []⟩]⟩]⟩⟩).file.keyAt (0, 0)
      = some ⟨"Description".toList,
          "test1 \\test2 \\test3".toList.map (fun c => if c = '\\' then ' ' else c),
          "start desc\nin the middle".toList⟩ :=
  ⟨by decide,
   ((close_key_effect ⟨"start desc\nin the middle".toList, some 0, some (0, 0),
        ⟨[⟨"Network".toList, "network comment".toList,
          [⟨"Description".toList, "test1 \\test2 \\test3".toList, []⟩]⟩]⟩⟩).2 (0, 0)
      ⟨"Description".toList, "test1 \\test2 \\test3".toList, []⟩ rfl rfl).1⟩

/-- C34. The transition on a `COMMENT` token with a non-empty literal.  The step changes
only the pending comment: the new one is the old one, then a line feed when the old one
is not empty, then the literal without its first character, trimmed; the active section,
the active key and the file are untouched.  Hence, with a key active (a comment line
inside a continuation), closing the key afterwards gives that key the pending comment
that ends with the text of this comment line. -/
theorem comment_transition (d : decodeState) (c : Scanned) (rest : List Scanned)
    (hc : c.tok = Token.COMMENT) (hl : c.lit ≠ []) :
    ∃ d1, decodeStep d (c :: rest) = .next d1 rest ∧
      d1.comment =
        (if d.comment = [] then [] else d.comment ++ ['\n']) ++ TrimSpace (c.lit.drop 1) ∧
      d1.sect = d.sect ∧ d1.key = d.key ∧ d1.file = d.file ∧
      (∀ p k, d.key = some p → d.file.keyAt p = some k →
        d1.closeKey.file.keyAt p =
          some ⟨k.Name, ReplaceAll k.Value '\\' [' '],
            (if d.comment = [] then [] else d.comment ++ ['\n']) ++ TrimSpace (c.lit.drop 1)⟩) := by
  have hcm : (if d.comment ≠ [] then d.comment ++ ['\n'] else d.comment) =
      (if d.comment = [] then [] else d.comment ++ ['\n']) := by
    by_cases h : d.comment = []
    · rw [if_neg (not_not.mpr h), if_pos h, h]
    · rw [if_pos h, if_neg h]
  refine ⟨{ d with comment :=
      (if d.comment ≠ [] then d.comment ++ ['\n'] else d.comment) ++ TrimSpace (c.lit.drop 1) },
    ?_, ?_, rfl, rfl, rfl, ?_⟩
  · rw [decodeStep_comment hc, addComment_some d hl]
  · exact congrArg (fun x => x ++ TrimSpace (c.lit.drop 1)) hcm
  · intro p k hk hat
    have h := closeKey_keyAt
      (d := { d with comment :=
        (if d.comment ≠ [] then d.comment ++ ['\n'] else d.comment) ++ TrimSpace (c.lit.drop 1) })
      hk hat
    rw [h, hcm]

theorem comment_transition_witness :
    (⟨⟨5, 2⟩, .COMMENT, "# in the middle".toList⟩ : Scanned).tok = Token.COMMENT ∧
    "# in the middle".toList ≠ [] ∧
    ∃ d1, decodeStep ⟨"start desc".toList, some 0, some (0, 0),
          ⟨[⟨"Network".toList, "network comment".toList,
            [⟨"Description".toList, "test1 \\".toList, []⟩]⟩]⟩⟩
        (⟨⟨5, 2⟩, .COMMENT, "# in the middle".toList⟩ :: []) = .next d1 [] ∧
      d1.comment =
        (if "start desc".toList = [] then [] else "start desc".toList ++ ['\n']) ++
          TrimSpace ("# in the middle".toList.drop 1) ∧
      d1.sect = some 0 ∧ d1.key = some (0, 0) ∧
      d1.file = ⟨[⟨"Network".toList, "network comment".toList,
            [⟨"Description".toList, "test1 \\".toList, []⟩]⟩]⟩ ∧
      (∀ p k, (some (0, 0) : Option (Nat × Nat)) = some p →
        File.keyAt ⟨[⟨"Network".toList, "network comment".toList,
            [⟨"Description".toList, "test1 \\".toList, []⟩]⟩]⟩ p = some k →
        d1.closeKey.file.keyAt p =
          some ⟨k.Name, ReplaceAll k.Value '\\' [' '],
            (if "start desc".toList = [] then [] else "start desc".toList ++ ['\n']) ++
              TrimSpace ("# in the middle".toList.drop 1)⟩) :=
  ⟨rfl, by decide,
   comment_transition ⟨"start desc".toList, some 0, some (0, 0),
          ⟨[⟨"Network".toList, "network comment".toList,
            [⟨"Description".toList, "test1 \\".toList, []⟩]⟩]⟩⟩
     ⟨⟨5, 2⟩, .COMMENT, "# in the middle".toList⟩ [] rfl (by decide)⟩

/-- C35. The transition on a `SECTION` token whose literal starts with `[` and ends with
`]`.  The step succeeds; the file gains exactly one section at its end, whose name is the
literal without its first and its last character, whose comment is the pending comment
and which has no keys; the sections before it are unchanged; the new section is the
active section; the pending comment is empty.  The active key pointer is not touched. -/
theorem section_transition (d : decodeState) (s : Scanned) (rest : List Scanned)
    (hs : s.tok = Token.SECTION) (hp : HasPrefix s.lit ['['] = true)
    (hx : HasSuffix s.lit [']'] = true) :
    ∃ d1 name, decodeStep d (s :: rest) = .next d1 rest ∧
      s.lit = '[' :: (name ++ [']']) ∧
      d1.file.Sections = d.file.Sections ++ [⟨name, d.comment, []⟩] ∧
      d1.sect = some d.file.Sections.length ∧
      d1.file.Sections.get? d.file.Sections.length = some ⟨name, d.comment, []⟩ ∧
      d1.comment = [] ∧ d1.key = d.key := by
  have hlen := bracket_length hp hx
  have hlit : s.lit = '[' :: ((s.lit.take (s.lit.length - 1)).drop 1 ++ [']']) := by
    obtain ⟨s1, hs1⟩ := (hasSuffix_singleton s.lit ']').1 hx
    rw [hs1] at hp hlen ⊢
    cases s1 with
    | nil => simp at hlen
    | cons a as =>
      simp only [HasPrefix, List.cons_append, List.isPrefixOf, Bool.and_true, beq_iff_eq] at hp
      simp [← hp]
  refine ⟨{ d with
      file := ⟨d.file.Sections ++ [⟨(s.lit.take (s.lit.length - 1)).drop 1, d.comment, []⟩]⟩
      sect := some d.file.Sections.length
      comment := [] },
    (s.lit.take (s.lit.length - 1)).drop 1, ?_, hlit, rfl, rfl, ?_, rfl, rfl⟩
  · rw [decodeStep_section hs, addSection_ok d s.pos hp hx]
  · simp [List.get?_eq_getElem?]

theorem section_transition_witness :
    (⟨⟨9, 1⟩, .SECTION, "[Route]".toList⟩ : Scanned).tok = Token.SECTION ∧
    HasPrefix "[Route]".toList ['['] = true ∧ HasSuffix "[Route]".toList [']'] = true ∧
    decodeStep ⟨"route2000\nthis is very important!".toList, some 0, none,
          ⟨[⟨"Route".toList, "route1000\nalso important".toList,
            [⟨"Gateway".toList, "192.168.0.11".toList, []⟩]⟩]⟩⟩
        [⟨⟨9, 1⟩, .SECTION, "[Route]".toList⟩]
      = .next ⟨[], some 1, none,
          ⟨[⟨"Route".toList, "route1000\nalso important".toList,
            [⟨"Gateway".toList, "192.168.0.11".toList, []⟩]⟩,
            ⟨"Route".toList, "route2000\nthis is very important!".toList, []⟩]⟩⟩ [] ∧
    ∃ d1 name, decodeStep ⟨"route2000\nthis is very important!".toList, some 0, none,
          ⟨[⟨"Route".toList, "route1000\nalso important".toList,
            [⟨"Gateway".toList, "192.168.0.11".toList, []⟩]⟩]⟩⟩
        (⟨⟨9, 1⟩, .SECTION, "[Route]".toList⟩ :: []) = .next d1 [] ∧
      "[Route]".toList = '[' :: (name ++ [']']) ∧
      d1.file.Sections = [⟨"Route".toList, "route1000\nalso important".toList,
            [⟨"Gateway".toList, "192.168.0.11".toList, []⟩]⟩] ++
          [⟨name, "route2000\nthis is very important!".toList, []⟩] ∧
      d1.sect = some 1 ∧
      d1.file.Sections.get? 1 = some ⟨name, "route2000\nthis is very important!".toList, []⟩ ∧
      d1.comment = [] ∧ d1.key = none :=
  ⟨rfl, by decide, by decide, by decide,
   section_transition ⟨"route2000\nthis is very important!".toList, some 0, none,
          ⟨[⟨"Route".toList, "route1000\nalso important".toList,
            [⟨"Gateway".toList, "192.168.0.11".toList, []⟩]⟩]⟩⟩
     ⟨⟨9, 1⟩, .SECTION, "[Route]".toList⟩ [] rfl (by decide) (by decide)⟩

/-! ## Theorems: the active key at a section header -/

theorem iterate_snoc (n : Nat) : ∀ {d d1 d2 : decodeState} {sc sc1 sc2 : List Scanned},
    iterate n d sc = some (d1, sc1) → decodeStep d1 sc1 = .next d2 sc2 →
    iterate (n + 1) d sc = some (d2, sc2) := by
  induction n with
  | zero =>
    intro d d1 d2 sc sc1 sc2 h hs
    simp only [iterate, Option.some.injEq, Prod.mk.injEq] at h
    obtain ⟨rfl, rfl⟩ := h
    simp only [iterate, hs]
  | succ n ih =>
    intro d d1 d2 sc sc1 sc2 h hs
    cases hd : decodeStep d sc with
    | next d' sc' =>
      rw [iterate_succ_of_next hd] at h ⊢
      exact ih h hs
    | done f => simp [iterate, hd] at h
    | fail e => simp [iterate, hd] at h

theorem decodeStep_newline_key {nl : Scanned} (hn : nl.tok = .NEWLINE) (d : decodeState)
    (rest : List Scanned) :
    ∃ d1, decodeStep d (nl :: rest) = .next d1 rest ∧
      (d1.key = none ∨
        ∃ p k, d1.key = some p ∧ d1.file.keyAt p = some k ∧ HasSuffix k.Value ['\\'] = true) := by
  rw [decodeStep_newline hn]
  cases hk : d.key with
  | none => exact ⟨d, rfl, Or.inl hk⟩
  | some p =>
    cases hat : d.file.keyAt p with
    | none =>
      refine ⟨d.closeKey, ?_, Or.inl ?_⟩
      · simp [hat, HasSuffix]
      · simp [decodeState.closeKey, hk]
    | some k =>
      by_cases hs : HasSuffix k.Value ['\\'] = true
      · refine ⟨d, ?_, Or.inr ⟨p, k, hk, hat, hs⟩⟩
        simp [hat, hs]
      · refine ⟨d.closeKey, ?_, Or.inl ?_⟩
        · simp [hat, hs]
        · simp [decodeState.closeKey, hk]

theorem decodeStep_key_sect {d d1 : decodeState} {sc sc1 : List Scanned} (hk : d.key = none)
    (h : decodeStep d sc = .next d1 sc1) : ∀ p, d1.key = some p → d.sect = some p.1 := by
  intro p hp
  cases sc with
  | nil => simp [decodeStep_nil] at h
  | cons t rest =>
    cases ht : t.tok with
    | COMMENT =>
      rw [decodeStep_comment ht] at h
      cases ha : d.addComment t.lit with
      | none => simp [ha] at h
      | some d' =>
        simp only [ha, Step.next.injEq] at h
        obtain ⟨-, hd⟩ := addComment_eq ha
        rw [← h.1, hd] at hp
        simp [hk] at hp
    | ASSIGN =>
      rw [decodeStep_assign ht, hk] at h
      simp only [Step.next.injEq] at h
      rw [← h.1, hk] at hp
      cases hp
    | EOF => rw [decodeStep_eof ht] at h; cases h
    | NEWLINE =>
      rw [decodeStep_newline ht, hk] at h
      simp only [Step.next.injEq] at h
      rw [← h.1, hk] at hp
      cases hp
    | STRING =>
      rw [decodeStep_string ht] at h
      cases hs : d.sect with
      | none => rw [addString_nosect hs] at h; cases h
      | some si =>
        rw [addString_idle hs hk] at h
        by_cases ha : (Scan rest).1.tok ≠ Token.ASSIGN
        · rw [if_pos ha] at h
          cases h
        · rw [if_neg ha] at h
          injection h with h1 h2
          rw [← h1] at hp
          injection hp with hp
          rw [← hp]
    | SECTION =>
      rw [decodeStep_section ht] at h
      cases ha : d.addSection t.pos t.lit with
      | fail e => simp [ha] at h
      | ok d' =>
        simp only [ha, Step.next.injEq] at h
        obtain ⟨-, -, hd⟩ := addSection_eq ha
        rw [← h.1, hd] at hp
        simp [hk] at hp
    | ILLEGAL =>
      rw [decodeStep_illegal ht] at h
      simp only [Step.next.injEq] at h
      rw [← h.1, hk] at hp
      cases hp

/-- C31, counterexample. On the tokens of the lines `[A]`, `k=v\`, `[B]`, `x=y` the key
`k` is still active when the decoder processes the `SECTION` token `[B]` (its value ends
with a backslash, so the line break has not closed it, and `addSection` does not close
it either), and the directive after the header `[B]` is appended to the key `k` of the
section `A`; section `B` gets no key. -/
theorem section_start_counterexample :
    iterate 5 decodeState.init
        [⟨⟨1, 1⟩, .SECTION, "[A]".toList⟩, ⟨⟨1, 4⟩, .NEWLINE, "\n".toList⟩,
          ⟨⟨2, 1⟩, .STRING, "k".toList⟩, ⟨⟨2, 2⟩, .ASSIGN, "=".toList⟩,
          ⟨⟨2, 3⟩, .STRING, "v\\".toList⟩, ⟨⟨2, 5⟩, .NEWLINE, "\n".toList⟩,
          ⟨⟨3, 1⟩, .SECTION, "[B]".toList⟩, ⟨⟨3, 4⟩, .NEWLINE, "\n".toList⟩,
          ⟨⟨4, 1⟩, .STRING, "x".toList⟩, ⟨⟨4, 2⟩, .ASSIGN, "=".toList⟩,
          ⟨⟨4, 3⟩, .STRING, "y".toList⟩, ⟨⟨4, 4⟩, .NEWLINE, "\n".toList⟩, ⟨⟨5, 1⟩, .EOF, []⟩]
      = some (⟨[], some 0, some (0, 0), ⟨[⟨"A".toList, [], [⟨"k".toList, "v\\".toList, []⟩]⟩]⟩⟩,
          [⟨⟨3, 1⟩, .SECTION, "[B]".toList⟩, ⟨⟨3, 4⟩, .NEWLINE, "\n".toList⟩,
            ⟨⟨4, 1⟩, .STRING, "x".toList⟩, ⟨⟨4, 2⟩, .ASSIGN, "=".toList⟩,
            ⟨⟨4, 3⟩, .STRING, "y".toList⟩, ⟨⟨4, 4⟩, .NEWLINE, "\n".toList⟩,
            ⟨⟨5, 1⟩, .EOF, []⟩]) ∧
    decode [⟨⟨1, 1⟩, .SECTION, "[A]".toList⟩, ⟨⟨1, 4⟩, .NEWLINE, "\n".toList⟩,
          ⟨⟨2, 1⟩, .STRING, "k".toList⟩, ⟨⟨2, 2⟩, .ASSIGN, "=".toList⟩,
          ⟨⟨2, 3⟩, .STRING, "v\\".toList⟩, ⟨⟨2, 5⟩, .NEWLINE, "\n".toList⟩,
          ⟨⟨3, 1⟩, .SECTION, "[B]".toList⟩, ⟨⟨3, 4⟩, .NEWLINE, "\n".toList⟩,
          ⟨⟨4, 1⟩, .STRING, "x".toList⟩, ⟨⟨4, 2⟩, .ASSIGN, "=".toList⟩,
          ⟨⟨4, 3⟩, .STRING, "y".toList⟩, ⟨⟨4, 4⟩, .NEWLINE, "\n".toList⟩, ⟨⟨5, 1⟩, .EOF, []⟩]
      = some (.ok ⟨[⟨"A".toList, [], [⟨"k".toList, "v x=y".toList, []⟩]⟩,
          ⟨"B".toList, [], []⟩]⟩) ∧
    ¬ (∀ (ts : List Scanned) (n : Nat) (d : decodeState) (s : Scanned) (rest : List Scanned),
        iterate n decodeState.init ts = some (d, s :: rest) → s.tok = Token.SECTION →
        d.key = none) := by
  refine ⟨by decide, by decide, ?_⟩
  intro h
  have := h [⟨⟨1, 1⟩, .SECTION, "[A]".toList⟩, ⟨⟨1, 4⟩, .NEWLINE, "\n".toList⟩,
          ⟨⟨2, 1⟩, .STRING, "k".toList⟩, ⟨⟨2, 2⟩, .ASSIGN, "=".toList⟩,
          ⟨⟨2, 3⟩, .STRING, "v\\".toList⟩, ⟨⟨2, 5⟩, .NEWLINE, "\n".toList⟩,
          ⟨⟨3, 1⟩, .SECTION, "[B]".toList⟩, ⟨⟨3, 4⟩, .NEWLINE, "\n".toList⟩,
          ⟨⟨4, 1⟩, .STRING, "x".toList⟩, ⟨⟨4, 2⟩, .ASSIGN, "=".toList⟩,
          ⟨⟨4, 3⟩, .STRING, "y".toList⟩, ⟨⟨4, 4⟩, .NEWLINE, "\n".toList⟩, ⟨⟨5, 1⟩, .EOF, []⟩]
    5 ⟨[], some 0, some (0, 0), ⟨[⟨"A".toList, [], [⟨"k".toList, "v\\".toList, []⟩]⟩]⟩⟩
    ⟨⟨3, 1⟩, .SECTION, "[B]".toList⟩
    [⟨⟨3, 4⟩, .NEWLINE, "\n".toList⟩,
      ⟨⟨4, 1⟩, .STRING, "x".toList⟩, ⟨⟨4, 2⟩, .ASSIGN, "=".toList⟩,
      ⟨⟨4, 3⟩, .STRING, "y".toList⟩, ⟨⟨4, 4⟩, .NEWLINE, "\n".toList⟩, ⟨⟨5, 1⟩, .EOF, []⟩]
    (by decide) rfl
  exact absurd this (by decide)

/-! ## Theorems: no backslash survives decoding -/

theorem replaceAll_backslash_not_mem (v : Str) : '\\' ∉ ReplaceAll v '\\' [' '] := by
  rw [replaceAll_eq_map]
  intro h
  obtain ⟨c, -, hc⟩ := List.mem_map.1 h
  by_cases h1 : c = '\\'
  · rw [if_pos h1] at hc
    exact absurd hc (by decide)
  · rw [if_neg h1] at hc
    exact h1 hc

theorem keyAt_addSection (l : List Section) (name comment : Str) (q : Nat × Nat) (k : Key)
    (h : File.keyAt ⟨l ++ [⟨name, comment, []⟩]⟩ q = some k) : File.keyAt ⟨l⟩ q = some k := by
  simp only [File.keyAt, List.get?_eq_getElem?] at h ⊢
  by_cases hlt : q.1 < l.length
  · rw [List.getElem?_append_left hlt] at h
    exact h
  · by_cases heq : q.1 = l.length
    · rw [heq] at h
      simp at h
    · rw [List.getElem?_eq_none (by simp; omega)] at h
      simp at h

theorem keyAt_addKey (l : List Section) (k0 : Key) (si : Nat) (q : Nat × Nat) (k : Key)
    (h : File.keyAt ⟨l.modify (fun s => { s with Keys := s.Keys ++ [k0] }) si⟩ q = some k)
    (hq : q ≠ (si, ((l.get? si).map (fun s => s.Keys.length)).getD 0)) :
    File.keyAt ⟨l⟩ q = some k := by
  simp only [File.keyAt, List.get?_eq_getElem?, List.getElem?_modify] at h hq ⊢
  cases hs : l[q.1]? with
  | none => simp [hs] at h
  | some s =>
    simp only [hs, Option.map_eq_map, Option.map_some', Option.some_bind] at h ⊢
    by_cases h1 : si = q.1
    · rw [if_pos h1] at h
      simp only at h
      have h2 : q.2 ≠ s.Keys.length := by
        intro hc
        apply hq
        rw [h1, hs]
        exact Prod.ext rfl (by simpa using hc)
      by_cases h3 : q.2 < s.Keys.length
      · rw [List.getElem?_append_left h3] at h
        exact h
      · rw [List.getElem?_eq_none (by simp; omega)] at h
        cases h
    · rw [if_neg h1] at h
      exact h

theorem closeKey_clean {d : decodeState}
    (hc : ∀ q k, d.file.keyAt q = some k → d.key ≠ some q → '\\' ∉ k.Value) :
    ∀ q k, d.closeKey.file.keyAt q = some k → '\\' ∉ k.Value := by
  intro q k hq
  cases hk : d.key with
  | none =>
    have : d.closeKey = d := by simp [decodeState.closeKey, hk]
    rw [this] at hq
    exact hc q k hq (by simp [hk])
  | some p =>
    simp only [decodeState.closeKey, hk] at hq
    by_cases hqp : q = p
    · rw [hqp, keyAt_modifyKey] at hq
      cases hat : d.file.keyAt p with
      | none => simp [hat] at hq
      | some k0 =>
        simp only [hat, Option.map_some', Option.some.injEq] at hq
        rw [← hq]
        exact replaceAll_backslash_not_mem k0.Value
    · rw [keyAt_modifyKey_ne _ _ _ _ hqp] at hq
      exact hc q k hq (by rw [hk]; intro h; injection h with h; exact hqp h.symm)

theorem modifyKey_clean {d : decodeState} {p : Nat × Nat} (hk : d.key = some p) (f : Key → Key)
    (hc : ∀ q k, d.file.keyAt q = some k → d.key ≠ some q → '\\' ∉ k.Value) :
    ∀ q k, (d.file.modifyKey p f).keyAt q = some k → d.key ≠ some q → '\\' ∉ k.Value := by
  intro q k hq hne
  have hqp : q ≠ p := by
    intro h
    apply hne
    rw [hk, h]
  rw [keyAt_modifyKey_ne _ _ _ _ hqp] at hq
  exact hc q k hq hne

theorem decodeStep_clean {d d1 : decodeState} {sc sc1 : List Scanned}
    (h : decodeStep d sc = .next d1 sc1)
    (hc : ∀ q k, d.file.keyAt q = some k → d.key ≠ some q → '\\' ∉ k.Value) :
    ∀ q k, d1.file.keyAt q = some k → d1.key ≠ some q → '\\' ∉ k.Value := by
  cases sc with
  | nil => simp [decodeStep_nil] at h
  | cons t rest =>
    cases ht : t.tok with
    | COMMENT =>
      rw [decodeStep_comment ht] at h
      cases ha : d.addComment t.lit with
      | none => simp [ha] at h
      | some d' =>
        simp only [ha, Step.next.injEq] at h
        obtain ⟨-, hd⟩ := addComment_eq ha
        rw [← h.1, hd]
        exact hc
    | ASSIGN =>
      rw [decodeStep_assign ht] at h
      cases hk : d.key with
      | none =>
        simp only [hk, Step.next.injEq] at h
        rw [← h.1]
        exact hc
      | some p =>
        simp only [hk, Step.next.injEq] at h
        rw [← h.1]
        intro q k hq hne
        exact modifyKey_clean hk _ hc q k hq (by rw [hk]; exact hne)
    | EOF => rw [decodeStep_eof ht] at h; cases h
    | NEWLINE =>
      rcases decodeStep_newline_cases ht d rest with h1 | h1
      · rw [h1] at h
        simp only [Step.next.injEq] at h
        rw [← h.1]
        exact hc
      · rw [h1] at h
        simp only [Step.next.injEq] at h
        rw [← h.1]
        intro q k hq _
        exact closeKey_clean hc q k hq
    | STRING =>
      rw [decodeStep_string ht] at h
      cases hs : d.sect with
      | none => rw [addString_nosect hs] at h; cases h
      | some si =>
        cases hk : d.key with
        | none =>
          rw [addString_idle hs hk] at h
          by_cases ha : (Scan rest).1.tok ≠ Token.ASSIGN
          · rw [if_pos ha] at h
            cases h
          · rw [if_neg ha] at h
            injection h with h1 h2
            rw [← h1]
            intro q k hq hne
            have hq2 : q ≠ (si, ((d.file.Sections.get? si).map (fun s => s.Keys.length)).getD 0) := by
              intro hc2
              apply hne
              rw [hc2]
            exact hc q k (keyAt_addKey _ _ _ q k hq hq2) (by simp [hk])
        | some p =>
          rw [addString_active hs hk] at h
          injection h with h1 h2
          rw [← h1]
          intro q k hq hne
          exact modifyKey_clean hk _ hc q k hq hne
    | SECTION =>
      rw [decodeStep_section ht] at h
      cases ha : d.addSection t.pos t.lit with
      | fail e => simp [ha] at h
      | ok d' =>
        simp only [ha, Step.next.injEq] at h
        obtain ⟨-, -, hd⟩ := addSection_eq ha
        rw [← h.1, hd]
        intro q k hq hne
        exact hc q k (keyAt_addSection _ _ _ q k hq) hne
    | ILLEGAL =>
      rw [decodeStep_illegal ht] at h
      simp only [Step.next.injEq] at h
      rw [← h.1]
      exact hc

theorem decodeFrom_clean (n : Nat) : ∀ (d : decodeState) (sc : List Scanned) (f : File),
    sc.length ≤ n →
    (∀ q k, d.file.keyAt q = some k → d.key ≠ some q → '\\' ∉ k.Value) →
    decodeFrom d sc = some (.ok f) → ∀ q k, f.keyAt q = some k → '\\' ∉ k.Value := by
  induction n with
  | zero =>
    intro d sc f hlen hc h
    have : sc = [] := List.length_eq_zero.1 (by omega)
    subst this
    rw [decodeFrom_step, decodeStep_nil] at h
    simp only [Option.some.injEq, Res.ok.injEq] at h
    rw [← h]
    exact closeKey_clean hc
  | succ n ih =>
    intro d sc f hlen hc h
    rw [decodeFrom_step] at h
    cases hs : decodeStep d sc with
    | next d1 sc1 =>
      rw [hs] at h
      have hl := decodeStep_next_length hs
      exact ih d1 sc1 f (by omega) (decodeStep_clean hs hc) h
    | done f1 =>
      rw [hs] at h
      simp only [Option.some.injEq, Res.ok.injEq] at h
      cases sc with
      | nil =>
        rw [decodeStep_nil] at hs
        injection hs with hs
        rw [← h, ← hs]
        exact closeKey_clean hc
      | cons t rest =>
        obtain ⟨-, hf⟩ := decodeStep_done_consumed hs
        rw [← h, hf]
        exact closeKey_clean hc
    | fail e =>
      rw [hs] at h
      simp at h

theorem mem_keys_keyAt {f : File} {s : Section} {k : Key} (hs : s ∈ f.Sections)
    (hk : k ∈ s.Keys) : ∃ q, f.keyAt q = some k := by
  obtain ⟨i, hi, rfl⟩ := List.getElem_of_mem hs
  obtain ⟨j, hj, rfl⟩ := List.getElem_of_mem hk
  refine ⟨(i, j), ?_⟩
  simp [File.keyAt, List.get?_eq_getElem?, List.getElem?_eq_getElem hi,
    List.getElem?_eq_getElem hj]

/-- C36. No backslash survives decoding.  When `decode` succeeds on a token stream, no
key of the file it returns has a backslash in its value: during the run every key other
than the active one has been closed by `closeKey`, which replaces the backslashes, and
at the end of the input the active key is closed as well. -/
theorem no_backslash_survives (ts : List Scanned) (f : File)
    (h : decode ts = some (.ok f)) :
    ∀ s ∈ f.Sections, ∀ k ∈ s.Keys, '\\' ∉ k.Value := by
  intro s hs k hk
  obtain ⟨q, hq⟩ := mem_keys_keyAt hs hk
  refine decodeFrom_clean ts.length decodeState.init ts f (le_refl _) ?_ h q k hq
  intro q k hq
  simp [decodeState.init, File.keyAt] at hq

theorem no_backslash_survives_witness :
    decode [⟨⟨1, 1⟩, .SECTION, "[Network]".toList⟩, ⟨⟨1, 10⟩, .NEWLINE, "\n".toList⟩,
        ⟨⟨2, 1⟩, .STRING, "Description".toList⟩, ⟨⟨2, 12⟩, .ASSIGN, "=".toList⟩,
        ⟨⟨2, 13⟩, .STRING, " test1 \\".toList⟩, ⟨⟨2, 21⟩, .NEWLINE, "\n".toList⟩,
        ⟨⟨3, 2⟩, .STRING, "C:\\dir".toList⟩, ⟨⟨3, 8⟩, .NEWLINE, "\n".toList⟩]
      = some (.ok ⟨[⟨"Network".toList, [],
          [⟨"Description".toList, "test1  C: dir".toList, []⟩]⟩]⟩) ∧
    ∀ s ∈ (File.mk [⟨"Network".toList, [],
          [⟨"Description".toList, "test1  C: dir".toList, []⟩]⟩]).Sections,
      ∀ k ∈ s.Keys, '\\' ∉ k.Value :=
  ⟨by decide,
   no_backslash_survives
     [⟨⟨1, 1⟩, .SECTION, "[Network]".toList⟩, ⟨⟨1, 10⟩, .NEWLINE, "\n".toList⟩,
        ⟨⟨2, 1⟩, .STRING, "Description".toList⟩, ⟨⟨2, 12⟩, .ASSIGN, "=".toList⟩,
        ⟨⟨2, 13⟩, .STRING, " test1 \\".toList⟩, ⟨⟨2, 21⟩, .NEWLINE, "\n".toList⟩,
        ⟨⟨3, 2⟩, .STRING, "C:\\dir".toList⟩, ⟨⟨3, 8⟩, .NEWLINE, "\n".toList⟩]
     ⟨[⟨"Network".toList, [], [⟨"Description".toList, "test1  C: dir".toList, []⟩]⟩]⟩
     (by decide)⟩

/-! ## Theorems: comments at the end of the input -/

theorem iterate_length (n : Nat) : ∀ {d d1 : decodeState} {sc sc1 : List Scanned},
    iterate n d sc = some (d1, sc1) → sc1.length + n ≤ sc.length := by
  induction n with
  | zero =>
    intro d d1 sc sc1 h
    simp only [iterate, Option.some.injEq, Prod.mk.injEq] at h
    rw [h.2]
    omega
  | succ n ih =>
    intro d d1 sc sc1 h
    cases hd : decodeStep d sc with
    | next d' sc' =>
      rw [iterate_succ_of_next hd] at h
      have := ih h
      have := decodeStep_next_length hd
      omega
    | done f => simp [iterate, hd] at h
    | fail e => simp [iterate, hd] at h

theorem decodeFrom_iterate (n : Nat) : ∀ {d d1 : decodeState} {sc sc1 : List Scanned},
    iterate n d sc = some (d1, sc1) → decodeFrom d sc = decodeFrom d1 sc1 := by
  induction n with
  | zero =>
    intro d d1 sc sc1 h
    simp only [iterate, Option.some.injEq, Prod.mk.injEq] at h
    rw [h.1, h.2]
  | succ n ih =>
    intro d d1 sc sc1 h
    cases hd : decodeStep d sc with
    | next d' sc' =>
      rw [iterate_succ_of_next hd] at h
      rw [decodeFrom_next hd]
      exact ih h
    | done f => simp [iterate, hd] at h
    | fail e => simp [iterate, hd] at h

theorem iterate_indep (n : Nat) : ∀ (d d1 : decodeState) (pre X : List Scanned),
    iterate n d (pre ++ X) = some (d1, X) → ∀ Y, iterate n d (pre ++ Y) = some (d1, Y) := by
  induction n with
  | zero =>
    intro d d1 pre X h Y
    simp only [iterate, Option.some.injEq, Prod.mk.injEq] at h
    have hp : pre = [] := by
      have := congrArg List.length h.2
      simp only [List.length_append] at this
      exact List.length_eq_zero.1 (by omega)
    rw [hp, h.1]
    rfl
  | succ n ih =>
    intro d d1 pre X h Y
    cases pre with
    | nil =>
      exfalso
      rw [List.nil_append] at h
      cases hd : decodeStep d X with
      | next d' sc' =>
        rw [iterate_succ_of_next hd] at h
        have := iterate_length n h
        have := decodeStep_next_length hd
        omega
      | done f => simp [iterate, hd] at h
      | fail e => simp [iterate, hd] at h
    | cons t pre' =>
      rw [List.cons_append] at h ⊢
      by_cases hpeek : t.tok = .STRING ∧ d.sect ≠ none ∧ d.key = none
      · obtain ⟨ht, hs, hk⟩ := hpeek
        obtain ⟨si, hsi⟩ := Option.ne_none_iff_exists'.1 hs
        have hstep : ∀ Z, decodeStep d (t :: Z) =
            if (Scan Z).1.tok ≠ Token.ASSIGN then
              .fail (.error (.keyNotFollowedByAssign (Scan Z).1.pos (Scan Z).1.tok (Scan Z).1.lit))
            else
              .next { d with
                  file := ⟨d.file.Sections.modify
                    (fun s => { s with Keys := s.Keys ++ [⟨TrimSpace t.lit, [], []⟩] }) si⟩
                  key := some (si, ((d.file.Sections.get? si).map (fun s => s.Keys.length)).getD 0) }
                (Scan Z).2 := by
          intro Z
          rw [decodeStep_string ht, addString_idle hsi hk]
          by_cases ha : (Scan Z).1.tok ≠ Token.ASSIGN
          · rw [if_pos ha, if_pos ha]
          · rw [if_neg ha, if_neg ha]
        cases pre' with
        | nil =>
          exfalso
          rw [List.nil_append] at h
          cases hd : decodeStep d (t :: X) with
          | next d' sc' =>
            rw [iterate_succ_of_next hd] at h
            have h1 := iterate_length n h
            rw [hstep X] at hd
            by_cases ha : (Scan X).1.tok ≠ Token.ASSIGN
            · rw [if_pos ha] at hd
              cases hd
            · rw [if_neg ha] at hd
              injection hd with hd1 hd2
              cases X with
              | nil => exact ha (by simp [Scan, Scanned.eof])
              | cons a X' =>
                simp only [Scan] at hd2
                rw [← hd2] at h1
                simp at h1
                omega
          | done f => simp [iterate, hd] at h
          | fail e => simp [iterate, hd] at h
        | cons a pre2 =>
          rw [List.cons_append] at h ⊢
          have hX := hstep (a :: (pre2 ++ X))
          have hY := hstep (a :: (pre2 ++ Y))
          simp only [Scan] at hX hY
          by_cases ha : a.tok ≠ Token.ASSIGN
          · rw [if_pos ha] at hX
            simp [iterate, hX] at h
          · rw [if_neg ha] at hX hY
            rw [iterate_succ_of_next hX] at h
            rw [iterate_succ_of_next hY]
            exact ih _ d1 pre2 X h Y
      · rcases decodeStep_indep d t hpeek with ⟨d', hd⟩ | ⟨f, hd⟩ | ⟨e, hd⟩
        · rw [iterate_succ_of_next (hd (pre' ++ X))] at h
          rw [iterate_succ_of_next (hd (pre' ++ Y))]
          exact ih d' d1 pre' X h Y
        · simp [iterate, hd (pre' ++ X)] at h
        · simp [iterate, hd (pre' ++ X)] at h

theorem decodeFrom_comments (cs : List Scanned) : ∀ (d : decodeState) (tail : List Scanned),
    d.key = none →
    (∀ t ∈ cs, (t.tok = Token.COMMENT ∧ t.lit ≠ []) ∨ t.tok = Token.NEWLINE) →
    ∃ d1, decodeFrom d (cs ++ tail) = decodeFrom d1 tail ∧ d1.key = none ∧ d1.file = d.file := by
  induction cs with
  | nil =>
    intro d tail hk _
    exact ⟨d, rfl, hk, rfl⟩
  | cons c cs ih =>
    intro d tail hk hcs
    have hrest : ∀ t ∈ cs, (t.tok = Token.COMMENT ∧ t.lit ≠ []) ∨ t.tok = Token.NEWLINE :=
      fun t ht => hcs t (List.mem_cons_of_mem _ ht)
    rw [List.cons_append]
    rcases hcs c (List.mem_cons_self _ _) with ⟨hc, hl⟩ | hn
    · have hstep : decodeStep d (c :: (cs ++ tail)) =
          .next { d with comment :=
            (if d.comment ≠ [] then d.comment ++ ['\n'] else d.comment) ++ TrimSpace (c.lit.drop 1) }
            (cs ++ tail) := by
        rw [decodeStep_comment hc, addComment_some d hl]
      rw [decodeFrom_next hstep]
      obtain ⟨d1, h1, h2, h3⟩ := ih { d with comment :=
            (if d.comment ≠ [] then d.comment ++ ['\n'] else d.comment) ++ TrimSpace (c.lit.drop 1) }
          tail hk hrest
      exact ⟨d1, h1, h2, h3⟩
    · have hstep : decodeStep d (c :: (cs ++ tail)) = .next d (cs ++ tail) := by
        rw [decodeStep_newline hn, hk]
      rw [decodeFrom_next hstep]
      exact ih d tail hk hrest

theorem decodeFrom_end (d : decodeState) (hk : d.key = none) :
    decodeFrom d [] = some (.ok d.file) ∧
    ∀ e post, e.tok = Token.EOF → decodeFrom d (e :: post) = some (.ok d.file) := by
  have hc : d.closeKey = d := by simp [decodeState.closeKey, hk]
  refine ⟨?_, ?_⟩
  · rw [decodeFrom_done (decodeStep_nil d), hc]
  · intro e post he
    rw [decodeFrom_eof he, hc]

/-- C39. Comments at the end of the input are discarded.  Let the decoder have consumed
the prefix `pre` of a token stream that ends with an `EOF` token, and let no key be
active.  Then, whatever `COMMENT` tokens (with a marker) and `NEWLINE` tokens are put
between the prefix and the `EOF` token, `decode` returns the same file as without them,
namely the file built from the prefix alone; the same holds when the input ends without
an `EOF` token.  The texts of the inserted comments are nowhere in the result. -/
theorem trailing_comments_discarded (pre cs post : List Scanned) (e : Scanned) (n : Nat)
    (d : decodeState)
    (hreach : iterate n decodeState.init (pre ++ e :: post) = some (d, e :: post))
    (hk : d.key = none) (he : e.tok = Token.EOF)
    (hcs : ∀ t ∈ cs, (t.tok = Token.COMMENT ∧ t.lit ≠ []) ∨ t.tok = Token.NEWLINE) :
    decode (pre ++ cs ++ e :: post) = some (.ok d.file) ∧
    decode (pre ++ e :: post) = some (.ok d.file) ∧
    decode (pre ++ cs) = some (.ok d.file) := by
  have hind := iterate_indep n decodeState.init d pre (e :: post) hreach
  refine ⟨?_, ?_, ?_⟩
  · unfold decode
    rw [List.append_assoc, decodeFrom_iterate n (hind (cs ++ e :: post))]
    obtain ⟨d1, h1, h2, h3⟩ := decodeFrom_comments cs d (e :: post) hk hcs
    rw [h1, (decodeFrom_end d1 h2).2 e post he, h3]
  · unfold decode
    rw [decodeFrom_iterate n hreach, (decodeFrom_end d hk).2 e post he]
  · unfold decode
    have := hind (cs ++ [])
    rw [List.append_nil] at this
    rw [decodeFrom_iterate n this]
    obtain ⟨d1, h1, h2, h3⟩ := decodeFrom_comments cs d [] hk hcs
    rw [List.append_nil] at h1
    rw [h1, (decodeFrom_end d1 h2).1, h3]

theorem trailing_comments_discarded_witness :
    iterate 5 decodeState.init
        ([⟨⟨1, 1⟩, .SECTION, "[S]".toList⟩, ⟨⟨1, 4⟩, .NEWLINE, "\n".toList⟩,
          ⟨⟨2, 1⟩, .STRING, "k".toList⟩, ⟨⟨2, 2⟩, .ASSIGN, "=".toList⟩,
          ⟨⟨2, 3⟩, .STRING, "v".toList⟩, ⟨⟨2, 4⟩, .NEWLINE, "\n".toList⟩] ++
          ⟨⟨5, 1⟩, .EOF, []⟩ :: [])
      = some (⟨[], some 0, none, ⟨[⟨"S".toList, [], [⟨"k".toList, "v".toList, []⟩]⟩]⟩⟩,
          ⟨⟨5, 1⟩, .EOF, []⟩ :: []) ∧
    (∀ t ∈ ([⟨⟨3, 1⟩, .COMMENT, "# trailing".toList⟩, ⟨⟨3, 11⟩, .NEWLINE, "\n".toList⟩,
          ⟨⟨4, 1⟩, .COMMENT, "; more".toList⟩, ⟨⟨4, 7⟩, .NEWLINE, "\n".toList⟩] : List Scanned),
      (t.tok = Token.COMMENT ∧ t.lit ≠ []) ∨ t.tok = Token.NEWLINE) ∧
    decode ([⟨⟨1, 1⟩, .SECTION, "[S]".toList⟩, ⟨⟨1, 4⟩, .NEWLINE, "\n".toList⟩,
          ⟨⟨2, 1⟩, .STRING, "k".toList⟩, ⟨⟨2, 2⟩, .ASSIGN, "=".toList⟩,
          ⟨⟨2, 3⟩, .STRING, "v".toList⟩, ⟨⟨2, 4⟩, .NEWLINE, "\n".toList⟩] ++
        [⟨⟨3, 1⟩, .COMMENT, "# trailing".toList⟩, ⟨⟨3, 11⟩, .NEWLINE, "\n".toList⟩,
          ⟨⟨4, 1⟩, .COMMENT, "; more".toList⟩, ⟨⟨4, 7⟩, .NEWLINE, "\n".toList⟩] ++
        ⟨⟨5, 1⟩, .EOF, []⟩ :: [])
      = some (.ok ⟨[⟨"S".toList, [], [⟨"k".toList, "v".toList, []⟩]⟩]⟩) ∧
    decode ([⟨⟨1, 1⟩, .SECTION, "[S]".toList⟩, ⟨⟨1, 4⟩, .NEWLINE, "\n".toList⟩,
          ⟨⟨2, 1⟩, .STRING, "k".toList⟩, ⟨⟨2, 2⟩, .ASSIGN, "=".toList⟩,
          ⟨⟨2, 3⟩, .STRING, "v".toList⟩, ⟨⟨2, 4⟩, .NEWLINE, "\n".toList⟩] ++
        ⟨⟨5, 1⟩, .EOF, []⟩ :: [])
      = some (.ok ⟨[⟨"S".toList, [], [⟨"k".toList, "v".toList, []⟩]⟩]⟩) ∧
    decode ([⟨⟨1, 1⟩, .SECTION, "[S]".toList⟩, ⟨⟨1, 4⟩, .NEWLINE, "\n".toList⟩,
          ⟨⟨2, 1⟩, .STRING, "k".toList⟩, ⟨⟨2, 2⟩, .ASSIGN, "=".toList⟩,
          ⟨⟨2, 3⟩, .STRING, "v".toList⟩, ⟨⟨2, 4⟩, .NEWLINE, "\n".toList⟩] ++
        [⟨⟨3, 1⟩, .COMMENT, "# trailing".toList⟩, ⟨⟨3, 11⟩, .NEWLINE, "\n".toList⟩,
          ⟨⟨4, 1⟩, .COMMENT, "; more".toList⟩, ⟨⟨4, 7⟩, .NEWLINE, "\n".toList⟩])
      = some (.ok ⟨[⟨"S".toList, [], [⟨"k".toList, "v".toList, []⟩]⟩]⟩) :=
  ⟨by decide, by decide,
   trailing_comments_discarded
     [⟨⟨1, 1⟩, .SECTION, "[S]".toList⟩, ⟨⟨1, 4⟩, .NEWLINE, "\n".toList⟩,
          ⟨⟨2, 1⟩, .STRING, "k".toList⟩, ⟨⟨2, 2⟩, .ASSIGN, "=".toList⟩,
          ⟨⟨2, 3⟩, .STRING, "v".toList⟩, ⟨⟨2, 4⟩, .NEWLINE, "\n".toList⟩]
     [⟨⟨3, 1⟩, .COMMENT, "# trailing".toList⟩, ⟨⟨3, 11⟩, .NEWLINE, "\n".toList⟩,
          ⟨⟨4, 1⟩, .COMMENT, "; more".toList⟩, ⟨⟨4, 7⟩, .NEWLINE, "\n".toList⟩]
     [] ⟨⟨5, 1⟩, .EOF, []⟩ 5
     ⟨[], some 0, none, ⟨[⟨"S".toList, [], [⟨"k".toList, "v".toList, []⟩]⟩]⟩⟩
     (by decide) rfl rfl (by decide)⟩

/-! ## Theorems: the slice expressions of the decoder -/

theorem decodeFrom_no_panic (d : decodeState) (sc : List Scanned)
    (hc : ∀ t ∈ sc, t.tok = Token.COMMENT → t.lit ≠ []) :
    (∃ e, decodeFrom d sc = some (.fail (.error e))) ∨ ∃ f, decodeFrom d sc = some (.ok f) := by
  have h := decodeFrom_fails_iff sc.length d sc (le_refl _) hc
  by_cases hm : ∃ m d1 sc1, iterate m d sc = some (d1, sc1) ∧ meetsDecodeError d1 sc1
  · exact Or.inl (h.1.2 hm)
  · exact Or.inr (h.2 hm)

/-- C40. The slice expressions of the decoder stay in bounds.  When the literal of every
`COMMENT` token has at least one character, `decode` ends on every token stream, with a
file or with one of its decode errors, and never with the run-time panic of a slice
expression.  The slice `lit[1:]` of `addComment` is in bounds on a non-empty literal;
a literal that starts with `[` and ends with `]` has at least two characters, so the
slice `lit[1 : len(lit)-1]` of `addSection`, which is evaluated only for such literals,
is in bounds, and `addSection` never panics. -/
theorem decoder_slicing_in_bounds (ts : List Scanned)
    (hc : ∀ t ∈ ts, t.tok = Token.COMMENT → t.lit ≠ []) :
    decode ts ≠ some (.fail .panic) ∧ decode ts ≠ none ∧
    (∀ (d : decodeState) (lit : Str), lit ≠ [] →
      sliceStr lit 1 lit.length = some (lit.drop 1) ∧ d.addComment lit ≠ none) ∧
    (∀ lit : Str, HasPrefix lit ['['] = true → HasSuffix lit [']'] = true →
      2 ≤ lit.length ∧
      sliceStr lit 1 (lit.length - 1) = some ((lit.take (lit.length - 1)).drop 1)) ∧
    (∀ (d : decodeState) (pos : Position) (lit : Str), d.addSection pos lit ≠ .fail .panic) := by
  refine ⟨?_, ?_, ?_, ?_, ?_⟩
  · rcases decodeFrom_no_panic decodeState.init ts hc with ⟨e, he⟩ | ⟨f, hf⟩
    · unfold decode; rw [he]; simp
    · unfold decode; rw [hf]; simp
  · rcases decodeFrom_no_panic decodeState.init ts hc with ⟨e, he⟩ | ⟨f, hf⟩
    · unfold decode; rw [he]; simp
    · unfold decode; rw [hf]; simp
  · intro d lit hl
    refine ⟨?_, ?_⟩
    · have : 1 ≤ lit.length := by
        cases lit with
        | nil => exact absurd rfl hl
        | cons c cs => simp
      simp [sliceStr, this]
    · rw [addComment_some d hl]
      simp
  · intro lit hp hx
    have h2 := bracket_length hp hx
    refine ⟨h2, ?_⟩
    have : 1 ≤ lit.length - 1 ∧ lit.length - 1 ≤ lit.length := by omega
    simp [sliceStr, this]
  · intro d pos lit
    by_cases hp : HasPrefix lit ['['] = true
    · by_cases hx : HasSuffix lit [']'] = true
      · rw [addSection_ok d pos hp hx]
        simp
      · simp [decodeState.addSection, hp, hx]
    · simp [decodeState.addSection, hp]

theorem decoder_slicing_in_bounds_witness :
    (∀ t ∈ ([⟨⟨1, 1⟩, .COMMENT, "#".toList⟩, ⟨⟨1, 2⟩, .NEWLINE, "\n".toList⟩,
        ⟨⟨2, 1⟩, .SECTION, "[]".toList⟩, ⟨⟨2, 3⟩, .NEWLINE, "\n".toList⟩] : List Scanned),
      t.tok = Token.COMMENT → t.lit ≠ []) ∧
    decode [⟨⟨1, 1⟩, .COMMENT, "#".toList⟩, ⟨⟨1, 2⟩, .NEWLINE, "\n".toList⟩,
        ⟨⟨2, 1⟩, .SECTION, "[]".toList⟩, ⟨⟨2, 3⟩, .NEWLINE, "\n".toList⟩]
      = some (.ok ⟨[⟨[], [], []⟩]⟩) ∧
    decode [⟨⟨1, 1⟩, .COMMENT, "#".toList⟩, ⟨⟨1, 2⟩, .NEWLINE, "\n".toList⟩,
        ⟨⟨2, 1⟩, .SECTION, "[]".toList⟩, ⟨⟨2, 3⟩, .NEWLINE, "\n".toList⟩]
      ≠ some (.fail .panic) ∧
    decode [⟨⟨1, 1⟩, .COMMENT, "#".toList⟩, ⟨⟨1, 2⟩, .NEWLINE, "\n".toList⟩,
        ⟨⟨2, 1⟩, .SECTION, "[]".toList⟩, ⟨⟨2, 3⟩, .NEWLINE, "\n".toList⟩]
      ≠ none := by
  have h := decoder_slicing_in_bounds
    [⟨⟨1, 1⟩, .COMMENT, "#".toList⟩, ⟨⟨1, 2⟩, .NEWLINE, "\n".toList⟩,
        ⟨⟨2, 1⟩, .SECTION, "[]".toList⟩, ⟨⟨2, 3⟩, .NEWLINE, "\n".toList⟩] (by decide)
  exact ⟨by decide, by decide, h.1, h.2.1⟩

/-! ## Theorems: keys whose name a field claims -/

theorem fieldAfter_unhandled (sect : Section) {f : KeyField} (h : f.unhandled = true) :
    fieldAfter sect f = f := by
  unfold fieldAfter
  cases hk : (sect.KeysByName f.config.Name).getLast? with
  | none => rfl
  | some key =>
    cases hv : f.Value <;> simp [KeyField.unhandled, hv] at h <;> simp [hv]

theorem commentAfter_unhandled (sect : Section) {f : KeyField} (h : f.unhandled = true) :
    commentAfter sect f = [] := by
  unfold commentAfter
  cases hk : (sect.KeysByName f.config.Name).getLast? with
  | none => rfl
  | some key =>
    cases hv : f.Value <;> simp [KeyField.unhandled, hv] at h <;> simp [hv]

theorem unmarshalKey_unhandled (sect : Section) (r : SectionRecord) (i : Nat) (f : KeyField)
    (hf : r.get? i = some f) (h : f.unhandled = true) : unmarshalKey sect r i = r := by
  rw [unmarshalKey_eq sect r i f hf, fieldAfter_unhandled sect h, set_eq_self r i f hf]
  have : noteField sect f = id := by
    funext g
    simp [noteField, commentAfter_unhandled sect h]
  rw [this, List.map_id]

theorem unknownKeys_name (sect : Section) (rv : SectionRecord) :
    ∀ k ∈ unknownKeys sect rv, k ∈ sect.Keys ∧ ∀ f ∈ rv, f.config.Name ≠ k.Name := by
  intro k hk
  simp only [unknownKeys, List.mem_filter, decide_eq_true_eq, List.mem_map, not_exists,
    not_and] at hk
  exact ⟨hk.1, hk.2⟩

theorem keysByName_without (sect : Section) (N M : Str) (h : M ≠ N) :
    Section.KeysByName { sect with Keys := sect.Keys.filter (fun k => k.Name ≠ N) } M =
      sect.KeysByName M := by
  simp only [Section.KeysByName, List.filter_filter]
  apply List.filter_congr
  intro k _
  by_cases hk : k.Name = M
  · simp [hk, h]
  · simp [hk]

theorem unknownKeys_without (sect : Section) (rv : SectionRecord) (N : Str)
    (hN : ∃ f ∈ rv, f.config.Name = N) :
    unknownKeys { sect with Keys := sect.Keys.filter (fun k => k.Name ≠ N) } rv =
      unknownKeys sect rv := by
  simp only [unknownKeys, List.filter_filter]
  apply List.filter_congr
  intro k _
  by_cases hk : k.Name = N
  · obtain ⟨f, hf, hfn⟩ := hN
    have : k.Name ∈ rv.map (fun f => f.config.Name) :=
      List.mem_map.2 ⟨f, hf, by rw [hfn, hk]⟩
    simp [this]
  · simp [hk]

theorem fieldAfter_without (sect : Section) (N : Str) (g : KeyField)
    (h : g.config.Name = N → g.unhandled = true) :
    fieldAfter { sect with Keys := sect.Keys.filter (fun k => k.Name ≠ N) } g =
      fieldAfter sect g := by
  by_cases hn : g.config.Name = N
  · rw [fieldAfter_unhandled _ (h hn), fieldAfter_unhandled _ (h hn)]
  · unfold fieldAfter
    rw [keysByName_without sect N _ hn]

theorem commentAfter_without (sect : Section) (N : Str) (g : KeyField)
    (h : g.config.Name = N → g.unhandled = true) :
    commentAfter { sect with Keys := sect.Keys.filter (fun k => k.Name ≠ N) } g =
      commentAfter sect g := by
  by_cases hn : g.config.Name = N
  · rw [commentAfter_unhandled _ (h hn), commentAfter_unhandled _ (h hn)]
  · unfold commentAfter
    rw [keysByName_without sect N _ hn]

theorem notes_congr (s1 s2 : Section) : ∀ (hs : List KeyField) (g : KeyField),
    (∀ h ∈ hs, commentAfter s1 h = commentAfter s2 h) → notes s1 hs g = notes s2 hs g := by
  intro hs
  induction hs with
  | nil => intro g _; rfl
  | cons h hs ih =>
    intro g hc
    have h1 : noteField s1 h g = noteField s2 h g := by
      simp only [noteField, hc h (List.mem_cons_self _ _)]
    show notes s1 hs (noteField s1 h g) = notes s2 hs (noteField s2 h g)
    rw [h1]
    exact ih _ (fun x hx => hc x (List.mem_cons_of_mem _ hx))

theorem unmarshalKeys_without (sect : Section) (rv : SectionRecord) (N : Str)
    (hN : ∃ f ∈ rv, f.config.Name = N)
    (hu : ∀ f ∈ rv, f.config.Name = N → f.unhandled = true) :
    unmarshalKeys sect rv =
      unmarshalKeys { sect with Keys := sect.Keys.filter (fun k => k.Name ≠ N) } rv := by
  rw [unmarshalKeys_eq, unmarshalKeys_eq, unknownKeys_without sect rv N hN]
  apply List.map_congr_left
  intro g hg
  rw [fieldAfter_without sect N g (hu g hg)]
  rw [notes_congr _ sect rv _ (fun h hh => commentAfter_without sect N h (hu h hh))]

/-- C37. A key whose name a field claims is never kept as an unknown key.  Let `N` be the
resolved name of some field of the record.  No key of the section named `N` is among the
keys `unmarshalKeys` hands to `AddKey`, so the `KeyList` container ends with its old keys
followed by keys of other names only.  The iteration of the field loop for a field of a
kind the loop has no case for (an integer, a pointer to an integer, a list of
non-strings, the embedded `KeyList` or `KeyComments`) changes nothing, and such a field
of a plain kind is the same after `unmarshalKeys`.  When every field with the resolved
name `N` is of such a kind, `unmarshalKeys` gives the same record as on the section
without its keys named `N`: their values are nowhere in the record. -/
theorem claimed_key_not_unknown (sect : Section) (rv : SectionRecord) (N : Str)
    (hN : ∃ f ∈ rv, f.config.Name = N) :
    (∀ k ∈ sect.Keys, k.Name = N → k ∉ unknownKeys sect rv) ∧
    (∀ i n t l0, rv.get? i = some ⟨n, t, .keyList l0⟩ →
      (unmarshalKeys sect rv).get? i = some ⟨n, t, .keyList (l0 ++ unknownKeys sect rv)⟩ ∧
      ∀ k ∈ unknownKeys sect rv, k.Name ≠ N) ∧
    (∀ r i f, r.get? i = some f → f.unhandled = true → unmarshalKey sect r i = r) ∧
    (∀ i f v, rv.get? i = some f → f.Value = .other v →
      (unmarshalKeys sect rv).get? i = some f) ∧
    ((∀ f ∈ rv, f.config.Name = N → f.unhandled = true) →
      unmarshalKeys sect rv =
        unmarshalKeys { sect with Keys := sect.Keys.filter (fun k => k.Name ≠ N) } rv) := by
  obtain ⟨f0, hf0, hf0n⟩ := hN
  have hne : ∀ k ∈ unknownKeys sect rv, k.Name ≠ N := by
    intro k hk hkn
    exact (unknownKeys_name sect rv k hk).2 f0 hf0 (by rw [hf0n, hkn])
  refine ⟨?_, ?_, ?_, ?_, ?_⟩
  · intro k _ hkn hk
    exact hne k hk hkn
  · intro i n t l0 hf
    exact ⟨unknown_keys_appended sect rv i n t l0 hf, hne⟩
  · intro r i f hf hu
    exact unmarshalKey_unhandled sect r i f hf hu
  · intro i f v hf hv
    have hu : f.unhandled = true := by simp [KeyField.unhandled, hv]
    have hc : f.isComments = false := by simp [KeyField.isComments, hv]
    rw [unmarshalKeys_get sect rv i f hf, fieldAfter_unhandled sect hu, notes_of_not sect rv hc,
      appendKeys_of_not _ (by rw [hv]; intro l0 h; cases h)]
  · intro hu
    exact unmarshalKeys_without sect rv N ⟨f0, hf0, hf0n⟩ hu

theorem claimed_key_not_unknown_witness :
    (∃ f ∈ ([⟨"KeyList".toList, [], .keyList []⟩,
        ⟨"TransmitQueues".toList, ",omitempty".toList, .other 4⟩,
        ⟨"MTUBytes".toList, ",omitempty".toList, .ptrString none⟩] : SectionRecord),
      f.config.Name = "TransmitQueues".toList) ∧
    unmarshalKeys ⟨"Link".toList, [], [⟨"TransmitQueues".toList, "4".toList, []⟩,
        ⟨"MTUBytes".toList, "1500".toList, []⟩, ⟨"Foo".toList, "bar".toList, []⟩]⟩
      [⟨"KeyList".toList, [], .keyList []⟩,
        ⟨"TransmitQueues".toList, ",omitempty".toList, .other 4⟩,
        ⟨"MTUBytes".toList, ",omitempty".toList, .ptrString none⟩]
      = [⟨"KeyList".toList, [], .keyList [⟨"Foo".toList, "bar".toList, []⟩]⟩,
        ⟨"TransmitQueues".toList, ",omitempty".toList, .other 4⟩,
        ⟨"MTUBytes".toList, ",omitempty".toList, .ptrString (some "1500".toList)⟩] ∧
    unmarshalKeys ⟨"Link".toList, [], [⟨"TransmitQueues".toList, "4".toList, []⟩,
        ⟨"MTUBytes".toList, "1500".toList, []⟩, ⟨"Foo".toList, "bar".toList, []⟩]⟩
      [⟨"KeyList".toList, [], .keyList []⟩,
        ⟨"TransmitQueues".toList, ",omitempty".toList, .other 4⟩,
        ⟨"MTUBytes".toList, ",omitempty".toList, .ptrString none⟩]
      = unmarshalKeys ⟨"Link".toList, [], [⟨"MTUBytes".toList, "1500".toList, []⟩,
          ⟨"Foo".toList, "bar".toList, []⟩]⟩
        [⟨"KeyList".toList, [], .keyList []⟩,
          ⟨"TransmitQueues".toList, ",omitempty".toList, .other 4⟩,
          ⟨"MTUBytes".toList, ",omitempty".toList, .ptrString none⟩] := by
  have hN : ∃ f ∈ ([⟨"KeyList".toList, [], .keyList []⟩,
        ⟨"TransmitQueues".toList, ",omitempty".toList, .other 4⟩,
        ⟨"MTUBytes".toList, ",omitempty".toList, .ptrString none⟩] : SectionRecord),
      f.config.Name = "TransmitQueues".toList :=
    ⟨⟨"TransmitQueues".toList, ",omitempty".toList, .other 4⟩, by simp, by decide⟩
  have h := (claimed_key_not_unknown
    ⟨"Link".toList, [], [⟨"TransmitQueues".toList, "4".toList, []⟩,
        ⟨"MTUBytes".toList, "1500".toList, []⟩, ⟨"Foo".toList, "bar".toList, []⟩]⟩
    [⟨"KeyList".toList, [], .keyList []⟩,
        ⟨"TransmitQueues".toList, ",omitempty".toList, .other 4⟩,
        ⟨"MTUBytes".toList, ",omitempty".toList, .ptrString none⟩]
    "TransmitQueues".toList hN).2.2.2.2 (by decide)
  exact ⟨hN, rfl, h⟩

/-! ## Theorems: the comments of optional scalar keys -/

theorem commentAfter_optionalScalar (sect : Section) {f : KeyField}
    (h : f.isOptionalScalar = true) : commentAfter sect f = [] := by
  unfold commentAfter
  cases hk : (sect.KeysByName f.config.Name).getLast? with
  | none => rfl
  | some key =>
    cases hv : f.Value <;> simp [KeyField.isOptionalScalar, hv] at h <;> simp [hv]

theorem unmarshalKey_optionalScalar (sect : Section) (r : SectionRecord) (i : Nat)
    (f : KeyField) (hf : r.get? i = some f) (h : f.isOptionalScalar = true) :
    unmarshalKey sect r i = r.set i (fieldAfter sect f) := by
  rw [unmarshalKey_eq sect r i f hf]
  have : noteField sect f = id := by
    funext g
    simp [noteField, commentAfter_optionalScalar sect h]
  rw [this, List.map_id]

theorem notes_keyComments (sect : Section) (n t : Str) : ∀ (hs : List KeyField) (m : CommentMap),
    notes sect hs ⟨n, t, .keyComments m⟩ = ⟨n, t, .keyComments (notedMap sect hs m)⟩ := by
  intro hs
  induction hs with
  | nil => intro m; rfl
  | cons h hs ih =>
    intro m
    show notes sect hs (noteField sect h ⟨n, t, .keyComments m⟩) = _
    by_cases hc : commentAfter sect h = []
    · have h1 : noteField sect h ⟨n, t, .keyComments m⟩ = ⟨n, t, .keyComments m⟩ := by
        simp [noteField, hc]
      have h2 : notedMap sect (h :: hs) m = notedMap sect hs m := by
        simp [notedMap, hc]
      rw [h1, h2]
      exact ih m
    · have h1 : noteField sect h ⟨n, t, .keyComments m⟩ =
          ⟨n, t, .keyComments (Function.update m h.config.Name (some (commentAfter sect h)))⟩ := by
        simp [noteField, hc, noteComment]
      have h2 : notedMap sect (h :: hs) m =
          notedMap sect hs (Function.update m h.config.Name (some (commentAfter sect h))) := by
        simp [notedMap, hc]
      rw [h1, h2]
      exact ih _

theorem notedMap_silent (sect : Section) (N : Str) : ∀ (hs : List KeyField) (m : CommentMap),
    (∀ h ∈ hs, h.config.Name = N → commentAfter sect h = []) → notedMap sect hs m N = m N := by
  intro hs
  induction hs with
  | nil => intro m _; rfl
  | cons h hs ih =>
    intro m hc
    have hrest : ∀ x ∈ hs, x.config.Name = N → commentAfter sect x = [] :=
      fun x hx => hc x (List.mem_cons_of_mem _ hx)
    by_cases h0 : commentAfter sect h = []
    · have h2 : notedMap sect (h :: hs) m = notedMap sect hs m := by
        simp [notedMap, h0]
      rw [h2]
      exact ih m hrest
    · have h2 : notedMap sect (h :: hs) m =
          notedMap sect hs (Function.update m h.config.Name (some (commentAfter sect h))) := by
        simp [notedMap, h0]
      have hn : h.config.Name ≠ N := fun hn => h0 (hc h (List.mem_cons_self _ _) hn)
      rw [h2, ih _ hrest, Function.update_noteq (Ne.symm hn)]

/-- C38. The comments of optional scalar keys are not recorded.  Let `f` be a field of
the record and let every field with the resolved name of `f`, so `f` itself, be a pointer
to a string or to a bool.  The iteration of the field loop of `unmarshalKeys`
for `f` ends with an empty local comment and makes no call of `AddKeyComment`: it
assigns to the field and changes nothing else.  After `unmarshalKeys` the map of the
embedded `KeyComments` has under the resolved name of `f` the entry it had before, so
none in a fresh record, and `GetKeyComment` returns what it returned before, whatever
comments the keys of the section carry. -/
theorem optional_scalar_comment_not_recorded (sect : Section) (rv : SectionRecord) (i : Nat)
    (f : KeyField) (hf : rv.get? i = some f)
    (hall : ∀ g ∈ rv, g.config.Name = f.config.Name → g.isOptionalScalar = true) :
    f.isOptionalScalar = true ∧ commentAfter sect f = [] ∧
    (∀ r : SectionRecord, r.get? i = some f →
      unmarshalKey sect r i = r.set i (fieldAfter sect f)) ∧
    (∀ j n t m, rv.get? j = some ⟨n, t, .keyComments m⟩ →
      ∃ m1, (unmarshalKeys sect rv).get? j = some ⟨n, t, .keyComments m1⟩ ∧
        m1 f.config.Name = m f.config.Name) ∧
    keyComment (unmarshalKeys sect rv) f.config.Name = keyComment rv f.config.Name := by
  have hsilent : ∀ h ∈ rv, h.config.Name = f.config.Name → commentAfter sect h = [] :=
    fun h hh hn => commentAfter_optionalScalar sect (hall h hh hn)
  have hshape : f.isOptionalScalar = true := hall f (List.get?_mem hf) rfl
  refine ⟨hshape, commentAfter_optionalScalar sect hshape, ?_, ?_, ?_⟩
  · intro r hr
    exact unmarshalKey_optionalScalar sect r i f hr hshape
  · intro j n t m hj
    refine ⟨notedMap sect rv m, ?_, notedMap_silent sect _ rv m hsilent⟩
    have hc : (⟨n, t, .keyComments m⟩ : KeyField).isComments = true := rfl
    rw [unmarshalKeys_get sect rv j _ hj, fieldAfter_of_comments sect hc, notes_keyComments]
    rfl
  · rw [keyComment_unmarshalKeys, keyComment_eq]
    cases hm : rv.findSome? commentsOf with
    | none => rfl
    | some m =>
      simp only []
      rw [notedMap_silent sect _ rv m hsilent]

theorem optional_scalar_comment_not_recorded_witness :
    (∀ g ∈ ([⟨"KeyComments".toList, [], .keyComments (fun _ => none)⟩,
        ⟨"Description".toList, ",omitempty".toList, .ptrString none⟩,
        ⟨"Name".toList, [], .string []⟩] : SectionRecord),
      g.config.Name = (KeyField.mk "Description".toList ",omitempty".toList (.ptrString none)).config.Name →
        g.isOptionalScalar = true) ∧
    keyComment (unmarshalKeys ⟨"Link".toList, [],
        [⟨"Description".toList, "uplink".toList, "the description".toList⟩,
          ⟨"Name".toList, "eth0".toList, "the name".toList⟩]⟩
      [⟨"KeyComments".toList, [], .keyComments (fun _ => none)⟩,
        ⟨"Description".toList, ",omitempty".toList, .ptrString none⟩,
        ⟨"Name".toList, [], .string []⟩]) "Name".toList = "the name".toList ∧
    (unmarshalKeys ⟨"Link".toList, [],
        [⟨"Description".toList, "uplink".toList, "the description".toList⟩,
          ⟨"Name".toList, "eth0".toList, "the name".toList⟩]⟩
      [⟨"KeyComments".toList, [], .keyComments (fun _ => none)⟩,
        ⟨"Description".toList, ",omitempty".toList, .ptrString none⟩,
        ⟨"Name".toList, [], .string []⟩]).get? 1
      = some ⟨"Description".toList, ",omitempty".toList, .ptrString (some "uplink".toList)⟩ ∧
    (∃ m1, (unmarshalKeys ⟨"Link".toList, [],
        [⟨"Description".toList, "uplink".toList, "the description".toList⟩,
          ⟨"Name".toList, "eth0".toList, "the name".toList⟩]⟩
      [⟨"KeyComments".toList, [], .keyComments (fun _ => none)⟩,
        ⟨"Description".toList, ",omitempty".toList, .ptrString none⟩,
        ⟨"Name".toList, [], .string []⟩]).get? 0
        = some ⟨"KeyComments".toList, [], .keyComments m1⟩ ∧
      m1 (KeyField.mk "Description".toList ",omitempty".toList (.ptrString none)).config.Name
        = (fun _ => none : CommentMap)
            (KeyField.mk "Description".toList ",omitempty".toList (.ptrString none)).config.Name) ∧
    keyComment (unmarshalKeys ⟨"Link".toList, [],
        [⟨"Description".toList, "uplink".toList, "the description".toList⟩,
          ⟨"Name".toList, "eth0".toList, "the name".toList⟩]⟩
      [⟨"KeyComments".toList, [], .keyComments (fun _ => none)⟩,
        ⟨"Description".toList, ",omitempty".toList, .ptrString none⟩,
        ⟨"Name".toList, [], .string []⟩]) "Description".toList = [] := by
  have hall : ∀ g ∈ ([⟨"KeyComments".toList, [], .keyComments (fun _ => none)⟩,
        ⟨"Description".toList, ",omitempty".toList, .ptrString none⟩,
        ⟨"Name".toList, [], .string []⟩] : SectionRecord),
      g.config.Name = (KeyField.mk "Description".toList ",omitempty".toList (.ptrString none)).config.Name →
        g.isOptionalScalar = true := by decide
  have h := optional_scalar_comment_not_recorded
    ⟨"Link".toList, [],
        [⟨"Description".toList, "uplink".toList, "the description".toList⟩,
          ⟨"Name".toList, "eth0".toList, "the name".toList⟩]⟩
    [⟨"KeyComments".toList, [], .keyComments (fun _ => none)⟩,
        ⟨"Description".toList, ",omitempty".toList, .ptrString none⟩,
        ⟨"Name".toList, [], .string []⟩]
    1 ⟨"Description".toList, ",omitempty".toList, .ptrString none⟩ rfl hall
  exact ⟨hall, by decide, rfl,
    h.2.2.2.1 0 "KeyComments".toList [] (fun _ => none) rfl, by decide⟩

/-! ## Theorems: the last key of a string field after `Unmarshal` -/

theorem findSome_commentsOf_set : ∀ (r : SectionRecord) (j : Nat) (x y : KeyField),
    r.get? j = some y → commentsOf x = commentsOf y →
    (r.set j x).findSome? commentsOf = r.findSome? commentsOf := by
  intro r
  induction r with
  | nil => intro j x y h; simp at h
  | cons a r ih =>
    intro j x y h hc
    cases j with
    | zero =>
      simp only [List.get?_cons_zero, Option.some.injEq] at h
      subst h
      simp only [List.set_cons_zero, List.findSome?_cons, hc]
    | succ j =>
      simp only [List.get?_cons_succ] at h
      simp only [List.set_cons_succ, List.findSome?_cons, ih j x y h hc]

theorem setCommentField_get {r o : SectionRecord} {c : Str} (h : setCommentField r c = some o)
    {i : Nat} {f : KeyField} (hf : r.get? i = some f)
    (hn : f.Name ≠ ['C', 'o', 'm', 'm', 'e', 'n', 't']) : o.get? i = some f := by
  unfold setCommentField at h
  cases hidx : r.findIdx? (fun f => f.Name = ['C', 'o', 'm', 'm', 'e', 'n', 't']) with
  | none =>
    rw [hidx] at h
    injection h with h
    rw [← h]
    exact hf
  | some j =>
    rw [hidx] at h
    dsimp only at h
    have hj := List.findIdx?_of_eq_some hidx
    rw [← List.get?_eq_getElem?] at hj
    cases hg : r.get? j with
    | none => rw [hg] at h; cases h
    | some g =>
      obtain ⟨n, t, val⟩ := g
      rw [hg] at hj h
      have hj2 : n = ['C', 'o', 'm', 'm', 'e', 'n', 't'] := by simpa using hj
      have hij : j ≠ i := by
        intro hc
        rw [hc, hf] at hg
        injection hg with hg
        rw [hg] at hn
        exact hn hj2
      cases val with
      | string v =>
        injection h with h
        rw [← h]
        simp only [List.get?_eq_getElem?] at hf ⊢
        rw [List.getElem?_set_ne hij]
        exact hf
      | _ => cases h

theorem setCommentField_keyComment {r o : SectionRecord} {c : Str}
    (h : setCommentField r c = some o) (n : Str) : keyComment o n = keyComment r n := by
  unfold setCommentField at h
  cases hidx : r.findIdx? (fun f => f.Name = ['C', 'o', 'm', 'm', 'e', 'n', 't']) with
  | none =>
    rw [hidx] at h
    injection h with h
    rw [← h]
  | some j =>
    rw [hidx] at h
    dsimp only at h
    cases hg : r.get? j with
    | none => rw [hg] at h; cases h
    | some g =>
      obtain ⟨n1, t, val⟩ := g
      rw [hg] at h
      cases val with
      | string v =>
        injection h with h
        rw [← h, keyComment_eq, keyComment_eq,
          findSome_commentsOf_set r j ⟨n1, t, .string c⟩ ⟨n1, t, .string v⟩ hg rfl]
      | _ => cases h

theorem unmarshalKeys_string_comment (sect : Section) (rv : SectionRecord) (i : Nat)
    (name tag v0 : Str) (key : Key) (hf : rv.get? i = some ⟨name, tag, .string v0⟩)
    (hk : (sect.KeysByName (configForField name tag).Name).getLast? = some key)
    (hcap : ∃ g ∈ rv, g.isComments = true) (hne : key.Comment ≠ [])
    (hlater : ∀ h ∈ rv.drop (i + 1), h.config.Name ≠ (configForField name tag).Name) :
    keyComment (unmarshalKeys sect rv) (configForField name tag).Name = key.Comment := by
  obtain ⟨m, hm⟩ := findSome_commentsOf_of_mem hcap
  obtain ⟨htake, hsplit, hlt⟩ := take_succ_of_get rv i _ hf
  have hca : commentAfter sect ⟨name, tag, .string v0⟩ = key.Comment := by
    simp only [commentAfter, KeyField.config, hk]
  have hcfg : (KeyField.mk name tag (.string v0)).config.Name = (configForField name tag).Name :=
    rfl
  rw [keyComment_unmarshalKeys, hm]
  simp only
  have h1 := notedMap_last sect (rv.take i) (rv.drop (i + 1)) ⟨name, tag, .string v0⟩ m
    (by rw [hca]; exact hne) hlater
  rw [← hsplit] at h1
  rw [← hcfg, h1, hca]
  rfl

/-- C16, amended. The last occurrence wins for a string field other than the comment
slot.  Take a struct type whose field `Comment`, if it has one, is a string, and a string
field of it that is not named `Comment`.  When the section has keys of the resolved name
of the field, the object `Unmarshal` builds for the section (a fresh struct, filled by
`unmarshalKeys`, with the section comment assigned to its comment slot) holds in that
field the value of the last of those keys, whatever the earlier ones held.  When the
struct embeds `KeyComments`, the comment of that last key is not empty and no later field
of the struct bears the same resolved name, that comment is what `GetKeyComment` reports
on the object under the resolved name. -/
theorem string_last_key (sect : Section) (elem : SectionRecord) (i : Nat)
    (name tag v0 : Str) (key : Key) (hslot : commentSlotOK elem = true)
    (hf : elem.get? i = some ⟨name, tag, .string v0⟩)
    (hname : name ≠ ['C', 'o', 'm', 'm', 'e', 'n', 't'])
    (hk : (sect.KeysByName (configForField name tag).Name).getLast? = some key) :
    ∃ o, newObject sect elem = some o ∧
      o.get? i = some ⟨name, tag, .string key.Value⟩ ∧
      ((∃ g ∈ elem, g.isComments = true) → key.Comment ≠ [] →
        (∀ h ∈ elem.drop (i + 1), h.config.Name ≠ (configForField name tag).Name) →
        keyComment o (configForField name tag).Name = key.Comment) := by
  obtain ⟨o, ho, -⟩ := newObject_some sect elem hslot
  have hz : (SectionRecord.zero elem).get? i = some ⟨name, tag, .string []⟩ :=
    zero_get elem i _ hf
  have hget := unmarshalKeys_get_string sect (SectionRecord.zero elem) i name tag [] key hz hk
  refine ⟨o, ho, setCommentField_get ho hget hname, ?_⟩
  intro hcap hne hlater
  rw [setCommentField_keyComment ho]
  refine unmarshalKeys_string_comment sect (SectionRecord.zero elem) i name tag [] key hz hk
    ?_ hne ?_
  · obtain ⟨g, hg, hgc⟩ := hcap
    refine ⟨{ g with Value := g.Value.zero }, List.mem_map.2 ⟨g, hg, rfl⟩, ?_⟩
    obtain ⟨n, t, val⟩ := g
    cases val <;> first | rfl | (simp [KeyField.isComments] at hgc)
  · intro h hh
    simp only [SectionRecord.zero, ← List.map_drop, List.mem_map] at hh
    obtain ⟨g, hg, rfl⟩ := hh
    exact hlater g hg

/-- Witness for C16 (amended): the key `Name` given twice with comments, into a struct
shaped like the `matchSection` of `TestUnmarshal`; the object is the one
`unmarshalSections` stores in the field `Match`. -/
theorem string_last_key_witness :
    commentSlotOK [⟨"KeyComments".toList, [], .keyComments (fun _ => none)⟩,
        ⟨"Comment".toList, [], .string []⟩,
        ⟨"Name".toList, [], .string []⟩,
        ⟨"MACAddresses".toList, "MACAddress,wslist".toList, .sliceString []⟩] = true ∧
    ((Section.mk "Match".toList "about".toList
        [⟨"Name".toList, "eth0".toList, "old".toList⟩,
          ⟨"MACAddress".toList, "01:23".toList, []⟩,
          ⟨"Name".toList, "eth*".toList, "some comment\nmore comment!".toList⟩]).KeysByName
        (configForField "Name".toList []).Name).getLast? =
      some ⟨"Name".toList, "eth*".toList, "some comment\nmore comment!".toList⟩ ∧
    ∃ o, newObject ⟨"Match".toList, "about".toList,
        [⟨"Name".toList, "eth0".toList, "old".toList⟩,
          ⟨"MACAddress".toList, "01:23".toList, []⟩,
          ⟨"Name".toList, "eth*".toList, "some comment\nmore comment!".toList⟩]⟩
        [⟨"KeyComments".toList, [], .keyComments (fun _ => none)⟩,
          ⟨"Comment".toList, [], .string []⟩,
          ⟨"Name".toList, [], .string []⟩,
          ⟨"MACAddresses".toList, "MACAddress,wslist".toList, .sliceString []⟩] = some o ∧
      o.get? 2 = some ⟨"Name".toList, [], .string "eth*".toList⟩ ∧
      keyComment o (configForField "Name".toList []).Name =
        "some comment\nmore comment!".toList ∧
      unmarshalSections ⟨[⟨"Match".toList, "about".toList,
        [⟨"Name".toList, "eth0".toList, "old".toList⟩,
          ⟨"MACAddress".toList, "01:23".toList, []⟩,
          ⟨"Name".toList, "eth*".toList, "some comment\nmore comment!".toList⟩]⟩]⟩
        [⟨"Match".toList, [], .struct
          [⟨"KeyComments".toList, [], .keyComments (fun _ => none)⟩,
            ⟨"Comment".toList, [], .string []⟩,
            ⟨"Name".toList, [], .string []⟩,
            ⟨"MACAddresses".toList, "MACAddress,wslist".toList, .sliceString []⟩]⟩] =
        .ok [⟨"Match".toList, [], .struct o⟩] := by
  obtain ⟨o, h1, h2, h3⟩ := string_last_key ⟨"Match".toList, "about".toList,
        [⟨"Name".toList, "eth0".toList, "old".toList⟩,
          ⟨"MACAddress".toList, "01:23".toList, []⟩,
          ⟨"Name".toList, "eth*".toList, "some comment\nmore comment!".toList⟩]⟩
        [⟨"KeyComments".toList, [], .keyComments (fun _ => none)⟩,
          ⟨"Comment".toList, [], .string []⟩,
          ⟨"Name".toList, [], .string []⟩,
          ⟨"MACAddresses".toList, "MACAddress,wslist".toList, .sliceString []⟩] 2
        "Name".toList [] []
        ⟨"Name".toList, "eth*".toList, "some comment\nmore comment!".toList⟩
        (by decide) rfl (by decide) (by decide)
  refine ⟨by decide, by decide, o, h1, h2,
    h3 ⟨⟨"KeyComments".toList, [], .keyComments (fun _ => none)⟩, by simp, rfl⟩ (by decide)
      (by decide), ?_⟩
  have ho : some o = _ := h1.symm.trans rfl
  injection ho with ho
  rw [ho]
  rfl

/-- C16, counterexample. A key named `Comment` does not reach the string field `Comment`:
after `unmarshalSections` the field holds the comment of the section, not the value of
the last matching key.  And with a later list field of the same resolved name `N`, the
comment registered under `N` is the one that field collects from all keys of the name,
not the comment of the last key.  And into a struct type whose field `Comment` is a
`*string`, the assignment of the section comment panics: `Unmarshal` returns no record,
so the field `Name` does not receive the value of its key. -/
theorem string_last_key_counterexample :
    ((Section.mk "Match".toList "about".toList
        [⟨"Comment".toList, "from a key".toList, []⟩]).KeysByName
        (configForField "Comment".toList []).Name).getLast? =
      some ⟨"Comment".toList, "from a key".toList, []⟩ ∧
    unmarshalSections ⟨[⟨"Match".toList, "about".toList,
        [⟨"Comment".toList, "from a key".toList, []⟩]⟩]⟩
        [⟨"Match".toList, [], .struct [⟨"Comment".toList, [], .string []⟩]⟩] =
      .ok [⟨"Match".toList, [], .struct [⟨"Comment".toList, [], .string "about".toList⟩]⟩] ∧
    ("about".toList : Str) ≠ "from a key".toList ∧
    (∃ o, newObject ⟨"Match".toList, [],
        [⟨"N".toList, "x".toList, "c1".toList⟩, ⟨"N".toList, "y".toList, "c2".toList⟩]⟩
        [⟨"KeyComments".toList, [], .keyComments (fun _ => none)⟩,
          ⟨"A".toList, "N".toList, .string []⟩,
          ⟨"B".toList, "N".toList, .sliceString []⟩] = some o ∧
      o.get? 1 = some ⟨"A".toList, "N".toList, .string "y".toList⟩ ∧
      keyComment o "N".toList = "c1\nc2".toList ∧
      ("c1\nc2".toList : Str) ≠ "c2".toList) ∧
    newObject ⟨"Match".toList, [], [⟨"Name".toList, "x".toList, []⟩]⟩
        [⟨"Comment".toList, [], .ptrString none⟩, ⟨"Name".toList, [], .string []⟩] = none ∧
    unmarshalSections ⟨[⟨"Match".toList, [], [⟨"Name".toList, "x".toList, []⟩]⟩]⟩
        [⟨"Match".toList, [], .struct
          [⟨"Comment".toList, [], .ptrString none⟩, ⟨"Name".toList, [], .string []⟩]⟩] =
      .fail .panic :=
  ⟨by decide, rfl, by decide, ⟨_, rfl, rfl, rfl, by decide⟩, rfl, rfl⟩

/-! ## Theorems: the sections in front of a section header -/

theorem take_modify_of_le {α : Type} (f : α → α) : ∀ (l : List α) (n L : Nat), L ≤ n →
    (l.modify f n).take L = l.take L := by
  intro l
  induction l with
  | nil => intro n L _; simp
  | cons a l ih =>
    intro n L h
    cases L with
    | zero => simp
    | succ L =>
      cases n with
      | zero => omega
      | succ n =>
        simp only [List.modify_succ_cons, List.take_succ_cons, ih n L (by omega)]

theorem past_modifyKey {S0 : List Section} {d : decodeState} (h : d.past S0) (p : Nat × Nat)
    (f : Key → Key) (hp : S0.length ≤ p.1) (k : Option (Nat × Nat))
    (hk : ∀ q ∈ k, S0.length ≤ q.1) (c : Str) :
    decodeState.past S0 { d with file := d.file.modifyKey p f, key := k, comment := c } := by
  obtain ⟨h1, h2, -, h4⟩ := h
  refine ⟨?_, ?_, hk, h4⟩
  · rw [modifyKey_length]
    exact h1
  · show ((d.file.modifyKey p f).Sections).take S0.length = S0
    simp only [File.modifyKey]
    rw [take_modify_of_le _ _ _ _ hp]
    exact h2

theorem past_closeKey {S0 : List Section} {d : decodeState} (h : d.past S0) :
    d.closeKey.past S0 := by
  cases hk : d.key with
  | none =>
    have : d.closeKey = d := by simp [decodeState.closeKey, hk]
    rw [this]
    exact h
  | some p =>
    have hp : S0.length ≤ p.1 := h.2.2.1 p (by simp [hk])
    have := past_modifyKey h p
      (fun k => { k with Comment := d.comment, Value := ReplaceAll k.Value '\\' [' '] }) hp none
      (by simp) []
    simpa [decodeState.closeKey, hk] using this

theorem past_step {S0 : List Section} {d d1 : decodeState} {sc sc1 : List Scanned}
    (h : d.past S0) (hs : decodeStep d sc = .next d1 sc1) : d1.past S0 := by
  cases sc with
  | nil => simp [decodeStep_nil] at hs
  | cons t rest =>
    cases ht : t.tok with
    | COMMENT =>
      rw [decodeStep_comment ht] at hs
      cases ha : d.addComment t.lit with
      | none => simp [ha] at hs
      | some d' =>
        simp only [ha, Step.next.injEq] at hs
        obtain ⟨-, hd⟩ := addComment_eq ha
        rw [← hs.1, hd]
        exact h
    | ASSIGN =>
      rw [decodeStep_assign ht] at hs
      cases hk : d.key with
      | none =>
        rw [hk] at hs
        injection hs with hs1 hs2
        rw [← hs1]
        exact h
      | some p =>
        rw [hk] at hs
        injection hs with hs1 hs2
        rw [← hs1]
        have hp : S0.length ≤ p.1 := h.2.2.1 p (by simp [hk])
        exact past_modifyKey h p (fun k => { k with Value := k.Value ++ ['='] }) hp (some p)
          (by intro q hq; simp only [Option.mem_def, Option.some.injEq] at hq; rw [← hq]; exact hp)
          d.comment
    | EOF => rw [decodeStep_eof ht] at hs; cases hs
    | NEWLINE =>
      rcases decodeStep_newline_cases ht d rest with h1 | h1
      · rw [h1] at hs
        injection hs with hs1 hs2
        rw [← hs1]
        exact h
      · rw [h1] at hs
        injection hs with hs1 hs2
        rw [← hs1]
        exact past_closeKey h
    | STRING =>
      rw [decodeStep_string ht] at hs
      cases hsect : d.sect with
      | none => rw [addString_nosect hsect] at hs; cases hs
      | some si =>
        have hsi : S0.length ≤ si := h.2.2.2 si (by simp [hsect])
        cases hk : d.key with
        | none =>
          rw [addString_idle hsect hk] at hs
          by_cases ha : (Scan rest).1.tok ≠ Token.ASSIGN
          · rw [if_pos ha] at hs
            cases hs
          · rw [if_neg ha] at hs
            injection hs with hs1 hs2
            rw [← hs1]
            obtain ⟨h1, h2, -, h4⟩ := h
            refine ⟨?_, ?_, ?_, h4⟩
            · simpa using h1
            · show (d.file.Sections.modify _ si).take S0.length = S0
              rw [take_modify_of_le _ _ _ _ hsi]
              exact h2
            · intro q hq
              simp only [Option.mem_def, Option.some.injEq] at hq
              rw [← hq]
              exact hsi
        | some p =>
          rw [addString_active hsect hk] at hs
          injection hs with hs1 hs2
          rw [← hs1]
          have hp : S0.length ≤ p.1 := h.2.2.1 p (by simp [hk])
          exact past_modifyKey h p (fun k => { k with Value := k.Value ++ TrimSpace t.lit }) hp
            d.key h.2.2.1 d.comment
    | SECTION =>
      rw [decodeStep_section ht] at hs
      cases ha : d.addSection t.pos t.lit with
      | fail e => simp [ha] at hs
      | ok d' =>
        simp only [ha, Step.next.injEq] at hs
        obtain ⟨-, -, hd⟩ := addSection_eq ha
        rw [← hs.1, hd]
        obtain ⟨h1, h2, h3, -⟩ := h
        refine ⟨?_, ?_, h3, ?_⟩
        · simp only [List.length_append, List.length_singleton]
          omega
        · show (d.file.Sections ++ _).take S0.length = S0
          rw [List.take_append_of_le_length (by omega)]
          exact h2
        · intro s hs'
          simp only [Option.mem_def, Option.some.injEq] at hs'
          omega
    | ILLEGAL =>
      rw [decodeStep_illegal ht] at hs
      injection hs with hs1 hs2
      rw [← hs1]
      exact h

theorem past_iterate {S0 : List Section} (m : Nat) : ∀ {d dm : decodeState}
    {sc scm : List Scanned}, d.past S0 → iterate m d sc = some (dm, scm) → dm.past S0 := by
  induction m with
  | zero =>
    intro d dm sc scm h hi
    simp only [iterate, Option.some.injEq, Prod.mk.injEq] at hi
    rw [← hi.1]
    exact h
  | succ m ih =>
    intro d dm sc scm h hi
    cases hd : decodeStep d sc with
    | next d' sc' =>
      rw [iterate_succ_of_next hd] at hi
      exact ih (past_step h hd) hi
    | done f => simp [iterate, hd] at hi
    | fail e => simp [iterate, hd] at hi

theorem past_decodeFrom {S0 : List Section} (n : Nat) : ∀ (d : decodeState)
    (sc : List Scanned) (f : File), sc.length ≤ n → d.past S0 →
    decodeFrom d sc = some (.ok f) →
    f.Sections.take S0.length = S0 ∧ S0.length < f.Sections.length := by
  induction n with
  | zero =>
    intro d sc f hlen h hf
    have : sc = [] := List.length_eq_zero.1 (by omega)
    subst this
    rw [decodeFrom_step, decodeStep_nil] at hf
    simp only [Option.some.injEq, Res.ok.injEq] at hf
    rw [← hf]
    exact ⟨(past_closeKey h).2.1, (past_closeKey h).1⟩
  | succ n ih =>
    intro d sc f hlen h hf
    rw [decodeFrom_step] at hf
    cases hs : decodeStep d sc with
    | next d1 sc1 =>
      rw [hs] at hf
      have hl := decodeStep_next_length hs
      exact ih d1 sc1 f (by omega) (past_step h hs) hf
    | done f1 =>
      rw [hs] at hf
      simp only [Option.some.injEq, Res.ok.injEq] at hf
      cases sc with
      | nil =>
        rw [decodeStep_nil] at hs
        injection hs with hs
        rw [← hf, ← hs]
        exact ⟨(past_closeKey h).2.1, (past_closeKey h).1⟩
      | cons t rest =>
        obtain ⟨-, hfe⟩ := decodeStep_done_consumed hs
        rw [← hf, hfe]
        exact ⟨(past_closeKey h).2.1, (past_closeKey h).1⟩
    | fail e =>
      rw [hs] at hf
      simp at hf

/-- C31, amended. The active key at a section header that follows a line break.  When
the decoder, started on any token stream, has reached a `NEWLINE` token that a `SECTION`
token follows, the step on the `NEWLINE` leaves it at the `SECTION` token in a state in
which either no key is active, or a key is active whose accumulated value ends with a
backslash (a continuation is open: the line break has not closed the key).  In the first
case nothing that follows the header reaches the sections in front of it: in every
state the decoder is in after the step on the `SECTION` token those sections are what
they were at the header, key by key with values and comments, a section follows them,
and an active key lies in the new section or a later one; and when `decode` returns a
file, its first sections are those sections, unchanged. -/
theorem section_after_newline (ts : List Scanned) (n : Nat) (d0 : decodeState)
    (nl s : Scanned) (rest : List Scanned)
    (hreach : iterate n decodeState.init ts = some (d0, nl :: s :: rest))
    (hn : nl.tok = Token.NEWLINE) (hs : s.tok = Token.SECTION) :
    ∃ d1, iterate (n + 1) decodeState.init ts = some (d1, s :: rest) ∧
      (d1.key = none ∨
        ∃ p k, d1.key = some p ∧ d1.file.keyAt p = some k ∧ HasSuffix k.Value ['\\'] = true) ∧
      (d1.key = none →
        (∀ m dm scm, iterate (m + 1) d1 (s :: rest) = some (dm, scm) →
          dm.file.Sections.take d1.file.Sections.length = d1.file.Sections ∧
          d1.file.Sections.length < dm.file.Sections.length ∧
          (∀ p, dm.key = some p → d1.file.Sections.length ≤ p.1) ∧
          (∀ si, dm.sect = some si → d1.file.Sections.length ≤ si)) ∧
        (∀ f, decode ts = some (.ok f) →
          f.Sections.take d1.file.Sections.length = d1.file.Sections ∧
          d1.file.Sections.length < f.Sections.length)) := by
  obtain ⟨d1, hstep, hkey⟩ := decodeStep_newline_key hn d0 (s :: rest)
  have hit := iterate_snoc n hreach hstep
  refine ⟨d1, hit, hkey, ?_⟩
  intro hk
  have hpast : ∀ d2 sc2, decodeStep d1 (s :: rest) = .next d2 sc2 →
      d2.past d1.file.Sections ∧ sc2 = rest := by
    intro d2 sc2 h2
    rw [decodeStep_section hs] at h2
    cases ha : d1.addSection s.pos s.lit with
    | fail e => simp [ha] at h2
    | ok d' =>
      simp only [ha, Step.next.injEq] at h2
      obtain ⟨-, -, hd⟩ := addSection_eq ha
      obtain ⟨rfl, rfl⟩ := h2
      refine ⟨?_, rfl⟩
      rw [hd]
      refine ⟨by simp, by simp, ?_, ?_⟩
      · intro p hp
        simp only [Option.mem_def] at hp
        rw [hk] at hp
        cases hp
      · intro si hsi
        simp only [Option.mem_def, Option.some.injEq] at hsi
        omega
  refine ⟨?_, ?_⟩
  · intro m dm scm hm
    cases h2 : decodeStep d1 (s :: rest) with
    | next d2 sc2 =>
      rw [iterate_succ_of_next h2] at hm
      obtain ⟨h1, h2', h3, h4⟩ := past_iterate m (hpast d2 sc2 h2).1 hm
      exact ⟨h2', h1, fun p hp => h3 p (by simp [hp]), fun si hsi => h4 si (by simp [hsi])⟩
    | done f => simp [iterate, h2] at hm
    | fail e => simp [iterate, h2] at hm
  · intro f hf
    unfold decode at hf
    rw [decodeFrom_iterate (n + 1) hit, decodeFrom_step] at hf
    cases h2 : decodeStep d1 (s :: rest) with
    | next d2 sc2 =>
      rw [h2] at hf
      exact past_decodeFrom sc2.length d2 sc2 f (le_refl _) (hpast d2 sc2 h2).1 hf
    | done f1 =>
      rw [decodeStep_section hs] at h2
      cases ha : d1.addSection s.pos s.lit <;> simp [ha] at h2
    | fail e =>
      rw [h2] at hf
      simp at hf

/-- Witness for C31 (amended): the tokens of the lines `[A]`, `k=v`, `[B]`, `x=y`. -/
theorem section_after_newline_witness :
    (⟨⟨2, 4⟩, .NEWLINE, "\n".toList⟩ : Scanned).tok = Token.NEWLINE ∧
    (⟨⟨3, 1⟩, .SECTION, "[B]".toList⟩ : Scanned).tok = Token.SECTION ∧
    decode [⟨⟨1, 1⟩, .SECTION, "[A]".toList⟩, ⟨⟨1, 4⟩, .NEWLINE, "\n".toList⟩,
            ⟨⟨2, 1⟩, .STRING, "k".toList⟩, ⟨⟨2, 2⟩, .ASSIGN, "=".toList⟩,
            ⟨⟨2, 3⟩, .STRING, "v".toList⟩, ⟨⟨2, 4⟩, .NEWLINE, "\n".toList⟩,
            ⟨⟨3, 1⟩, .SECTION, "[B]".toList⟩, ⟨⟨3, 4⟩, .NEWLINE, "\n".toList⟩,
            ⟨⟨4, 1⟩, .STRING, "x".toList⟩, ⟨⟨4, 2⟩, .ASSIGN, "=".toList⟩,
            ⟨⟨4, 3⟩, .STRING, "y".toList⟩, ⟨⟨4, 4⟩, .NEWLINE, "\n".toList⟩]
      = some (.ok ⟨[⟨"A".toList, [], [⟨"k".toList, "v".toList, []⟩]⟩,
          ⟨"B".toList, [], [⟨"x".toList, "y".toList, []⟩]⟩]⟩) ∧
    ∃ d1, iterate (4 + 1) decodeState.init
          [⟨⟨1, 1⟩, .SECTION, "[A]".toList⟩, ⟨⟨1, 4⟩, .NEWLINE, "\n".toList⟩,
            ⟨⟨2, 1⟩, .STRING, "k".toList⟩, ⟨⟨2, 2⟩, .ASSIGN, "=".toList⟩,
            ⟨⟨2, 3⟩, .STRING, "v".toList⟩, ⟨⟨2, 4⟩, .NEWLINE, "\n".toList⟩,
            ⟨⟨3, 1⟩, .SECTION, "[B]".toList⟩, ⟨⟨3, 4⟩, .NEWLINE, "\n".toList⟩,
            ⟨⟨4, 1⟩, .STRING, "x".toList⟩, ⟨⟨4, 2⟩, .ASSIGN, "=".toList⟩,
            ⟨⟨4, 3⟩, .STRING, "y".toList⟩, ⟨⟨4, 4⟩, .NEWLINE, "\n".toList⟩]
        = some (d1, ⟨⟨3, 1⟩, .SECTION, "[B]".toList⟩ ::
            [⟨⟨3, 4⟩, .NEWLINE, "\n".toList⟩,
              ⟨⟨4, 1⟩, .STRING, "x".toList⟩, ⟨⟨4, 2⟩, .ASSIGN, "=".toList⟩,
              ⟨⟨4, 3⟩, .STRING, "y".toList⟩, ⟨⟨4, 4⟩, .NEWLINE, "\n".toList⟩]) ∧
      (d1.key = none ∨
        ∃ p k, d1.key = some p ∧ d1.file.keyAt p = some k ∧ HasSuffix k.Value ['\\'] = true) ∧
      (d1.key = none →
        (∀ m dm scm, iterate (m + 1) d1 (⟨⟨3, 1⟩, .SECTION, "[B]".toList⟩ ::
            [⟨⟨3, 4⟩, .NEWLINE, "\n".toList⟩,
              ⟨⟨4, 1⟩, .STRING, "x".toList⟩, ⟨⟨4, 2⟩, .ASSIGN, "=".toList⟩,
              ⟨⟨4, 3⟩, .STRING, "y".toList⟩, ⟨⟨4, 4⟩, .NEWLINE, "\n".toList⟩]) = some (dm, scm) →
          dm.file.Sections.take d1.file.Sections.length = d1.file.Sections ∧
          d1.file.Sections.length < dm.file.Sections.length ∧
          (∀ p, dm.key = some p → d1.file.Sections.length ≤ p.1) ∧
          (∀ si, dm.sect = some si → d1.file.Sections.length ≤ si)) ∧
        (∀ f, decode [⟨⟨1, 1⟩, .SECTION, "[A]".toList⟩, ⟨⟨1, 4⟩, .NEWLINE, "\n".toList⟩,
            ⟨⟨2, 1⟩, .STRING, "k".toList⟩, ⟨⟨2, 2⟩, .ASSIGN, "=".toList⟩,
            ⟨⟨2, 3⟩, .STRING, "v".toList⟩, ⟨⟨2, 4⟩, .NEWLINE, "\n".toList⟩,
            ⟨⟨3, 1⟩, .SECTION, "[B]".toList⟩, ⟨⟨3, 4⟩, .NEWLINE, "\n".toList⟩,
            ⟨⟨4, 1⟩, .STRING, "x".toList⟩, ⟨⟨4, 2⟩, .ASSIGN, "=".toList⟩,
            ⟨⟨4, 3⟩, .STRING, "y".toList⟩, ⟨⟨4, 4⟩, .NEWLINE, "\n".toList⟩] = some (.ok f) →
          f.Sections.take d1.file.Sections.length = d1.file.Sections ∧
          d1.file.Sections.length < f.Sections.length)) :=
  ⟨rfl, rfl, by decide,
   section_after_newline
      [⟨⟨1, 1⟩, .SECTION, "[A]".toList⟩, ⟨⟨1, 4⟩, .NEWLINE, "\n".toList⟩,
        ⟨⟨2, 1⟩, .STRING, "k".toList⟩, ⟨⟨2, 2⟩, .ASSIGN, "=".toList⟩,
        ⟨⟨2, 3⟩, .STRING, "v".toList⟩, ⟨⟨2, 4⟩, .NEWLINE, "\n".toList⟩,
        ⟨⟨3, 1⟩, .SECTION, "[B]".toList⟩, ⟨⟨3, 4⟩, .NEWLINE, "\n".toList⟩,
        ⟨⟨4, 1⟩, .STRING, "x".toList⟩, ⟨⟨4, 2⟩, .ASSIGN, "=".toList⟩,
        ⟨⟨4, 3⟩, .STRING, "y".toList⟩, ⟨⟨4, 4⟩, .NEWLINE, "\n".toList⟩]
      4 ⟨[], some 0, some (0, 0), ⟨[⟨"A".toList, [], [⟨"k".toList, "v".toList, []⟩]⟩]⟩⟩
      ⟨⟨2, 4⟩, .NEWLINE, "\n".toList⟩ ⟨⟨3, 1⟩, .SECTION, "[B]".toList⟩
      [⟨⟨3, 4⟩, .NEWLINE, "\n".toList⟩,
        ⟨⟨4, 1⟩, .STRING, "x".toList⟩, ⟨⟨4, 2⟩, .ASSIGN, "=".toList⟩,
        ⟨⟨4, 3⟩, .STRING, "y".toList⟩, ⟨⟨4, 4⟩, .NEWLINE, "\n".toList⟩]
      (by decide) rfl rfl⟩

/-! ## Theorems: the names of the file, in the order read -/

theorem nameState_idle {d : decodeState} (h : d.key = none) : d.nameState = .idle := by
  simp [decodeState.nameState, h]

theorem nameState_value {d : decodeState} {p : Nat × Nat} {k : Key} (h : d.key = some p)
    (hat : d.file.keyAt p = some k) : d.nameState = .value k.Value := by
  simp [decodeState.nameState, h, hat]

theorem decodeFrom_names (n : Nat) : ∀ (d : decodeState) (sc : List Scanned) (f : File),
    sc.length ≤ n → d.WF → decodeFrom d sc = some (.ok f) →
    f.skeleton = namesInOrder d.nameState d.file.skeleton sc := by
  induction n with
  | zero =>
    intro d sc f hlen hwf hf
    have : sc = [] := List.length_eq_zero.1 (by omega)
    subst this
    rw [decodeFrom_done (decodeStep_nil d)] at hf
    simp only [Option.some.injEq, Res.ok.injEq] at hf
    rw [← hf, skeleton_closeKey]
    cases d.nameState <;> rfl
  | succ n ih =>
    intro d sc f hlen hwf hf
    cases sc with
    | nil =>
      rw [decodeFrom_done (decodeStep_nil d)] at hf
      simp only [Option.some.injEq, Res.ok.injEq] at hf
      rw [← hf, skeleton_closeKey]
      cases d.nameState <;> rfl
    | cons t rest =>
      have hrest : rest.length ≤ n := by simpa using hlen
      cases hk : d.key with
      | none =>
        have hst := nameState_idle hk
        rw [hst]
        cases ht : t.tok with
        | ILLEGAL =>
          have hs := decodeStep_illegal ht d rest
          rw [decodeFrom_next hs] at hf
          have := ih d rest f hrest hwf hf
          rw [hst] at this
          simp only [namesInOrder, ht]
          exact this
        | EOF =>
          rw [decodeFrom_eof ht] at hf
          simp only [Option.some.injEq, Res.ok.injEq] at hf
          rw [← hf, skeleton_closeKey]
          simp only [namesInOrder, ht]
        | COMMENT =>
          cases ha : d.addComment t.lit with
          | none =>
            have hs : decodeStep d (t :: rest) = .fail .panic := by
              rw [decodeStep_comment ht, ha]
            rw [decodeFrom_fail hs] at hf
            simp at hf
          | some d1 =>
            have hs : decodeStep d (t :: rest) = .next d1 rest := by
              rw [decodeStep_comment ht, ha]
            obtain ⟨-, hd⟩ := addComment_eq ha
            rw [decodeFrom_next hs] at hf
            have := ih d1 rest f hrest (decodeStep_WF hwf hs) hf
            have hk1 : d1.key = none := by rw [hd]; exact hk
            have hf1 : d1.file = d.file := by rw [hd]
            rw [nameState_idle hk1, hf1] at this
            simp only [namesInOrder, ht]
            exact this
        | SECTION =>
          cases ha : d.addSection t.pos t.lit with
          | fail e =>
            have hs : decodeStep d (t :: rest) = .fail e := by
              rw [decodeStep_section ht, ha]
            rw [decodeFrom_fail hs] at hf
            simp at hf
          | ok d1 =>
            have hs : decodeStep d (t :: rest) = .next d1 rest := by
              rw [decodeStep_section ht, ha]
            obtain ⟨-, -, hd⟩ := addSection_eq ha
            rw [decodeFrom_next hs] at hf
            have := ih d1 rest f hrest (decodeStep_WF hwf hs) hf
            have hk1 : d1.key = none := by rw [hd]; exact hk
            have hf1 : d1.file.skeleton =
                d.file.skeleton ++ [((t.lit.take (t.lit.length - 1)).drop 1, [])] := by
              rw [hd]; simp [File.skeleton]
            rw [nameState_idle hk1, hf1] at this
            simp only [namesInOrder, ht]
            exact this
        | STRING =>
          cases hs : decodeStep d (t :: rest) with
          | next d1 sc1 =>
            obtain ⟨a, p, hsc, ha, hk1, -, -, hat⟩ := decodeStep_openKey hwf hk ht hs
            have hsk : d1.file.skeleton = addKeyNames d.file.skeleton [TrimSpace t.lit] := by
              rcases decodeStep_skeleton hwf hs with ⟨h1, -⟩ | ⟨-, a2, -, -, h4⟩ | ⟨-, -, h3, -⟩
              · rw [ht] at h1; cases h1
              · exact h4
              · have := decodeStep_next_length hs
                rw [hsc] at h3
                have := congrArg List.length h3
                simp at this
            rw [decodeFrom_next hs] at hf
            have hlen1 : sc1.length ≤ n := by
              rw [hsc] at hrest
              simp at hrest
              omega
            have := ih d1 sc1 f hlen1 (decodeStep_WF hwf hs) hf
            rw [nameState_value hk1 hat, hsk] at this
            rw [hsc]
            simp only [namesInOrder, ht]
            exact this
          | done f1 =>
            rw [decodeStep_string ht] at hs
            cases hadd : d.addString t.pos t.lit rest with
            | fail e => simp [hadd] at hs
            | ok r => obtain ⟨r1, r2⟩ := r; simp [hadd] at hs
          | fail e =>
            rw [decodeFrom_fail hs] at hf
            simp at hf
        | NEWLINE =>
          have hs : decodeStep d (t :: rest) = .next d rest := by
            rw [decodeStep_newline ht, hk]
          rw [decodeFrom_next hs] at hf
          have := ih d rest f hrest hwf hf
          rw [hst] at this
          simp only [namesInOrder, ht]
          exact this
        | ASSIGN =>
          have hs : decodeStep d (t :: rest) = .next d rest := by
            rw [decodeStep_assign ht, hk]
          rw [decodeFrom_next hs] at hf
          have := ih d rest f hrest hwf hf
          rw [hst] at this
          simp only [namesInOrder, ht]
          exact this
      | some p =>
        obtain ⟨k, hat⟩ := WF_keyAt hwf hk
        have hst := nameState_value hk hat
        rw [hst]
        cases ht : t.tok with
        | ILLEGAL =>
          have hs := decodeStep_illegal ht d rest
          rw [decodeFrom_next hs] at hf
          have := ih d rest f hrest hwf hf
          rw [hst] at this
          simp only [namesInOrder, ht]
          exact this
        | EOF =>
          rw [decodeFrom_eof ht] at hf
          simp only [Option.some.injEq, Res.ok.injEq] at hf
          rw [← hf, skeleton_closeKey]
          simp only [namesInOrder, ht]
        | COMMENT =>
          cases ha : d.addComment t.lit with
          | none =>
            have hs : decodeStep d (t :: rest) = .fail .panic := by
              rw [decodeStep_comment ht, ha]
            rw [decodeFrom_fail hs] at hf
            simp at hf
          | some d1 =>
            have hs : decodeStep d (t :: rest) = .next d1 rest := by
              rw [decodeStep_comment ht, ha]
            obtain ⟨-, hd⟩ := addComment_eq ha
            rw [decodeFrom_next hs] at hf
            have := ih d1 rest f hrest (decodeStep_WF hwf hs) hf
            have hk1 : d1.key = some p := by rw [hd]; exact hk
            have hf1 : d1.file = d.file := by rw [hd]
            rw [nameState_value hk1 (by rw [hf1]; exact hat), hf1] at this
            simp only [namesInOrder, ht]
            exact this
        | SECTION =>
          cases ha : d.addSection t.pos t.lit with
          | fail e =>
            have hs : decodeStep d (t :: rest) = .fail e := by
              rw [decodeStep_section ht, ha]
            rw [decodeFrom_fail hs] at hf
            simp at hf
          | ok d1 =>
            have hs : decodeStep d (t :: rest) = .next d1 rest := by
              rw [decodeStep_section ht, ha]
            obtain ⟨-, -, hd⟩ := addSection_eq ha
            rw [decodeFrom_next hs] at hf
            have := ih d1 rest f hrest (decodeStep_WF hwf hs) hf
            have hk1 : d1.key = some p := by rw [hd]; exact hk
            have hat1 : d1.file.keyAt p = some k := by
              rw [hd]
              exact keyAt_append _ _ p k hat
            have hf1 : d1.file.skeleton =
                d.file.skeleton ++ [((t.lit.take (t.lit.length - 1)).drop 1, [])] := by
              rw [hd]; simp [File.skeleton]
            rw [nameState_value hk1 hat1, hf1] at this
            simp only [namesInOrder, ht]
            exact this
        | STRING =>
          cases hsect : d.sect with
          | none =>
            have hs : decodeStep d (t :: rest) = .fail (.error (.keyOutsideSection t.pos t.lit)) := by
              rw [decodeStep_string ht, addString_nosect hsect]
            rw [decodeFrom_fail hs] at hf
            simp at hf
          | some si =>
            have hs : decodeStep d (t :: rest) =
                .next { d with file := d.file.modifyKey p (fun k => { k with Value := k.Value ++ TrimSpace t.lit }) } rest := by
              rw [decodeStep_string ht, addString_active hsect hk]
            rw [decodeFrom_next hs] at hf
            have := ih _ rest f hrest (decodeStep_WF hwf hs) hf
            have hat1 : (d.file.modifyKey p (fun k => { k with Value := k.Value ++ TrimSpace t.lit })).keyAt p =
                some { k with Value := k.Value ++ TrimSpace t.lit } := by
              rw [keyAt_modifyKey, hat]; rfl
            have hsk := skeleton_modifyKey d.file p
              (fun k => { k with Value := k.Value ++ TrimSpace t.lit }) (fun _ => rfl)
            rw [nameState_value (d := { d with file := d.file.modifyKey p (fun k => { k with Value := k.Value ++ TrimSpace t.lit }) }) hk hat1] at this
            dsimp only at this
            rw [hsk] at this
            simp only [namesInOrder, ht]
            exact this
        | NEWLINE =>
          by_cases hsuf : HasSuffix k.Value ['\\'] = true
          · have hs : decodeStep d (t :: rest) = .next d rest := by
              rw [decodeStep_newline ht, hk]
              simp [hat, hsuf]
            rw [decodeFrom_next hs] at hf
            have := ih d rest f hrest hwf hf
            rw [hst] at this
            simp only [namesInOrder, ht, hsuf, if_true]
            exact this
          · have hs : decodeStep d (t :: rest) = .next d.closeKey rest := by
              rw [decodeStep_newline ht, hk]
              simp [hat, hsuf]
            rw [decodeFrom_next hs] at hf
            have := ih d.closeKey rest f hrest (WF_closeKey hwf) hf
            have hk1 : d.closeKey.key = none := by simp [decodeState.closeKey, hk]
            rw [nameState_idle hk1, skeleton_closeKey] at this
            simp only [namesInOrder, ht, hsuf]
            exact this
        | ASSIGN =>
          have hs : decodeStep d (t :: rest) =
              .next { d with file := d.file.modifyKey p (fun k => { k with Value := k.Value ++ ['='] }) } rest := by
            rw [decodeStep_assign ht, hk]
          rw [decodeFrom_next hs] at hf
          have := ih _ rest f hrest (decodeStep_WF hwf hs) hf
          have hat1 : (d.file.modifyKey p (fun k => { k with Value := k.Value ++ ['='] })).keyAt p =
              some { k with Value := k.Value ++ ['='] } := by
            rw [keyAt_modifyKey, hat]; rfl
          have hsk := skeleton_modifyKey d.file p
            (fun k => { k with Value := k.Value ++ ['='] }) (fun _ => rfl)
          rw [nameState_value (d := { d with file := d.file.modifyKey p (fun k => { k with Value := k.Value ++ ['='] }) }) hk hat1] at this
          dsimp only at this
          rw [hsk] at this
          simp only [namesInOrder, ht]
          exact this

/-- C6. Decode preserves order: when decoding succeeds, the section names of the file
are, in stream order, the literals of the `SECTION` tokens in front of `EOF` without their
brackets; the names of the sections and of the keys of each section are exactly those of
the reference reading `namesInOrder` of the stream, in which every `SECTION` token adds
one section at the end and every `STRING` token read as a key name adds one key at the
end of the last section, so that no key is dropped, merged or reordered and repeated
names stay separate keys; and each section corresponds to the segment of the stream at
its header, its key names being trimmed literals of `STRING` tokens of that segment, in
stream order. -/
theorem decode_preserves_order (ts : List Scanned) (f : File)
    (h : decode ts = some (.ok f)) :
    f.Sections.map (fun s => s.Name) =
      ((consumedTokens ts).filter (fun t => t.tok = Token.SECTION)).map
        (fun t => (t.lit.take (t.lit.length - 1)).drop 1) ∧
    f.skeleton = namesInOrder .idle [] ts ∧
    List.Forall₂ (fun (s : Section) (seg : Scanned × List Scanned) =>
        s.Name = (seg.1.lit.take (seg.1.lit.length - 1)).drop 1 ∧
        ∃ ns : List Scanned, ns.Sublist (seg.2.filter (fun t => t.tok = Token.STRING)) ∧
          s.Keys.map (fun k => k.Name) = ns.map (fun t => TrimSpace t.lit))
      f.Sections (sectionSegments (consumedTokens ts)) := by
  obtain ⟨names, news, -, hfor, hsk⟩ :=
    decodeFrom_skeleton ts.length decodeState.init ts f (le_refl _) init_WF h
  have hnews : news = f.skeleton := by
    rw [hsk]
    simp [decodeState.init, File.skeleton, addKeyNames]
  rw [hnews] at hfor
  have hfor2 : List.Forall₂ (fun (s : Section) (seg : Scanned × List Scanned) =>
        s.Name = (seg.1.lit.take (seg.1.lit.length - 1)).drop 1 ∧
        ∃ ns : List Scanned, ns.Sublist (seg.2.filter (fun t => t.tok = Token.STRING)) ∧
          s.Keys.map (fun k => k.Name) = ns.map (fun t => TrimSpace t.lit))
      f.Sections (sectionSegments (consumedTokens ts)) := by
    simp only [File.skeleton] at hfor
    exact List.forall₂_map_left_iff.mp hfor
  refine ⟨?_, ?_, hfor2⟩
  · rw [← sectionSegments_fst, List.map_map]
    generalize sectionSegments (consumedTokens ts) = segs at hfor2
    generalize f.Sections = secs at hfor2
    induction hfor2 with
    | nil => rfl
    | cons hab _ ih => simp [hab.1, ih]
  · exact decodeFrom_names ts.length decodeState.init ts f (le_refl _) init_WF h

/-- Witness for C6: two sections of the same name, a key name read twice, and a value
that reads like a key name: the names are those of the reference reading. -/
theorem decode_preserves_order_witness :
    decode [⟨⟨1, 1⟩, .SECTION, "[Route]".toList⟩, ⟨⟨1, 8⟩, .NEWLINE, "\n".toList⟩,
        ⟨⟨2, 1⟩, .STRING, "Gateway".toList⟩, ⟨⟨2, 8⟩, .ASSIGN, "=".toList⟩,
        ⟨⟨2, 9⟩, .STRING, "a".toList⟩, ⟨⟨2, 10⟩, .NEWLINE, "\n".toList⟩,
        ⟨⟨3, 1⟩, .STRING, "Gateway".toList⟩, ⟨⟨3, 8⟩, .ASSIGN, "=".toList⟩,
        ⟨⟨3, 9⟩, .STRING, "b".toList⟩, ⟨⟨3, 10⟩, .NEWLINE, "\n".toList⟩,
        ⟨⟨4, 1⟩, .SECTION, "[Route]".toList⟩, ⟨⟨4, 8⟩, .NEWLINE, "\n".toList⟩,
        ⟨⟨5, 1⟩, .STRING, "Metric".toList⟩, ⟨⟨5, 7⟩, .ASSIGN, "=".toList⟩,
        ⟨⟨5, 8⟩, .STRING, "Gateway".toList⟩, ⟨⟨5, 15⟩, .NEWLINE, "\n".toList⟩,
        ⟨⟨6, 1⟩, .EOF, []⟩]
      = some (.ok ⟨[⟨"Route".toList, [],
            [⟨"Gateway".toList, "a".toList, []⟩, ⟨"Gateway".toList, "b".toList, []⟩]⟩,
          ⟨"Route".toList, [], [⟨"Metric".toList, "Gateway".toList, []⟩]⟩]⟩) ∧
    namesInOrder .idle [] [⟨⟨1, 1⟩, .SECTION, "[Route]".toList⟩, ⟨⟨1, 8⟩, .NEWLINE, "\n".toList⟩,
        ⟨⟨2, 1⟩, .STRING, "Gateway".toList⟩, ⟨⟨2, 8⟩, .ASSIGN, "=".toList⟩,
        ⟨⟨2, 9⟩, .STRING, "a".toList⟩, ⟨⟨2, 10⟩, .NEWLINE, "\n".toList⟩,
        ⟨⟨3, 1⟩, .STRING, "Gateway".toList⟩, ⟨⟨3, 8⟩, .ASSIGN, "=".toList⟩,
        ⟨⟨3, 9⟩, .STRING, "b".toList⟩, ⟨⟨3, 10⟩, .NEWLINE, "\n".toList⟩,
        ⟨⟨4, 1⟩, .SECTION, "[Route]".toList⟩, ⟨⟨4, 8⟩, .NEWLINE, "\n".toList⟩,
        ⟨⟨5, 1⟩, .STRING, "Metric".toList⟩, ⟨⟨5, 7⟩, .ASSIGN, "=".toList⟩,
        ⟨⟨5, 8⟩, .STRING, "Gateway".toList⟩, ⟨⟨5, 15⟩, .NEWLINE, "\n".toList⟩,
        ⟨⟨6, 1⟩, .EOF, []⟩]
      = [("Route".toList, ["Gateway".toList, "Gateway".toList]),
          ("Route".toList, ["Metric".toList])] ∧
    (File.mk [⟨"Route".toList, [],
            [⟨"Gateway".toList, "a".toList, []⟩, ⟨"Gateway".toList, "b".toList, []⟩]⟩,
          ⟨"Route".toList, [], [⟨"Metric".toList, "Gateway".toList, []⟩]⟩]).skeleton =
      namesInOrder .idle [] [⟨⟨1, 1⟩, .SECTION, "[Route]".toList⟩, ⟨⟨1, 8⟩, .NEWLINE, "\n".toList⟩,
        ⟨⟨2, 1⟩, .STRING, "Gateway".toList⟩, ⟨⟨2, 8⟩, .ASSIGN, "=".toList⟩,
        ⟨⟨2, 9⟩, .STRING, "a".toList⟩, ⟨⟨2, 10⟩, .NEWLINE, "\n".toList⟩,
        ⟨⟨3, 1⟩, .STRING, "Gateway".toList⟩, ⟨⟨3, 8⟩, .ASSIGN, "=".toList⟩,
        ⟨⟨3, 9⟩, .STRING, "b".toList⟩, ⟨⟨3, 10⟩, .NEWLINE, "\n".toList⟩,
        ⟨⟨4, 1⟩, .SECTION, "[Route]".toList⟩, ⟨⟨4, 8⟩, .NEWLINE, "\n".toList⟩,
        ⟨⟨5, 1⟩, .STRING, "Metric".toList⟩, ⟨⟨5, 7⟩, .ASSIGN, "=".toList⟩,
        ⟨⟨5, 8⟩, .STRING, "Gateway".toList⟩, ⟨⟨5, 15⟩, .NEWLINE, "\n".toList⟩,
        ⟨⟨6, 1⟩, .EOF, []⟩] :=
  ⟨by decide, by decide,
    (decode_preserves_order _ ⟨[⟨"Route".toList, [],
            [⟨"Gateway".toList, "a".toList, []⟩, ⟨"Gateway".toList, "b".toList, []⟩]⟩,
          ⟨"Route".toList, [], [⟨"Metric".toList, "Gateway".toList, []⟩]⟩]⟩ (by decide)).2.1⟩

end Systemd
